import Mathlib

/-!
# Flow-field navigation core (`src/navigation/field.c`)

A shallow embedding of the integration-field builder, the flow-field builder,
the portal-edge fixup and the field identity encoding, followed by theorems
about them.

Modelling conventions.

* `FIELD_RES_R` and `FIELD_RES_C` are compile-time constants declared outside
  `field.c`; every definition takes them as the parameters `R` and `C`.
* The integration field holds C `float`s.  The only values the code ever
  stores are `INFINITY` and sums of `uint8_t` costs, which are small
  non-negative integers on which `float` arithmetic is exact; they are modelled
  by `Val` (a natural number or `inf`).
* A failing `assert` aborts the call; functions that contain a reachable
  `assert` return `Option`, with `none` for the abort.
* `while` loops take a `fuel` argument; `none` is returned when it runs out.
-/

namespace Nav

/-! ## Data model -/

/-- The C type `struct coord { int r, c; }`. -/
@[ext]
structure Coord where
  r : Int
  c : Int
deriving DecidableEq, Repr

/-- A `float` of the integration field: a finite non-negative integer, or `INFINITY`. -/
inductive Val where
  | fin : Nat → Val
  | inf : Val
deriving DecidableEq, Repr

/-- The C comparison `a < b` on floats. -/
def Val.lt : Val → Val → Bool
  | .fin a, .fin b => decide (a < b)
  | .fin _, .inf => true
  | .inf, _ => false

/-- The C expression `a + n` for a float `a` and a `uint8_t` cost `n`. -/
def Val.add : Val → Nat → Val
  | .fin a, n => .fin (a + n)
  | .inf, _ => .inf

/-- The macro `MIN(a, b)`, which is `((a) < (b) ? (a) : (b))`. -/
def MIN (a b : Val) : Val := if a.lt b then a else b

/-- Modelled from the spec: the constant `COST_IMPASSABLE` (declared outside `field.c`),
the maximum value of the `uint8_t` cost, which the spec names as 255. -/
def COST_IMPASSABLE : Nat := 255

/-- The part of `struct nav_chunk` that `field.c` reads: `cost_base[r][c]` and
`blockers[r][c]`. -/
structure nav_chunk where
  cost_base : Int → Int → Nat
  blockers : Int → Int → Nat

/-- A `float [FIELD_RES_R][FIELD_RES_C]` array, read as `f r c`. -/
abbrev IntegrationField := Int → Int → Val

/-- The assignment `f[r][c] = v`. -/
def setCell (f : IntegrationField) (r c : Int) (v : Val) : IntegrationField :=
  fun r2 c2 => if r2 = r ∧ c2 = c then v else f r2 c2

/-- The values of `enum flow_dir`. -/
inductive dir_idx where
  | FD_NONE | FD_NW | FD_N | FD_NE | FD_W | FD_E | FD_SW | FD_S | FD_SE
deriving DecidableEq, Repr

open dir_idx

/-- The C type `struct flow_field`: one `dir_idx` per cell and the chunk coordinate. -/
structure flow_field where
  field : Int → Int → dir_idx
  chunk : Coord

/-- The assignment `inout_flow->field[r][c].dir_idx = d`. -/
def setDir (ff : flow_field) (r c : Int) (d : dir_idx) : flow_field :=
  { field := fun r2 c2 => if r2 = r ∧ c2 = c then d else ff.field r2 c2, chunk := ff.chunk }

/-! ## Priority queue -/

/-- Modelled from the spec: the priority queue `pq_coord_t` generated by the macros of
`lib/public/pqueue.h` (not part of `field.c`): a collection of cells keyed by float
supporting push, pop-min, size and a membership test. -/
structure pq_coord where
  nodes : List (Val × Coord)

/-- Modelled from the spec: `pq_coord_init`, the empty queue. -/
def pq_coord_init : pq_coord := ⟨[]⟩

/-- Modelled from the spec: `pq_size`. -/
def pq_size (pq : pq_coord) : Nat := pq.nodes.length

/-- Modelled from the spec: `pq_coord_push`. -/
def pq_coord_push (pq : pq_coord) (prio : Val) (x : Coord) : pq_coord :=
  ⟨pq.nodes ++ [(prio, x)]⟩

/-- Modelled from the spec: `pq_coord_contains`, the membership test. -/
def pq_coord_contains (pq : pq_coord) (x : Coord) : Bool :=
  pq.nodes.any (fun e => decide (e.2 = x))

/-- Modelled from the spec: `pq_coord_pop`, which removes an entry of minimum key.
The spec leaves the order of equal keys open: `tie` selects which of the entries of
minimum key is removed. -/
def pq_coord_pop (tie : Nat) (pq : pq_coord) : Option (Coord × pq_coord) :=
  match pq.nodes with
  | [] => none
  | e :: rest =>
    let m := rest.foldl (fun m x => MIN m x.1) e.1
    let cands := (e :: rest).filter (fun x => decide (x.1 = m))
    let sel := cands.getD (tie % cands.length) e
    some (sel.2, ⟨(e :: rest).erase sel⟩)

/-! ## Neighbour enumeration -/

/-- The function `neighbours_grid`: the list of `(out_neighbours[i], out_costs[i])`
for `i < ret`, in the order in which the two nested loops write them. -/
def neighbours_grid (R C : Nat) (chunk : nav_chunk) (coord : Coord) (only_passable : Bool) :
    List (Coord × Nat) :=
  ([-1, 0, 1] : List Int).flatMap fun r =>
    ([-1, 0, 1] : List Int).flatMap fun c =>
      let abs_r := coord.r + r
      let abs_c := coord.c + c
      if abs_r < 0 ∨ abs_r ≥ R then []
      else if abs_c < 0 ∨ abs_c ≥ C then []
      else if r = 0 ∧ c = 0 then []
      else if only_passable = true
          ∧ (chunk.cost_base abs_r abs_c = COST_IMPASSABLE ∨ chunk.blockers abs_r abs_c > 0) then []
      else if r = c ∨ r = -c then []
      else [(⟨abs_r, abs_c⟩,
              if chunk.blockers abs_r abs_c ≠ 0 then COST_IMPASSABLE
              else chunk.cost_base abs_r abs_c)]

/-! ## Integration field -/

/-- The body of the `for` loop of `build_integration_field` for the neighbour `n`
of the popped cell `curr`; the state is the frontier and the field. -/
def relax (curr : Coord) (st : pq_coord × IntegrationField) (n : Coord × Nat) :
    pq_coord × IntegrationField :=
  let total_cost := (st.2 curr.r curr.c).add n.2
  if total_cost.lt (st.2 n.1.r n.1.c) then
    let inout := setCell st.2 n.1.r n.1.c total_cost
    if pq_coord_contains st.1 n.1 then (st.1, inout)
    else (pq_coord_push st.1 total_cost n.1, inout)
  else st

/-- The function `build_integration_field`.  `tie i` resolves the choice among equal
minimum keys at the `i`-th pop. -/
def build_integration_field (R C : Nat) :
    Nat → (Nat → Nat) → pq_coord → nav_chunk → IntegrationField → Option IntegrationField
  | 0, _, frontier, _, inout => if pq_size frontier > 0 then none else some inout
  | fuel + 1, tie, frontier, chunk, inout =>
    if pq_size frontier > 0 then
      match pq_coord_pop (tie 0) frontier with
      | none => none
      | some (curr, frontier2) =>
        let st := (neighbours_grid R C chunk curr true).foldl (relax curr) (frontier2, inout)
        build_integration_field R C fuel (fun i => tie (i + 1)) st.1 chunk st.2
    else some inout

/-! ## Flow field -/

/-- The first half of `flow_dir`: the value of `min_cost` when the assertion
`min_cost < INFINITY` is reached. -/
def flow_dir_min_cost (R C : Nat) (integration_field : IntegrationField) (coord : Coord) : Val :=
  let r := coord.r
  let c := coord.c
  let f := integration_field
  let m0 := Val.inf
  let m1 := if r > 0 then MIN m0 (f (r-1) c) else m0
  let m2 := if r < (R : Int) - 1 then MIN m1 (f (r+1) c) else m1
  let m3 := if c > 0 then MIN m2 (f r (c-1)) else m2
  let m4 := if c < (C : Int) - 1 then MIN m3 (f r (c+1)) else m3
  let m5 := if r > 0 ∧ c > 0 ∧ (f (r-1) c).lt Val.inf = true ∧ (f r (c-1)).lt Val.inf = true
    then MIN m4 (f (r-1) (c-1)) else m4
  let m6 := if r > 0 ∧ c < (C : Int) - 1 ∧ (f (r-1) c).lt Val.inf = true
      ∧ (f r (c+1)).lt Val.inf = true
    then MIN m5 (f (r-1) (c+1)) else m5
  let m7 := if r < (R : Int) - 1 ∧ c > 0 ∧ (f (r+1) c).lt Val.inf = true
      ∧ (f r (c-1)).lt Val.inf = true
    then MIN m6 (f (r+1) (c-1)) else m6
  if r < (R : Int) - 1 ∧ c < (C : Int) - 1 ∧ (f (r+1) c).lt Val.inf = true
      ∧ (f r (c+1)).lt Val.inf = true
    then MIN m7 (f (r+1) (c+1)) else m7

/-- The function `flow_dir`; `none` when one of its two assertions fails.  The last
test compares the column with `FIELD_RES_R - 1`, as the source does. -/
def flow_dir (R C : Nat) (integration_field : IntegrationField) (coord : Coord) :
    Option dir_idx :=
  let r := coord.r
  let c := coord.c
  let f := integration_field
  let min_cost := flow_dir_min_cost R C integration_field coord
  if min_cost.lt Val.inf = true then
    if r > 0 ∧ f (r-1) c = min_cost then some FD_N
    else if r < (R : Int) - 1 ∧ f (r+1) c = min_cost then some FD_S
    else if c < (C : Int) - 1 ∧ f r (c+1) = min_cost then some FD_E
    else if c > 0 ∧ f r (c-1) = min_cost then some FD_W
    else if r > 0 ∧ c > 0 ∧ f (r-1) (c-1) = min_cost then some FD_NW
    else if r > 0 ∧ c < (C : Int) - 1 ∧ f (r-1) (c+1) = min_cost then some FD_NE
    else if r < (R : Int) - 1 ∧ c > 0 ∧ f (r+1) (c-1) = min_cost then some FD_SW
    else if r < (R : Int) - 1 ∧ c < (R : Int) - 1 ∧ f (r+1) (c+1) = min_cost then some FD_SE
    else none
  else none

/-- The cells of the grid in the order of the loops
`for(r = 0; r < FIELD_RES_R; r++) for(c = 0; c < FIELD_RES_C; c++)`. -/
def cells (R C : Nat) : List Coord :=
  (List.range R).flatMap fun r => (List.range C).map fun c => Coord.mk (Int.ofNat r) (Int.ofNat c)

/-- The body of the loops of `build_flow_field` at the cell `x`. -/
def build_flow_cell (R C : Nat) (intf : IntegrationField) (ff : flow_field) (x : Coord) :
    Option flow_field :=
  if intf x.r x.c = Val.inf then some ff
  else if intf x.r x.c = Val.fin 0 then some (setDir ff x.r x.c FD_NONE)
  else
    match flow_dir R C intf x with
    | none => none
    | some d => some (setDir ff x.r x.c d)

/-- The function `build_flow_field`; `none` when an assertion of `flow_dir` fails. -/
def build_flow_field (R C : Nat) (intf : IntegrationField) (inout_flow : flow_field) :
    Option flow_field :=
  (cells R C).foldlM (build_flow_cell R C intf) inout_flow

/-! ## Portal-edge fixup -/

/-- The part of `struct portal` that `field.c` reads: the portal's own `chunk`,
`endpoints[0]`, `endpoints[1]` and `connected->chunk`. -/
structure portal where
  chunk : Coord
  endpoints_0 : Coord
  endpoints_1 : Coord
  connected_chunk : Coord

/-- The body of the loops of `fixup_portal_edges` at the cell `x`. -/
def fixup_portal_cell (intf : IntegrationField) (up down left right : Bool)
    (ff : flow_field) (x : Coord) : Option flow_field :=
  if intf x.r x.c = Val.fin 0 then
    if up = true then some (setDir ff x.r x.c FD_N)
    else if down = true then some (setDir ff x.r x.c FD_S)
    else if left = true then some (setDir ff x.r x.c FD_W)
    else if right = true then some (setDir ff x.r x.c FD_E)
    else none
  else some ff

/-- The function `fixup_portal_edges`; `none` when one of its assertions fails. -/
def fixup_portal_edges (R C : Nat) (intf : IntegrationField) (inout_flow : flow_field)
    (port : portal) : Option flow_field :=
  let up := decide (port.connected_chunk.r < port.chunk.r)
  let down := decide (port.connected_chunk.r > port.chunk.r)
  let left := decide (port.connected_chunk.c < port.chunk.c)
  let right := decide (port.connected_chunk.c > port.chunk.c)
  if Bool.xor (Bool.xor (Bool.xor up down) left) right = true then
    (cells R C).foldlM (fixup_portal_cell intf up down left right) inout_flow
  else none

/-! ## Target resolution -/

/-- The values of `enum diplomacy_state` as far as `field.c` distinguishes them:
`DIPLOMACY_STATE_WAR` and any other state. -/
inductive diplomacy_state where
  | DIPLOMACY_STATE_WAR
  | DIPLOMACY_STATE_OTHER
deriving DecidableEq, Repr

/-- What `field.c` reads of a `struct entity` returned by `G_Pos_EntsInRect`: its
`faction_id`, whether `flags & ENTITY_FLAG_COMBATABLE` is set, and the tile
`tile_for_pos(&bounds, G_Pos_GetXZ(uid))` of its position (world geometry in floats,
taken as given). -/
structure entity where
  faction_id : Int
  combatable : Bool
  tile : Coord

/-- The answers of the game hooks during one call: the entities returned by
`G_Pos_EntsInRect` for the chunk bounds, and `G_GetDiplomacyState a b`, which is
`none` when the hook reports failure. -/
structure game_hooks where
  ents : List entity
  G_GetDiplomacyState : Int → Int → Option diplomacy_state

/-- The function `enemy_ent`; `none` when `assert(result)` fails. -/
def enemy_ent (world : game_hooks) (faction_id : Int) (ent : entity) : Option Bool :=
  if ent.faction_id = faction_id then some false
  else if ent.combatable = false then some false
  else
    match world.G_GetDiplomacyState faction_id ent.faction_id with
    | none => none
    | some ds => some (decide (ds = diplomacy_state.DIPLOMACY_STATE_WAR))

/-- The tagged union `struct field_target`.  Of the enemies descriptor only
`faction_id` is kept; `map_pos` and `chunk` serve to compute the float bounds passed
to the entity query. -/
inductive field_target where
  | TARGET_PORTAL (port : portal)
  | TARGET_TILE (tile : Coord)
  | TARGET_ENEMIES (faction_id : Int)

/-- The integers `lo, lo+1, ..., hi` of a loop `for(i = lo; i <= hi; i++)`. -/
def loop_incl (lo hi : Int) : List Int :=
  (List.range (hi + 1 - lo).toNat).map fun i => lo + Int.ofNat i

/-- One seed: `pq_coord_push(&frontier, 0.0f, x); integration_field[x.r][x.c] = 0.0f;`. -/
def seed_cell (st : pq_coord × IntegrationField) (x : Coord) : pq_coord × IntegrationField :=
  (pq_coord_push st.1 (Val.fin 0) x, setCell st.2 x.r x.c (Val.fin 0))

/-- The first loop of the `TARGET_ENEMIES` case: the array `has_enemy` after the
entities were scanned; `none` when an assertion of `enemy_ent` fails. -/
def mark_enemies (world : game_hooks) (faction_id : Int) :
    List entity → (Int → Int → Bool) → Option (Int → Int → Bool)
  | [], has_enemy => some has_enemy
  | curr :: rest, has_enemy =>
    match enemy_ent world faction_id curr with
    | none => none
    | some false => mark_enemies world faction_id rest has_enemy
    | some true =>
      mark_enemies world faction_id rest
        (fun r c => if r = curr.tile.r ∧ c = curr.tile.c then true else has_enemy r c)

/-- The `switch(target.type)` of `N_FlowFieldUpdate`: the frontier and the
integration field before `build_integration_field` is called. -/
def seed_target (R C : Nat) (world : game_hooks) (target : field_target) :
    Option (pq_coord × IntegrationField) :=
  let init : pq_coord × IntegrationField := (pq_coord_init, fun _ _ => Val.inf)
  match target with
  | .TARGET_PORTAL port =>
    some ((loop_incl port.endpoints_0.r port.endpoints_1.r).foldl
      (fun st r => (loop_incl port.endpoints_0.c port.endpoints_1.c).foldl
        (fun st c => seed_cell st ⟨r, c⟩) st) init)
  | .TARGET_TILE tile => some (seed_cell init tile)
  | .TARGET_ENEMIES faction_id =>
    if world.ents.length = 0 then none
    else
      match mark_enemies world faction_id world.ents (fun _ _ => false) with
      | none => none
      | some has_enemy =>
        some ((cells R C).foldl
          (fun st x => if has_enemy x.r x.c = true then seed_cell st x else st) init)

/-- The function `N_FlowFieldInit`: every cell `FD_NONE`, and the chunk coordinate. -/
def N_FlowFieldInit (chunk_coord : Coord) : flow_field :=
  { field := fun _ _ => FD_NONE, chunk := chunk_coord }

/-- The function `N_FlowFieldUpdate`.  Besides the updated flow field the model
returns the local array `integration_field` as it stands at the end of the call. -/
def N_FlowFieldUpdate (R C : Nat) (fuel : Nat) (tie : Nat → Nat) (world : game_hooks)
    (chunk : nav_chunk) (target : field_target) (inout_flow : flow_field) :
    Option (IntegrationField × flow_field) :=
  match seed_target R C world target with
  | none => none
  | some (frontier, integration_field) =>
    if pq_size frontier > 0 then
      match build_integration_field R C fuel tie frontier chunk integration_field with
      | none => none
      | some intf =>
        match build_flow_field R C intf inout_flow with
        | none => none
        | some flow =>
          match target with
          | .TARGET_PORTAL port =>
            match fixup_portal_edges R C intf flow port with
            | none => none
            | some flow2 => some (intf, flow2)
          | _ => some (intf, flow)
    else none

/-! ## Field identity -/

/-- The numeric values of the enumerators `TARGET_PORTAL`, `TARGET_TILE` and
`TARGET_ENEMIES`, which are declared outside `field.c`. -/
structure target_tags where
  TARGET_PORTAL : Int
  TARGET_TILE : Int
  TARGET_ENEMIES : Int

/-- The value of `target.type`. -/
def field_target.type (tags : target_tags) : field_target → Int
  | .TARGET_PORTAL _ => tags.TARGET_PORTAL
  | .TARGET_TILE _ => tags.TARGET_TILE
  | .TARGET_ENEMIES _ => tags.TARGET_ENEMIES

/-- The cast `(uint64_t)x` of an `int`. -/
def u64 (x : Int) : Nat := (x % 18446744073709551616).toNat

/-- The shift `x << k` on `uint64_t`. -/
def shl64 (x k : Nat) : Nat := (x <<< k) % 18446744073709551616

/-- The function `N_FlowField_ID`.  The final `assert(0)` is not reachable: a
`field_target` has one of the three types. -/
def N_FlowField_ID (tags : target_tags) (chunk : Coord) (target : field_target) : Nat :=
  match target with
  | .TARGET_PORTAL port =>
    shl64 (u64 (target.type tags)) 56
      ||| shl64 (u64 port.endpoints_0.r) 40
      ||| shl64 (u64 port.endpoints_0.c) 32
      ||| shl64 (u64 port.endpoints_1.r) 24
      ||| shl64 (u64 port.endpoints_1.c) 16
      ||| shl64 (u64 chunk.r) 8
      ||| shl64 (u64 chunk.c) 0
  | .TARGET_TILE tile =>
    shl64 (u64 (target.type tags)) 56
      ||| shl64 (u64 tile.r) 24
      ||| shl64 (u64 tile.c) 16
      ||| shl64 (u64 chunk.r) 8
      ||| shl64 (u64 chunk.c) 0
  | .TARGET_ENEMIES faction_id =>
    shl64 (u64 (target.type tags)) 56
      ||| shl64 (u64 faction_id) 24
      ||| shl64 (u64 chunk.r) 8
      ||| shl64 (u64 chunk.c) 0

/-! ## Paths -/

/-- The cell `x` lies inside the grid. -/
def in_grid (R C : Nat) (x : Coord) : Prop := 0 ≤ x.r ∧ x.r < R ∧ 0 ≤ x.c ∧ x.c < C

instance (R C : Nat) (x : Coord) : Decidable (in_grid R C x) := by
  unfold in_grid; infer_instance

/-- The cell `x` is passable: `cost_base != COST_IMPASSABLE` and `blockers == 0`. -/
def passable (chunk : nav_chunk) (x : Coord) : Prop :=
  chunk.cost_base x.r x.c ≠ COST_IMPASSABLE ∧ chunk.blockers x.r x.c = 0

instance (chunk : nav_chunk) (x : Coord) : Decidable (passable chunk x) := by
  unfold passable; infer_instance

/-- The cell `y` is one cardinal step away from `x`. -/
def cardinal_step (x y : Coord) : Prop :=
  (y.r = x.r - 1 ∧ y.c = x.c) ∨ (y.r = x.r ∧ y.c = x.c - 1)
    ∨ (y.r = x.r ∧ y.c = x.c + 1) ∨ (y.r = x.r + 1 ∧ y.c = x.c)

instance (x y : Coord) : Decidable (cardinal_step x y) := by
  unfold cardinal_step; infer_instance

/-- A path of cardinal steps starting at `s` and entering the cells of `p` one after
the other, each of them inside the grid and passable. -/
def is_path (R C : Nat) (chunk : nav_chunk) : Coord → List Coord → Prop
  | _, [] => True
  | x, y :: rest =>
    cardinal_step x y ∧ in_grid R C y ∧ passable chunk y ∧ is_path R C chunk y rest

/-- The last cell of the path that starts at `s` and enters the cells of `p`. -/
def path_end : Coord → List Coord → Coord
  | s, [] => s
  | _, y :: rest => path_end y rest

/-- The sum of `cost_base` of the cells entered. -/
def path_cost (chunk : nav_chunk) (p : List Coord) : Nat :=
  (p.map fun y => chunk.cost_base y.r y.c).sum

/-- Some path from a seed to `x` has cost `w`. -/
def reach (R C : Nat) (chunk : nav_chunk) (seeds : List Coord) (x : Coord) (w : Nat) : Prop :=
  ∃ s ∈ seeds, ∃ p, is_path R C chunk s p ∧ path_end s p = x ∧ path_cost chunk p = w

/-- The cells of the chunk have `cost_base` in `[1, 255]`. -/
def valid_costs (R C : Nat) (chunk : nav_chunk) : Prop :=
  ∀ r c : Int, 0 ≤ r → r < R → 0 ≤ c → c < C →
    1 ≤ chunk.cost_base r c ∧ chunk.cost_base r c ≤ 255

/-! ## Directions -/

/-- The cell that `flow_dir` compares with `min_cost` before it returns the direction
`d`: `[r-1][c]` for `FD_N`, `[r+1][c]` for `FD_S`, `[r][c+1]` for `FD_E`, `[r][c-1]` for
`FD_W`, and the four diagonal cells accordingly. -/
def dir_neighbour (x : Coord) : dir_idx → Coord
  | FD_NONE => x
  | FD_N => ⟨x.r - 1, x.c⟩
  | FD_S => ⟨x.r + 1, x.c⟩
  | FD_E => ⟨x.r, x.c + 1⟩
  | FD_W => ⟨x.r, x.c - 1⟩
  | FD_NW => ⟨x.r - 1, x.c - 1⟩
  | FD_NE => ⟨x.r - 1, x.c + 1⟩
  | FD_SW => ⟨x.r + 1, x.c - 1⟩
  | FD_SE => ⟨x.r + 1, x.c + 1⟩

/-- The neighbour of `x` in direction `d` lies inside the grid and its integration
value is `min_cost`. -/
def attains_min_cost (R C : Nat) (f : IntegrationField) (x : Coord) (d : dir_idx) : Prop :=
  in_grid R C (dir_neighbour x d)
    ∧ f (dir_neighbour x d).r (dir_neighbour x d).c = flow_dir_min_cost R C f x

instance (R C : Nat) (f : IntegrationField) (x : Coord) (d : dir_idx) :
    Decidable (attains_min_cost R C f x d) := by
  unfold attains_min_cost; infer_instance

/-- The first of N, S, E, W, in that order, whose neighbour attains `min_cost`. -/
def first_cardinal (R C : Nat) (f : IntegrationField) (x : Coord) : Option dir_idx :=
  [FD_N, FD_S, FD_E, FD_W].find? fun d => decide (attains_min_cost R C f x d)

/-- The direction that `fixup_portal_edges` writes. -/
def portal_dir (port : portal) : dir_idx :=
  if port.connected_chunk.r < port.chunk.r then FD_N
  else if port.connected_chunk.r > port.chunk.r then FD_S
  else if port.connected_chunk.c < port.chunk.c then FD_W
  else FD_E

/-! ## Bytes of an identifier -/

/-- The value lies in `0..255`. -/
def in_byte (x : Int) : Prop := 0 ≤ x ∧ x ≤ 255

instance (x : Int) : Decidable (in_byte x) := by
  unfold in_byte; infer_instance

/-- Byte `k` of a 64-bit identifier, byte 0 being the least significant. -/
def id_byte (id k : Nat) : Nat := (id / 2 ^ (8 * k)) % 256

/-- The 64-bit value with the given bytes, `b7` the most significant. -/
def id_of_bytes (b7 b6 b5 b4 b3 b2 b1 b0 : Nat) : Nat :=
  b7 * 72057594037927936 + b6 * 281474976710656 + b5 * 1099511627776 + b4 * 4294967296
    + b3 * 16777216 + b2 * 65536 + b1 * 256 + b0

/-- The type tag and every field that `N_FlowField_ID` encodes lie in `0..255`. -/
def id_fields_in_byte (tags : target_tags) (chunk : Coord) : field_target → Prop
  | .TARGET_PORTAL port =>
    in_byte tags.TARGET_PORTAL ∧ in_byte port.endpoints_0.r ∧ in_byte port.endpoints_0.c
      ∧ in_byte port.endpoints_1.r ∧ in_byte port.endpoints_1.c
      ∧ in_byte chunk.r ∧ in_byte chunk.c
  | .TARGET_TILE tile =>
    in_byte tags.TARGET_TILE ∧ in_byte tile.r ∧ in_byte tile.c
      ∧ in_byte chunk.r ∧ in_byte chunk.c
  | .TARGET_ENEMIES faction_id =>
    in_byte tags.TARGET_ENEMIES ∧ in_byte faction_id ∧ in_byte chunk.r ∧ in_byte chunk.c

/-- Two requests have the same target type and agree on every field that the encoding of
that type uses, and on `chunk.r` and `chunk.c`. -/
def same_id_fields (chunk : Coord) (target : field_target) (chunk2 : Coord)
    (target2 : field_target) : Prop :=
  chunk.r = chunk2.r ∧ chunk.c = chunk2.c ∧
    match target, target2 with
    | .TARGET_PORTAL p, .TARGET_PORTAL q =>
      p.endpoints_0.r = q.endpoints_0.r ∧ p.endpoints_0.c = q.endpoints_0.c
        ∧ p.endpoints_1.r = q.endpoints_1.r ∧ p.endpoints_1.c = q.endpoints_1.c
    | .TARGET_TILE t, .TARGET_TILE u => t.r = u.r ∧ t.c = u.c
    | .TARGET_ENEMIES f, .TARGET_ENEMIES g => f = g
    | _, _ => False

/-- The three enumerators of the target type are pairwise different. -/
def distinct_tags (tags : target_tags) : Prop :=
  tags.TARGET_PORTAL ≠ tags.TARGET_TILE ∧ tags.TARGET_PORTAL ≠ tags.TARGET_ENEMIES
    ∧ tags.TARGET_TILE ≠ tags.TARGET_ENEMIES

instance (tags : target_tags) : Decidable (distinct_tags tags) := by
  unfold distinct_tags; infer_instance

/-- The byte layout that the specification gives for a portal identifier: the type tag
in byte 7, `endpoints[0].r`, `endpoints[0].c`, `endpoints[1].r`, `endpoints[1].c` in
bytes 6, 5, 4 and 3, and `chunk.r`, `chunk.c` in bytes 1 and 0. -/
def portal_layout_spec (tags : target_tags) (chunk : Coord) (port : portal) : Prop :=
  id_byte (N_FlowField_ID tags chunk (field_target.TARGET_PORTAL port)) 7
      = tags.TARGET_PORTAL.toNat
    ∧ id_byte (N_FlowField_ID tags chunk (field_target.TARGET_PORTAL port)) 6
      = port.endpoints_0.r.toNat
    ∧ id_byte (N_FlowField_ID tags chunk (field_target.TARGET_PORTAL port)) 5
      = port.endpoints_0.c.toNat
    ∧ id_byte (N_FlowField_ID tags chunk (field_target.TARGET_PORTAL port)) 4
      = port.endpoints_1.r.toNat
    ∧ id_byte (N_FlowField_ID tags chunk (field_target.TARGET_PORTAL port)) 3
      = port.endpoints_1.c.toNat
    ∧ id_byte (N_FlowField_ID tags chunk (field_target.TARGET_PORTAL port)) 1 = chunk.r.toNat
    ∧ id_byte (N_FlowField_ID tags chunk (field_target.TARGET_PORTAL port)) 0 = chunk.c.toNat

instance (tags : target_tags) (chunk : Coord) (port : portal) :
    Decidable (portal_layout_spec tags chunk port) := by
  unfold portal_layout_spec; infer_instance

/-! ## Seeds of a target -/

/-- The cells of the chunk have `cost_base >= 1`. -/
def positive_costs (R C : Nat) (chunk : nav_chunk) : Prop :=
  ∀ r c : Int, 0 ≤ r → r < R → 0 ≤ c → c < C → 1 ≤ chunk.cost_base r c

/-- The cells of the inclusive rectangle `endpoints[0]..endpoints[1]`, in the order of
the seeding loops of the `TARGET_PORTAL` case. -/
def portal_band (port : portal) : List Coord :=
  (loop_incl port.endpoints_0.r port.endpoints_1.r).flatMap fun r =>
    (loop_incl port.endpoints_0.c port.endpoints_1.c).map fun c => Coord.mk r c

/-- The seed cells of a target, in the order in which `N_FlowFieldUpdate` pushes them;
`none` when an assertion fails while the target is resolved. -/
def target_seeds (R C : Nat) (world : game_hooks) : field_target → Option (List Coord)
  | .TARGET_PORTAL port => some (portal_band port)
  | .TARGET_TILE tile => some [tile]
  | .TARGET_ENEMIES faction_id =>
    if world.ents.length = 0 then none
    else
      match mark_enemies world faction_id world.ents (fun _ _ => false) with
      | none => none
      | some has_enemy => some ((cells R C).filter fun x => has_enemy x.r x.c)

/-! ## Loop bodies as writes -/

/-- The effect of one loop body on the flow field: abort, leave it, or write `d` at `x`. -/
def apply_write (ff : flow_field) (x : Coord) : Option (Option dir_idx) → Option flow_field
  | none => none
  | some none => some ff
  | some (some d) => some (setDir ff x.r x.c d)

/-- What `build_flow_cell` does at `x`, as a function of the integration field only. -/
def flow_write (R C : Nat) (intf : IntegrationField) (x : Coord) : Option (Option dir_idx) :=
  if intf x.r x.c = Val.inf then some none
  else if intf x.r x.c = Val.fin 0 then some (some FD_NONE)
  else (flow_dir R C intf x).map some

/-- What `fixup_portal_cell` does at `x`, as a function of the integration field only. -/
def fixup_write (intf : IntegrationField) (up down left right : Bool) (x : Coord) :
    Option (Option dir_idx) :=
  if intf x.r x.c = Val.fin 0 then
    if up = true then some (some FD_N)
    else if down = true then some (some FD_S)
    else if left = true then some (some FD_W)
    else if right = true then some (some FD_E)
    else none
  else some none

/-- The chain of `min_cost = MIN(min_cost, v)` statements of `flow_dir`, each under its
guard, starting from `init`. -/
def min_chain (init : Val) : List (Bool × Val) → Val
  | [] => init
  | (g, v) :: rest => min_chain (if g = true then MIN init v else init) rest

/-- The eight guarded candidates of `flow_dir` at the cell `x`, in source order. -/
def flow_candidates (R C : Nat) (f : IntegrationField) (x : Coord) : List (Bool × Val) :=
  [ (decide (x.r > 0), f (x.r - 1) x.c),
    (decide (x.r < (R : Int) - 1), f (x.r + 1) x.c),
    (decide (x.c > 0), f x.r (x.c - 1)),
    (decide (x.c < (C : Int) - 1), f x.r (x.c + 1)),
    (decide (x.r > 0 ∧ x.c > 0 ∧ (f (x.r - 1) x.c).lt Val.inf = true
      ∧ (f x.r (x.c - 1)).lt Val.inf = true), f (x.r - 1) (x.c - 1)),
    (decide (x.r > 0 ∧ x.c < (C : Int) - 1 ∧ (f (x.r - 1) x.c).lt Val.inf = true
      ∧ (f x.r (x.c + 1)).lt Val.inf = true), f (x.r - 1) (x.c + 1)),
    (decide (x.r < (R : Int) - 1 ∧ x.c > 0 ∧ (f (x.r + 1) x.c).lt Val.inf = true
      ∧ (f x.r (x.c - 1)).lt Val.inf = true), f (x.r + 1) (x.c - 1)),
    (decide (x.r < (R : Int) - 1 ∧ x.c < (C : Int) - 1 ∧ (f (x.r + 1) x.c).lt Val.inf = true
      ∧ (f x.r (x.c + 1)).lt Val.inf = true), f (x.r + 1) (x.c + 1)) ]

/-! ## Invariants of the integration build -/

/-- No neighbour of `x` can be improved through `x`. -/
def closed_at (R C : Nat) (chunk : nav_chunk) (f : IntegrationField) (x : Coord) : Prop :=
  ∀ n ∈ neighbours_grid R C chunk x true, ((f x.r x.c).add n.2).lt (f n.1.r n.1.c) = false

/-- The invariant of the `while` loop of `build_integration_field`. -/
structure build_inv (R C : Nat) (chunk : nav_chunk) (seeds : List Coord)
    (frontier : pq_coord) (f : IntegrationField) : Prop where
  sound : ∀ r c v, f r c = Val.fin v → reach R C chunk seeds ⟨r, c⟩ v
  seed_zero : ∀ s ∈ seeds, f s.r s.c = Val.fin 0
  closed : ∀ x : Coord, pq_coord_contains frontier x = true ∨ closed_at R C chunk f x

/-- The invariant of the `for` loop over the neighbours of the popped cell `x`. -/
structure relax_inv (R C : Nat) (chunk : nav_chunk) (seeds : List Coord) (x : Coord)
    (st : pq_coord × IntegrationField) : Prop where
  sound : ∀ r c v, st.2 r c = Val.fin v → reach R C chunk seeds ⟨r, c⟩ v
  seed_zero : ∀ s ∈ seeds, st.2 s.r s.c = Val.fin 0
  closed : ∀ z : Coord, z ≠ x → pq_coord_contains st.1 z = true ∨ closed_at R C chunk st.2 z

/-! ## Termination measure of the integration build -/

/-- The sum of `g (f r c)` over the cells of the grid. -/
def grid_sum (R C : Nat) (g : Val → Nat) (f : IntegrationField) : Nat :=
  ∑ p in Finset.Ico (0 : Int) R ×ˢ Finset.Ico (0 : Int) C, g (f p.1 p.2)

/-- One for `INFINITY`, zero for a finite value. -/
def Val.is_inf : Val → Nat
  | .fin _ => 0
  | .inf => 1

/-- The finite value, zero for `INFINITY`. -/
def Val.toNat : Val → Nat
  | .fin v => v
  | .inf => 0

/-- The lexicographic measure of a state of the `while` loop: the number of cells at
`INFINITY`, then twice the sum of the finite values plus the size of the frontier. -/
def measure_inf (R C : Nat) (st : pq_coord × IntegrationField) : Nat :=
  grid_sum R C Val.is_inf st.2

/-- The second component of the lexicographic measure. -/
def measure_fin (R C : Nat) (st : pq_coord × IntegrationField) : Nat :=
  2 * grid_sum R C Val.toNat st.2 + st.1.nodes.length

/-! ## Concrete inputs -/

/-- A chunk with `cost_base == 1` and no blockers everywhere. -/
def flat_chunk : nav_chunk := ⟨fun _ _ => 1, fun _ _ => 0⟩

/-- A chunk with unit costs and no blockers whose cells (0,0) and (1,2) are impassable. -/
def two_walls_chunk : nav_chunk :=
  ⟨fun r c => if (r = 0 ∧ c = 0) ∨ (r = 1 ∧ c = 2) then COST_IMPASSABLE else 1, fun _ _ => 0⟩

/-- Game hooks that report no entity. -/
def no_ents : game_hooks := ⟨[], fun _ _ => none⟩

/-- The integration field before the build for the seed list `seeds`. -/
def seeded_field (seeds : List Coord) : IntegrationField :=
  fun r c => if (⟨r, c⟩ : Coord) ∈ seeds then Val.fin 0 else Val.inf

/-- The frontier before the build for the seed list `seeds`. -/
def seeded_frontier (seeds : List Coord) : pq_coord :=
  ⟨seeds.map fun s => (Val.fin 0, s)⟩

/-- A portal along the top edge, cells (0,2)..(0,5), whose connected chunk lies above. -/
def top_portal : portal :=
  { chunk := ⟨1, 0⟩, endpoints_0 := ⟨0, 2⟩, endpoints_1 := ⟨0, 5⟩, connected_chunk := ⟨0, 0⟩ }

/-- An integration field around the cell (1,1) of a 3x3 grid in which the north
neighbour and the north-west neighbour both hold the minimum 1. -/
def tie_field : IntegrationField :=
  fun r c => if r = 0 ∧ (c = 0 ∨ c = 1) then Val.fin 1
    else if r = 1 ∧ (c = 0 ∨ c = 1) then Val.fin 2 else Val.fin 3

/-- A flow field that holds `FD_S` in every cell, for the chunk (7,7). -/
def south_flow : flow_field := ⟨fun _ _ => FD_S, ⟨7, 7⟩⟩

/-- The enumerators numbered 0, 1, 2. -/
def tags_012 : target_tags := ⟨0, 1, 2⟩

/-- A portal with the endpoints (1,2) and (3,4). -/
def sample_portal : portal :=
  { chunk := ⟨5, 6⟩, endpoints_0 := ⟨1, 2⟩, endpoints_1 := ⟨3, 4⟩, connected_chunk := ⟨4, 6⟩ }

/-! ## Cardinal neighbours -/

/-- The four cardinal cells around `coord`, in the order in which the loops of
`neighbours_grid` reach them. -/
def cardinal_cells (coord : Coord) : List Coord :=
  [⟨coord.r - 1, coord.c⟩, ⟨coord.r, coord.c - 1⟩, ⟨coord.r, coord.c + 1⟩,
    ⟨coord.r + 1, coord.c⟩]

/-- The cost that `neighbours_grid` returns for the cell `y`. -/
def neighbour_cost (chunk : nav_chunk) (y : Coord) : Nat :=
  if chunk.blockers y.r y.c ≠ 0 then COST_IMPASSABLE else chunk.cost_base y.r y.c

/-- The cell `y` is kept by `neighbours_grid`: inside the grid and, when
`only_passable` is set, passable. -/
def neighbour_kept (R C : Nat) (chunk : nav_chunk) (only_passable : Bool) (y : Coord) : Prop :=
  in_grid R C y ∧ (only_passable = true → passable chunk y)

instance (R C : Nat) (chunk : nav_chunk) (only_passable : Bool) (y : Coord) :
    Decidable (neighbour_kept R C chunk only_passable y) := by
  unfold neighbour_kept; infer_instance

/-- The body of the two loops of `neighbours_grid` at the offsets `r`, `c`. -/
def neighbours_grid_at (R C : Nat) (chunk : nav_chunk) (coord : Coord) (only_passable : Bool)
    (r c : Int) : List (Coord × Nat) :=
  if coord.r + r < 0 ∨ coord.r + r ≥ R then []
  else if coord.c + c < 0 ∨ coord.c + c ≥ C then []
  else if r = 0 ∧ c = 0 then []
  else if only_passable = true
      ∧ (chunk.cost_base (coord.r + r) (coord.c + c) = COST_IMPASSABLE
        ∨ chunk.blockers (coord.r + r) (coord.c + c) > 0) then []
  else if r = c ∨ r = -c then []
  else [((⟨coord.r + r, coord.c + c⟩ : Coord),
          if chunk.blockers (coord.r + r) (coord.c + c) ≠ 0 then COST_IMPASSABLE
          else chunk.cost_base (coord.r + r) (coord.c + c))]

/-! ## Direction flags of a portal -/

/-- The four locals `up`, `down`, `left`, `right` of `fixup_portal_edges`, in this order. -/
def portal_flags (port : portal) : List Bool :=
  [decide (port.connected_chunk.r < port.chunk.r),
   decide (port.connected_chunk.r > port.chunk.r),
   decide (port.connected_chunk.c < port.chunk.c),
   decide (port.connected_chunk.c > port.chunk.c)]

/-- The connected chunk differs from the chunk of the portal in exactly one of row and
column. -/
def one_axis_differs (port : portal) : Prop :=
  (port.connected_chunk.r ≠ port.chunk.r ∧ port.connected_chunk.c = port.chunk.c)
  ∨ (port.connected_chunk.r = port.chunk.r ∧ port.connected_chunk.c ≠ port.chunk.c)

instance (port : portal) : Decidable (one_axis_differs port) := by
  unfold one_axis_differs; infer_instance

/-- A portal whose connected chunk is its own chunk. -/
def self_portal : portal :=
  { chunk := ⟨1, 0⟩, endpoints_0 := ⟨0, 2⟩, endpoints_1 := ⟨0, 5⟩, connected_chunk := ⟨1, 0⟩ }

/-- A portal whose connected chunk differs in row and in column. -/
def diag_portal : portal :=
  { chunk := ⟨1, 0⟩, endpoints_0 := ⟨0, 2⟩, endpoints_1 := ⟨0, 5⟩, connected_chunk := ⟨0, 1⟩ }

/-! ## Line-of-sight corners -/

/-- The function `is_LOS_corner`. -/
def is_LOS_corner (R C : Nat) (cell : Coord) (cost_field blockers_field : Int → Int → Nat) :
    Bool :=
  let rows : Bool :=
    if cell.r > 0 ∧ cell.r < (R : Int) - 1 then
      let left_blocked := decide (cost_field (cell.r - 1) cell.c = COST_IMPASSABLE)
        || decide (blockers_field (cell.r - 1) cell.c > 0)
      let right_blocked := decide (cost_field (cell.r + 1) cell.c = COST_IMPASSABLE)
        || decide (blockers_field (cell.r + 1) cell.c > 0)
      Bool.xor left_blocked right_blocked
    else false
  if rows = true then true
  else if cell.c > 0 ∧ cell.c < (C : Int) - 1 then
    let top_blocked := decide (cost_field cell.r (cell.c - 1) = COST_IMPASSABLE)
      || decide (blockers_field cell.r (cell.c - 1) > 0)
    let bot_blocked := decide (cost_field cell.r (cell.c + 1) = COST_IMPASSABLE)
      || decide (blockers_field cell.r (cell.c + 1) > 0)
    if Bool.xor top_blocked bot_blocked = true then true else false
  else false

/-- The cell `(r, c)` is impassable: cost `COST_IMPASSABLE` or a blocker on it. -/
def impassable_at (cost_field blockers_field : Int → Int → Nat) (r c : Int) : Prop :=
  cost_field r c = COST_IMPASSABLE ∨ blockers_field r c > 0

instance (cost_field blockers_field : Int → Int → Nat) (r c : Int) :
    Decidable (impassable_at cost_field blockers_field r c) := by
  unfold impassable_at; infer_instance

/-- Exactly one of the two propositions holds. -/
def exactly_one (p q : Prop) : Prop := (p ∧ ¬ q) ∨ (¬ p ∧ q)

instance (p q : Prop) [Decidable p] [Decidable q] : Decidable (exactly_one p q) := by
  unfold exactly_one; infer_instance

/-- Exactly one of the two neighbours of `cell` in the adjacent rows is impassable; false
when `cell` lies in the first or the last row. -/
def row_axis_corner (R : Nat) (cell : Coord) (cost_field blockers_field : Int → Int → Nat) :
    Prop :=
  (cell.r > 0 ∧ cell.r < (R : Int) - 1)
  ∧ exactly_one (impassable_at cost_field blockers_field (cell.r - 1) cell.c)
      (impassable_at cost_field blockers_field (cell.r + 1) cell.c)

/-- Exactly one of the two neighbours of `cell` in the adjacent columns is impassable;
false when `cell` lies in the first or the last column. -/
def col_axis_corner (C : Nat) (cell : Coord) (cost_field blockers_field : Int → Int → Nat) :
    Prop :=
  (cell.c > 0 ∧ cell.c < (C : Int) - 1)
  ∧ exactly_one (impassable_at cost_field blockers_field cell.r (cell.c - 1))
      (impassable_at cost_field blockers_field cell.r (cell.c + 1))

instance (R : Nat) (cell : Coord) (cost_field blockers_field : Int → Int → Nat) :
    Decidable (row_axis_corner R cell cost_field blockers_field) := by
  unfold row_axis_corner; infer_instance

instance (C : Nat) (cell : Coord) (cost_field blockers_field : Int → Int → Nat) :
    Decidable (col_axis_corner C cell cost_field blockers_field) := by
  unfold col_axis_corner; infer_instance

/-- The corner test in the words of the specification: one axis xor the other. -/
def LOS_corner_spec (R C : Nat) (cell : Coord) (cost_field blockers_field : Int → Int → Nat) :
    Prop :=
  exactly_one (row_axis_corner R cell cost_field blockers_field)
    (col_axis_corner C cell cost_field blockers_field)

instance (R C : Nat) (cell : Coord) (cost_field blockers_field : Int → Int → Nat) :
    Decidable (LOS_corner_spec R C cell cost_field blockers_field) := by
  unfold LOS_corner_spec; infer_instance

/-- A cost grid in which the cells (0,1) and (1,0) are impassable and all others cost 1. -/
def elbow_cost : Int → Int → Nat :=
  fun r c => if (r = 0 ∧ c = 1) ∨ (r = 1 ∧ c = 0) then COST_IMPASSABLE else 1

/-- A cost grid in which the cell (0,1) is impassable and all others cost 1. -/
def stub_cost : Int → Int → Nat :=
  fun r c => if r = 0 ∧ c = 1 then COST_IMPASSABLE else 1

/-- A blocker grid without blockers. -/
def no_blockers : Int → Int → Nat := fun _ _ => 0

/-! ## Flat chunks -/

/-- The distance `|a.r - b.r| + |a.c - b.c|`. -/
def manhattan (a b : Coord) : Nat := (a.r - b.r).natAbs + (a.c - b.c).natAbs

/-- Every cell of the grid has `cost_base == 1` and `blockers == 0`. -/
def unit_chunk (R C : Nat) (chunk : nav_chunk) : Prop :=
  ∀ r c : Int, 0 ≤ r → r < R → 0 ≤ c → c < C →
    chunk.cost_base r c = 1 ∧ chunk.blockers r c = 0

/-! ## A wall with a gap -/

/-- The 8x8 scenario chunk: unit costs and no blockers, except that every cell of row 4
other than (4,3) is impassable. -/
def gap_wall_chunk : nav_chunk :=
  ⟨fun r c => if r = 4 ∧ c ≠ 3 then COST_IMPASSABLE else 1, fun _ _ => 0⟩

/-- The cells entered on the way from (7,3) through the gap (4,3) to (0,0). -/
def gap_wall_route : List Coord :=
  [⟨6, 3⟩, ⟨5, 3⟩, ⟨4, 3⟩, ⟨3, 3⟩, ⟨2, 3⟩, ⟨1, 3⟩, ⟨0, 3⟩, ⟨0, 2⟩, ⟨0, 1⟩, ⟨0, 0⟩]

/-! ## Hostile entities -/

/-- The entity counts as an enemy of the requesting faction: its faction differs, it has
the combat-capable flag, and its diplomacy state with the requester is WAR. -/
def hostile (world : game_hooks) (faction_id : Int) (ent : entity) : Prop :=
  ent.faction_id ≠ faction_id ∧ ent.combatable = true
    ∧ world.G_GetDiplomacyState faction_id ent.faction_id
        = some diplomacy_state.DIPLOMACY_STATE_WAR

instance (world : game_hooks) (faction_id : Int) (ent : entity) :
    Decidable (hostile world faction_id ent) := by
  unfold hostile; infer_instance

/-- Three units of faction 0 at (1,1), (3,4), (7,0) and two units of faction 1 at (2,2)
and (5,6); every pair of distinct factions is at war. -/
def war_world : game_hooks :=
  ⟨[⟨0, true, ⟨1, 1⟩⟩, ⟨1, true, ⟨2, 2⟩⟩, ⟨0, true, ⟨3, 4⟩⟩, ⟨1, true, ⟨5, 6⟩⟩,
    ⟨0, true, ⟨7, 0⟩⟩],
   fun _ _ => some diplomacy_state.DIPLOMACY_STATE_WAR⟩

/-! ## Line-of-sight field -/

/-- One cell of `struct LOS_field`: the bits `visible` and `wavefront_blocked`. -/
structure los_cell where
  visible : Bool
  wavefront_blocked : Bool
deriving DecidableEq, Repr

/-- The C type `struct LOS_field`: one cell per tile and the chunk coordinate. -/
structure LOS_field where
  field : Int → Int → los_cell
  chunk : Coord

/-- The C type `struct tile_desc`. -/
structure tile_desc where
  chunk_r : Int
  chunk_c : Int
  tile_r : Int
  tile_c : Int
deriving DecidableEq, Repr

/-- The part of `struct nav_private` that `field.c` reads: the number of chunks per row
and the chunks, indexed by `r * width + c`. -/
structure nav_private where
  width : Int
  height : Int
  chunks : Int → nav_chunk

/-- What `create_wavefront_blocked_line` takes from the float geometry of the map
(`M_Tile_Bounds`, `PFM_Vec2_Sub`, `PFM_Vec2_Normal`, declared outside `field.c`): the
integers `(int)(slope.raw[0] * 1000)` and `(int)(slope.raw[1] * 1000)` and the outcome of
the tests `slope.raw[0] > 0.0f` and `slope.raw[1] < 0.0f`. -/
structure line_slope where
  raw0_1000 : Int
  raw1_1000 : Int
  raw0_pos : Bool
  raw1_neg : Bool
deriving DecidableEq, Repr

/-- The assignment `los->field[r][c] = cell`. -/
def setLosCell (los : LOS_field) (r c : Int) (cell : los_cell) : LOS_field :=
  { field := fun r2 c2 => if r2 = r ∧ c2 = c then cell else los.field r2 c2, chunk := los.chunk }

/-- The assignment `los->field[r][c].wavefront_blocked = 1`. -/
def setBlocked (los : LOS_field) (r c : Int) : LOS_field :=
  setLosCell los r c ⟨(los.field r c).visible, true⟩

/-- The assignment `los->field[r][c].visible = v`. -/
def setVisible (los : LOS_field) (r c : Int) (v : Bool) : LOS_field :=
  setLosCell los r c ⟨v, (los.field r c).wavefront_blocked⟩

/-- The function `neighbours_grid_LOS`, returning the neighbour cells with their costs
in the order in which the loops produce them. -/
def neighbours_grid_LOS (R C : Nat) (chunk : nav_chunk) (los : LOS_field) (coord : Coord) :
    List (Coord × Nat) :=
  ([-1, 0, 1] : List Int).flatMap fun r =>
    ([-1, 0, 1] : List Int).flatMap fun c =>
      let abs_r := coord.r + r
      let abs_c := coord.c + c
      if abs_r < 0 ∨ abs_r ≥ R then []
      else if abs_c < 0 ∨ abs_c ≥ C then []
      else if r = 0 ∧ c = 0 then []
      else if r = c ∨ r = -c then []
      else if (los.field abs_r abs_c).wavefront_blocked = true then []
      else [((⟨abs_r, abs_c⟩ : Coord),
              if chunk.blockers abs_r abs_c ≠ 0 then COST_IMPASSABLE
              else chunk.cost_base abs_r abs_c)]

/-- The `do ... while` loop of `create_wavefront_blocked_line`; `none` when the fuel
runs out before the walk leaves the grid. -/
def wavefront_line_loop (R C : Nat) (dx dy sx sy : Int) :
    Nat → Int → Coord → LOS_field → Option LOS_field
  | 0, _, _, _ => none
  | fuel + 1, err, curr, out_los =>
    let los1 := setBlocked out_los curr.r curr.c
    let e2 := 2 * err
    let err1 := if e2 ≥ dy then err + dy else err
    let c1 := if e2 ≥ dy then curr.c + sx else curr.c
    let err2 := if e2 ≤ dx then err1 + dx else err1
    let r1 := if e2 ≤ dx then curr.r + sy else curr.r
    if r1 ≥ 0 ∧ r1 < R ∧ c1 ≥ 0 ∧ c1 < C then
      wavefront_line_loop R C dx dy sx sy fuel err2 ⟨r1, c1⟩ los1
    else some los1

/-- The function `create_wavefront_blocked_line`.  `slope_of target corner` stands for
the float geometry; the loop is given `FIELD_RES_R + FIELD_RES_C` iterations, and the
result is `none` when they do not suffice. -/
def create_wavefront_blocked_line (R C : Nat) (slope_of : tile_desc → tile_desc → line_slope)
    (target corner : tile_desc) (out_los : LOS_field) : Option LOS_field :=
  let slope := slope_of target corner
  let dx : Int := slope.raw0_1000.natAbs
  let dy : Int := -(slope.raw1_1000.natAbs : Int)
  let sx : Int := if slope.raw0_pos = true then 1 else -1
  let sy : Int := if slope.raw1_neg = true then 1 else -1
  wavefront_line_loop R C dx dy sx sy (R + C) (dx + dy) ⟨corner.tile_r, corner.tile_c⟩ out_los

/-- The body of the two inner loops of `pad_wavefront` at the cell `(rr, cc)`. -/
def pad_clear (R C : Nat) (los : LOS_field) (p : Int × Int) : LOS_field :=
  if p.1 < 0 ∨ p.1 > (R : Int) - 1 then los
  else if p.2 < 0 ∨ p.2 > (C : Int) - 1 then los
  else setVisible los p.1 p.2 false

/-- The body of the two outer loops of `pad_wavefront` at the cell `x`. -/
def pad_cell (R C : Nat) (los : LOS_field) (x : Coord) : LOS_field :=
  if (los.field x.r x.c).wavefront_blocked = true then
    (([x.r - 1, x.r, x.r + 1] : List Int).flatMap fun rr =>
      ([x.c - 1, x.c, x.c + 1] : List Int).map fun cc => (rr, cc)).foldl (pad_clear R C) los
  else los

/-- The function `pad_wavefront`. -/
def pad_wavefront (R C : Nat) (out_los : LOS_field) : LOS_field :=
  (cells R C).foldl (pad_cell R C) out_los

/-- The state of the loops of `N_LOSFieldCreate`: the frontier and the local array
`integration_field`, and the output field. -/
abbrev LOS_state := (pq_coord × IntegrationField) × LOS_field

/-- The body of the `for` loop of `N_LOSFieldCreate` for the neighbour `n` of the popped
cell `curr`; `none` when a shadow line does not return. -/
def LOS_visit (R C : Nat) (slope_of : tile_desc → tile_desc → line_slope) (chunk : nav_chunk)
    (chunk_coord : Coord) (target : tile_desc) (curr : Coord) (st : LOS_state)
    (n : Coord × Nat) : Option LOS_state :=
  if n.2 > 1 then
    if is_LOS_corner R C n.1 chunk.cost_base chunk.blockers = false then some st
    else
      match create_wavefront_blocked_line R C slope_of target
          ⟨chunk_coord.r, chunk_coord.c, n.1.r, n.1.c⟩ st.2 with
      | none => none
      | some los => some (st.1, los)
  else
    let new_cost := (st.1.2 curr.r curr.c).add 1
    let los := setVisible st.2 n.1.r n.1.c true
    if new_cost.lt (st.1.2 n.1.r n.1.c) then
      let intf := setCell st.1.2 n.1.r n.1.c new_cost
      if pq_coord_contains st.1.1 n.1 then some ((st.1.1, intf), los)
      else some ((pq_coord_push st.1.1 new_cost n.1, intf), los)
    else some (st.1, los)

/-- The `while` loop of `N_LOSFieldCreate`; `tie i` resolves the choice among equal
minimum keys at the `i`-th pop. -/
def LOS_while (R C : Nat) (slope_of : tile_desc → tile_desc → line_slope) (chunk : nav_chunk)
    (chunk_coord : Coord) (target : tile_desc) :
    Nat → (Nat → Nat) → LOS_state → Option LOS_state
  | 0, _, st => if pq_size st.1.1 > 0 then none else some st
  | fuel + 1, tie, st =>
    if pq_size st.1.1 > 0 then
      match pq_coord_pop (tie 0) st.1.1 with
      | none => none
      | some (curr, frontier2) =>
        match (neighbours_grid_LOS R C chunk st.2 curr).foldlM
            (LOS_visit R C slope_of chunk chunk_coord target curr) ((frontier2, st.1.2), st.2) with
        | none => none
        | some st2 => LOS_while R C slope_of chunk chunk_coord target fuel (fun i => tie (i + 1)) st2
    else some st

/-- The body of the four edge loops of Case 2 of `N_LOSFieldCreate`: the cell `src` of
`prev_los` is copied into the cell `dst`. -/
def LOS_edge_cell (R C : Nat) (slope_of : tile_desc → tile_desc → line_slope)
    (chunk_coord : Coord) (target : tile_desc) (prev_los : LOS_field) (dst src : Coord)
    (st : LOS_state) : Option LOS_state :=
  let los1 := setLosCell st.2 dst.r dst.c (prev_los.field src.r src.c)
  match (if (los1.field dst.r dst.c).wavefront_blocked = true then
      create_wavefront_blocked_line R C slope_of target
        ⟨chunk_coord.r, chunk_coord.c, dst.r, dst.c⟩ los1
    else some los1) with
  | none => none
  | some los2 =>
    if (los2.field dst.r dst.c).visible = true then
      some ((pq_coord_push st.1.1 (Val.fin 0) dst, setCell st.1.2 dst.r dst.c (Val.fin 0)), los2)
    else some (st.1, los2)

/-- The pairs `(dst, src)` of the edge loop that `N_LOSFieldCreate` runs for the chunk
`chunk_coord` and the previous chunk `prev_chunk`, in loop order; `none` when no branch
applies and `assert(0)` is reached. -/
def LOS_edge_pairs (R C : Nat) (chunk_coord prev_chunk : Coord) : Option (List (Coord × Coord)) :=
  if prev_chunk.r < chunk_coord.r then
    some ((List.range C).map fun c => (⟨0, Int.ofNat c⟩, ⟨(R : Int) - 1, Int.ofNat c⟩))
  else if prev_chunk.r > chunk_coord.r then
    some ((List.range C).map fun c => (⟨(R : Int) - 1, Int.ofNat c⟩, ⟨0, Int.ofNat c⟩))
  else if prev_chunk.c < chunk_coord.c then
    some ((List.range R).map fun r => (⟨Int.ofNat r, 0⟩, ⟨Int.ofNat r, (C : Int) - 1⟩))
  else if prev_chunk.c > chunk_coord.c then
    some ((List.range R).map fun r => (⟨Int.ofNat r, (C : Int) - 1⟩, ⟨Int.ofNat r, 0⟩))
  else none

/-- The two cases of `N_LOSFieldCreate` before the `while` loop: the frontier, the
integration field and the output field when the loop is entered; `none` when an
assertion fails. -/
def LOS_seed (R C : Nat) (slope_of : tile_desc → tile_desc → line_slope) (chunk_coord : Coord)
    (target : tile_desc) (prev_los : Option LOS_field) : Option LOS_state :=
  let out_los : LOS_field := ⟨fun _ _ => ⟨false, false⟩, chunk_coord⟩
  let init : pq_coord × IntegrationField := (pq_coord_init, fun _ _ => Val.inf)
  if chunk_coord.r = target.chunk_r ∧ chunk_coord.c = target.chunk_c then
    match prev_los with
    | none =>
      some ((pq_coord_push init.1 (Val.fin 0) ⟨target.tile_r, target.tile_c⟩,
        setCell init.2 target.tile_r target.tile_c (Val.fin 0)), out_los)
    | some _ => none
  else
    match prev_los with
    | none => none
    | some prev =>
      match LOS_edge_pairs R C chunk_coord prev.chunk with
      | none => none
      | some pairs =>
        pairs.foldlM (fun st p => LOS_edge_cell R C slope_of chunk_coord target prev p.1 p.2 st)
          (init, out_los)

/-- The function `N_LOSFieldCreate`.  Besides the output field the model returns the
local array `integration_field` as it stands at the end of the call. -/
def N_LOSFieldCreate (R C : Nat) (fuel : Nat) (tie : Nat → Nat)
    (slope_of : tile_desc → tile_desc → line_slope) (chunk_coord : Coord) (target : tile_desc)
    (priv : nav_private) (prev_los : Option LOS_field) :
    Option (IntegrationField × LOS_field) :=
  let chunk := priv.chunks (chunk_coord.r * priv.width + chunk_coord.c)
  match LOS_seed R C slope_of chunk_coord target prev_los with
  | none => none
  | some st =>
    match LOS_while R C slope_of chunk chunk_coord target fuel tie st with
    | none => none
    | some st2 => some (st2.1.2, pad_wavefront R C st2.2)

/-! ## Line-of-sight neighbours -/

/-- The body of the two loops of `neighbours_grid_LOS` at the offsets `r`, `c`. -/
def neighbours_grid_LOS_at (R C : Nat) (chunk : nav_chunk) (los : LOS_field) (coord : Coord)
    (r c : Int) : List (Coord × Nat) :=
  if coord.r + r < 0 ∨ coord.r + r ≥ R then []
  else if coord.c + c < 0 ∨ coord.c + c ≥ C then []
  else if r = 0 ∧ c = 0 then []
  else if r = c ∨ r = -c then []
  else if (los.field (coord.r + r) (coord.c + c)).wavefront_blocked = true then []
  else [((⟨coord.r + r, coord.c + c⟩ : Coord),
          if chunk.blockers (coord.r + r) (coord.c + c) ≠ 0 then COST_IMPASSABLE
          else chunk.cost_base (coord.r + r) (coord.c + c))]

/-- The cell `y` is kept by `neighbours_grid_LOS`: inside the grid and not
`wavefront_blocked`. -/
def LOS_neighbour_kept (R C : Nat) (los : LOS_field) (y : Coord) : Prop :=
  in_grid R C y ∧ (los.field y.r y.c).wavefront_blocked = false

instance (R C : Nat) (los : LOS_field) (y : Coord) : Decidable (LOS_neighbour_kept R C los y) := by
  unfold LOS_neighbour_kept; infer_instance

/-! ## Seeds of a line-of-sight field -/

/-- The seed cells of `N_LOSFieldCreate`, in the order in which they are pushed: the
target tile in the destination chunk, and otherwise the cells of the copied edge whose
cell of `prev_los` is visible. -/
def LOS_seeds (R C : Nat) (chunk_coord : Coord) (target : tile_desc)
    (prev_los : Option LOS_field) : List Coord :=
  if chunk_coord.r = target.chunk_r ∧ chunk_coord.c = target.chunk_c then
    [⟨target.tile_r, target.tile_c⟩]
  else
    match prev_los with
    | none => []
    | some prev =>
      match LOS_edge_pairs R C chunk_coord prev.chunk with
      | none => []
      | some pairs =>
        (pairs.filter fun p => (prev.field p.2.r p.2.c).visible).map Prod.fst

/-- The call passes the assertions on `prev_los`: none in the destination chunk, and
otherwise one whose chunk differs from `chunk_coord` in its row or in its column. -/
def LOS_call_ok (chunk_coord : Coord) (target : tile_desc) (prev_los : Option LOS_field) :
    Prop :=
  if chunk_coord.r = target.chunk_r ∧ chunk_coord.c = target.chunk_c then prev_los = none
  else ∃ prev, prev_los = some prev
    ∧ (prev.chunk.r ≠ chunk_coord.r ∨ prev.chunk.c ≠ chunk_coord.c)

/-! ## Concrete line-of-sight inputs -/

/-- The cost grid of an 8x8 chunk with the impassable cells (1,2), (2,3), (3,4), (4,5),
a staircase, and (1,5), (2,5), (3,6), (4,7); every other cell costs 1. -/
def stair_cost : Int → Int → Nat := fun r c =>
  if (⟨r, c⟩ : Coord) ∈ ([⟨1, 2⟩, ⟨1, 5⟩, ⟨2, 3⟩, ⟨2, 5⟩, ⟨3, 4⟩, ⟨3, 6⟩, ⟨4, 5⟩, ⟨4, 7⟩] :
      List Coord)
  then COST_IMPASSABLE else 1

/-- A map of one chunk with the costs `stair_cost` and no blockers. -/
def stair_priv : nav_private := ⟨1, 1, fun _ => ⟨stair_cost, fun _ _ => 0⟩⟩

/-- The slope of a corner that lies straight above the target, in the same column: the
normalised difference of the tile centres is `(0, 1)`, so that
`(int)(slope.raw[0] * 1000) == 0`, `(int)(slope.raw[1] * 1000) == 1000`, and both tests
`slope.raw[0] > 0` and `slope.raw[1] < 0` fail. -/
def vertical_slope : tile_desc → tile_desc → line_slope := fun _ _ => ⟨0, 1000, false, false⟩

/-- The slope of a corner that lies straight west of the target, in the same row: the
normalised difference of the tile centres is `(-1, 0)`. -/
def horizontal_slope : tile_desc → tile_desc → line_slope :=
  fun _ _ => ⟨-1000, 0, false, false⟩

/-- A map of flat chunks, two per row. -/
def flat_priv : nav_private := ⟨2, 1, fun _ => flat_chunk⟩

/-- A line-of-sight field of the chunk (0,1) whose cell (1,0) is blocked and whose other
cells are visible. -/
def prev_east : LOS_field :=
  ⟨fun r c => if r = 1 ∧ c = 0 then ⟨false, true⟩ else ⟨true, false⟩, ⟨0, 1⟩⟩

/-! ## Paths of the line-of-sight wavefront -/

/-- A path of cardinal steps starting at `s` and entering the cells of `p` one after the
other, each of them inside the grid with a neighbour cost of at most 1, that is with
`cost_base <= 1` and `blockers == 0`. -/
def is_LOS_path (R C : Nat) (chunk : nav_chunk) : Coord → List Coord → Prop
  | _, [] => True
  | x, y :: rest =>
    cardinal_step x y ∧ in_grid R C y ∧ neighbour_cost chunk y ≤ 1 ∧ is_LOS_path R C chunk y rest

/-- Some such path from a seed to `x` has `v` steps. -/
def LOS_reach (R C : Nat) (chunk : nav_chunk) (seeds : List Coord) (x : Coord) (v : Nat) : Prop :=
  ∃ s ∈ seeds, ∃ p, is_LOS_path R C chunk s p ∧ path_end s p = x ∧ p.length = v

/-- A walk of cardinal steps starting at `s` through the cells of `p`, all inside the
grid. -/
def is_grid_walk (R C : Nat) : Coord → List Coord → Prop
  | _, [] => True
  | x, y :: rest => cardinal_step x y ∧ in_grid R C y ∧ is_grid_walk R C y rest

/-- The property of the specification at the cell `x`: some 4-connected path joins a
seed to `x` on which every intermediate cell has `cost_base <= 1` and no cell is
`wavefront_blocked` in `los`. -/
def LOS_conservative_at (R C : Nat) (chunk : nav_chunk) (los : LOS_field) (seeds : List Coord)
    (x : Coord) : Prop :=
  ∃ s ∈ seeds, ∃ p : List Coord, is_grid_walk R C s p ∧ path_end s p = x
    ∧ (∀ y ∈ p.dropLast, chunk.cost_base y.r y.c ≤ 1)
    ∧ (∀ y ∈ s :: p, (los.field y.r y.c).wavefront_blocked = false)

/-- The invariant of the `while` loop of `N_LOSFieldCreate`. -/
structure LOS_inv (R C : Nat) (chunk : nav_chunk) (seeds : List Coord) (st : LOS_state) :
    Prop where
  fin_reach : ∀ r c v, st.1.2 r c = Val.fin v → LOS_reach R C chunk seeds ⟨r, c⟩ v
  vis_fin : ∀ r c, (st.2.field r c).visible = true → ∃ v, st.1.2 r c = Val.fin v
  vis_grid : ∀ r c, (st.2.field r c).visible = true → in_grid R C ⟨r, c⟩
  front_fin : ∀ x : Coord, pq_coord_contains st.1.1 x = true → ∃ v, st.1.2 x.r x.c = Val.fin v

/-- No path of the kind the specification asks for enters the set `P` from outside:
wherever a cell `a` outside `P` touches a cell `b` of `P`, one of the two is blocked, or
`a` has `cost_base > 1` and is no seed. -/
def pocket_closed (R C : Nat) (chunk : nav_chunk) (los : LOS_field) (seeds P : List Coord) :
    Prop :=
  ∀ b ∈ P, ∀ a ∈ cardinal_cells b, a ∉ P → in_grid R C a →
    ((los.field a.r a.c).wavefront_blocked = true ∨ (los.field b.r b.c).wavefront_blocked = true
      ∨ (chunk.cost_base a.r a.c > 1 ∧ a ∉ seeds))

instance (R C : Nat) (chunk : nav_chunk) (los : LOS_field) (seeds P : List Coord) :
    Decidable (pocket_closed R C chunk los seeds P) := by
  unfold pocket_closed; infer_instance

/-- The cells east of column 5 and north of the cells (3,6) and (4,7) of `stair_cost`. -/
def stair_pocket : List Coord :=
  [⟨0, 6⟩, ⟨1, 6⟩, ⟨2, 6⟩, ⟨0, 7⟩, ⟨1, 7⟩, ⟨2, 7⟩, ⟨3, 7⟩]

/-! ## A frontier with a stale entry -/

/-- A frontier and a field of the flat grid with one row and two columns in which the
cell (0,1) heads the frontier with the key 0 while its integration value is 5, and the
cell (0,0) follows with the key 1 and the value 0. -/
def stale_frontier : pq_coord := ⟨[(Val.fin 0, ⟨0, 1⟩), (Val.fin 1, ⟨0, 0⟩)]⟩

/-- The field that goes with `stale_frontier`. -/
def stale_field : IntegrationField :=
  fun r c => if r = 0 ∧ c = 0 then Val.fin 0 else if r = 0 ∧ c = 1 then Val.fin 5 else Val.inf

/-! ## An empty line-of-sight field -/

/-- The field after `memset(out_los->field, 0x00, ...)` for the chunk (0,0). -/
def zero_los : LOS_field := ⟨fun _ _ => ⟨false, false⟩, ⟨0, 0⟩⟩

/-! ## Following the flow -/

/-- The cells entered when the directions chosen by `flow_dir` are followed from `x`
until a cell of integration 0 is reached. -/
def flow_chain (R C : Nat) (f : IntegrationField) : Coord → List Coord → Prop
  | x, [] => f x.r x.c = Val.fin 0
  | x, y :: rest =>
    f x.r x.c ≠ Val.fin 0 ∧ (∃ d, flow_dir R C f x = some d ∧ y = dir_neighbour x d)
      ∧ flow_chain R C f y rest

/-! ## States of the line-of-sight loop -/

/-- The states in which the `while` loop of `N_LOSFieldCreate` tests its condition: the
state left by the code before the loop, and the state left by a pass of the loop body,
which pops a cell and visits its neighbours. -/
inductive LOS_loop_state (R C : Nat) (slope_of : tile_desc → tile_desc → line_slope)
    (chunk : nav_chunk) (chunk_coord : Coord) (target : tile_desc)
    (prev_los : Option LOS_field) : LOS_state → Prop
  | entry (st : LOS_state) :
      LOS_seed R C slope_of chunk_coord target prev_los = some st →
      LOS_loop_state R C slope_of chunk chunk_coord target prev_los st
  | pass (st st2 : LOS_state) (k : Nat) (x : Coord) (frontier2 : pq_coord) :
      LOS_loop_state R C slope_of chunk chunk_coord target prev_los st →
      pq_coord_pop k st.1.1 = some (x, frontier2) →
      (neighbours_grid_LOS R C chunk st.2 x).foldlM
        (LOS_visit R C slope_of chunk chunk_coord target x) ((frontier2, st.1.2), st.2)
        = some st2 →
      LOS_loop_state R C slope_of chunk chunk_coord target prev_los st2

/-- The invariant of the `while` loop of `N_LOSFieldCreate` in the destination chunk with
the target tile `t`: a visible cell lies inside the grid, has a neighbour cost of at most
1 and a cardinal neighbour of finite integration; a cell of the frontier lies inside the
grid, has a finite integration value, and is `t` or has a neighbour cost of at most 1. -/
structure LOS_occluder_inv (R C : Nat) (chunk : nav_chunk) (t : Coord) (st : LOS_state) :
    Prop where
  vis : ∀ x : Coord, (st.2.field x.r x.c).visible = true →
    in_grid R C x ∧ neighbour_cost chunk x ≤ 1
      ∧ ∃ y, cardinal_step x y ∧ in_grid R C y ∧ ∃ v, st.1.2 y.r y.c = Val.fin v
  front : ∀ x : Coord, pq_coord_contains st.1.1 x = true →
    in_grid R C x ∧ (∃ v, st.1.2 x.r x.c = Val.fin v) ∧ (x = t ∨ neighbour_cost chunk x ≤ 1)

/-! ## Theorems -/

/-! ### Lemmas on `Val` -/

theorem Val.lt_irrefl (a : Val) : a.lt a = false := by
  cases a <;> simp [Val.lt]

theorem Val.not_lt_trans {a b c : Val} (h1 : b.lt a = false) (h2 : c.lt b = false) :
    c.lt a = false := by
  cases a <;> cases b <;> cases c <;> simp_all [Val.lt] <;> omega

theorem Val.add_not_lt_add {a b : Val} (k : Nat) (h : b.lt a = false) :
    (b.add k).lt (a.add k) = false := by
  cases a <;> cases b <;> simp_all [Val.lt, Val.add]

/-! ### Lemmas on the priority queue -/

theorem pq_coord_contains_iff (pq : pq_coord) (x : Coord) :
    pq_coord_contains pq x = true ↔ ∃ e ∈ pq.nodes, e.2 = x := by
  simp [pq_coord_contains]

theorem getD_eq_or_mem {α : Type} (l : List α) (i : Nat) (d : α) :
    l.getD i d = d ∨ l.getD i d ∈ l := by
  rw [List.getD_eq_getElem?_getD]
  cases hg : l[i]? with
  | none => left; rfl
  | some v => right; exact List.getElem?_mem hg

theorem pq_coord_pop_spec {tie : Nat} {pq : pq_coord} {x : Coord} {pq2 : pq_coord}
    (h : pq_coord_pop tie pq = some (x, pq2)) :
    ∃ e ∈ pq.nodes, e.2 = x ∧ pq2.nodes = pq.nodes.erase e := by
  unfold pq_coord_pop at h
  split at h
  · simp at h
  · rename_i e rest heq
    simp only [Option.some.injEq, Prod.mk.injEq] at h
    obtain ⟨h1, h2⟩ := h
    refine ⟨_, ?_, h1, ?_⟩
    · rw [heq]
      rcases getD_eq_or_mem
        (List.filter (fun x => decide (x.1 = List.foldl (fun m x => MIN m x.1) e.1 rest))
          (e :: rest))
        (tie % (List.filter (fun x => decide (x.1 = List.foldl (fun m x => MIN m x.1) e.1 rest))
          (e :: rest)).length) e with hsel | hsel
      · rw [hsel]; exact List.mem_cons_self _ _
      · exact List.mem_of_mem_filter hsel
    · rw [← h2, heq]

theorem pq_coord_pop_isSome (tie : Nat) {pq : pq_coord} (h : pq_size pq > 0) :
    ∃ x pq2, pq_coord_pop tie pq = some (x, pq2) := by
  unfold pq_coord_pop
  cases hn : pq.nodes with
  | nil => simp [pq_size, hn] at h
  | cons e rest => exact ⟨_, _, rfl⟩

/-! ### Neighbour enumeration -/

theorem mem_neighbours_grid (R C : Nat) (chunk : nav_chunk) (x : Coord) (n : Coord × Nat) :
    n ∈ neighbours_grid R C chunk x true ↔
      cardinal_step x n.1 ∧ in_grid R C n.1 ∧ passable chunk n.1
        ∧ n.2 = chunk.cost_base n.1.r n.1.c := by
  obtain ⟨⟨nr, nc⟩, k⟩ := n
  constructor
  · intro h
    simp only [neighbours_grid, List.mem_flatMap] at h
    obtain ⟨r, hr, c, hc, h⟩ := h
    simp only [List.mem_cons, List.mem_singleton, List.not_mem_nil, or_false] at hr hc
    split_ifs at h with h1 h2 h3 h4 h5 h6
    all_goals
      simp only [List.not_mem_nil, List.mem_singleton, Prod.mk.injEq, Coord.mk.injEq] at h
    · exfalso
      simp only [gt_iff_lt, true_and, not_or, not_lt, Nat.le_zero] at h4
      exact h6 h4.2
    · obtain ⟨⟨e1, e2⟩, e3⟩ := h
      simp only [gt_iff_lt, true_and, not_or, not_lt, Nat.le_zero] at h4
      subst e1 e2 e3
      have hrc : (r = -1 ∧ c = 0) ∨ (r = 0 ∧ c = -1) ∨ (r = 0 ∧ c = 1) ∨ (r = 1 ∧ c = 0) := by
        rcases hr with rfl | rfl | rfl <;> rcases hc with rfl | rfl | rfl <;> simp at h3 h5 ⊢
      refine ⟨?_, ?_, ⟨h4.1, h4.2⟩, rfl⟩
      · simp only [cardinal_step]
        rcases hrc with ⟨rfl, rfl⟩ | ⟨rfl, rfl⟩ | ⟨rfl, rfl⟩ | ⟨rfl, rfl⟩ <;> simp <;> rfl
      · simp only [in_grid]
        clear hr hc h3 h5 hrc h4
        omega
  · rintro ⟨hstep, hin, hpass, hk⟩
    simp only [cardinal_step, in_grid, passable] at hstep hin hpass hk
    simp only [neighbours_grid, List.mem_flatMap]
    refine ⟨nr - x.r, ?_, nc - x.c, ?_, ?_⟩
    · simp only [List.mem_cons, List.mem_singleton, List.not_mem_nil, or_false]; omega
    · simp only [List.mem_cons, List.mem_singleton, List.not_mem_nil, or_false]; omega
    · have e1 : x.r + (nr - x.r) = nr := by omega
      have e2 : x.c + (nc - x.c) = nc := by omega
      simp only [e1, e2]
      rw [if_neg (by omega), if_neg (by omega), if_neg (by omega), if_neg (by simp [hpass]),
        if_neg (by omega), if_neg (by simp [hpass])]
      simp [hk]

/-! ### Paths -/

theorem path_end_append_singleton (s : Coord) (p : List Coord) (y : Coord) :
    path_end s (p ++ [y]) = y := by
  induction p generalizing s with
  | nil => rfl
  | cons z rest ih => exact ih z

theorem path_cost_append_singleton (chunk : nav_chunk) (p : List Coord) (y : Coord) :
    path_cost chunk (p ++ [y]) = path_cost chunk p + chunk.cost_base y.r y.c := by
  simp [path_cost]

theorem is_path_append_singleton (R C : Nat) (chunk : nav_chunk) (y : Coord) :
    ∀ (p : List Coord) (s : Coord), is_path R C chunk s p → cardinal_step (path_end s p) y →
      in_grid R C y → passable chunk y → is_path R C chunk s (p ++ [y]) := by
  intro p
  induction p with
  | nil =>
    intro s _ hstep hin hpass
    exact ⟨hstep, hin, hpass, trivial⟩
  | cons z rest ih =>
    intro s hp hstep hin hpass
    obtain ⟨h1, h2, h3, h4⟩ := hp
    exact ⟨h1, h2, h3, ih z h4 hstep hin hpass⟩

theorem reach_seed {R C : Nat} {chunk : nav_chunk} {seeds : List Coord} {s : Coord}
    (hs : s ∈ seeds) : reach R C chunk seeds s 0 :=
  ⟨s, hs, [], trivial, rfl, rfl⟩

theorem reach_step {R C : Nat} {chunk : nav_chunk} {seeds : List Coord} {x : Coord} {v : Nat}
    {n : Coord × Nat} (hx : reach R C chunk seeds x v)
    (hn : n ∈ neighbours_grid R C chunk x true) : reach R C chunk seeds n.1 (v + n.2) := by
  obtain ⟨s, hs, p, hp, hend, hcost⟩ := hx
  obtain ⟨hstep, hin, hpass, hk⟩ := (mem_neighbours_grid R C chunk x n).1 hn
  refine ⟨s, hs, p ++ [n.1], ?_, path_end_append_singleton s p n.1, ?_⟩
  · exact is_path_append_singleton R C chunk n.1 p s hp (by rw [hend]; exact hstep) hin hpass
  · rw [path_cost_append_singleton, hcost, hk]

/-! ### The relaxation loop -/

theorem setCell_same (f : IntegrationField) (r c : Int) (v : Val) : setCell f r c v r c = v := by
  simp [setCell]

theorem setCell_other (f : IntegrationField) (r c r2 c2 : Int) (v : Val)
    (h : ¬ (r2 = r ∧ c2 = c)) : setCell f r c v r2 c2 = f r2 c2 := by
  simp [setCell, h]

theorem relax_of_not_lt (curr : Coord) (st : pq_coord × IntegrationField) (n : Coord × Nat)
    (h : ((st.2 curr.r curr.c).add n.2).lt (st.2 n.1.r n.1.c) = false) :
    relax curr st n = st := by
  simp [relax, h]

theorem relax_of_lt_of_contains (curr : Coord) (st : pq_coord × IntegrationField)
    (n : Coord × Nat) (h : ((st.2 curr.r curr.c).add n.2).lt (st.2 n.1.r n.1.c) = true)
    (hc : pq_coord_contains st.1 n.1 = true) :
    relax curr st n = (st.1, setCell st.2 n.1.r n.1.c ((st.2 curr.r curr.c).add n.2)) := by
  simp [relax, h, hc]

theorem relax_of_lt_of_not_contains (curr : Coord) (st : pq_coord × IntegrationField)
    (n : Coord × Nat) (h : ((st.2 curr.r curr.c).add n.2).lt (st.2 n.1.r n.1.c) = true)
    (hc : pq_coord_contains st.1 n.1 = false) :
    relax curr st n = (pq_coord_push st.1 ((st.2 curr.r curr.c).add n.2) n.1,
      setCell st.2 n.1.r n.1.c ((st.2 curr.r curr.c).add n.2)) := by
  simp [relax, h, hc]

theorem pq_coord_contains_push (pq : pq_coord) (prio : Val) (x z : Coord) :
    pq_coord_contains (pq_coord_push pq prio x) z = (pq_coord_contains pq z || decide (x = z)) := by
  simp [pq_coord_contains, pq_coord_push]

theorem relax_field (curr : Coord) (st : pq_coord × IntegrationField) (n : Coord × Nat) :
    (relax curr st n).2 = st.2
      ∨ (((st.2 curr.r curr.c).add n.2).lt (st.2 n.1.r n.1.c) = true
          ∧ (relax curr st n).2 = setCell st.2 n.1.r n.1.c ((st.2 curr.r curr.c).add n.2)
          ∧ pq_coord_contains (relax curr st n).1 n.1 = true) := by
  cases h : ((st.2 curr.r curr.c).add n.2).lt (st.2 n.1.r n.1.c) with
  | false => left; rw [relax_of_not_lt curr st n h]
  | true =>
    right
    refine ⟨rfl, ?_⟩
    cases hc : pq_coord_contains st.1 n.1 with
    | true => rw [relax_of_lt_of_contains curr st n h hc]; exact ⟨rfl, hc⟩
    | false =>
      rw [relax_of_lt_of_not_contains curr st n h hc]
      refine ⟨rfl, ?_⟩
      rw [pq_coord_contains_push]; simp

theorem relax_contains_mono (curr : Coord) (st : pq_coord × IntegrationField) (n : Coord × Nat)
    (z : Coord) (hz : pq_coord_contains st.1 z = true) :
    pq_coord_contains (relax curr st n).1 z = true := by
  cases h : ((st.2 curr.r curr.c).add n.2).lt (st.2 n.1.r n.1.c) with
  | false => rw [relax_of_not_lt curr st n h]; exact hz
  | true =>
    cases hc : pq_coord_contains st.1 n.1 with
    | true => rw [relax_of_lt_of_contains curr st n h hc]; exact hz
    | false =>
      rw [relax_of_lt_of_not_contains curr st n h hc, pq_coord_contains_push]
      simp [hz]

/-- Every value of the field only decreases in `relax`. -/
theorem relax_le (curr : Coord) (st : pq_coord × IntegrationField) (n : Coord × Nat)
    (r c : Int) : (st.2 r c).lt ((relax curr st n).2 r c) = false := by
  rcases relax_field curr st n with h | ⟨hlt, h, _⟩
  · rw [h]; exact Val.lt_irrefl _
  · rw [h]
    by_cases hrc : r = n.1.r ∧ c = n.1.c
    · obtain ⟨h1, h2⟩ := hrc
      subst h1 h2
      rw [setCell_same]
      cases h1 : (st.2 curr.r curr.c).add n.2 <;> cases h2 : st.2 n.1.r n.1.c <;>
        simp_all [Val.lt] <;> omega
    · rw [setCell_other _ _ _ _ _ _ hrc]; exact Val.lt_irrefl _

theorem relax_establish (curr : Coord) (st : pq_coord × IntegrationField) (n : Coord × Nat) :
    ((st.2 curr.r curr.c).add n.2).lt ((relax curr st n).2 n.1.r n.1.c) = false := by
  cases h : ((st.2 curr.r curr.c).add n.2).lt (st.2 n.1.r n.1.c) with
  | false => rw [relax_of_not_lt curr st n h]; exact h
  | true =>
    cases hc : pq_coord_contains st.1 n.1 with
    | true =>
      rw [relax_of_lt_of_contains curr st n h hc]
      show Val.lt _ (setCell _ _ _ _ _ _) = false
      rw [setCell_same]; exact Val.lt_irrefl _
    | false =>
      rw [relax_of_lt_of_not_contains curr st n h hc]
      show Val.lt _ (setCell _ _ _ _ _ _) = false
      rw [setCell_same]; exact Val.lt_irrefl _

theorem relax_curr (curr : Coord) (st : pq_coord × IntegrationField) (n : Coord × Nat)
    (hn : n.1 ≠ curr) : (relax curr st n).2 curr.r curr.c = st.2 curr.r curr.c := by
  rcases relax_field curr st n with heq | ⟨_, heq, _⟩
  · rw [heq]
  · rw [heq, setCell_other]
    intro h
    exact hn (Coord.ext h.1.symm h.2.symm)

theorem neighbour_ne (R C : Nat) (chunk : nav_chunk) (x : Coord) (n : Coord × Nat)
    (hn : n ∈ neighbours_grid R C chunk x true) : n.1 ≠ x := by
  obtain ⟨hstep, -, -, -⟩ := (mem_neighbours_grid R C chunk x n).1 hn
  intro h
  rw [h] at hstep
  simp only [cardinal_step] at hstep
  omega

theorem relax_preserves {R C : Nat} {chunk : nav_chunk} {seeds : List Coord} {x : Coord}
    {st : pq_coord × IntegrationField} {n : Coord × Nat}
    (hn : n ∈ neighbours_grid R C chunk x true) (h : relax_inv R C chunk seeds x st) :
    relax_inv R C chunk seeds x (relax x st n) := by
  rcases relax_field x st n with heq | ⟨hlt, heq, hc⟩
  · refine ⟨?_, ?_, ?_⟩
    · rw [heq]; exact h.sound
    · rw [heq]; exact h.seed_zero
    · intro z hz
      rcases h.closed z hz with h1 | h1
      · left; exact relax_contains_mono x st n z h1
      · right; rw [heq]; exact h1
  · have hfin : ∃ v, st.2 x.r x.c = Val.fin v := by
      cases hx : st.2 x.r x.c with
      | fin v => exact ⟨v, rfl⟩
      | inf => rw [hx] at hlt; simp [Val.add, Val.lt] at hlt
    obtain ⟨v, hv⟩ := hfin
    refine ⟨?_, ?_, ?_⟩
    · intro r c w hw
      rw [heq] at hw
      by_cases hrc : r = n.1.r ∧ c = n.1.c
      · obtain ⟨h1, h2⟩ := hrc
        subst h1 h2
        rw [setCell_same, hv] at hw
        simp only [Val.add, Val.fin.injEq] at hw
        rw [← hw]
        exact reach_step (h.sound x.r x.c v hv) hn
      · rw [setCell_other _ _ _ _ _ _ hrc] at hw
        exact h.sound r c w hw
    · intro s hs
      rw [heq]
      by_cases hrc : s.r = n.1.r ∧ s.c = n.1.c
      · exfalso
        have h0 := h.seed_zero s hs
        rw [hrc.1, hrc.2] at h0
        rw [h0, hv] at hlt
        simp [Val.add, Val.lt] at hlt
      · rw [setCell_other _ _ _ _ _ _ hrc]
        exact h.seed_zero s hs
    · intro z hz
      by_cases hzn : z = n.1
      · left; rw [hzn]; exact hc
      · rcases h.closed z hz with h1 | h1
        · left; exact relax_contains_mono x st n z h1
        · right
          intro m hm
          have hz2 : (relax x st n).2 z.r z.c = st.2 z.r z.c := by
            rw [heq, setCell_other]
            intro hh
            exact hzn (Coord.ext hh.1 hh.2)
          rw [hz2]
          exact Val.not_lt_trans (relax_le x st n m.1.r m.1.c) (h1 m hm)

theorem foldl_relax_preserves {R C : Nat} {chunk : nav_chunk} {seeds : List Coord} {x : Coord}
    (l : List (Coord × Nat)) (hl : ∀ n ∈ l, n ∈ neighbours_grid R C chunk x true) :
    ∀ st, relax_inv R C chunk seeds x st → relax_inv R C chunk seeds x (l.foldl (relax x) st) := by
  induction l with
  | nil => intro st h; exact h
  | cons n rest ih =>
    intro st h
    exact ih (fun m hm => hl m (List.mem_cons_of_mem _ hm)) _
      (relax_preserves (hl n (List.mem_cons_self _ _)) h)

theorem foldl_relax_closed (x : Coord) (l : List (Coord × Nat)) (hl : ∀ n ∈ l, n.1 ≠ x) :
    ∀ st : pq_coord × IntegrationField,
      (l.foldl (relax x) st).2 x.r x.c = st.2 x.r x.c
      ∧ (∀ r c, (st.2 r c).lt ((l.foldl (relax x) st).2 r c) = false)
      ∧ ∀ n ∈ l, (((l.foldl (relax x) st).2 x.r x.c).add n.2).lt
          ((l.foldl (relax x) st).2 n.1.r n.1.c) = false := by
  induction l with
  | nil =>
    intro st
    exact ⟨rfl, fun r c => Val.lt_irrefl _, fun n hn => absurd hn (List.not_mem_nil n)⟩
  | cons n rest ih =>
    intro st
    obtain ⟨h1, h2, h3⟩ := ih (fun m hm => hl m (List.mem_cons_of_mem _ hm)) (relax x st n)
    have hx : (relax x st n).2 x.r x.c = st.2 x.r x.c :=
      relax_curr x st n (hl n (List.mem_cons_self _ _))
    refine ⟨?_, ?_, ?_⟩
    · rw [List.foldl_cons, h1, hx]
    · intro r c
      rw [List.foldl_cons]
      exact Val.not_lt_trans (h2 r c) (relax_le x st n r c)
    · intro m hm
      rw [List.foldl_cons]
      rcases List.mem_cons.1 hm with hmn | hmr
      · subst hmn
        rw [h1, hx]
        exact Val.not_lt_trans (h2 _ _) (relax_establish x st m)
      · exact h3 m hmr

theorem pop_relax_inv {R C : Nat} {chunk : nav_chunk} {seeds : List Coord}
    {frontier frontier2 : pq_coord} {f : IntegrationField} {tie : Nat} {x : Coord}
    (h : build_inv R C chunk seeds frontier f)
    (hpop : pq_coord_pop tie frontier = some (x, frontier2)) :
    build_inv R C chunk seeds
      ((neighbours_grid R C chunk x true).foldl (relax x) (frontier2, f)).1
      ((neighbours_grid R C chunk x true).foldl (relax x) (frontier2, f)).2 := by
  obtain ⟨e, he, hex, hnodes⟩ := pq_coord_pop_spec hpop
  have h0 : relax_inv R C chunk seeds x (frontier2, f) := by
    refine ⟨h.sound, h.seed_zero, ?_⟩
    intro z hz
    rcases h.closed z with h1 | h1
    · left
      obtain ⟨e2, he2, hez⟩ := (pq_coord_contains_iff frontier z).1 h1
      refine (pq_coord_contains_iff frontier2 z).2 ⟨e2, ?_, hez⟩
      rw [hnodes]
      refine (List.mem_erase_of_ne ?_).2 he2
      intro hee
      rw [hee, hex] at hez
      exact hz hez.symm
    · right; exact h1
  have h1 := foldl_relax_preserves (neighbours_grid R C chunk x true) (fun n hn => hn) _ h0
  obtain ⟨-, -, h4⟩ := foldl_relax_closed x (neighbours_grid R C chunk x true)
    (fun n hn => neighbour_ne R C chunk x n hn) (frontier2, f)
  refine ⟨h1.sound, h1.seed_zero, ?_⟩
  intro z
  by_cases hz : z = x
  · right; rw [hz]; exact h4
  · exact h1.closed z hz

/-! ### Partial correctness of `build_integration_field` -/

theorem build_integration_field_inv {R C : Nat} {chunk : nav_chunk} {seeds : List Coord} :
    ∀ (fuel : Nat) (tie : Nat → Nat) (frontier : pq_coord) (f out : IntegrationField),
      build_inv R C chunk seeds frontier f →
      build_integration_field R C fuel tie frontier chunk f = some out →
      build_inv R C chunk seeds pq_coord_init out := by
  intro fuel
  induction fuel with
  | zero =>
    intro tie frontier f out hinv hrun
    simp only [build_integration_field] at hrun
    split_ifs at hrun with hsz
    simp only [Option.some.injEq] at hrun
    subst hrun
    have hnil : frontier.nodes = [] := by
      simp only [pq_size, gt_iff_lt, List.length_pos, ne_eq, not_not] at hsz
      exact hsz
    refine ⟨hinv.sound, hinv.seed_zero, ?_⟩
    intro x
    rcases hinv.closed x with h1 | h1
    · simp [pq_coord_contains, hnil] at h1
    · right; exact h1
  | succ fuel ih =>
    intro tie frontier f out hinv hrun
    simp only [build_integration_field] at hrun
    split_ifs at hrun with hsz
    · cases hpop : pq_coord_pop (tie 0) frontier with
      | none => rw [hpop] at hrun; simp at hrun
      | some res =>
        obtain ⟨x, frontier2⟩ := res
        rw [hpop] at hrun
        exact ih _ _ _ out (pop_relax_inv hinv hpop) hrun
    · simp only [Option.some.injEq] at hrun
      subst hrun
      have hnil : frontier.nodes = [] := by
        simp only [pq_size, gt_iff_lt, List.length_pos, ne_eq, not_not] at hsz
        exact hsz
      refine ⟨hinv.sound, hinv.seed_zero, ?_⟩
      intro x
      rcases hinv.closed x with h1 | h1
      · simp [pq_coord_contains, hnil] at h1
      · right; exact h1

theorem closed_at_of_empty {R C : Nat} {chunk : nav_chunk} {seeds : List Coord}
    {f : IntegrationField} (h : build_inv R C chunk seeds pq_coord_init f) (x : Coord) :
    closed_at R C chunk f x := by
  rcases h.closed x with h1 | h1
  · simp [pq_coord_contains, pq_coord_init] at h1
  · exact h1

/-- In a field that is closed everywhere the value at the end of a path is at most the
value at its start plus the cost of the path. -/
theorem closed_path_bound {R C : Nat} {chunk : nav_chunk} {f : IntegrationField}
    (hclosed : ∀ x, closed_at R C chunk f x) :
    ∀ (p : List Coord) (s : Coord) (a : Nat), (Val.fin a).lt (f s.r s.c) = false →
      is_path R C chunk s p →
      (Val.fin (a + path_cost chunk p)).lt (f (path_end s p).r (path_end s p).c) = false := by
  intro p
  induction p with
  | nil =>
    intro s a ha _
    simpa [path_cost, path_end] using ha
  | cons y rest ih =>
    intro s a ha hp
    obtain ⟨hstep, hin, hpass, hrest⟩ := hp
    have hmem : (y, chunk.cost_base y.r y.c) ∈ neighbours_grid R C chunk s true :=
      (mem_neighbours_grid R C chunk s (y, chunk.cost_base y.r y.c)).2 ⟨hstep, hin, hpass, rfl⟩
    have h1 := hclosed s _ hmem
    have h2 : (Val.fin (a + chunk.cost_base y.r y.c)).lt (f y.r y.c) = false := by
      have h3 := Val.add_not_lt_add (chunk.cost_base y.r y.c) ha
      exact Val.not_lt_trans h1 h3
    have h4 := ih y (a + chunk.cost_base y.r y.c) h2 hrest
    have e : a + path_cost chunk (y :: rest) = a + chunk.cost_base y.r y.c + path_cost chunk rest := by
      simp [path_cost]; omega
    rw [e]
    exact h4

/-! ### Termination of `build_integration_field` -/

theorem grid_sum_setCell (R C : Nat) (g : Val → Nat) (f : IntegrationField) (y : Coord)
    (v : Val) (hy : in_grid R C y) :
    grid_sum R C g (setCell f y.r y.c v) + g (f y.r y.c) = grid_sum R C g f + g v := by
  have hmem : (y.r, y.c) ∈ Finset.Ico (0 : Int) R ×ˢ Finset.Ico (0 : Int) C := by
    simp only [in_grid] at hy
    simp only [Finset.mem_product, Finset.mem_Ico]
    omega
  unfold grid_sum
  rw [← Finset.add_sum_erase _ _ hmem, ← Finset.add_sum_erase _ (fun p => g (f p.1 p.2)) hmem]
  have hrest : ∑ p in (Finset.Ico (0 : Int) R ×ˢ Finset.Ico (0 : Int) C).erase (y.r, y.c),
      g (setCell f y.r y.c v p.1 p.2)
      = ∑ p in (Finset.Ico (0 : Int) R ×ˢ Finset.Ico (0 : Int) C).erase (y.r, y.c),
      g (f p.1 p.2) := by
    apply Finset.sum_congr rfl
    intro p hp
    have hne : p ≠ (y.r, y.c) := Finset.ne_of_mem_erase hp
    rw [setCell_other]
    intro hh
    exact hne (Prod.ext hh.1 hh.2)
  rw [hrest, setCell_same]
  show _ + _ + g (f y.r y.c) = g (f y.r y.c) + _ + _
  omega

theorem relax_measure (R C : Nat) (x : Coord) (st : pq_coord × IntegrationField)
    (n : Coord × Nat) (hn : in_grid R C n.1) :
    measure_inf R C (relax x st n) < measure_inf R C st
      ∨ (measure_inf R C (relax x st n) = measure_inf R C st
          ∧ measure_fin R C (relax x st n) ≤ measure_fin R C st) := by
  cases h : ((st.2 x.r x.c).add n.2).lt (st.2 n.1.r n.1.c) with
  | false => rw [relax_of_not_lt x st n h]; right; exact ⟨rfl, le_refl _⟩
  | true =>
    have hlen : (relax x st n).1.nodes.length ≤ st.1.nodes.length + 1 := by
      cases hc : pq_coord_contains st.1 n.1 with
      | true => rw [relax_of_lt_of_contains x st n h hc]; exact Nat.le_succ _
      | false =>
        rw [relax_of_lt_of_not_contains x st n h hc]
        simp [pq_coord_push]
    have hf : (relax x st n).2 = setCell st.2 n.1.r n.1.c ((st.2 x.r x.c).add n.2) := by
      cases hc : pq_coord_contains st.1 n.1 with
      | true => rw [relax_of_lt_of_contains x st n h hc]
      | false => rw [relax_of_lt_of_not_contains x st n h hc]
    have h1 := grid_sum_setCell R C Val.is_inf st.2 n.1 ((st.2 x.r x.c).add n.2) hn
    have h2 := grid_sum_setCell R C Val.toNat st.2 n.1 ((st.2 x.r x.c).add n.2) hn
    simp only [measure_inf, measure_fin, hf]
    cases hx : (st.2 x.r x.c).add n.2 with
    | inf => rw [hx] at h; simp [Val.lt] at h
    | fin v =>
      rw [hx] at h h1 h2
      cases hy : st.2 n.1.r n.1.c with
      | inf =>
        rw [hy] at h1
        simp only [Val.is_inf] at h1
        left; omega
      | fin w =>
        rw [hy] at h h1 h2
        simp only [Val.is_inf, Val.toNat] at h1 h2
        simp only [Val.lt, decide_eq_true_eq] at h
        right; omega

theorem foldl_relax_measure (R C : Nat) (x : Coord) (l : List (Coord × Nat))
    (hl : ∀ n ∈ l, in_grid R C n.1) :
    ∀ st : pq_coord × IntegrationField,
      measure_inf R C (l.foldl (relax x) st) < measure_inf R C st
        ∨ (measure_inf R C (l.foldl (relax x) st) = measure_inf R C st
            ∧ measure_fin R C (l.foldl (relax x) st) ≤ measure_fin R C st) := by
  induction l with
  | nil => intro st; right; exact ⟨rfl, le_refl _⟩
  | cons n rest ih =>
    intro st
    rw [List.foldl_cons]
    have h1 := relax_measure R C x st n (hl n (List.mem_cons_self _ _))
    have h2 := ih (fun m hm => hl m (List.mem_cons_of_mem _ hm)) (relax x st n)
    omega

theorem build_integration_field_of_empty (R C : Nat) (fuel : Nat) (tie : Nat → Nat)
    (frontier : pq_coord) (chunk : nav_chunk) (f : IntegrationField)
    (h : frontier.nodes = []) :
    build_integration_field R C fuel tie frontier chunk f = some f := by
  cases fuel <;> simp [build_integration_field, pq_size, h]

theorem build_integration_field_step (R C : Nat) (fuel : Nat) (tie : Nat → Nat)
    (frontier frontier2 : pq_coord) (chunk : nav_chunk) (f : IntegrationField) (x : Coord)
    (hpop : pq_coord_pop (tie 0) frontier = some (x, frontier2)) :
    build_integration_field R C (fuel + 1) tie frontier chunk f
      = build_integration_field R C fuel (fun i => tie (i + 1))
          ((neighbours_grid R C chunk x true).foldl (relax x) (frontier2, f)).1 chunk
          ((neighbours_grid R C chunk x true).foldl (relax x) (frontier2, f)).2 := by
  have hsz : pq_size frontier > 0 := by
    obtain ⟨e, he, -, -⟩ := pq_coord_pop_spec hpop
    simp only [pq_size, gt_iff_lt]
    exact List.length_pos_of_mem he
  simp only [build_integration_field, hsz, if_true, hpop]

/-- The `while` loop of `build_integration_field` ends: with enough fuel the model
returns a field, and the field does not depend on the amount of fuel. -/
theorem build_integration_field_terminates (R C : Nat) (chunk : nav_chunk) :
    ∀ (a b : Nat) (tie : Nat → Nat) (frontier : pq_coord) (f : IntegrationField),
      measure_inf R C (frontier, f) = a → measure_fin R C (frontier, f) = b →
      ∃ out fuel0, ∀ fuel, fuel0 ≤ fuel →
        build_integration_field R C fuel tie frontier chunk f = some out := by
  intro a
  induction a using Nat.strong_induction_on with
  | _ a iha =>
    intro b
    induction b using Nat.strong_induction_on with
    | _ b ihb =>
      intro tie frontier f ha hb
      by_cases hnil : frontier.nodes = []
      · exact ⟨f, 0, fun fuel _ =>
          build_integration_field_of_empty R C fuel tie frontier chunk f hnil⟩
      · have hsz : pq_size frontier > 0 := by
          simp only [pq_size, gt_iff_lt]
          exact List.length_pos.2 hnil
        obtain ⟨x, frontier2, hpop⟩ := pq_coord_pop_isSome (tie 0) hsz
        obtain ⟨e, he, -, hnodes⟩ := pq_coord_pop_spec hpop
        have hlen : frontier2.nodes.length + 1 = frontier.nodes.length := by
          rw [hnodes, List.length_erase_of_mem he]
          have := List.length_pos_of_mem he
          omega
        have hm := foldl_relax_measure R C x (neighbours_grid R C chunk x true)
          (fun n hn => ((mem_neighbours_grid R C chunk x n).1 hn).2.1) (frontier2, f)
        have ha2 : measure_inf R C (frontier2, f) = a := by rw [← ha]; rfl
        have hb2 : measure_fin R C (frontier2, f) + 1 = b := by
          rw [← hb]; simp only [measure_fin]; omega
        have hrec : ∃ out fuel0, ∀ fuel, fuel0 ≤ fuel →
            build_integration_field R C fuel (fun i => tie (i + 1))
              ((neighbours_grid R C chunk x true).foldl (relax x) (frontier2, f)).1 chunk
              ((neighbours_grid R C chunk x true).foldl (relax x) (frontier2, f)).2
              = some out := by
          have e1 : measure_inf R C
              (((neighbours_grid R C chunk x true).foldl (relax x) (frontier2, f)).1,
               ((neighbours_grid R C chunk x true).foldl (relax x) (frontier2, f)).2)
              = measure_inf R C
                ((neighbours_grid R C chunk x true).foldl (relax x) (frontier2, f)) := rfl
          have e2 : measure_fin R C
              (((neighbours_grid R C chunk x true).foldl (relax x) (frontier2, f)).1,
               ((neighbours_grid R C chunk x true).foldl (relax x) (frontier2, f)).2)
              = measure_fin R C
                ((neighbours_grid R C chunk x true).foldl (relax x) (frontier2, f)) := rfl
          rcases hm with hlt | ⟨heq, hle⟩
          · exact iha _ (by rw [e1]; omega) _ _ _ _ rfl rfl
          · exact ihb _ (by rw [e2]; omega) _ _ _ (by rw [e1]; omega) rfl
        obtain ⟨out, fuel0, hout⟩ := hrec
        refine ⟨out, fuel0 + 1, ?_⟩
        intro fuel hfuel
        obtain ⟨k, rfl⟩ : ∃ k, fuel = k + 1 := ⟨fuel - 1, by omega⟩
        rw [build_integration_field_step R C k tie frontier frontier2 chunk f x hpop]
        exact hout k (by omega)

/-- With enough fuel `build_integration_field` returns a field, the same for every
larger amount of fuel, and that field satisfies the loop invariant with an empty
frontier. -/
theorem build_integration_field_correct (R C : Nat) (chunk : nav_chunk) (seeds : List Coord)
    (frontier : pq_coord) (inout : IntegrationField) (tie : Nat → Nat)
    (hinit : ∀ r c, inout r c = if (⟨r, c⟩ : Coord) ∈ seeds then Val.fin 0 else Val.inf)
    (hfront : ∀ s ∈ seeds, (Val.fin 0, s) ∈ frontier.nodes) :
    ∃ out fuel0,
      (∀ fuel, fuel0 ≤ fuel →
        build_integration_field R C fuel tie frontier chunk inout = some out)
      ∧ build_inv R C chunk seeds pq_coord_init out := by
  obtain ⟨out, fuel0, hrun⟩ :=
    build_integration_field_terminates R C chunk _ _ tie frontier inout rfl rfl
  have hinv : build_inv R C chunk seeds frontier inout := by
    refine ⟨?_, ?_, ?_⟩
    · intro r c v hv
      rw [hinit] at hv
      split_ifs at hv with hs
      simp only [Val.fin.injEq] at hv
      subst hv
      exact reach_seed hs
    · intro s hs
      rw [hinit, if_pos hs]
    · intro x
      by_cases hx : x ∈ seeds
      · left
        exact (pq_coord_contains_iff frontier x).2 ⟨_, hfront x hx, rfl⟩
      · right
        intro n _
        rw [hinit, if_neg hx]
        rfl
  exact ⟨out, fuel0, hrun, build_integration_field_inv fuel0 tie frontier inout out hinv
    (hrun fuel0 (le_refl _))⟩

/-- What is left of the invariant once the frontier is empty: each reachable cell holds
the minimum path cost. -/
theorem build_inv_minimum {R C : Nat} {chunk : nav_chunk} {seeds : List Coord}
    {out : IntegrationField} (hinv : build_inv R C chunk seeds pq_coord_init out)
    (x : Coord) (w : Nat) (hw : reach R C chunk seeds x w) :
    ∃ v, out x.r x.c = Val.fin v ∧ reach R C chunk seeds x v ∧ v ≤ w := by
  obtain ⟨s, hs, p, hp, hend, hcost⟩ := hw
  have h0 : (Val.fin 0).lt (out s.r s.c) = false := by
    rw [hinv.seed_zero s hs]; rfl
  have h1 := closed_path_bound (fun z => closed_at_of_empty hinv z) p s 0 h0 hp
  rw [hend, hcost] at h1
  cases hv : out x.r x.c with
  | inf => rw [hv] at h1; simp [Val.lt] at h1
  | fin v =>
    rw [hv] at h1
    simp only [Val.lt, decide_eq_false_iff_not, not_lt] at h1
    exact ⟨v, rfl, hinv.sound x.r x.c v hv, by omega⟩

/-- C1: for a chunk with `cost_base` in `[1, 255]` and a non-empty set of in-grid seeds
(integration 0 at the seeds and `INFINITY` elsewhere, every seed in the frontier with
key 0), `build_integration_field` returns, whatever the order of equal keys, a field in
which every cell reachable from a seed by cardinal steps through passable cells holds
the minimum, over all such paths from any seed, of the sum of `cost_base` of the cells
entered. -/
theorem build_integration_field_min_cost (R C : Nat) (chunk : nav_chunk) (seeds : List Coord)
    (frontier : pq_coord) (inout : IntegrationField) (tie : Nat → Nat)
    (_hcost : valid_costs R C chunk) (_hne : seeds ≠ [])
    (_hgrid : ∀ s ∈ seeds, in_grid R C s)
    (hinit : ∀ r c, inout r c = if (⟨r, c⟩ : Coord) ∈ seeds then Val.fin 0 else Val.inf)
    (hfront : ∀ s ∈ seeds, (Val.fin 0, s) ∈ frontier.nodes) :
    ∃ out fuel0,
      (∀ fuel, fuel0 ≤ fuel →
        build_integration_field R C fuel tie frontier chunk inout = some out)
      ∧ ∀ x : Coord, (∃ w, reach R C chunk seeds x w) →
          ∃ v, out x.r x.c = Val.fin v ∧ reach R C chunk seeds x v
            ∧ ∀ w, reach R C chunk seeds x w → v ≤ w := by
  obtain ⟨out, fuel0, hrun, hinv⟩ :=
    build_integration_field_correct R C chunk seeds frontier inout tie hinit hfront
  refine ⟨out, fuel0, hrun, ?_⟩
  rintro x ⟨w, hw⟩
  obtain ⟨v, hv, hreach, -⟩ := build_inv_minimum hinv x w hw
  refine ⟨v, hv, hreach, ?_⟩
  intro w2 hw2
  obtain ⟨v2, hv2, -, hle⟩ := build_inv_minimum hinv x w2 hw2
  rw [hv] at hv2
  simp only [Val.fin.injEq] at hv2
  omega

/-- C2: for a valid chunk and seed set, in the field returned by
`build_integration_field` a cell holds `INFINITY` exactly when it is not a seed and no
path of at least one cardinal step leads from a seed to it through passable cells. -/
theorem build_integration_field_inf_iff (R C : Nat) (chunk : nav_chunk) (seeds : List Coord)
    (frontier : pq_coord) (inout : IntegrationField) (tie : Nat → Nat)
    (_hcost : valid_costs R C chunk) (_hne : seeds ≠ [])
    (_hgrid : ∀ s ∈ seeds, in_grid R C s)
    (hinit : ∀ r c, inout r c = if (⟨r, c⟩ : Coord) ∈ seeds then Val.fin 0 else Val.inf)
    (hfront : ∀ s ∈ seeds, (Val.fin 0, s) ∈ frontier.nodes) :
    ∃ out fuel0,
      (∀ fuel, fuel0 ≤ fuel →
        build_integration_field R C fuel tie frontier chunk inout = some out)
      ∧ ∀ x : Coord, out x.r x.c = Val.inf ↔
          (x ∉ seeds ∧ ¬ ∃ s ∈ seeds, ∃ p, p ≠ [] ∧ is_path R C chunk s p ∧ path_end s p = x) := by
  obtain ⟨out, fuel0, hrun, hinv⟩ :=
    build_integration_field_correct R C chunk seeds frontier inout tie hinit hfront
  refine ⟨out, fuel0, hrun, ?_⟩
  intro x
  constructor
  · intro hx
    constructor
    · intro hs
      rw [hinv.seed_zero x hs] at hx
      exact Val.noConfusion hx
    · rintro ⟨s, hs, p, -, hp, hend⟩
      obtain ⟨v, hv, -, -⟩ := build_inv_minimum hinv x _ ⟨s, hs, p, hp, hend, rfl⟩
      rw [hv] at hx
      exact Val.noConfusion hx
  · rintro ⟨hns, hnp⟩
    cases hv : out x.r x.c with
    | inf => rfl
    | fin v =>
      exfalso
      obtain ⟨s, hs, p, hp, hend, -⟩ := hinv.sound x.r x.c v hv
      cases p with
      | nil =>
        have hsx : s = x := hend
        exact hns (hsx ▸ hs)
      | cons y rest => exact hnp ⟨s, hs, y :: rest, List.cons_ne_nil _ _, hp, hend⟩

/-! ### Flow directions -/

/-- C4: when `min_cost` is finite and some in-grid cardinal neighbour attains it,
`flow_dir` returns the first of N, S, E, W (in that order) whose neighbour attains
`min_cost`, whether or not a diagonal neighbour attains it too; and whenever `flow_dir`
returns a direction, the neighbour in that direction has integration `min_cost`. -/
theorem flow_dir_cardinal_preference (R C : Nat) (f : IntegrationField) (x : Coord)
    (hx : in_grid R C x) (hfin : (flow_dir_min_cost R C f x).lt Val.inf = true) :
    ((∃ d ∈ [FD_N, FD_S, FD_E, FD_W], attains_min_cost R C f x d) →
      ∃ d ∈ [FD_N, FD_S, FD_E, FD_W],
        flow_dir R C f x = some d ∧ first_cardinal R C f x = some d)
    ∧ ∀ d, flow_dir R C f x = some d →
        f (dir_neighbour x d).r (dir_neighbour x d).c = flow_dir_min_cost R C f x := by
  obtain ⟨h1, h2, h3, h4⟩ := hx
  have eN : attains_min_cost R C f x FD_N ↔ (x.r > 0 ∧ f (x.r - 1) x.c = flow_dir_min_cost R C f x) := by
    simp only [attains_min_cost, dir_neighbour, in_grid]
    constructor
    · rintro ⟨ha, hb⟩; exact ⟨by omega, hb⟩
    · rintro ⟨ha, hb⟩; exact ⟨by omega, hb⟩
  have eS : attains_min_cost R C f x FD_S ↔ (x.r < (R : Int) - 1 ∧ f (x.r + 1) x.c = flow_dir_min_cost R C f x) := by
    simp only [attains_min_cost, dir_neighbour, in_grid]
    constructor
    · rintro ⟨ha, hb⟩; exact ⟨by omega, hb⟩
    · rintro ⟨ha, hb⟩; exact ⟨by omega, hb⟩
  have eE : attains_min_cost R C f x FD_E ↔ (x.c < (C : Int) - 1 ∧ f x.r (x.c + 1) = flow_dir_min_cost R C f x) := by
    simp only [attains_min_cost, dir_neighbour, in_grid]
    constructor
    · rintro ⟨ha, hb⟩; exact ⟨by omega, hb⟩
    · rintro ⟨ha, hb⟩; exact ⟨by omega, hb⟩
  have eW : attains_min_cost R C f x FD_W ↔ (x.c > 0 ∧ f x.r (x.c - 1) = flow_dir_min_cost R C f x) := by
    simp only [attains_min_cost, dir_neighbour, in_grid]
    constructor
    · rintro ⟨ha, hb⟩; exact ⟨by omega, hb⟩
    · rintro ⟨ha, hb⟩; exact ⟨by omega, hb⟩
  constructor
  · rintro ⟨d0, hd0, hatt⟩
    simp only [flow_dir, hfin, if_true, first_cardinal, List.find?, eN, eS, eE, eW]
    by_cases cN : x.r > 0 ∧ f (x.r - 1) x.c = flow_dir_min_cost R C f x
    · exact ⟨FD_N, by simp, by simp [cN]⟩
    · by_cases cS : x.r < (R : Int) - 1 ∧ f (x.r + 1) x.c = flow_dir_min_cost R C f x
      · exact ⟨FD_S, by simp, by simp [cN, cS]⟩
      · by_cases cE : x.c < (C : Int) - 1 ∧ f x.r (x.c + 1) = flow_dir_min_cost R C f x
        · exact ⟨FD_E, by simp, by simp [cN, cS, cE]⟩
        · by_cases cW : x.c > 0 ∧ f x.r (x.c - 1) = flow_dir_min_cost R C f x
          · exact ⟨FD_W, by simp, by simp [cN, cS, cE, cW]⟩
          · exfalso
            simp only [List.mem_cons, List.mem_singleton, List.not_mem_nil, or_false] at hd0
            rcases hd0 with rfl | rfl | rfl | rfl
            · exact cN (eN.1 hatt)
            · exact cS (eS.1 hatt)
            · exact cE (eE.1 hatt)
            · exact cW (eW.1 hatt)
  · intro d hd
    simp only [flow_dir, hfin, if_true] at hd
    split_ifs at hd with c1 c2 c3 c4 c5 c6 c7 c8
    all_goals
      simp only [Option.some.injEq] at hd
      subst hd
      simp only [dir_neighbour]
    · exact c1.2
    · exact c2.2
    · exact c3.2
    · exact c4.2
    · exact c5.2.2
    · exact c6.2.2
    · exact c7.2.2
    · exact c8.2.2

/-! ### Flow field and portal fixup -/

theorem mem_cells (R C : Nat) (x : Coord) : x ∈ cells R C ↔ in_grid R C x := by
  unfold cells in_grid
  rw [List.mem_flatMap]
  constructor
  · rintro ⟨r, hr, hx⟩
    rw [List.mem_map] at hx
    obtain ⟨c, hc, rfl⟩ := hx
    rw [List.mem_range] at hr hc
    simp only [Int.ofNat_eq_coe]
    omega
  · rintro ⟨h1, h2, h3, h4⟩
    refine ⟨x.r.toNat, List.mem_range.2 (by omega), ?_⟩
    rw [List.mem_map]
    refine ⟨x.c.toNat, List.mem_range.2 (by omega), ?_⟩
    ext
    · simp only [Int.ofNat_eq_coe]; omega
    · simp only [Int.ofNat_eq_coe]; omega

theorem build_flow_cell_eq (R C : Nat) (intf : IntegrationField) (ff : flow_field) (x : Coord) :
    build_flow_cell R C intf ff x = apply_write ff x (flow_write R C intf x) := by
  unfold build_flow_cell flow_write
  split_ifs
  · rfl
  · rfl
  · cases flow_dir R C intf x <;> rfl

theorem fixup_portal_cell_eq (intf : IntegrationField) (up down left right : Bool)
    (ff : flow_field) (x : Coord) :
    fixup_portal_cell intf up down left right ff x
      = apply_write ff x (fixup_write intf up down left right x) := by
  unfold fixup_portal_cell fixup_write
  split_ifs <;> rfl

/-- A loop that writes at each visited cell a direction depending on the cell only:
the field it returns. -/
theorem foldlM_apply_write (g : Coord → Option (Option dir_idx)) (l : List Coord) :
    ∀ ff0 ff : flow_field, l.foldlM (fun ff x => apply_write ff x (g x)) ff0 = some ff →
      ff.chunk = ff0.chunk
      ∧ ∀ r c : Int,
          ((⟨r, c⟩ : Coord) ∈ l →
            (g ⟨r, c⟩ = some none ∧ ff.field r c = ff0.field r c)
              ∨ g ⟨r, c⟩ = some (some (ff.field r c)))
          ∧ ((⟨r, c⟩ : Coord) ∉ l → ff.field r c = ff0.field r c) := by
  induction l with
  | nil =>
    intro ff0 ff h
    simp only [List.foldlM, pure, Option.some.injEq] at h
    subst h
    exact ⟨rfl, fun r c => ⟨fun hm => absurd hm (List.not_mem_nil _), fun _ => rfl⟩⟩
  | cons x rest ih =>
    intro ff0 ff h
    simp only [List.foldlM, bind, Option.bind] at h
    cases hg : g x with
    | none => rw [hg] at h; simp [apply_write] at h
    | some o =>
      rw [hg] at h
      cases o with
      | none =>
        simp only [apply_write] at h
        obtain ⟨hc, hf⟩ := ih ff0 ff h
        refine ⟨hc, fun r c => ⟨?_, ?_⟩⟩
        · intro hm
          by_cases hr : (⟨r, c⟩ : Coord) ∈ rest
          · exact (hf r c).1 hr
          · have hxe : (⟨r, c⟩ : Coord) = x := by
              rcases List.mem_cons.1 hm with h1 | h1
              · exact h1
              · exact absurd h1 hr
            left
            exact ⟨hxe ▸ hg, (hf r c).2 hr⟩
        · intro hm
          exact (hf r c).2 (fun hr => hm (List.mem_cons_of_mem _ hr))
      | some d =>
        simp only [apply_write] at h
        obtain ⟨hc, hf⟩ := ih (setDir ff0 x.r x.c d) ff h
        refine ⟨hc, fun r c => ⟨?_, ?_⟩⟩
        · intro hm
          by_cases hr : (⟨r, c⟩ : Coord) ∈ rest
          · rcases (hf r c).1 hr with ⟨h1, h2⟩ | h1
            · by_cases hxe : r = x.r ∧ c = x.c
              · right
                obtain ⟨e1, e2⟩ := hxe
                subst e1 e2
                rw [hg] at h1
                simp at h1
              · left
                refine ⟨h1, ?_⟩
                rw [h2]
                simp [setDir, hxe]
            · right; exact h1
          · have hxe : (⟨r, c⟩ : Coord) = x := by
              rcases List.mem_cons.1 hm with h1 | h1
              · exact h1
              · exact absurd h1 hr
            right
            rw [(hf r c).2 hr, hxe, hg]
            have e1 : r = x.r := by rw [← hxe]
            have e2 : c = x.c := by rw [← hxe]
            simp [setDir, e1, e2]
        · intro hm
          have hr : (⟨r, c⟩ : Coord) ∉ rest := fun hr => hm (List.mem_cons_of_mem _ hr)
          rw [(hf r c).2 hr]
          have hxe : ¬ (r = x.r ∧ c = x.c) := by
            rintro ⟨e1, e2⟩
            apply hm
            subst e1 e2
            exact List.mem_cons_self _ _
          simp [setDir, hxe]

theorem build_flow_field_eq (R C : Nat) (intf : IntegrationField) (ff0 : flow_field) :
    build_flow_field R C intf ff0
      = (cells R C).foldlM (fun ff x => apply_write ff x (flow_write R C intf x)) ff0 := by
  unfold build_flow_field
  congr 1
  funext ff x
  exact build_flow_cell_eq R C intf ff x

/-- The flow field returned by `build_flow_field`. -/
theorem build_flow_field_spec {R C : Nat} {intf : IntegrationField} {ff0 ff : flow_field}
    (h : build_flow_field R C intf ff0 = some ff) :
    ff.chunk = ff0.chunk
    ∧ ∀ r c : Int,
        (in_grid R C ⟨r, c⟩ →
          (intf r c = Val.inf ∧ ff.field r c = ff0.field r c)
          ∨ (intf r c = Val.fin 0 ∧ ff.field r c = FD_NONE)
          ∨ (intf r c ≠ Val.inf ∧ intf r c ≠ Val.fin 0
              ∧ flow_dir R C intf ⟨r, c⟩ = some (ff.field r c)))
        ∧ (¬ in_grid R C ⟨r, c⟩ → ff.field r c = ff0.field r c) := by
  rw [build_flow_field_eq] at h
  obtain ⟨hc, hf⟩ := foldlM_apply_write _ _ _ _ h
  refine ⟨hc, fun r c => ⟨?_, ?_⟩⟩
  · intro hin
    have hw := (hf r c).1 ((mem_cells R C _).2 hin)
    unfold flow_write at hw
    by_cases h1 : intf r c = Val.inf
    · left
      rw [if_pos h1] at hw
      rcases hw with ⟨-, hw⟩ | hw
      · exact ⟨h1, hw⟩
      · simp at hw
    · by_cases h2 : intf r c = Val.fin 0
      · right; left
        rw [if_neg h1, if_pos h2] at hw
        rcases hw with ⟨hw, -⟩ | hw
        · simp at hw
        · simp only [Option.some.injEq] at hw
          exact ⟨h2, hw.symm⟩
      · right; right
        rw [if_neg h1, if_neg h2] at hw
        refine ⟨h1, h2, ?_⟩
        cases hfd : flow_dir R C intf ⟨r, c⟩ with
        | none =>
          rw [hfd] at hw
          rcases hw with ⟨hw, -⟩ | hw <;> simp at hw
        | some d =>
          rw [hfd] at hw
          rcases hw with ⟨hw, -⟩ | hw
          · simp at hw
          · simp only [Option.map, Option.some.injEq] at hw
            rw [hw]
  · intro hout
    exact (hf r c).2 (fun hm => hout ((mem_cells R C _).1 hm))

/-- The flow field returned by `fixup_portal_edges`. -/
theorem fixup_portal_edges_spec {R C : Nat} {intf : IntegrationField} {ff0 ff : flow_field}
    {port : portal} (h : fixup_portal_edges R C intf ff0 port = some ff) :
    ff.chunk = ff0.chunk
    ∧ ∀ r c : Int,
        (in_grid R C ⟨r, c⟩ → intf r c = Val.fin 0 → ff.field r c = portal_dir port)
        ∧ (¬ (in_grid R C ⟨r, c⟩ ∧ intf r c = Val.fin 0) → ff.field r c = ff0.field r c) := by
  unfold fixup_portal_edges at h
  simp only at h
  split_ifs at h with hx
  have heq : (cells R C).foldlM (fixup_portal_cell intf
        (decide (port.connected_chunk.r < port.chunk.r))
        (decide (port.connected_chunk.r > port.chunk.r))
        (decide (port.connected_chunk.c < port.chunk.c))
        (decide (port.connected_chunk.c > port.chunk.c))) ff0
      = (cells R C).foldlM (fun ff x => apply_write ff x (fixup_write intf
        (decide (port.connected_chunk.r < port.chunk.r))
        (decide (port.connected_chunk.r > port.chunk.r))
        (decide (port.connected_chunk.c < port.chunk.c))
        (decide (port.connected_chunk.c > port.chunk.c)) x)) ff0 := by
    congr 1
    funext ff x
    exact fixup_portal_cell_eq intf _ _ _ _ ff x
  rw [heq] at h
  obtain ⟨hc, hf⟩ := foldlM_apply_write _ _ _ _ h
  refine ⟨hc, fun r c => ⟨?_, ?_⟩⟩
  · intro hin h0
    have hw := (hf r c).1 ((mem_cells R C _).2 hin)
    simp only [fixup_write, h0, if_true, decide_eq_true_eq] at hw
    simp only [portal_dir]
    split_ifs at hw ⊢ with c1 c2 c3 c4
    all_goals first
      | (rcases hw with ⟨hw, -⟩ | hw
         · simp at hw
         · simp only [Option.some.injEq] at hw; exact hw.symm)
      | (exfalso; rcases hw with ⟨hw, -⟩ | hw <;> simp at hw)
  · intro hnot
    by_cases hin : in_grid R C ⟨r, c⟩
    · have h0 : intf r c ≠ Val.fin 0 := fun h0 => hnot ⟨hin, h0⟩
      have hw := (hf r c).1 ((mem_cells R C _).2 hin)
      simp only [fixup_write, h0, if_false] at hw
      rcases hw with ⟨-, hw⟩ | hw
      · exact hw
      · simp at hw
    · exact (hf r c).2 (fun hm => hin ((mem_cells R C _).1 hm))

/-- The steps of a call of `N_FlowFieldUpdate` that returns. -/
theorem N_FlowFieldUpdate_some {R C fuel : Nat} {tie : Nat → Nat} {world : game_hooks}
    {chunk : nav_chunk} {target : field_target} {flow0 flow : flow_field}
    {intf : IntegrationField}
    (h : N_FlowFieldUpdate R C fuel tie world chunk target flow0 = some (intf, flow)) :
    ∃ frontier f0 flow1,
      seed_target R C world target = some (frontier, f0)
      ∧ pq_size frontier > 0
      ∧ build_integration_field R C fuel tie frontier chunk f0 = some intf
      ∧ build_flow_field R C intf flow0 = some flow1
      ∧ (∀ port, target = field_target.TARGET_PORTAL port →
          fixup_portal_edges R C intf flow1 port = some flow)
      ∧ ((∀ port, target ≠ field_target.TARGET_PORTAL port) → flow = flow1) := by
  unfold N_FlowFieldUpdate at h
  cases hs : seed_target R C world target with
  | none => rw [hs] at h; simp at h
  | some st =>
    obtain ⟨frontier, f0⟩ := st
    rw [hs] at h
    simp only at h
    split_ifs at h with hsz
    cases hb : build_integration_field R C fuel tie frontier chunk f0 with
    | none => rw [hb] at h; simp at h
    | some intf2 =>
      rw [hb] at h
      simp only at h
      cases hf : build_flow_field R C intf2 flow0 with
      | none => rw [hf] at h; simp at h
      | some flow1 =>
        rw [hf] at h
        simp only at h
        cases target with
        | TARGET_PORTAL port =>
          simp only at h
          cases hx : fixup_portal_edges R C intf2 flow1 port with
          | none => rw [hx] at h; simp at h
          | some flow2 =>
            rw [hx] at h
            simp only [Option.some.injEq, Prod.mk.injEq] at h
            obtain ⟨e1, e2⟩ := h
            subst e1 e2
            refine ⟨frontier, f0, flow1, rfl, hsz, hb, hf, ?_, ?_⟩
            · intro port2 hp
              simp only [field_target.TARGET_PORTAL.injEq] at hp
              subst hp
              exact hx
            · intro hp
              exact absurd rfl (hp port)
        | TARGET_TILE tile =>
          simp only [Option.some.injEq, Prod.mk.injEq] at h
          obtain ⟨e1, e2⟩ := h
          subst e1 e2
          exact ⟨frontier, f0, flow1, rfl, hsz, hb, hf, fun _ hp => by simp at hp, fun _ => rfl⟩
        | TARGET_ENEMIES faction_id =>
          simp only [Option.some.injEq, Prod.mk.injEq] at h
          obtain ⟨e1, e2⟩ := h
          subst e1 e2
          exact ⟨frontier, f0, flow1, rfl, hsz, hb, hf, fun _ hp => by simp at hp, fun _ => rfl⟩

/-! ### Target resolution -/

theorem foldl_seed_cell (l : List Coord) :
    ∀ st : pq_coord × IntegrationField,
      (l.foldl seed_cell st).1.nodes = st.1.nodes ++ l.map (fun s => (Val.fin 0, s))
      ∧ ∀ r c, (l.foldl seed_cell st).2 r c
          = if (⟨r, c⟩ : Coord) ∈ l then Val.fin 0 else st.2 r c := by
  induction l with
  | nil => intro st; simp
  | cons x rest ih =>
    intro st
    obtain ⟨h1, h2⟩ := ih (seed_cell st x)
    rw [List.foldl_cons]
    refine ⟨?_, ?_⟩
    · rw [h1]; simp [seed_cell, pq_coord_push]
    · intro r c
      rw [h2]
      by_cases hr : (⟨r, c⟩ : Coord) ∈ rest
      · simp [hr]
      · by_cases hx : r = x.r ∧ c = x.c
        · obtain ⟨e1, e2⟩ := hx
          subst e1 e2
          simp [seed_cell, setCell]
        · have hne : (⟨r, c⟩ : Coord) ≠ x := by
            intro hh
            apply hx
            rw [← hh]
            exact ⟨rfl, rfl⟩
          simp [hr, hne, seed_cell, setCell, hx]

theorem seed_target_eq (R C : Nat) (world : game_hooks) (target : field_target) :
    seed_target R C world target
      = (target_seeds R C world target).map
          fun l => l.foldl seed_cell (pq_coord_init, fun _ _ => Val.inf) := by
  cases target with
  | TARGET_PORTAL port =>
    simp only [seed_target, target_seeds, portal_band, Option.map, Option.some.injEq]
    generalize (pq_coord_init, fun (_ : Int) (_ : Int) => Val.inf) = st
    induction (loop_incl port.endpoints_0.r port.endpoints_1.r) generalizing st with
    | nil => rfl
    | cons r rest ih =>
      simp only [List.foldl_cons, List.flatMap_cons, List.foldl_append]
      rw [ih]
      congr 1
      rw [List.foldl_map]
  | TARGET_TILE tile => rfl
  | TARGET_ENEMIES faction_id =>
    simp only [seed_target, target_seeds]
    split_ifs
    · rfl
    · cases mark_enemies world faction_id world.ents (fun _ _ => false) with
      | none => rfl
      | some has_enemy =>
        simp only [Option.map, Option.some.injEq]
        generalize (pq_coord_init, fun (_ : Int) (_ : Int) => Val.inf) = st
        induction (cells R C) generalizing st with
        | nil => rfl
        | cons x rest ih =>
          simp only [List.foldl_cons, List.filter_cons]
          split_ifs
          · rw [List.foldl_cons]; exact ih _
          · exact ih _

theorem build_inv_init (R C : Nat) (chunk : nav_chunk) (seeds : List Coord)
    (frontier : pq_coord) (inout : IntegrationField)
    (hinit : ∀ r c, inout r c = if (⟨r, c⟩ : Coord) ∈ seeds then Val.fin 0 else Val.inf)
    (hfront : ∀ s ∈ seeds, (Val.fin 0, s) ∈ frontier.nodes) :
    build_inv R C chunk seeds frontier inout := by
  refine ⟨?_, ?_, ?_⟩
  · intro r c v hv
    rw [hinit] at hv
    split_ifs at hv with hs
    simp only [Val.fin.injEq] at hv
    subst hv
    exact reach_seed hs
  · intro s hs
    rw [hinit, if_pos hs]
  · intro x
    by_cases hx : x ∈ seeds
    · left
      exact (pq_coord_contains_iff frontier x).2 ⟨_, hfront x hx, rfl⟩
    · right
      intro n _
      rw [hinit, if_neg hx]
      rfl

/-- The integration field of a call of `N_FlowFieldUpdate` that returns satisfies the
invariant of the build for the seeds of the target, with an empty frontier. -/
theorem N_FlowFieldUpdate_inv {R C fuel : Nat} {tie : Nat → Nat} {world : game_hooks}
    {chunk : nav_chunk} {target : field_target} {flow0 flow : flow_field}
    {intf : IntegrationField}
    (h : N_FlowFieldUpdate R C fuel tie world chunk target flow0 = some (intf, flow)) :
    ∃ seeds, target_seeds R C world target = some seeds ∧ seeds ≠ []
      ∧ build_inv R C chunk seeds pq_coord_init intf := by
  obtain ⟨frontier, f0, flow1, hs, hsz, hb, -, -, -⟩ := N_FlowFieldUpdate_some h
  rw [seed_target_eq] at hs
  cases hts : target_seeds R C world target with
  | none => rw [hts] at hs; simp at hs
  | some seeds =>
    rw [hts] at hs
    simp only [Option.map, Option.some.injEq] at hs
    obtain ⟨h1, h2⟩ := foldl_seed_cell seeds (pq_coord_init, fun _ _ => Val.inf)
    rw [hs] at h1 h2
    simp only [pq_coord_init, List.nil_append] at h1
    refine ⟨seeds, rfl, ?_, ?_⟩
    · intro hnil
      rw [hnil] at h1
      simp [pq_size, h1] at hsz
    · refine build_integration_field_inv fuel tie frontier f0 intf
        (build_inv_init R C chunk seeds frontier f0 h2 ?_) hb
      intro s hs2
      rw [h1]
      exact List.mem_map.2 ⟨s, hs2, rfl⟩

theorem path_cost_pos {R C : Nat} {chunk : nav_chunk} (hcost : positive_costs R C chunk)
    (s : Coord) (p : List Coord) (hp : is_path R C chunk s p) (hne : p ≠ []) :
    1 ≤ path_cost chunk p := by
  cases p with
  | nil => exact absurd rfl hne
  | cons y rest =>
    obtain ⟨-, hin, -, -⟩ := hp
    have := hcost y.r y.c hin.1 hin.2.1 hin.2.2.1 hin.2.2.2
    simp only [path_cost, List.map_cons, List.sum_cons]
    omega

/-- With `cost_base >= 1` the cells of integration 0 are exactly the seeds. -/
theorem build_inv_zero_iff {R C : Nat} {chunk : nav_chunk} {seeds : List Coord}
    {intf : IntegrationField} (hcost : positive_costs R C chunk)
    (hinv : build_inv R C chunk seeds pq_coord_init intf) (x : Coord) :
    intf x.r x.c = Val.fin 0 ↔ x ∈ seeds := by
  constructor
  · intro h0
    obtain ⟨s, hs, p, hp, hend, hc⟩ := hinv.sound x.r x.c 0 h0
    cases p with
    | nil =>
      have hsx : s = x := hend
      exact hsx ▸ hs
    | cons y rest =>
      have := path_cost_pos hcost s (y :: rest) hp (List.cons_ne_nil _ _)
      omega
  · exact hinv.seed_zero x

theorem mem_loop_incl (lo hi i : Int) : i ∈ loop_incl lo hi ↔ lo ≤ i ∧ i ≤ hi := by
  unfold loop_incl
  rw [List.mem_map]
  constructor
  · rintro ⟨k, hk, rfl⟩
    rw [List.mem_range] at hk
    simp only [Int.ofNat_eq_coe]
    omega
  · rintro ⟨h1, h2⟩
    refine ⟨(i - lo).toNat, List.mem_range.2 (by omega), ?_⟩
    simp only [Int.ofNat_eq_coe]
    omega

theorem mem_portal_band (port : portal) (x : Coord) :
    x ∈ portal_band port ↔
      (port.endpoints_0.r ≤ x.r ∧ x.r ≤ port.endpoints_1.r)
        ∧ (port.endpoints_0.c ≤ x.c ∧ x.c ≤ port.endpoints_1.c) := by
  unfold portal_band
  rw [List.mem_flatMap]
  constructor
  · rintro ⟨r, hr, hx⟩
    rw [List.mem_map] at hx
    obtain ⟨c, hc, rfl⟩ := hx
    exact ⟨(mem_loop_incl _ _ _).1 hr, (mem_loop_incl _ _ _).1 hc⟩
  · rintro ⟨hr, hc⟩
    exact ⟨x.r, (mem_loop_incl _ _ _).2 hr, List.mem_map.2 ⟨x.c, (mem_loop_incl _ _ _).2 hc, rfl⟩⟩

/-! ### Field identity -/

theorem or_eq_add_of_dvd_of_lt (a b k : Nat) (ha : 2 ^ k ∣ a) (hb : b < 2 ^ k) :
    a ||| b = a + b := by
  obtain ⟨q, rfl⟩ := ha
  exact (Nat.mul_add_lt_is_or hb q).symm

theorem shl64_u64 (x : Int) (k : Nat) (hx : in_byte x) (hk : k ≤ 56) :
    shl64 (u64 x) k = x.toNat * 2 ^ k := by
  unfold shl64 u64
  have h1 : (x % 18446744073709551616).toNat = x.toNat := by
    unfold in_byte at hx
    omega
  rw [h1, Nat.shiftLeft_eq]
  apply Nat.mod_eq_of_lt
  have h2 : x.toNat < 2 ^ 8 := by
    unfold in_byte at hx
    have : (2 : Nat) ^ 8 = 256 := by norm_num
    omega
  calc x.toNat * 2 ^ k < 2 ^ 8 * 2 ^ k := Nat.mul_lt_mul_of_pos_right h2 (Nat.two_pow_pos k)
    _ = 2 ^ (8 + k) := (Nat.pow_add 2 8 k).symm
    _ ≤ 2 ^ 64 := Nat.pow_le_pow_right (by norm_num) (by omega)
    _ = 18446744073709551616 := by norm_num

theorem id_byte_id_of_bytes (b7 b6 b5 b4 b3 b2 b1 b0 : Nat) (h7 : b7 < 256) (h6 : b6 < 256)
    (h5 : b5 < 256) (h4 : b4 < 256) (h3 : b3 < 256) (h2 : b2 < 256) (h1 : b1 < 256)
    (h0 : b0 < 256) :
    id_byte (id_of_bytes b7 b6 b5 b4 b3 b2 b1 b0) 7 = b7
    ∧ id_byte (id_of_bytes b7 b6 b5 b4 b3 b2 b1 b0) 6 = b6
    ∧ id_byte (id_of_bytes b7 b6 b5 b4 b3 b2 b1 b0) 5 = b5
    ∧ id_byte (id_of_bytes b7 b6 b5 b4 b3 b2 b1 b0) 4 = b4
    ∧ id_byte (id_of_bytes b7 b6 b5 b4 b3 b2 b1 b0) 3 = b3
    ∧ id_byte (id_of_bytes b7 b6 b5 b4 b3 b2 b1 b0) 2 = b2
    ∧ id_byte (id_of_bytes b7 b6 b5 b4 b3 b2 b1 b0) 1 = b1
    ∧ id_byte (id_of_bytes b7 b6 b5 b4 b3 b2 b1 b0) 0 = b0 := by
  simp only [id_byte, id_of_bytes]
  norm_num only [Nat.reducePow, Nat.reduceMul]
  refine ⟨?_, ?_, ?_, ?_, ?_, ?_, ?_, ?_⟩ <;> omega

theorem id_of_bytes_inj {a7 a6 a5 a4 a3 a2 a1 a0 b7 b6 b5 b4 b3 b2 b1 b0 : Nat}
    (h : id_of_bytes a7 a6 a5 a4 a3 a2 a1 a0 = id_of_bytes b7 b6 b5 b4 b3 b2 b1 b0)
    (ha7 : a7 < 256) (ha6 : a6 < 256) (ha5 : a5 < 256) (ha4 : a4 < 256) (ha3 : a3 < 256)
    (ha2 : a2 < 256) (ha1 : a1 < 256) (ha0 : a0 < 256)
    (hb7 : b7 < 256) (hb6 : b6 < 256) (hb5 : b5 < 256) (hb4 : b4 < 256) (hb3 : b3 < 256)
    (hb2 : b2 < 256) (hb1 : b1 < 256) (hb0 : b0 < 256) :
    a7 = b7 ∧ a6 = b6 ∧ a5 = b5 ∧ a4 = b4 ∧ a3 = b3 ∧ a2 = b2 ∧ a1 = b1 ∧ a0 = b0 := by
  obtain ⟨p7, p6, p5, p4, p3, p2, p1, p0⟩ :=
    id_byte_id_of_bytes a7 a6 a5 a4 a3 a2 a1 a0 ha7 ha6 ha5 ha4 ha3 ha2 ha1 ha0
  obtain ⟨q7, q6, q5, q4, q3, q2, q1, q0⟩ :=
    id_byte_id_of_bytes b7 b6 b5 b4 b3 b2 b1 b0 hb7 hb6 hb5 hb4 hb3 hb2 hb1 hb0
  rw [h] at p7 p6 p5 p4 p3 p2 p1 p0
  exact ⟨p7.symm.trans q7, p6.symm.trans q6, p5.symm.trans q5, p4.symm.trans q4,
    p3.symm.trans q3, p2.symm.trans q2, p1.symm.trans q1, p0.symm.trans q0⟩

theorem toNat_lt_of_in_byte {x : Int} (hx : in_byte x) : x.toNat < 256 := by
  unfold in_byte at hx; omega

theorem in_byte_toNat_inj {x y : Int} (hx : in_byte x) (hy : in_byte y)
    (h : x.toNat = y.toNat) : x = y := by
  unfold in_byte at hx hy; omega

/-- The identifier of a portal target in bytes. -/
theorem N_FlowField_ID_portal (tags : target_tags) (chunk : Coord) (port : portal)
    (ht : in_byte tags.TARGET_PORTAL)
    (h0r : in_byte port.endpoints_0.r) (h0c : in_byte port.endpoints_0.c)
    (h1r : in_byte port.endpoints_1.r) (h1c : in_byte port.endpoints_1.c)
    (hcr : in_byte chunk.r) (hcc : in_byte chunk.c) :
    N_FlowField_ID tags chunk (field_target.TARGET_PORTAL port)
      = id_of_bytes tags.TARGET_PORTAL.toNat 0 port.endpoints_0.r.toNat
          port.endpoints_0.c.toNat port.endpoints_1.r.toNat port.endpoints_1.c.toNat
          chunk.r.toNat chunk.c.toNat := by
  have b1 := toNat_lt_of_in_byte ht
  have b2 := toNat_lt_of_in_byte h0r
  have b3 := toNat_lt_of_in_byte h0c
  have b4 := toNat_lt_of_in_byte h1r
  have b5 := toNat_lt_of_in_byte h1c
  have b6 := toNat_lt_of_in_byte hcr
  have b7 := toNat_lt_of_in_byte hcc
  simp only [N_FlowField_ID, field_target.type, id_of_bytes]
  rw [shl64_u64 _ 56 ht (by omega), shl64_u64 _ 40 h0r (by omega),
    shl64_u64 _ 32 h0c (by omega), shl64_u64 _ 24 h1r (by omega),
    shl64_u64 _ 16 h1c (by omega), shl64_u64 _ 8 hcr (by omega), shl64_u64 _ 0 hcc (by omega)]
  norm_num only [Nat.reducePow]
  rw [or_eq_add_of_dvd_of_lt _ (_ * 1099511627776) 48 (by norm_num; omega) (by norm_num; omega)]
  rw [or_eq_add_of_dvd_of_lt _ (_ * 4294967296) 40 (by norm_num; omega) (by norm_num; omega)]
  rw [or_eq_add_of_dvd_of_lt _ (_ * 16777216) 32 (by norm_num; omega) (by norm_num; omega)]
  rw [or_eq_add_of_dvd_of_lt _ (_ * 65536) 24 (by norm_num; omega) (by norm_num; omega)]
  rw [or_eq_add_of_dvd_of_lt _ (_ * 256) 16 (by norm_num; omega) (by norm_num; omega)]
  rw [or_eq_add_of_dvd_of_lt _ (_ * 1) 8 (by norm_num; omega) (by norm_num; omega)]
  omega

/-- The identifier of a tile target in bytes. -/
theorem N_FlowField_ID_tile (tags : target_tags) (chunk : Coord) (tile : Coord)
    (ht : in_byte tags.TARGET_TILE) (hr : in_byte tile.r) (hc : in_byte tile.c)
    (hcr : in_byte chunk.r) (hcc : in_byte chunk.c) :
    N_FlowField_ID tags chunk (field_target.TARGET_TILE tile)
      = id_of_bytes tags.TARGET_TILE.toNat 0 0 0 tile.r.toNat tile.c.toNat
          chunk.r.toNat chunk.c.toNat := by
  have b1 := toNat_lt_of_in_byte ht
  have b2 := toNat_lt_of_in_byte hr
  have b3 := toNat_lt_of_in_byte hc
  have b6 := toNat_lt_of_in_byte hcr
  have b7 := toNat_lt_of_in_byte hcc
  simp only [N_FlowField_ID, field_target.type, id_of_bytes]
  rw [shl64_u64 _ 56 ht (by omega), shl64_u64 _ 24 hr (by omega),
    shl64_u64 _ 16 hc (by omega), shl64_u64 _ 8 hcr (by omega), shl64_u64 _ 0 hcc (by omega)]
  norm_num only [Nat.reducePow]
  rw [or_eq_add_of_dvd_of_lt _ (_ * 16777216) 32 (by norm_num; omega) (by norm_num; omega)]
  rw [or_eq_add_of_dvd_of_lt _ (_ * 65536) 24 (by norm_num; omega) (by norm_num; omega)]
  rw [or_eq_add_of_dvd_of_lt _ (_ * 256) 16 (by norm_num; omega) (by norm_num; omega)]
  rw [or_eq_add_of_dvd_of_lt _ (_ * 1) 8 (by norm_num; omega) (by norm_num; omega)]
  omega

/-- The identifier of an enemies target in bytes. -/
theorem N_FlowField_ID_enemies (tags : target_tags) (chunk : Coord) (faction_id : Int)
    (ht : in_byte tags.TARGET_ENEMIES) (hf : in_byte faction_id)
    (hcr : in_byte chunk.r) (hcc : in_byte chunk.c) :
    N_FlowField_ID tags chunk (field_target.TARGET_ENEMIES faction_id)
      = id_of_bytes tags.TARGET_ENEMIES.toNat 0 0 0 faction_id.toNat 0
          chunk.r.toNat chunk.c.toNat := by
  have b1 := toNat_lt_of_in_byte ht
  have b2 := toNat_lt_of_in_byte hf
  have b6 := toNat_lt_of_in_byte hcr
  have b7 := toNat_lt_of_in_byte hcc
  simp only [N_FlowField_ID, field_target.type, id_of_bytes]
  rw [shl64_u64 _ 56 ht (by omega), shl64_u64 _ 24 hf (by omega),
    shl64_u64 _ 8 hcr (by omega), shl64_u64 _ 0 hcc (by omega)]
  norm_num only [Nat.reducePow]
  rw [or_eq_add_of_dvd_of_lt _ (_ * 16777216) 32 (by norm_num; omega) (by norm_num; omega)]
  rw [or_eq_add_of_dvd_of_lt _ (_ * 256) 16 (by norm_num; omega) (by norm_num; omega)]
  rw [or_eq_add_of_dvd_of_lt _ (_ * 1) 8 (by norm_num; omega) (by norm_num; omega)]
  omega

/-- C8: when the type tag and every encoded field lie in `0..255`, two requests have the
same `N_FlowField_ID` exactly when their targets have the same type and agree on all
fields that the encoding of that type uses and on `chunk.r` and `chunk.c`. -/
theorem N_FlowField_ID_eq_iff (tags : target_tags) (chunk chunk2 : Coord)
    (target target2 : field_target) (hd : distinct_tags tags)
    (h1 : id_fields_in_byte tags chunk target) (h2 : id_fields_in_byte tags chunk2 target2) :
    N_FlowField_ID tags chunk target = N_FlowField_ID tags chunk2 target2
      ↔ same_id_fields chunk target chunk2 target2 := by
  obtain ⟨d1, d2, d3⟩ := hd
  have z : (0 : Nat) < 256 := by norm_num
  cases target with
  | TARGET_PORTAL p =>
    obtain ⟨a1, a2, a3, a4, a5, a6, a7⟩ := h1
    rw [N_FlowField_ID_portal tags chunk p a1 a2 a3 a4 a5 a6 a7]
    cases target2 with
    | TARGET_PORTAL q =>
      obtain ⟨b1, b2, b3, b4, b5, b6, b7⟩ := h2
      rw [N_FlowField_ID_portal tags chunk2 q b1 b2 b3 b4 b5 b6 b7]
      simp only [same_id_fields]
      constructor
      · intro h
        have := id_of_bytes_inj h (toNat_lt_of_in_byte a1) z (toNat_lt_of_in_byte a2)
          (toNat_lt_of_in_byte a3) (toNat_lt_of_in_byte a4) (toNat_lt_of_in_byte a5)
          (toNat_lt_of_in_byte a6) (toNat_lt_of_in_byte a7)
          (toNat_lt_of_in_byte b1) z (toNat_lt_of_in_byte b2)
          (toNat_lt_of_in_byte b3) (toNat_lt_of_in_byte b4) (toNat_lt_of_in_byte b5)
          (toNat_lt_of_in_byte b6) (toNat_lt_of_in_byte b7)
        obtain ⟨-, -, q5, q4, q3, q2, q1, q0⟩ := this
        exact ⟨in_byte_toNat_inj a6 b6 q1, in_byte_toNat_inj a7 b7 q0,
          in_byte_toNat_inj a2 b2 q5, in_byte_toNat_inj a3 b3 q4,
          in_byte_toNat_inj a4 b4 q3, in_byte_toNat_inj a5 b5 q2⟩
      · rintro ⟨e1, e2, e3, e4, e5, e6⟩
        rw [e1, e2, e3, e4, e5, e6]
    | TARGET_TILE u =>
      obtain ⟨b1, b2, b3, b4, b5⟩ := h2
      rw [N_FlowField_ID_tile tags chunk2 u b1 b2 b3 b4 b5]
      simp only [same_id_fields, and_false, iff_false]
      intro h
      have := id_of_bytes_inj h (toNat_lt_of_in_byte a1) z (toNat_lt_of_in_byte a2)
        (toNat_lt_of_in_byte a3) (toNat_lt_of_in_byte a4) (toNat_lt_of_in_byte a5)
        (toNat_lt_of_in_byte a6) (toNat_lt_of_in_byte a7)
        (toNat_lt_of_in_byte b1) z z z (toNat_lt_of_in_byte b2) (toNat_lt_of_in_byte b3)
        (toNat_lt_of_in_byte b4) (toNat_lt_of_in_byte b5)
      exact absurd (in_byte_toNat_inj a1 b1 this.1) d1
    | TARGET_ENEMIES g =>
      obtain ⟨b1, b2, b3, b4⟩ := h2
      rw [N_FlowField_ID_enemies tags chunk2 g b1 b2 b3 b4]
      simp only [same_id_fields, and_false, iff_false]
      intro h
      have := id_of_bytes_inj h (toNat_lt_of_in_byte a1) z (toNat_lt_of_in_byte a2)
        (toNat_lt_of_in_byte a3) (toNat_lt_of_in_byte a4) (toNat_lt_of_in_byte a5)
        (toNat_lt_of_in_byte a6) (toNat_lt_of_in_byte a7)
        (toNat_lt_of_in_byte b1) z z z (toNat_lt_of_in_byte b2) z
        (toNat_lt_of_in_byte b3) (toNat_lt_of_in_byte b4)
      exact absurd (in_byte_toNat_inj a1 b1 this.1) d2
  | TARGET_TILE t =>
    obtain ⟨a1, a2, a3, a4, a5⟩ := h1
    rw [N_FlowField_ID_tile tags chunk t a1 a2 a3 a4 a5]
    cases target2 with
    | TARGET_PORTAL q =>
      obtain ⟨b1, b2, b3, b4, b5, b6, b7⟩ := h2
      rw [N_FlowField_ID_portal tags chunk2 q b1 b2 b3 b4 b5 b6 b7]
      simp only [same_id_fields, and_false, iff_false]
      intro h
      have := id_of_bytes_inj h (toNat_lt_of_in_byte a1) z z z (toNat_lt_of_in_byte a2)
        (toNat_lt_of_in_byte a3) (toNat_lt_of_in_byte a4) (toNat_lt_of_in_byte a5)
        (toNat_lt_of_in_byte b1) z (toNat_lt_of_in_byte b2)
        (toNat_lt_of_in_byte b3) (toNat_lt_of_in_byte b4) (toNat_lt_of_in_byte b5)
        (toNat_lt_of_in_byte b6) (toNat_lt_of_in_byte b7)
      exact absurd (in_byte_toNat_inj a1 b1 this.1) (Ne.symm d1)
    | TARGET_TILE u =>
      obtain ⟨b1, b2, b3, b4, b5⟩ := h2
      rw [N_FlowField_ID_tile tags chunk2 u b1 b2 b3 b4 b5]
      simp only [same_id_fields]
      constructor
      · intro h
        have := id_of_bytes_inj h (toNat_lt_of_in_byte a1) z z z (toNat_lt_of_in_byte a2)
          (toNat_lt_of_in_byte a3) (toNat_lt_of_in_byte a4) (toNat_lt_of_in_byte a5)
          (toNat_lt_of_in_byte b1) z z z (toNat_lt_of_in_byte b2) (toNat_lt_of_in_byte b3)
          (toNat_lt_of_in_byte b4) (toNat_lt_of_in_byte b5)
        obtain ⟨-, -, -, -, q3, q2, q1, q0⟩ := this
        exact ⟨in_byte_toNat_inj a4 b4 q1, in_byte_toNat_inj a5 b5 q0,
          in_byte_toNat_inj a2 b2 q3, in_byte_toNat_inj a3 b3 q2⟩
      · rintro ⟨e1, e2, e3, e4⟩
        rw [e1, e2, e3, e4]
    | TARGET_ENEMIES g =>
      obtain ⟨b1, b2, b3, b4⟩ := h2
      rw [N_FlowField_ID_enemies tags chunk2 g b1 b2 b3 b4]
      simp only [same_id_fields, and_false, iff_false]
      intro h
      have := id_of_bytes_inj h (toNat_lt_of_in_byte a1) z z z (toNat_lt_of_in_byte a2)
        (toNat_lt_of_in_byte a3) (toNat_lt_of_in_byte a4) (toNat_lt_of_in_byte a5)
        (toNat_lt_of_in_byte b1) z z z (toNat_lt_of_in_byte b2) z
        (toNat_lt_of_in_byte b3) (toNat_lt_of_in_byte b4)
      exact absurd (in_byte_toNat_inj a1 b1 this.1) d3
  | TARGET_ENEMIES f =>
    obtain ⟨a1, a2, a3, a4⟩ := h1
    rw [N_FlowField_ID_enemies tags chunk f a1 a2 a3 a4]
    cases target2 with
    | TARGET_PORTAL q =>
      obtain ⟨b1, b2, b3, b4, b5, b6, b7⟩ := h2
      rw [N_FlowField_ID_portal tags chunk2 q b1 b2 b3 b4 b5 b6 b7]
      simp only [same_id_fields, and_false, iff_false]
      intro h
      have := id_of_bytes_inj h (toNat_lt_of_in_byte a1) z z z (toNat_lt_of_in_byte a2) z
        (toNat_lt_of_in_byte a3) (toNat_lt_of_in_byte a4)
        (toNat_lt_of_in_byte b1) z (toNat_lt_of_in_byte b2)
        (toNat_lt_of_in_byte b3) (toNat_lt_of_in_byte b4) (toNat_lt_of_in_byte b5)
        (toNat_lt_of_in_byte b6) (toNat_lt_of_in_byte b7)
      exact absurd (in_byte_toNat_inj a1 b1 this.1) (Ne.symm d2)
    | TARGET_TILE u =>
      obtain ⟨b1, b2, b3, b4, b5⟩ := h2
      rw [N_FlowField_ID_tile tags chunk2 u b1 b2 b3 b4 b5]
      simp only [same_id_fields, and_false, iff_false]
      intro h
      have := id_of_bytes_inj h (toNat_lt_of_in_byte a1) z z z (toNat_lt_of_in_byte a2) z
        (toNat_lt_of_in_byte a3) (toNat_lt_of_in_byte a4)
        (toNat_lt_of_in_byte b1) z z z (toNat_lt_of_in_byte b2) (toNat_lt_of_in_byte b3)
        (toNat_lt_of_in_byte b4) (toNat_lt_of_in_byte b5)
      exact absurd (in_byte_toNat_inj a1 b1 this.1) (Ne.symm d3)
    | TARGET_ENEMIES g =>
      obtain ⟨b1, b2, b3, b4⟩ := h2
      rw [N_FlowField_ID_enemies tags chunk2 g b1 b2 b3 b4]
      simp only [same_id_fields]
      constructor
      · intro h
        have := id_of_bytes_inj h (toNat_lt_of_in_byte a1) z z z (toNat_lt_of_in_byte a2) z
          (toNat_lt_of_in_byte a3) (toNat_lt_of_in_byte a4)
          (toNat_lt_of_in_byte b1) z z z (toNat_lt_of_in_byte b2) z
          (toNat_lt_of_in_byte b3) (toNat_lt_of_in_byte b4)
        obtain ⟨-, -, -, -, q3, -, q1, q0⟩ := this
        exact ⟨in_byte_toNat_inj a3 b3 q1, in_byte_toNat_inj a4 b4 q0,
          in_byte_toNat_inj a2 b2 q3⟩
      · rintro ⟨e1, e2, e3⟩
        rw [e1, e2, e3]

/-- C9, counterexample: for the portal with endpoints (1,2) and (3,4) in chunk (5,6) and
the type tag 0 the identifier is `0x0000010203040506`; byte 6 is 0 and not
`endpoints[0].r`, so the layout of the specification does not hold. -/
theorem N_FlowField_ID_portal_layout_spec_fails :
    N_FlowField_ID ⟨0, 1, 2⟩ ⟨5, 6⟩
        (field_target.TARGET_PORTAL ⟨⟨5, 6⟩, ⟨1, 2⟩, ⟨3, 4⟩, ⟨4, 6⟩⟩) = 0x0000010203040506
    ∧ ¬ portal_layout_spec ⟨0, 1, 2⟩ ⟨5, 6⟩ ⟨⟨5, 6⟩, ⟨1, 2⟩, ⟨3, 4⟩, ⟨4, 6⟩⟩ := by
  decide

/-- C9, amended: for a portal target and chunk with all fields in `0..255`,
`N_FlowField_ID` has the type tag in byte 7, zero in byte 6, `endpoints[0].r`,
`endpoints[0].c`, `endpoints[1].r`, `endpoints[1].c` in bytes 5, 4, 3 and 2, and
`chunk.r`, `chunk.c` in bytes 1 and 0. -/
theorem N_FlowField_ID_portal_layout (tags : target_tags) (chunk : Coord) (port : portal)
    (h : id_fields_in_byte tags chunk (field_target.TARGET_PORTAL port)) :
    id_byte (N_FlowField_ID tags chunk (field_target.TARGET_PORTAL port)) 7
      = tags.TARGET_PORTAL.toNat
    ∧ id_byte (N_FlowField_ID tags chunk (field_target.TARGET_PORTAL port)) 6 = 0
    ∧ id_byte (N_FlowField_ID tags chunk (field_target.TARGET_PORTAL port)) 5
      = port.endpoints_0.r.toNat
    ∧ id_byte (N_FlowField_ID tags chunk (field_target.TARGET_PORTAL port)) 4
      = port.endpoints_0.c.toNat
    ∧ id_byte (N_FlowField_ID tags chunk (field_target.TARGET_PORTAL port)) 3
      = port.endpoints_1.r.toNat
    ∧ id_byte (N_FlowField_ID tags chunk (field_target.TARGET_PORTAL port)) 2
      = port.endpoints_1.c.toNat
    ∧ id_byte (N_FlowField_ID tags chunk (field_target.TARGET_PORTAL port)) 1 = chunk.r.toNat
    ∧ id_byte (N_FlowField_ID tags chunk (field_target.TARGET_PORTAL port)) 0
      = chunk.c.toNat := by
  obtain ⟨a1, a2, a3, a4, a5, a6, a7⟩ := h
  rw [N_FlowField_ID_portal tags chunk port a1 a2 a3 a4 a5 a6 a7]
  exact id_byte_id_of_bytes _ _ _ _ _ _ _ _ (toNat_lt_of_in_byte a1) (by norm_num)
    (toNat_lt_of_in_byte a2) (toNat_lt_of_in_byte a3) (toNat_lt_of_in_byte a4)
    (toNat_lt_of_in_byte a5) (toNat_lt_of_in_byte a6) (toNat_lt_of_in_byte a7)

/-- C10: for a chunk and a tile target with all fields in `0..255`, `N_FlowField_ID` is
`tag*2^56 + tile.r*2^24 + tile.c*2^16 + chunk.r*2^8 + chunk.c`, with the tag in byte 7,
`tile.r` in byte 3, `tile.c` in byte 2, `chunk.r` in byte 1, `chunk.c` in byte 0 and
zero in bytes 6, 5 and 4; for an enemies target it is
`tag*2^56 + faction_id*2^24 + chunk.r*2^8 + chunk.c`, with `faction_id` in byte 3 and
zero in bytes 6, 5, 4 and 2.  The lists give the bytes 0, 1, ..., 7 in this order. -/
theorem N_FlowField_ID_tile_enemies_layout (tags : target_tags) (chunk : Coord) :
    (∀ tile : Coord, id_fields_in_byte tags chunk (field_target.TARGET_TILE tile) →
      ((N_FlowField_ID tags chunk (field_target.TARGET_TILE tile) : Nat) : Int)
          = tags.TARGET_TILE * 2 ^ 56 + tile.r * 2 ^ 24 + tile.c * 2 ^ 16
            + chunk.r * 2 ^ 8 + chunk.c
        ∧ (List.range 8).map (id_byte (N_FlowField_ID tags chunk (field_target.TARGET_TILE tile)))
          = [chunk.c.toNat, chunk.r.toNat, tile.c.toNat, tile.r.toNat, 0, 0, 0,
              tags.TARGET_TILE.toNat])
    ∧ (∀ faction_id : Int,
        id_fields_in_byte tags chunk (field_target.TARGET_ENEMIES faction_id) →
        ((N_FlowField_ID tags chunk (field_target.TARGET_ENEMIES faction_id) : Nat) : Int)
            = tags.TARGET_ENEMIES * 2 ^ 56 + faction_id * 2 ^ 24 + chunk.r * 2 ^ 8 + chunk.c
          ∧ (List.range 8).map
              (id_byte (N_FlowField_ID tags chunk (field_target.TARGET_ENEMIES faction_id)))
            = [chunk.c.toNat, chunk.r.toNat, 0, faction_id.toNat, 0, 0, 0,
                tags.TARGET_ENEMIES.toNat]) := by
  constructor
  · rintro tile ⟨a1, a2, a3, a4, a5⟩
    rw [N_FlowField_ID_tile tags chunk tile a1 a2 a3 a4 a5]
    obtain ⟨p7, p6, p5, p4, p3, p2, p1, p0⟩ :=
      id_byte_id_of_bytes tags.TARGET_TILE.toNat 0 0 0 tile.r.toNat tile.c.toNat
        chunk.r.toNat chunk.c.toNat (toNat_lt_of_in_byte a1) (by norm_num) (by norm_num)
        (by norm_num) (toNat_lt_of_in_byte a2) (toNat_lt_of_in_byte a3)
        (toNat_lt_of_in_byte a4) (toNat_lt_of_in_byte a5)
    constructor
    · simp only [id_of_bytes]
      unfold in_byte at *
      norm_num only [Nat.reducePow, Int.reducePow]
      omega
    · simp only [List.range, List.range.loop, List.map, p7, p6, p5, p4, p3, p2, p1, p0]
  · rintro faction_id ⟨a1, a2, a3, a4⟩
    rw [N_FlowField_ID_enemies tags chunk faction_id a1 a2 a3 a4]
    obtain ⟨p7, p6, p5, p4, p3, p2, p1, p0⟩ :=
      id_byte_id_of_bytes tags.TARGET_ENEMIES.toNat 0 0 0 faction_id.toNat 0
        chunk.r.toNat chunk.c.toNat (toNat_lt_of_in_byte a1) (by norm_num) (by norm_num)
        (by norm_num) (toNat_lt_of_in_byte a2) (by norm_num)
        (toNat_lt_of_in_byte a3) (toNat_lt_of_in_byte a4)
    constructor
    · simp only [id_of_bytes]
      unfold in_byte at *
      norm_num only [Nat.reducePow, Int.reducePow]
      omega
    · simp only [List.range, List.range.loop, List.map, p7, p6, p5, p4, p3, p2, p1, p0]

/-! ### The calls return -/

theorem flow_dir_min_cost_eq_chain (R C : Nat) (f : IntegrationField) (x : Coord) :
    flow_dir_min_cost R C f x = min_chain Val.inf (flow_candidates R C f x) := by
  simp only [flow_dir_min_cost, flow_candidates, min_chain, decide_eq_true_eq]

theorem MIN_eq_or (a b : Val) : MIN a b = a ∨ MIN a b = b := by
  unfold MIN; split_ifs
  · left; rfl
  · right; rfl

theorem MIN_le_left (a b : Val) : a.lt (MIN a b) = false := by
  unfold MIN; split_ifs with h
  · exact Val.lt_irrefl a
  · cases a <;> cases b <;> simp_all [Val.lt] <;> omega

theorem MIN_le_right (a b : Val) : b.lt (MIN a b) = false := by
  unfold MIN; split_ifs with h
  · cases a <;> cases b <;> simp_all [Val.lt] <;> omega
  · exact Val.lt_irrefl b

theorem min_chain_le_init (l : List (Bool × Val)) :
    ∀ init : Val, init.lt (min_chain init l) = false := by
  induction l with
  | nil => intro init; exact Val.lt_irrefl init
  | cons e rest ih =>
    intro init
    obtain ⟨g, v⟩ := e
    simp only [min_chain]
    split_ifs
    · exact Val.not_lt_trans (ih _) (MIN_le_left init v)
    · exact ih init

theorem min_chain_le_mem (l : List (Bool × Val)) (v : Val) :
    ∀ init : Val, (true, v) ∈ l → v.lt (min_chain init l) = false := by
  induction l with
  | nil => intro init h; exact absurd h (List.not_mem_nil _)
  | cons e rest ih =>
    intro init h
    obtain ⟨g, w⟩ := e
    simp only [min_chain]
    rcases List.mem_cons.1 h with h1 | h1
    · simp only [Prod.mk.injEq] at h1
      obtain ⟨e1, e2⟩ := h1
      subst e1 e2
      simp only [if_true]
      exact Val.not_lt_trans (min_chain_le_init rest _) (MIN_le_right init v)
    · exact ih _ h1

theorem min_chain_mem (l : List (Bool × Val)) :
    ∀ init : Val, min_chain init l = init ∨ (true, min_chain init l) ∈ l := by
  induction l with
  | nil => intro init; left; rfl
  | cons e rest ih =>
    intro init
    obtain ⟨g, v⟩ := e
    simp only [min_chain]
    cases g with
    | false =>
      simp only [Bool.false_eq_true, if_false]
      rcases ih init with h | h
      · left; exact h
      · right; exact List.mem_cons_of_mem _ h
    | true =>
      simp only [if_true]
      rcases ih (MIN init v) with h | h
      · rcases MIN_eq_or init v with h2 | h2
        · left; rw [h, h2]
        · right; rw [h, h2]; exact List.mem_cons_self _ _
      · right; exact List.mem_cons_of_mem _ h

/-- When `FIELD_RES_C <= FIELD_RES_R` and `min_cost` is finite, `flow_dir` returns a
direction: neither of its assertions fails. -/
theorem flow_dir_isSome (R C : Nat) (f : IntegrationField) (x : Coord) (hRC : C ≤ R)
    (hfin : (flow_dir_min_cost R C f x).lt Val.inf = true) :
    ∃ d, flow_dir R C f x = some d := by
  have hmem : (true, flow_dir_min_cost R C f x) ∈ flow_candidates R C f x := by
    rcases min_chain_mem (flow_candidates R C f x) Val.inf with h | h
    · rw [← flow_dir_min_cost_eq_chain] at h
      rw [h] at hfin
      simp [Val.lt] at hfin
    · rw [← flow_dir_min_cost_eq_chain] at h
      exact h
  simp only [flow_candidates, List.mem_cons, Prod.mk.injEq, List.mem_singleton,
    List.not_mem_nil, or_false, true_eq_decide_iff] at hmem
  simp only [flow_dir, hfin, if_true]
  by_cases c1 : x.r > 0 ∧ f (x.r - 1) x.c = flow_dir_min_cost R C f x
  · exact ⟨FD_N, by rw [if_pos c1]⟩
  rw [if_neg c1]
  by_cases c2 : x.r < (R : Int) - 1 ∧ f (x.r + 1) x.c = flow_dir_min_cost R C f x
  · exact ⟨FD_S, by rw [if_pos c2]⟩
  rw [if_neg c2]
  by_cases c3 : x.c < (C : Int) - 1 ∧ f x.r (x.c + 1) = flow_dir_min_cost R C f x
  · exact ⟨FD_E, by rw [if_pos c3]⟩
  rw [if_neg c3]
  by_cases c4 : x.c > 0 ∧ f x.r (x.c - 1) = flow_dir_min_cost R C f x
  · exact ⟨FD_W, by rw [if_pos c4]⟩
  rw [if_neg c4]
  by_cases c5 : x.r > 0 ∧ x.c > 0 ∧ f (x.r - 1) (x.c - 1) = flow_dir_min_cost R C f x
  · exact ⟨FD_NW, by rw [if_pos c5]⟩
  rw [if_neg c5]
  by_cases c6 : x.r > 0 ∧ x.c < (C : Int) - 1
      ∧ f (x.r - 1) (x.c + 1) = flow_dir_min_cost R C f x
  · exact ⟨FD_NE, by rw [if_pos c6]⟩
  rw [if_neg c6]
  by_cases c7 : x.r < (R : Int) - 1 ∧ x.c > 0
      ∧ f (x.r + 1) (x.c - 1) = flow_dir_min_cost R C f x
  · exact ⟨FD_SW, by rw [if_pos c7]⟩
  rw [if_neg c7]
  by_cases c8 : x.r < (R : Int) - 1 ∧ x.c < (R : Int) - 1
      ∧ f (x.r + 1) (x.c + 1) = flow_dir_min_cost R C f x
  · exact ⟨FD_SE, by rw [if_pos c8]⟩
  exfalso
  rcases hmem with h | h | h | h | h | h | h | h
  · exact c1 ⟨h.1, h.2.symm⟩
  · exact c2 ⟨h.1, h.2.symm⟩
  · exact c4 ⟨h.1, h.2.symm⟩
  · exact c3 ⟨h.1, h.2.symm⟩
  · exact c5 ⟨h.1.1, h.1.2.1, h.2.symm⟩
  · exact c6 ⟨h.1.1, h.1.2.1, h.2.symm⟩
  · exact c7 ⟨h.1.1, h.1.2.1, h.2.symm⟩
  · exact c8 ⟨h.1.1, by have := h.1.2.1; omega, h.2.symm⟩

theorem path_last_step {R C : Nat} {chunk : nav_chunk} :
    ∀ (p : List Coord) (s : Coord), is_path R C chunk s p → p ≠ [] →
      ∃ p0, is_path R C chunk s p0 ∧ cardinal_step (path_end s p0) (path_end s p)
        ∧ (p0 = [] ∨ in_grid R C (path_end s p0)) := by
  intro p
  induction p with
  | nil => intro s _ h; exact absurd rfl h
  | cons y rest ih =>
    intro s hp _
    obtain ⟨hstep, hin, hpass, hrest⟩ := hp
    cases rest with
    | nil => exact ⟨[], trivial, hstep, Or.inl rfl⟩
    | cons y2 rest2 =>
      obtain ⟨p0, hp0, hs0, hg0⟩ := ih y hrest (List.cons_ne_nil _ _)
      refine ⟨y :: p0, ⟨hstep, hin, hpass, hp0⟩, hs0, Or.inr ?_⟩
      rcases hg0 with h | h
      · subst h; exact hin
      · exact h

/-- In a built field every in-grid cell with a finite non-zero value has a finite
cardinal neighbour inside the grid, so `min_cost` of `flow_dir` is finite there. -/
theorem built_min_cost_finite {R C : Nat} {chunk : nav_chunk} {seeds : List Coord}
    {intf : IntegrationField} (hinv : build_inv R C chunk seeds pq_coord_init intf)
    (hgrid : ∀ s ∈ seeds, in_grid R C s) (x : Coord) (hx : in_grid R C x)
    (hfin : intf x.r x.c ≠ Val.inf) (hnz : intf x.r x.c ≠ Val.fin 0) :
    (flow_dir_min_cost R C intf x).lt Val.inf = true := by
  cases hv : intf x.r x.c with
  | inf => exact absurd hv hfin
  | fin v =>
    obtain ⟨s, hs, p, hp, hend, hcost⟩ := hinv.sound x.r x.c v hv
    have hne : p ≠ [] := by
      intro hnil
      subst hnil
      simp only [path_cost, List.map_nil, List.sum_nil] at hcost
      subst hcost
      exact hnz hv
    obtain ⟨p0, hp0, hstep, hg0⟩ := path_last_step p s hp hne
    have hzin : in_grid R C (path_end s p0) := by
      rcases hg0 with h | h
      · subst h; exact hgrid s hs
      · exact h
    obtain ⟨u, hu, -, -⟩ := build_inv_minimum hinv (path_end s p0) (path_cost chunk p0)
      ⟨s, hs, p0, hp0, rfl, rfl⟩
    have hxe : path_end s p = x := hend
    rw [hxe] at hstep
    have hmem : (true, intf (path_end s p0).r (path_end s p0).c)
        ∈ flow_candidates R C intf x := by
      simp only [cardinal_step] at hstep
      simp only [in_grid] at hzin hx
      simp only [flow_candidates, List.mem_cons, Prod.mk.injEq, true_eq_decide_iff]
      rcases hstep with ⟨h1, h2⟩ | ⟨h1, h2⟩ | ⟨h1, h2⟩ | ⟨h1, h2⟩
      · right; left
        have e1 : (path_end s p0).r = x.r + 1 := by omega
        have e2 : (path_end s p0).c = x.c := by omega
        rw [e1, e2]
        exact ⟨by omega, rfl⟩
      · right; right; right; left
        have e1 : (path_end s p0).r = x.r := by omega
        have e2 : (path_end s p0).c = x.c + 1 := by omega
        rw [e1, e2]
        exact ⟨by omega, rfl⟩
      · right; right; left
        have e1 : (path_end s p0).r = x.r := by omega
        have e2 : (path_end s p0).c = x.c - 1 := by omega
        rw [e1, e2]
        exact ⟨by omega, rfl⟩
      · left
        have e1 : (path_end s p0).r = x.r - 1 := by omega
        have e2 : (path_end s p0).c = x.c := by omega
        rw [e1, e2]
        exact ⟨by omega, rfl⟩
    have hle := min_chain_le_mem (flow_candidates R C intf x) _ Val.inf hmem
    rw [← flow_dir_min_cost_eq_chain, hu] at hle
    cases hm : flow_dir_min_cost R C intf x with
    | inf => rw [hm] at hle; simp [Val.lt] at hle
    | fin m => rfl

theorem foldlM_apply_write_isSome (g : Coord → Option (Option dir_idx)) (l : List Coord)
    (hg : ∀ x ∈ l, g x ≠ none) :
    ∀ ff0 : flow_field, ∃ ff, l.foldlM (fun ff x => apply_write ff x (g x)) ff0 = some ff := by
  induction l with
  | nil => intro ff0; exact ⟨ff0, rfl⟩
  | cons x rest ih =>
    intro ff0
    have hx := hg x (List.mem_cons_self _ _)
    have ih2 := ih (fun y hy => hg y (List.mem_cons_of_mem _ hy))
    simp only [List.foldlM, bind, Option.bind]
    cases hgx : g x with
    | none => exact absurd hgx hx
    | some o =>
      cases o with
      | none => simp only [apply_write]; exact ih2 ff0
      | some d => simp only [apply_write]; exact ih2 _

/-- On a built field `build_flow_field` returns when `FIELD_RES_C <= FIELD_RES_R`. -/
theorem build_flow_field_isSome {R C : Nat} {chunk : nav_chunk} {seeds : List Coord}
    {intf : IntegrationField} (hinv : build_inv R C chunk seeds pq_coord_init intf)
    (hgrid : ∀ s ∈ seeds, in_grid R C s) (hRC : C ≤ R) (flow0 : flow_field) :
    ∃ flow, build_flow_field R C intf flow0 = some flow := by
  rw [build_flow_field_eq]
  apply foldlM_apply_write_isSome
  intro x hx
  have hin := (mem_cells R C x).1 hx
  unfold flow_write
  split_ifs with h1 h2
  · simp
  · simp
  · obtain ⟨d, hd⟩ := flow_dir_isSome R C intf x hRC
      (built_min_cost_finite hinv hgrid x hin h1 h2)
    rw [hd]; simp

theorem fixup_portal_edges_isSome (R C : Nat) (intf : IntegrationField) (flow0 : flow_field)
    (port : portal)
    (haxis : (port.connected_chunk.r ≠ port.chunk.r ∧ port.connected_chunk.c = port.chunk.c)
      ∨ (port.connected_chunk.r = port.chunk.r ∧ port.connected_chunk.c ≠ port.chunk.c)) :
    ∃ flow, fixup_portal_edges R C intf flow0 port = some flow := by
  unfold fixup_portal_edges
  have hx : Bool.xor (Bool.xor (Bool.xor (decide (port.connected_chunk.r < port.chunk.r))
      (decide (port.connected_chunk.r > port.chunk.r)))
      (decide (port.connected_chunk.c < port.chunk.c)))
      (decide (port.connected_chunk.c > port.chunk.c)) = true := by
    rcases haxis with ⟨h1, h2⟩ | ⟨h1, h2⟩
    · rcases lt_or_gt_of_ne h1 with h3 | h3
      · have e1 : decide (port.connected_chunk.r < port.chunk.r) = true := by simp; omega
        have e2 : decide (port.connected_chunk.r > port.chunk.r) = false := by simp; omega
        have e3 : decide (port.connected_chunk.c < port.chunk.c) = false := by simp; omega
        have e4 : decide (port.connected_chunk.c > port.chunk.c) = false := by simp; omega
        rw [e1, e2, e3, e4]; rfl
      · have e1 : decide (port.connected_chunk.r < port.chunk.r) = false := by simp; omega
        have e2 : decide (port.connected_chunk.r > port.chunk.r) = true := by simp; omega
        have e3 : decide (port.connected_chunk.c < port.chunk.c) = false := by simp; omega
        have e4 : decide (port.connected_chunk.c > port.chunk.c) = false := by simp; omega
        rw [e1, e2, e3, e4]; rfl
    · rcases lt_or_gt_of_ne h2 with h3 | h3
      · have e1 : decide (port.connected_chunk.r < port.chunk.r) = false := by simp; omega
        have e2 : decide (port.connected_chunk.r > port.chunk.r) = false := by simp; omega
        have e3 : decide (port.connected_chunk.c < port.chunk.c) = true := by simp; omega
        have e4 : decide (port.connected_chunk.c > port.chunk.c) = false := by simp; omega
        rw [e1, e2, e3, e4]; rfl
      · have e1 : decide (port.connected_chunk.r < port.chunk.r) = false := by simp; omega
        have e2 : decide (port.connected_chunk.r > port.chunk.r) = false := by simp; omega
        have e3 : decide (port.connected_chunk.c < port.chunk.c) = false := by simp; omega
        have e4 : decide (port.connected_chunk.c > port.chunk.c) = true := by simp; omega
        rw [e1, e2, e3, e4]; rfl
  simp only [hx, if_true]
  have heq : (cells R C).foldlM (fixup_portal_cell intf
        (decide (port.connected_chunk.r < port.chunk.r))
        (decide (port.connected_chunk.r > port.chunk.r))
        (decide (port.connected_chunk.c < port.chunk.c))
        (decide (port.connected_chunk.c > port.chunk.c))) flow0
      = (cells R C).foldlM (fun ff x => apply_write ff x (fixup_write intf
        (decide (port.connected_chunk.r < port.chunk.r))
        (decide (port.connected_chunk.r > port.chunk.r))
        (decide (port.connected_chunk.c < port.chunk.c))
        (decide (port.connected_chunk.c > port.chunk.c)) x)) flow0 := by
    congr 1
    funext ff x
    exact fixup_portal_cell_eq intf _ _ _ _ ff x
  rw [heq]
  apply foldlM_apply_write_isSome
  intro x _
  unfold fixup_write
  split_ifs with h0 h1 h2 h3 h4
  · simp
  · simp
  · simp
  · simp
  · exfalso
    simp only [Bool.not_eq_true] at h1 h2 h3 h4
    rw [h1, h2, h3, h4] at hx
    simp at hx
  · simp

/-- The call returns: when `FIELD_RES_C <= FIELD_RES_R`, the target resolves to a
non-empty set of seeds inside the grid, and the connected chunk of a portal target
differs from the portal's chunk in exactly one axis, `N_FlowFieldUpdate` returns for
every amount of fuel from some amount on, with the same result. -/
theorem N_FlowFieldUpdate_returns (R C : Nat) (tie : Nat → Nat) (world : game_hooks)
    (chunk : nav_chunk) (target : field_target) (flow0 : flow_field) (seeds : List Coord)
    (hRC : C ≤ R) (hseeds : target_seeds R C world target = some seeds) (hne : seeds ≠ [])
    (hgrid : ∀ s ∈ seeds, in_grid R C s)
    (haxis : ∀ port, target = field_target.TARGET_PORTAL port →
      (port.connected_chunk.r ≠ port.chunk.r ∧ port.connected_chunk.c = port.chunk.c)
      ∨ (port.connected_chunk.r = port.chunk.r ∧ port.connected_chunk.c ≠ port.chunk.c)) :
    ∃ intf flow fuel0, ∀ fuel, fuel0 ≤ fuel →
      N_FlowFieldUpdate R C fuel tie world chunk target flow0 = some (intf, flow) := by
  have hst : seed_target R C world target
      = some (seeds.foldl seed_cell (pq_coord_init, fun _ _ => Val.inf)) := by
    rw [seed_target_eq, hseeds]; rfl
  obtain ⟨h1, h2⟩ := foldl_seed_cell seeds (pq_coord_init, fun _ _ => Val.inf)
  simp only [pq_coord_init, List.nil_append] at h1
  have hsz : pq_size (seeds.foldl seed_cell (pq_coord_init, fun _ _ => Val.inf)).1 > 0 := by
    simp only [pq_size, pq_coord_init, h1, List.length_map, gt_iff_lt]
    exact List.length_pos.2 hne
  obtain ⟨intf, fuel0, hrun, hinv⟩ := build_integration_field_correct R C chunk seeds
    (seeds.foldl seed_cell (pq_coord_init, fun _ _ => Val.inf)).1
    (seeds.foldl seed_cell (pq_coord_init, fun _ _ => Val.inf)).2 tie h2
    (by
      intro s hs
      simp only [pq_coord_init]
      rw [h1]
      exact List.mem_map.2 ⟨s, hs, rfl⟩)
  obtain ⟨flow1, hflow1⟩ := build_flow_field_isSome hinv hgrid hRC flow0
  cases target with
  | TARGET_PORTAL port =>
    obtain ⟨flow2, hflow2⟩ := fixup_portal_edges_isSome R C intf flow1 port (haxis port rfl)
    refine ⟨intf, flow2, fuel0, ?_⟩
    intro fuel hfuel
    unfold N_FlowFieldUpdate
    rw [hst]
    simp only [hsz, if_true, hrun fuel hfuel, hflow1, hflow2]
  | TARGET_TILE tile =>
    refine ⟨intf, flow1, fuel0, ?_⟩
    intro fuel hfuel
    unfold N_FlowFieldUpdate
    rw [hst]
    simp only [hsz, if_true, hrun fuel hfuel, hflow1]
  | TARGET_ENEMIES faction_id =>
    refine ⟨intf, flow1, fuel0, ?_⟩
    intro fuel hfuel
    unfold N_FlowFieldUpdate
    rw [hst]
    simp only [hsz, if_true, hrun fuel hfuel, hflow1]

/-! ### The queue pops a minimum -/

theorem foldl_MIN_le (l : List (Val × Coord)) :
    ∀ init : Val, init.lt (l.foldl (fun m x => MIN m x.1) init) = false
      ∧ ∀ e ∈ l, e.1.lt (l.foldl (fun m x => MIN m x.1) init) = false := by
  induction l with
  | nil => intro init; exact ⟨Val.lt_irrefl init, fun e he => absurd he (List.not_mem_nil e)⟩
  | cons y rest ih =>
    intro init
    obtain ⟨h1, h2⟩ := ih (MIN init y.1)
    refine ⟨Val.not_lt_trans h1 (MIN_le_left init y.1), ?_⟩
    intro e he
    rcases List.mem_cons.1 he with h | h
    · subst h; exact Val.not_lt_trans h1 (MIN_le_right init e.1)
    · exact h2 e h

theorem foldl_MIN_mem (l : List (Val × Coord)) :
    ∀ init : Val, l.foldl (fun m x => MIN m x.1) init = init
      ∨ ∃ e ∈ l, e.1 = l.foldl (fun m x => MIN m x.1) init := by
  induction l with
  | nil => intro init; left; rfl
  | cons y rest ih =>
    intro init
    rcases ih (MIN init y.1) with h | ⟨e, he, h⟩
    · rcases MIN_eq_or init y.1 with h2 | h2
      · left; rw [List.foldl_cons, h, h2]
      · right; exact ⟨y, List.mem_cons_self _ _, by rw [List.foldl_cons, h, h2]⟩
    · right; exact ⟨e, List.mem_cons_of_mem _ he, h⟩

/-- The entry removed by `pq_coord_pop` has a minimum key. -/
theorem pq_coord_pop_min {tie : Nat} {pq : pq_coord} {x : Coord} {pq2 : pq_coord}
    (h : pq_coord_pop tie pq = some (x, pq2)) :
    ∃ e ∈ pq.nodes, e.2 = x ∧ pq2.nodes = pq.nodes.erase e
      ∧ ∀ e2 ∈ pq.nodes, e2.1.lt e.1 = false := by
  unfold pq_coord_pop at h
  split at h
  · simp at h
  · rename_i e rest heq
    simp only [Option.some.injEq, Prod.mk.injEq] at h
    obtain ⟨h1, h2⟩ := h
    have hle := foldl_MIN_le rest e.1
    have hcand : (List.filter
        (fun x => decide (x.1 = List.foldl (fun m x => MIN m x.1) e.1 rest)) (e :: rest)) ≠ [] := by
      rcases foldl_MIN_mem rest e.1 with hm | ⟨e3, he3, hm⟩
      · exact List.ne_nil_of_mem
          (List.mem_filter.2 ⟨List.mem_cons_self e rest, by simp [hm]⟩)
      · exact List.ne_nil_of_mem
          (List.mem_filter.2 ⟨List.mem_cons_of_mem e he3, by simp [hm]⟩)
    have hlen := List.length_pos.2 hcand
    have hidx := Nat.mod_lt tie hlen
    have hsel : (List.filter
        (fun x => decide (x.1 = List.foldl (fun m x => MIN m x.1) e.1 rest)) (e :: rest)).getD
        (tie % (List.filter
          (fun x => decide (x.1 = List.foldl (fun m x => MIN m x.1) e.1 rest))
            (e :: rest)).length) e
        ∈ List.filter
          (fun x => decide (x.1 = List.foldl (fun m x => MIN m x.1) e.1 rest)) (e :: rest) := by
      rw [List.getD_eq_getElem?_getD, List.getElem?_eq_getElem hidx]
      exact List.getElem_mem _
    obtain ⟨hs1, hs2⟩ := List.mem_filter.1 hsel
    simp only [decide_eq_true_eq] at hs2
    refine ⟨_, by rw [heq]; exact hs1, h1, by rw [← h2, heq], ?_⟩
    intro e2 he2
    rw [hs2]
    rw [heq] at he2
    rcases List.mem_cons.1 he2 with h3 | h3
    · rw [h3]; exact hle.1
    · exact hle.2 e2 h3

/-! ### Claims on `N_FlowFieldUpdate` -/

/-- C5: after `N_FlowFieldUpdate` for a tile or enemies target every cell whose
integration is 0, the target tile among them, has `dir_idx == FD_NONE`, whatever the
flow field held there before the call.  The second part states that the call does
return when `FIELD_RES_C <= FIELD_RES_R` and the target has seeds, all inside the grid. -/
theorem N_FlowFieldUpdate_goal_none (R C : Nat) (tie : Nat → Nat) (world : game_hooks)
    (chunk : nav_chunk) (target : field_target) (flow0 : flow_field)
    (htarget : ∀ port, target ≠ field_target.TARGET_PORTAL port) :
    (∀ (fuel : Nat) (intf : IntegrationField) (flow : flow_field),
      N_FlowFieldUpdate R C fuel tie world chunk target flow0 = some (intf, flow) →
        (∀ r c : Int, in_grid R C ⟨r, c⟩ → intf r c = Val.fin 0 → flow.field r c = FD_NONE)
        ∧ ∀ tile, target = field_target.TARGET_TILE tile → in_grid R C tile →
            intf tile.r tile.c = Val.fin 0 ∧ flow.field tile.r tile.c = FD_NONE)
    ∧ (C ≤ R → ∀ seeds, target_seeds R C world target = some seeds → seeds ≠ [] →
        (∀ s ∈ seeds, in_grid R C s) →
        ∃ intf flow fuel0, ∀ fuel, fuel0 ≤ fuel →
          N_FlowFieldUpdate R C fuel tie world chunk target flow0 = some (intf, flow)) := by
  constructor
  · intro fuel intf flow h
    obtain ⟨frontier, f0, flow1, -, -, -, hf, -, hnp⟩ := N_FlowFieldUpdate_some h
    have hzero : ∀ r c : Int, in_grid R C ⟨r, c⟩ → intf r c = Val.fin 0 →
        flow.field r c = FD_NONE := by
      rw [hnp htarget]
      intro r c hin h0
      rcases ((build_flow_field_spec hf).2 r c).1 hin with ⟨h1, -⟩ | ⟨-, h1⟩ | ⟨-, h1, -⟩
      · rw [h0] at h1; exact Val.noConfusion h1
      · exact h1
      · exact absurd h0 h1
    refine ⟨hzero, ?_⟩
    intro tile ht hin
    obtain ⟨seeds, hts, -, hinv⟩ := N_FlowFieldUpdate_inv h
    subst ht
    simp only [target_seeds, Option.some.injEq] at hts
    have h0 : intf tile.r tile.c = Val.fin 0 :=
      hinv.seed_zero tile (by rw [← hts]; exact List.mem_cons_self _ _)
    exact ⟨h0, hzero tile.r tile.c hin h0⟩
  · intro hRC seeds hs hne hgrid
    exact N_FlowFieldUpdate_returns R C tie world chunk target flow0 seeds hRC hs hne hgrid
      (fun port hp => absurd hp (htarget port))

/-- C6: after `N_FlowFieldUpdate`, portal fixup included, every cell whose integration is
`INFINITY` has the `dir_idx` it had before the call, and the chunk coordinate of the
flow field is unchanged.  The second part states that the call does return when
`FIELD_RES_C <= FIELD_RES_R`, the target has seeds, all inside the grid, and the
connected chunk of a portal target differs from the portal's chunk in one axis. -/
theorem N_FlowFieldUpdate_unreachable_untouched (R C : Nat) (tie : Nat → Nat)
    (world : game_hooks) (chunk : nav_chunk) (target : field_target) (flow0 : flow_field) :
    (∀ (fuel : Nat) (intf : IntegrationField) (flow : flow_field),
      N_FlowFieldUpdate R C fuel tie world chunk target flow0 = some (intf, flow) →
        (∀ r c : Int, intf r c = Val.inf → flow.field r c = flow0.field r c)
        ∧ flow.chunk = flow0.chunk)
    ∧ (C ≤ R → ∀ seeds, target_seeds R C world target = some seeds → seeds ≠ [] →
        (∀ s ∈ seeds, in_grid R C s) →
        (∀ port, target = field_target.TARGET_PORTAL port →
          (port.connected_chunk.r ≠ port.chunk.r ∧ port.connected_chunk.c = port.chunk.c)
          ∨ (port.connected_chunk.r = port.chunk.r ∧ port.connected_chunk.c ≠ port.chunk.c)) →
        ∃ intf flow fuel0, ∀ fuel, fuel0 ≤ fuel →
          N_FlowFieldUpdate R C fuel tie world chunk target flow0 = some (intf, flow)) := by
  constructor
  · intro fuel intf flow h
    obtain ⟨frontier, f0, flow1, -, -, -, hf, hp, hnp⟩ := N_FlowFieldUpdate_some h
    obtain ⟨hc1, hf1⟩ := build_flow_field_spec hf
    have h1 : ∀ r c : Int, intf r c = Val.inf → flow1.field r c = flow0.field r c := by
      intro r c hinf
      by_cases hin : in_grid R C ⟨r, c⟩
      · rcases (hf1 r c).1 hin with ⟨-, h2⟩ | ⟨h2, -⟩ | ⟨h2, -, -⟩
        · exact h2
        · rw [hinf] at h2; exact Val.noConfusion h2
        · exact absurd hinf h2
      · exact (hf1 r c).2 hin
    cases target with
    | TARGET_PORTAL port =>
      obtain ⟨hc2, hf2⟩ := fixup_portal_edges_spec (hp port rfl)
      refine ⟨?_, by rw [hc2, hc1]⟩
      intro r c hinf
      rw [(hf2 r c).2 (fun hh => by rw [hinf] at hh; exact Val.noConfusion hh.2)]
      exact h1 r c hinf
    | TARGET_TILE tile =>
      rw [hnp (fun _ hh => by simp at hh)]
      exact ⟨h1, hc1⟩
    | TARGET_ENEMIES faction_id =>
      rw [hnp (fun _ hh => by simp at hh)]
      exact ⟨h1, hc1⟩
  · intro hRC seeds hs hne hgrid haxis
    exact N_FlowFieldUpdate_returns R C tie world chunk target flow0 seeds hRC hs hne hgrid
      haxis

/-- C7: for a chunk with `cost_base >= 1` and a portal target whose band
`endpoints[0]..endpoints[1]` is a rectangle inside the grid and whose connected chunk
differs from the portal's chunk in exactly one axis, after `N_FlowFieldUpdate` the cells
of integration 0, which are the cells the fixup overwrites, are exactly the cells of the
band; every band cell holds the cardinal direction toward the connected chunk; and
every reachable cell outside the band holds the direction computed by `flow_dir`.  The
second part states that the call does return when `FIELD_RES_C <= FIELD_RES_R`. -/
theorem N_FlowFieldUpdate_portal_fixup (R C : Nat) (tie : Nat → Nat)
    (world : game_hooks) (chunk : nav_chunk) (port : portal) (flow0 : flow_field)
    (hcost : positive_costs R C chunk)
    (hle : port.endpoints_0.r ≤ port.endpoints_1.r ∧ port.endpoints_0.c ≤ port.endpoints_1.c)
    (hin0 : in_grid R C port.endpoints_0) (hin1 : in_grid R C port.endpoints_1)
    (haxis : (port.connected_chunk.r ≠ port.chunk.r ∧ port.connected_chunk.c = port.chunk.c)
      ∨ (port.connected_chunk.r = port.chunk.r ∧ port.connected_chunk.c ≠ port.chunk.c)) :
    (∀ (fuel : Nat) (intf : IntegrationField) (flow : flow_field),
      N_FlowFieldUpdate R C fuel tie world chunk (field_target.TARGET_PORTAL port) flow0
          = some (intf, flow) →
        (∀ x : Coord, intf x.r x.c = Val.fin 0 ↔ x ∈ portal_band port)
        ∧ (∀ x ∈ portal_band port,
            (port.connected_chunk.r < port.chunk.r → flow.field x.r x.c = FD_N)
            ∧ (port.connected_chunk.r > port.chunk.r → flow.field x.r x.c = FD_S)
            ∧ (port.connected_chunk.c < port.chunk.c → flow.field x.r x.c = FD_W)
            ∧ (port.connected_chunk.c > port.chunk.c → flow.field x.r x.c = FD_E))
        ∧ (∀ x : Coord, in_grid R C x → x ∉ portal_band port → intf x.r x.c ≠ Val.inf →
            flow_dir R C intf x = some (flow.field x.r x.c)))
    ∧ (C ≤ R → ∃ intf flow fuel0, ∀ fuel, fuel0 ≤ fuel →
        N_FlowFieldUpdate R C fuel tie world chunk (field_target.TARGET_PORTAL port) flow0
          = some (intf, flow)) := by
  have hband_grid : ∀ x ∈ portal_band port, in_grid R C x := by
    intro x hx
    obtain ⟨⟨h1, h2⟩, h3, h4⟩ := (mem_portal_band port x).1 hx
    simp only [in_grid] at hin0 hin1 ⊢
    omega
  constructor
  · intro fuel intf flow h
    obtain ⟨seeds, hts, -, hinv⟩ := N_FlowFieldUpdate_inv h
    simp only [target_seeds, Option.some.injEq] at hts
    subst hts
    obtain ⟨frontier, f0, flow1, -, -, -, hf, hp, -⟩ := N_FlowFieldUpdate_some h
    obtain ⟨-, hf1⟩ := build_flow_field_spec hf
    obtain ⟨-, hf2⟩ := fixup_portal_edges_spec (hp port rfl)
    have hzero : ∀ x : Coord, intf x.r x.c = Val.fin 0 ↔ x ∈ portal_band port :=
      fun x => build_inv_zero_iff hcost hinv x
    refine ⟨hzero, ?_, ?_⟩
    · intro x hx
      have hdir := (hf2 x.r x.c).1 (hband_grid x hx) ((hzero x).2 hx)
      rw [hdir]
      simp only [portal_dir]
      refine ⟨?_, ?_, ?_, ?_⟩
      · intro hlt; rw [if_pos hlt]
      · intro hgt; rw [if_neg (by omega), if_pos hgt]
      · intro hlt; rw [if_neg (by omega), if_neg (by omega), if_pos hlt]
      · intro hgt; rw [if_neg (by omega), if_neg (by omega), if_neg (by omega)]
    · intro x hin hnb hfin
      have hnz : intf x.r x.c ≠ Val.fin 0 := fun h0 => hnb ((hzero x).1 h0)
      rw [(hf2 x.r x.c).2 (fun hh => hnz hh.2)]
      rcases (hf1 x.r x.c).1 hin with ⟨h1, -⟩ | ⟨h1, -⟩ | ⟨-, -, h1⟩
      · exact absurd h1 hfin
      · exact absurd h1 hnz
      · exact h1
  · intro hRC
    have hmem : port.endpoints_0 ∈ portal_band port :=
      (mem_portal_band port port.endpoints_0).2 ⟨⟨le_refl _, hle.1⟩, le_refl _, hle.2⟩
    exact N_FlowFieldUpdate_returns R C tie world chunk (field_target.TARGET_PORTAL port)
      flow0 (portal_band port) hRC rfl (List.ne_nil_of_mem hmem) hband_grid
      (fun q hq => by
        simp only [field_target.TARGET_PORTAL.injEq] at hq
        subst hq
        exact haxis)

/-! ### Concrete runs -/

theorem exists_eq_some_of_isSome {α : Type} (o : Option α) (h : o.isSome = true) :
    ∃ a, o = some a := by
  cases o with
  | none => exact absurd h (by simp)
  | some a => exact ⟨a, rfl⟩

theorem valid_costs_flat_chunk (R C : Nat) : valid_costs R C flat_chunk :=
  fun _ _ _ _ _ _ => ⟨Nat.le_refl 1, (by decide : (1 : Nat) ≤ 255)⟩

theorem positive_costs_flat_chunk (R C : Nat) : positive_costs R C flat_chunk :=
  fun _ _ _ _ _ _ => Nat.le_refl 1

/-- C1, witness: a flat 2x2 chunk with the seed (0,0). -/
theorem build_integration_field_min_cost_witness :
    ∃ out fuel0,
      (∀ fuel, fuel0 ≤ fuel →
        build_integration_field 2 2 fuel (fun _ => 0) (seeded_frontier [⟨0, 0⟩]) flat_chunk
          (seeded_field [⟨0, 0⟩]) = some out)
      ∧ ∀ x : Coord, (∃ w, reach 2 2 flat_chunk [⟨0, 0⟩] x w) →
          ∃ v, out x.r x.c = Val.fin v ∧ reach 2 2 flat_chunk [⟨0, 0⟩] x v
            ∧ ∀ w, reach 2 2 flat_chunk [⟨0, 0⟩] x w → v ≤ w :=
  build_integration_field_min_cost 2 2 flat_chunk [⟨0, 0⟩] (seeded_frontier [⟨0, 0⟩])
    (seeded_field [⟨0, 0⟩]) (fun _ => 0) (valid_costs_flat_chunk 2 2) (by decide)
    (by decide) (fun _ _ => rfl) (by decide)

/-- C2, witness: a flat 2x2 chunk with the seed (0,0). -/
theorem build_integration_field_inf_iff_witness :
    ∃ out fuel0,
      (∀ fuel, fuel0 ≤ fuel →
        build_integration_field 2 2 fuel (fun _ => 0) (seeded_frontier [⟨0, 0⟩]) flat_chunk
          (seeded_field [⟨0, 0⟩]) = some out)
      ∧ ∀ x : Coord, out x.r x.c = Val.inf ↔
          (x ∉ [(⟨0, 0⟩ : Coord)] ∧ ¬ ∃ s ∈ [(⟨0, 0⟩ : Coord)], ∃ p, p ≠ []
            ∧ is_path 2 2 flat_chunk s p ∧ path_end s p = x) :=
  build_integration_field_inf_iff 2 2 flat_chunk [⟨0, 0⟩] (seeded_frontier [⟨0, 0⟩])
    (seeded_field [⟨0, 0⟩]) (fun _ => 0) (valid_costs_flat_chunk 2 2) (by decide)
    (by decide) (fun _ _ => rfl) (by decide)

/-- C3, failing input: on the 8x8 chunk with unit costs whose cells (0,0) and (1,2) are
impassable and the tile target (1,3), `N_FlowFieldUpdate` returns; the cell (1,0) has
integration 5 and `dir_idx == FD_NE`, the diagonal neighbour (0,1) has integration 3,
and the cardinal cell (0,0) north of (1,0) has integration `INFINITY`. -/
theorem N_FlowFieldUpdate_cuts_corner :
    (N_FlowFieldUpdate 8 8 100 (fun _ => 0) no_ents two_walls_chunk
        (field_target.TARGET_TILE ⟨1, 3⟩) (N_FlowFieldInit ⟨0, 0⟩)).map
      (fun p => (p.1 1 0, p.2.field 1 0, p.1 0 1, p.1 0 0, p.1 1 1))
      = some (Val.fin 5, FD_NE, Val.fin 3, Val.inf, Val.fin 4) := by
  decide

/-- C4, witness: at the cell (1,1) of `tie_field` the north and the north-west
neighbours both attain `min_cost`, and `flow_dir` returns the first cardinal one. -/
theorem flow_dir_cardinal_preference_witness :
    in_grid 3 3 ⟨1, 1⟩
    ∧ (flow_dir_min_cost 3 3 tie_field ⟨1, 1⟩).lt Val.inf = true
    ∧ attains_min_cost 3 3 tie_field ⟨1, 1⟩ FD_N
    ∧ attains_min_cost 3 3 tie_field ⟨1, 1⟩ FD_NW
    ∧ ∃ d ∈ [FD_N, FD_S, FD_E, FD_W],
        flow_dir 3 3 tie_field ⟨1, 1⟩ = some d ∧ first_cardinal 3 3 tie_field ⟨1, 1⟩ = some d :=
  ⟨by decide, by decide, by decide, by decide,
    (flow_dir_cardinal_preference 3 3 tie_field ⟨1, 1⟩ (by decide) (by decide)).1
      ⟨FD_N, by decide, by decide⟩⟩

/-- C5, witness: on a flat 3x3 chunk with the tile target (1,1) and a flow field that
held `FD_S` everywhere, the target cell has integration 0 and ends with `FD_NONE`. -/
theorem N_FlowFieldUpdate_goal_none_witness :
    ∃ intf flow,
      N_FlowFieldUpdate 3 3 20 (fun _ => 0) no_ents flat_chunk
        (field_target.TARGET_TILE ⟨1, 1⟩) south_flow = some (intf, flow)
      ∧ intf 1 1 = Val.fin 0 ∧ south_flow.field 1 1 = FD_S ∧ flow.field 1 1 = FD_NONE := by
  obtain ⟨p, hp⟩ := exists_eq_some_of_isSome
    (N_FlowFieldUpdate 3 3 20 (fun _ => 0) no_ents flat_chunk
      (field_target.TARGET_TILE ⟨1, 1⟩) south_flow) (by decide)
  have h0 : (N_FlowFieldUpdate 3 3 20 (fun _ => 0) no_ents flat_chunk
      (field_target.TARGET_TILE ⟨1, 1⟩) south_flow).map (fun p => p.1 1 1)
      = some (Val.fin 0) := by decide
  rw [hp] at h0
  simp only [Option.map, Option.some.injEq] at h0
  exact ⟨p.1, p.2, hp, h0, rfl,
    ((N_FlowFieldUpdate_goal_none 3 3 (fun _ => 0) no_ents flat_chunk
      (field_target.TARGET_TILE ⟨1, 1⟩) south_flow (fun _ h => by cases h)).1
        20 p.1 p.2 hp).1 1 1 (by decide) h0⟩

/-- C6, witness: on the 3x3 chunk whose cells (0,0) and (1,2) are impassable, with the
tile target (1,1), the cell (0,0) has integration `INFINITY` and keeps the `FD_S` it
held before the call, and the chunk coordinate (7,7) is kept. -/
theorem N_FlowFieldUpdate_unreachable_untouched_witness :
    ∃ intf flow,
      N_FlowFieldUpdate 3 3 20 (fun _ => 0) no_ents two_walls_chunk
        (field_target.TARGET_TILE ⟨1, 1⟩) south_flow = some (intf, flow)
      ∧ intf 0 0 = Val.inf ∧ flow.field 0 0 = FD_S ∧ flow.chunk = ⟨7, 7⟩ := by
  obtain ⟨p, hp⟩ := exists_eq_some_of_isSome
    (N_FlowFieldUpdate 3 3 20 (fun _ => 0) no_ents two_walls_chunk
      (field_target.TARGET_TILE ⟨1, 1⟩) south_flow) (by decide)
  have h0 : (N_FlowFieldUpdate 3 3 20 (fun _ => 0) no_ents two_walls_chunk
      (field_target.TARGET_TILE ⟨1, 1⟩) south_flow).map (fun p => p.1 0 0)
      = some Val.inf := by decide
  rw [hp] at h0
  simp only [Option.map, Option.some.injEq] at h0
  have h1 := (N_FlowFieldUpdate_unreachable_untouched 3 3 (fun _ => 0) no_ents
    two_walls_chunk (field_target.TARGET_TILE ⟨1, 1⟩) south_flow).1 20 p.1 p.2 hp
  exact ⟨p.1, p.2, hp, h0, h1.1 0 0 h0, h1.2⟩

/-- C7, witness: on a flat 8x8 chunk with the portal band (0,2)..(0,5) and the connected
chunk above, the band cells hold `FD_N` after the call, and so does the cell (3,3). -/
theorem N_FlowFieldUpdate_portal_fixup_witness :
    ∃ intf flow,
      N_FlowFieldUpdate 8 8 100 (fun _ => 0) no_ents flat_chunk
        (field_target.TARGET_PORTAL top_portal) (N_FlowFieldInit ⟨1, 0⟩) = some (intf, flow)
      ∧ flow.field 0 2 = FD_N ∧ flow.field 0 3 = FD_N ∧ flow.field 0 4 = FD_N
      ∧ flow.field 0 5 = FD_N ∧ flow.field 3 3 = FD_N
      ∧ flow_dir 8 8 intf ⟨3, 3⟩ = some FD_N := by
  obtain ⟨p, hp⟩ := exists_eq_some_of_isSome
    (N_FlowFieldUpdate 8 8 100 (fun _ => 0) no_ents flat_chunk
      (field_target.TARGET_PORTAL top_portal) (N_FlowFieldInit ⟨1, 0⟩)) (by decide)
  have h0 : (N_FlowFieldUpdate 8 8 100 (fun _ => 0) no_ents flat_chunk
      (field_target.TARGET_PORTAL top_portal) (N_FlowFieldInit ⟨1, 0⟩)).map
      (fun p => (p.2.field 3 3, p.1 3 3)) = some (FD_N, Val.fin 3) := by decide
  rw [hp] at h0
  simp only [Option.map, Option.some.injEq, Prod.mk.injEq] at h0
  obtain ⟨-, hband, hout⟩ := (N_FlowFieldUpdate_portal_fixup 8 8 (fun _ => 0) no_ents
    flat_chunk top_portal (N_FlowFieldInit ⟨1, 0⟩) (positive_costs_flat_chunk 8 8)
    (by decide) (by decide) (by decide) (by decide)).1 100 p.1 p.2 hp
  have h33 := hout ⟨3, 3⟩ (by decide) (by decide) (by rw [h0.2]; exact Val.noConfusion)
  rw [h0.1] at h33
  exact ⟨p.1, p.2, hp, (hband ⟨0, 2⟩ (by decide)).1 (by decide),
    (hband ⟨0, 3⟩ (by decide)).1 (by decide), (hband ⟨0, 4⟩ (by decide)).1 (by decide),
    (hband ⟨0, 5⟩ (by decide)).1 (by decide), h0.1, h33⟩

/-- C8, witness: a tile request and an enemies request that agree on every byte below
the type tag have different identifiers, and a request has the identifier of itself. -/
theorem N_FlowField_ID_eq_iff_witness :
    (N_FlowField_ID tags_012 ⟨5, 6⟩ (field_target.TARGET_TILE ⟨3, 0⟩)
        = N_FlowField_ID tags_012 ⟨5, 6⟩ (field_target.TARGET_ENEMIES 3)
      ↔ same_id_fields ⟨5, 6⟩ (field_target.TARGET_TILE ⟨3, 0⟩) ⟨5, 6⟩
          (field_target.TARGET_ENEMIES 3))
    ∧ ¬ same_id_fields ⟨5, 6⟩ (field_target.TARGET_TILE ⟨3, 0⟩) ⟨5, 6⟩
          (field_target.TARGET_ENEMIES 3)
    ∧ (N_FlowField_ID tags_012 ⟨5, 6⟩ (field_target.TARGET_TILE ⟨3, 0⟩)
        = N_FlowField_ID tags_012 ⟨5, 6⟩ (field_target.TARGET_TILE ⟨3, 0⟩)
      ↔ same_id_fields ⟨5, 6⟩ (field_target.TARGET_TILE ⟨3, 0⟩) ⟨5, 6⟩
          (field_target.TARGET_TILE ⟨3, 0⟩)) :=
  ⟨N_FlowField_ID_eq_iff tags_012 ⟨5, 6⟩ ⟨5, 6⟩ (field_target.TARGET_TILE ⟨3, 0⟩)
      (field_target.TARGET_ENEMIES 3) (by decide)
      (by simp [id_fields_in_byte, in_byte, tags_012])
      (by simp [id_fields_in_byte, in_byte, tags_012]),
    by simp [same_id_fields],
    N_FlowField_ID_eq_iff tags_012 ⟨5, 6⟩ ⟨5, 6⟩ (field_target.TARGET_TILE ⟨3, 0⟩)
      (field_target.TARGET_TILE ⟨3, 0⟩) (by decide)
      (by simp [id_fields_in_byte, in_byte, tags_012])
      (by simp [id_fields_in_byte, in_byte, tags_012])⟩

/-- C9, witness of the amended layout: the portal with endpoints (1,2) and (3,4) in
chunk (5,6). -/
theorem N_FlowField_ID_portal_layout_witness :
    id_byte (N_FlowField_ID tags_012 ⟨5, 6⟩ (field_target.TARGET_PORTAL sample_portal)) 7 = 0
    ∧ id_byte (N_FlowField_ID tags_012 ⟨5, 6⟩ (field_target.TARGET_PORTAL sample_portal)) 6 = 0
    ∧ id_byte (N_FlowField_ID tags_012 ⟨5, 6⟩ (field_target.TARGET_PORTAL sample_portal)) 5 = 1
    ∧ id_byte (N_FlowField_ID tags_012 ⟨5, 6⟩ (field_target.TARGET_PORTAL sample_portal)) 4 = 2
    ∧ id_byte (N_FlowField_ID tags_012 ⟨5, 6⟩ (field_target.TARGET_PORTAL sample_portal)) 3 = 3
    ∧ id_byte (N_FlowField_ID tags_012 ⟨5, 6⟩ (field_target.TARGET_PORTAL sample_portal)) 2 = 4
    ∧ id_byte (N_FlowField_ID tags_012 ⟨5, 6⟩ (field_target.TARGET_PORTAL sample_portal)) 1 = 5
    ∧ id_byte (N_FlowField_ID tags_012 ⟨5, 6⟩ (field_target.TARGET_PORTAL sample_portal)) 0
      = 6 :=
  N_FlowField_ID_portal_layout tags_012 ⟨5, 6⟩ sample_portal
    (by simp [id_fields_in_byte, in_byte, tags_012, sample_portal])

/-- C10, witness: the tile target (3,4) in chunk (5,6) with the tag 1. -/
theorem N_FlowField_ID_tile_enemies_layout_witness :
    ((N_FlowField_ID tags_012 ⟨5, 6⟩ (field_target.TARGET_TILE ⟨3, 4⟩) : Nat) : Int)
        = tags_012.TARGET_TILE * 2 ^ 56 + 3 * 2 ^ 24 + 4 * 2 ^ 16 + 5 * 2 ^ 8 + 6
    ∧ (List.range 8).map
        (id_byte (N_FlowField_ID tags_012 ⟨5, 6⟩ (field_target.TARGET_TILE ⟨3, 4⟩)))
      = [6, 5, 4, 3, 0, 0, 0, 1] :=
  (N_FlowField_ID_tile_enemies_layout tags_012 ⟨5, 6⟩).1 ⟨3, 4⟩
    (by simp [id_fields_in_byte, in_byte, tags_012])

/-! ### The list returned by neighbours_grid -/

theorem neighbours_grid_unfold (R C : Nat) (chunk : nav_chunk) (coord : Coord) (b : Bool) :
    neighbours_grid R C chunk coord b
      = neighbours_grid_at R C chunk coord b (-1) (-1)
        ++ (neighbours_grid_at R C chunk coord b (-1) 0
        ++ (neighbours_grid_at R C chunk coord b (-1) 1 ++ []))
        ++ (neighbours_grid_at R C chunk coord b 0 (-1)
        ++ (neighbours_grid_at R C chunk coord b 0 0
        ++ (neighbours_grid_at R C chunk coord b 0 1 ++ []))
        ++ (neighbours_grid_at R C chunk coord b 1 (-1)
        ++ (neighbours_grid_at R C chunk coord b 1 0
        ++ (neighbours_grid_at R C chunk coord b 1 1 ++ [])) ++ [])) := rfl

theorem neighbours_grid_at_cardinal (R C : Nat) (chunk : nav_chunk) (coord : Coord) (b : Bool)
    (r c : Int) (hcard : ¬ (r = 0 ∧ c = 0) ∧ ¬ (r = c ∨ r = -c)) :
    neighbours_grid_at R C chunk coord b r c
    = ((if neighbour_kept R C chunk b ⟨coord.r + r, coord.c + c⟩
          then [(⟨coord.r + r, coord.c + c⟩ : Coord)] else []).map
        fun y => (y, neighbour_cost chunk y)) := by
  unfold neighbours_grid_at
  obtain ⟨h1, h2⟩ := hcard
  by_cases hk : neighbour_kept R C chunk b ⟨coord.r + r, coord.c + c⟩
  · rw [if_pos hk]
    obtain ⟨hin, hp⟩ := hk
    simp only [in_grid] at hin
    rw [if_neg (by omega), if_neg (by omega), if_neg h1, if_neg ?_, if_neg h2]
    · rfl
    · rintro ⟨hb, hbad⟩
      obtain ⟨p1, p2⟩ := hp hb
      rcases hbad with h | h
      · exact p1 h
      · simp only at p2; omega
  · rw [if_neg hk]
    simp only [neighbour_kept, in_grid, passable] at hk
    by_cases g1 : coord.r + r < 0 ∨ coord.r + r ≥ R
    · rw [if_pos g1]; rfl
    rw [if_neg g1]
    by_cases g2 : coord.c + c < 0 ∨ coord.c + c ≥ C
    · rw [if_pos g2]; rfl
    rw [if_neg g2, if_neg h1]
    by_cases g3 : b = true ∧ (chunk.cost_base (coord.r + r) (coord.c + c) = COST_IMPASSABLE
            ∨ chunk.blockers (coord.r + r) (coord.c + c) > 0)
    · rw [if_pos g3]; rfl
    exfalso
    apply hk
    refine ⟨by omega, ?_⟩
    intro hb
    constructor
    · intro h; exact g3 ⟨hb, Or.inl h⟩
    · by_contra h; exact g3 ⟨hb, Or.inr (Nat.pos_of_ne_zero h)⟩

theorem neighbours_grid_at_other (R C : Nat) (chunk : nav_chunk) (coord : Coord) (b : Bool)
    (r c : Int) (hdiag : (r = 0 ∧ c = 0) ∨ (r = c ∨ r = -c)) :
    neighbours_grid_at R C chunk coord b r c = [] := by
  unfold neighbours_grid_at
  split_ifs with g1 g2 g3 g4 g5
  · rfl
  · rfl
  · rfl
  · rfl
  · rfl
  · exfalso
    rcases hdiag with h | h
    · exact g3 h
    · exact g5 h

/-- The list returned by `neighbours_grid`, computed. -/
theorem neighbours_grid_eq (R C : Nat) (chunk : nav_chunk) (coord : Coord) (b : Bool) :
    neighbours_grid R C chunk coord b
      = ((cardinal_cells coord).filter
          fun y => decide (neighbour_kept R C chunk b y)).map
          fun y => (y, neighbour_cost chunk y) := by
  rw [neighbours_grid_unfold,
    neighbours_grid_at_other R C chunk coord b (-1) (-1) (by decide),
    neighbours_grid_at_cardinal R C chunk coord b (-1) 0 (by decide),
    neighbours_grid_at_other R C chunk coord b (-1) 1 (by decide),
    neighbours_grid_at_cardinal R C chunk coord b 0 (-1) (by decide),
    neighbours_grid_at_other R C chunk coord b 0 0 (by decide),
    neighbours_grid_at_cardinal R C chunk coord b 0 1 (by decide),
    neighbours_grid_at_other R C chunk coord b 1 (-1) (by decide),
    neighbours_grid_at_cardinal R C chunk coord b 1 0 (by decide),
    neighbours_grid_at_other R C chunk coord b 1 1 (by decide)]
  simp only [cardinal_cells, List.filter, Int.add_zero, Int.sub_eq_add_neg, List.nil_append,
    List.append_nil]
  by_cases k1 : neighbour_kept R C chunk b ⟨coord.r + -1, coord.c⟩ <;>
  by_cases k2 : neighbour_kept R C chunk b ⟨coord.r, coord.c + -1⟩ <;>
  by_cases k3 : neighbour_kept R C chunk b ⟨coord.r, coord.c + 1⟩ <;>
  by_cases k4 : neighbour_kept R C chunk b ⟨coord.r + 1, coord.c⟩ <;>
  simp [k1, k2, k3, k4]

/-- C18: for either value of `only_passable`, `neighbours_grid` returns the cells among
`(r-1,c)`, `(r,c-1)`, `(r,c+1)`, `(r+1,c)` that lie inside the grid and, when
`only_passable` is set, have `cost_base != COST_IMPASSABLE` and `blockers == 0`, in this
order, never a diagonal cell and never the center; the cost of each is its `cost_base`,
or `COST_IMPASSABLE` when its `blockers` is not zero; and the count is at most 4, below
the bound 9 of the assertion. -/
theorem neighbours_grid_cardinals (R C : Nat) (chunk : nav_chunk) (coord : Coord)
    (only_passable : Bool) :
    neighbours_grid R C chunk coord only_passable
      = ((cardinal_cells coord).filter
          fun y => decide (in_grid R C y ∧ (only_passable = true → passable chunk y))).map
          (fun y => (y, if chunk.blockers y.r y.c ≠ 0 then COST_IMPASSABLE
            else chunk.cost_base y.r y.c))
    ∧ (∀ n ∈ neighbours_grid R C chunk coord only_passable,
        cardinal_step coord n.1 ∧ n.1 ≠ coord)
    ∧ (neighbours_grid R C chunk coord only_passable).length ≤ 4
    ∧ (neighbours_grid R C chunk coord only_passable).length < 9 := by
  have heq := neighbours_grid_eq R C chunk coord only_passable
  have hlen : (neighbours_grid R C chunk coord only_passable).length ≤ 4 := by
    rw [heq, List.length_map]
    exact le_trans (List.length_filter_le _ _) (le_of_eq rfl)
  refine ⟨heq, ?_, hlen, by omega⟩
  intro n hn
  rw [heq, List.mem_map] at hn
  obtain ⟨y, hy, rfl⟩ := hn
  have hy2 := List.mem_of_mem_filter hy
  simp only [cardinal_cells, List.mem_cons, List.mem_singleton, List.not_mem_nil,
    or_false] at hy2
  constructor
  · simp only [cardinal_step]
    rcases hy2 with rfl | rfl | rfl | rfl <;> simp
  · intro h
    rcases hy2 with rfl | rfl | rfl | rfl <;>
      (have h1 := congrArg Coord.r h; have h2 := congrArg Coord.c h; simp at *)

/-! ### The direction assertion of fixup_portal_edges -/

theorem portal_flags_count (port : portal) :
    (portal_flags port).count true = 1 ↔ one_axis_differs port := by
  unfold portal_flags one_axis_differs
  by_cases h1 : port.connected_chunk.r < port.chunk.r <;>
  by_cases h2 : port.connected_chunk.r > port.chunk.r <;>
  by_cases h3 : port.connected_chunk.c < port.chunk.c <;>
  by_cases h4 : port.connected_chunk.c > port.chunk.c <;>
  simp only [h1, h2, h3, h4, decide_True, decide_False, List.count_cons, List.count_nil,
    beq_self_eq_true, if_true, Bool.false_eq_true, if_false] <;>
  first
  | omega
  | (constructor
     · intro _; omega
     · intro _; rfl)

theorem fixup_portal_edges_xor (port : portal) :
    Bool.xor (Bool.xor (Bool.xor (decide (port.connected_chunk.r < port.chunk.r))
      (decide (port.connected_chunk.r > port.chunk.r)))
      (decide (port.connected_chunk.c < port.chunk.c)))
      (decide (port.connected_chunk.c > port.chunk.c)) = true
    ↔ one_axis_differs port := by
  unfold one_axis_differs
  by_cases h1 : port.connected_chunk.r < port.chunk.r <;>
  by_cases h2 : port.connected_chunk.r > port.chunk.r <;>
  by_cases h3 : port.connected_chunk.c < port.chunk.c <;>
  by_cases h4 : port.connected_chunk.c > port.chunk.c <;>
  simp only [h1, h2, h3, h4, decide_True, decide_False, Bool.xor_true, Bool.xor_false,
    Bool.not_true, Bool.not_false, Bool.false_eq_true, false_iff, true_iff] <;>
  omega

/-- C17: the assertion `up ^ down ^ left ^ right` of `fixup_portal_edges` passes (the
function returns) if and only if exactly one of the four flags holds, and that is the
case if and only if the connected chunk differs from the chunk of the portal in exactly
one of row and column; a connected chunk equal to the chunk of the portal, or differing
in both axes, fails the assertion. -/
theorem fixup_portal_edges_assert_iff (R C : Nat) (intf : IntegrationField)
    (inout_flow : flow_field) (port : portal) :
    ((fixup_portal_edges R C intf inout_flow port).isSome = true
      ↔ (portal_flags port).count true = 1)
    ∧ ((portal_flags port).count true = 1 ↔ one_axis_differs port)
    ∧ (port.connected_chunk = port.chunk → fixup_portal_edges R C intf inout_flow port = none)
    ∧ (port.connected_chunk.r ≠ port.chunk.r → port.connected_chunk.c ≠ port.chunk.c →
        fixup_portal_edges R C intf inout_flow port = none) := by
  have hiff : (fixup_portal_edges R C intf inout_flow port).isSome = true
      ↔ one_axis_differs port := by
    constructor
    · intro h
      unfold fixup_portal_edges at h
      simp only at h
      split_ifs at h with hx
      · exact (fixup_portal_edges_xor port).1 hx
      · exact absurd h (by simp)
    · intro h
      obtain ⟨flow, hf⟩ := fixup_portal_edges_isSome R C intf inout_flow port h
      rw [hf]; rfl
  have hnone : ¬ one_axis_differs port →
      fixup_portal_edges R C intf inout_flow port = none := by
    intro hn
    cases hr : fixup_portal_edges R C intf inout_flow port with
    | none => rfl
    | some v => exact absurd (hiff.1 (by rw [hr]; rfl)) hn
  refine ⟨hiff.trans (portal_flags_count port).symm, portal_flags_count port, ?_, ?_⟩
  · intro he
    apply hnone
    unfold one_axis_differs
    rw [he]
    omega
  · intro h1 h2
    apply hnone
    unfold one_axis_differs
    omega

theorem fixup_portal_edges_assert_iff_witness :
    fixup_portal_edges 8 8 (seeded_field []) south_flow self_portal = none
    ∧ fixup_portal_edges 8 8 (seeded_field []) south_flow diag_portal = none
    ∧ (fixup_portal_edges 8 8 (seeded_field []) south_flow top_portal).isSome = true :=
  ⟨(fixup_portal_edges_assert_iff 8 8 (seeded_field []) south_flow self_portal).2.2.1 rfl,
   (fixup_portal_edges_assert_iff 8 8 (seeded_field []) south_flow diag_portal).2.2.2
      (by decide) (by decide),
   (fixup_portal_edges_assert_iff 8 8 (seeded_field []) south_flow top_portal).1.2
      (by decide)⟩

/-! ### Line-of-sight corners -/

theorem xor_decide_eq_true (p q : Prop) [Decidable p] [Decidable q] :
    Bool.xor (decide p) (decide q) = true ↔ exactly_one p q := by
  unfold exactly_one
  by_cases hp : p <;> by_cases hq : q <;> simp [hp, hq]

theorem is_LOS_corner_iff (R C : Nat) (cell : Coord)
    (cost_field blockers_field : Int → Int → Nat) :
    is_LOS_corner R C cell cost_field blockers_field = true
      ↔ row_axis_corner R cell cost_field blockers_field
        ∨ col_axis_corner C cell cost_field blockers_field := by
  unfold is_LOS_corner row_axis_corner col_axis_corner impassable_at
  simp only [← Bool.decide_or]
  by_cases hr : cell.r > 0 ∧ cell.r < (R : Int) - 1 <;>
  by_cases hc : cell.c > 0 ∧ cell.c < (C : Int) - 1 <;>
  simp only [hr, hc, if_true, if_false, true_and, false_and, false_or, or_false,
    Bool.false_eq_true, xor_decide_eq_true] <;>
  by_cases h1 : exactly_one
      (cost_field (cell.r - 1) cell.c = COST_IMPASSABLE ∨ blockers_field (cell.r - 1) cell.c > 0)
      (cost_field (cell.r + 1) cell.c = COST_IMPASSABLE
        ∨ blockers_field (cell.r + 1) cell.c > 0) <;>
  by_cases h2 : exactly_one
      (cost_field cell.r (cell.c - 1) = COST_IMPASSABLE ∨ blockers_field cell.r (cell.c - 1) > 0)
      (cost_field cell.r (cell.c + 1) = COST_IMPASSABLE
        ∨ blockers_field cell.r (cell.c + 1) > 0) <;>
  simp only [h1, h2, if_true, if_false, or_true, true_or, or_self, Bool.false_eq_true]

/-- C19, counterexample: in a 3x3 grid whose cells (0,1) and (1,0) are impassable, the
cell (1,1) has exactly one impassable neighbour on each axis; `is_LOS_corner` returns
true for it, while the xor of the two axes is false. -/
theorem is_LOS_corner_spec_fails :
    in_grid 3 3 ⟨1, 1⟩
    ∧ is_LOS_corner 3 3 ⟨1, 1⟩ elbow_cost no_blockers = true
    ∧ ¬ LOS_corner_spec 3 3 ⟨1, 1⟩ elbow_cost no_blockers := by
  decide

/-- C19, amended: `is_LOS_corner` returns true if and only if exactly one of the two
neighbours of the cell in the adjacent rows is impassable (cost `COST_IMPASSABLE` or
blockers > 0), or exactly one of its two neighbours in the adjacent columns is
impassable, or both; an axis on which the cell lies on the grid boundary is skipped.
The result agrees with the xor of the two axes except when both axes hold. -/
theorem is_LOS_corner_either_axis (R C : Nat) (cell : Coord)
    (cost_field blockers_field : Int → Int → Nat) :
    (is_LOS_corner R C cell cost_field blockers_field = true
      ↔ row_axis_corner R cell cost_field blockers_field
        ∨ col_axis_corner C cell cost_field blockers_field)
    ∧ (¬ (row_axis_corner R cell cost_field blockers_field
          ∧ col_axis_corner C cell cost_field blockers_field) →
        (is_LOS_corner R C cell cost_field blockers_field = true
          ↔ LOS_corner_spec R C cell cost_field blockers_field)) := by
  refine ⟨is_LOS_corner_iff R C cell cost_field blockers_field, ?_⟩
  intro hboth
  rw [is_LOS_corner_iff]
  unfold LOS_corner_spec exactly_one
  tauto

theorem is_LOS_corner_either_axis_witness :
    ¬ (row_axis_corner 3 ⟨1, 1⟩ stub_cost no_blockers
        ∧ col_axis_corner 3 ⟨1, 1⟩ stub_cost no_blockers)
    ∧ (is_LOS_corner 3 3 ⟨1, 1⟩ stub_cost no_blockers = true
        ↔ LOS_corner_spec 3 3 ⟨1, 1⟩ stub_cost no_blockers) :=
  ⟨by decide, (is_LOS_corner_either_axis 3 3 ⟨1, 1⟩ stub_cost no_blockers).2 (by decide)⟩

/-! ### Flat chunks -/

theorem unit_chunk_passable {R C : Nat} {chunk : nav_chunk} (hflat : unit_chunk R C chunk)
    (x : Coord) (hx : in_grid R C x) : passable chunk x := by
  obtain ⟨h1, h2, h3, h4⟩ := hx
  obtain ⟨a, b⟩ := hflat x.r x.c h1 h2 h3 h4
  exact ⟨by rw [a]; decide, b⟩

theorem unit_chunk_positive {R C : Nat} {chunk : nav_chunk} (hflat : unit_chunk R C chunk) :
    positive_costs R C chunk :=
  fun r c h1 h2 h3 h4 => le_of_eq (hflat r c h1 h2 h3 h4).1.symm

theorem unit_chunk_flat_chunk (R C : Nat) : unit_chunk R C flat_chunk :=
  fun _ _ _ _ _ _ => ⟨rfl, rfl⟩

theorem manhattan_step (t x y : Coord) (h : cardinal_step x y) :
    manhattan y t ≤ manhattan x t + 1 := by
  unfold manhattan
  unfold cardinal_step at h
  omega

theorem path_manhattan_le {R C : Nat} {chunk : nav_chunk} (t : Coord) :
    ∀ (p : List Coord) (s : Coord), is_path R C chunk s p →
      manhattan (path_end s p) t ≤ manhattan s t + p.length := by
  intro p
  induction p with
  | nil => intro s _; exact Nat.le_refl _
  | cons y rest ih =>
    intro s hp
    obtain ⟨hstep, -, -, hrest⟩ := hp
    have h1 := ih y hrest
    have h2 := manhattan_step t s y hstep
    simp only [path_end, List.length_cons]
    omega

theorem path_cost_unit {R C : Nat} {chunk : nav_chunk} (hflat : unit_chunk R C chunk) :
    ∀ (p : List Coord) (s : Coord), is_path R C chunk s p → path_cost chunk p = p.length := by
  intro p
  induction p with
  | nil => intro s _; rfl
  | cons y rest ih =>
    intro s hp
    obtain ⟨-, hin, -, hrest⟩ := hp
    have h1 := ih y hrest
    obtain ⟨a1, a2, a3, a4⟩ := hin
    have h2 := (hflat y.r y.c a1 a2 a3 a4).1
    simp only [path_cost, List.map_cons, List.sum_cons, List.length_cons] at h1 ⊢
    omega

theorem unit_chunk_path {R C : Nat} {chunk : nav_chunk} (hflat : unit_chunk R C chunk)
    (t : Coord) (ht : in_grid R C t) :
    ∀ (d : Nat) (x : Coord), in_grid R C x → manhattan x t = d →
      ∃ p, is_path R C chunk t p ∧ path_end t p = x ∧ p.length = d := by
  intro d
  induction d with
  | zero =>
    intro x _ hd
    refine ⟨[], trivial, ?_, rfl⟩
    unfold manhattan at hd
    simp only [path_end]
    ext <;> omega
  | succ d ih =>
    intro x hx hd
    have key : ∃ y : Coord, in_grid R C y ∧ manhattan y t = d ∧ cardinal_step y x := by
      unfold manhattan at hd
      simp only [in_grid] at hx ht
      by_cases h1 : t.r < x.r
      · refine ⟨⟨x.r - 1, x.c⟩, ?_, ?_, ?_⟩
        · simp only [in_grid]; omega
        · simp only [manhattan]; omega
        · simp [cardinal_step]
      by_cases h2 : x.r < t.r
      · refine ⟨⟨x.r + 1, x.c⟩, ?_, ?_, ?_⟩
        · simp only [in_grid]; omega
        · simp only [manhattan]; omega
        · simp [cardinal_step]
      by_cases h3 : t.c < x.c
      · refine ⟨⟨x.r, x.c - 1⟩, ?_, ?_, ?_⟩
        · simp only [in_grid]; omega
        · simp only [manhattan]; omega
        · simp [cardinal_step]
      · refine ⟨⟨x.r, x.c + 1⟩, ?_, ?_, ?_⟩
        · simp only [in_grid]; omega
        · simp only [manhattan]; omega
        · simp [cardinal_step]
    obtain ⟨y, hy, hyd, hstep⟩ := key
    obtain ⟨p, hp, hend, hlen⟩ := ih y hy hyd
    refine ⟨p ++ [x], ?_, path_end_append_singleton t p x, ?_⟩
    · exact is_path_append_singleton R C chunk x p t hp (by rw [hend]; exact hstep) hx
        (unit_chunk_passable hflat x hx)
    · rw [List.length_append, hlen]; rfl

/-- On a flat chunk the invariant of the build fixes every cell of the grid at its
distance from the single seed. -/
theorem build_inv_unit_chunk {R C : Nat} {chunk : nav_chunk} {t : Coord}
    {intf : IntegrationField} (hflat : unit_chunk R C chunk) (ht : in_grid R C t)
    (hinv : build_inv R C chunk [t] pq_coord_init intf) (x : Coord) (hx : in_grid R C x) :
    intf x.r x.c = Val.fin (manhattan x t) := by
  obtain ⟨p, hp, hend, hlen⟩ := unit_chunk_path hflat t ht (manhattan x t) x hx rfl
  have hreach : reach R C chunk [t] x (manhattan x t) :=
    ⟨t, List.mem_singleton.2 rfl, p, hp, hend, by rw [path_cost_unit hflat p t hp, hlen]⟩
  obtain ⟨v, hv, ⟨s, hs, q, hq, hqend, hqcost⟩, hle⟩ := build_inv_minimum hinv x _ hreach
  rw [List.mem_singleton] at hs
  subst hs
  have h1 := path_manhattan_le s q s hq
  rw [hqend, path_cost_unit hflat q s hq] at *
  have h2 : manhattan s s = 0 := by unfold manhattan; omega
  rw [hv]
  congr 1
  omega

/-- C13: on a grid in which every cell has `cost_base == 1` and `blockers == 0`, with a
tile target `(tr, tc)` inside the grid, the integration field with which
`N_FlowFieldUpdate` returns holds `|r - tr| + |c - tc|` in every cell `(r, c)` of the
grid.  The second part states that `build_integration_field` does return such a field
from the seeding of the tile target, for every grid size and tie-break; the third that
`N_FlowFieldUpdate` does return when `FIELD_RES_C <= FIELD_RES_R`. -/
theorem N_FlowFieldUpdate_flat_field (R C : Nat) (tie : Nat → Nat) (world : game_hooks)
    (chunk : nav_chunk) (tile : Coord) (flow0 : flow_field)
    (hflat : unit_chunk R C chunk) (htile : in_grid R C tile) :
    (∀ (fuel : Nat) (intf : IntegrationField) (flow : flow_field),
      N_FlowFieldUpdate R C fuel tie world chunk (field_target.TARGET_TILE tile) flow0
          = some (intf, flow) →
        ∀ r c : Int, in_grid R C ⟨r, c⟩ →
          intf r c = Val.fin ((r - tile.r).natAbs + (c - tile.c).natAbs))
    ∧ (∃ frontier f0 out fuel0,
        seed_target R C world (field_target.TARGET_TILE tile) = some (frontier, f0)
        ∧ (∀ fuel, fuel0 ≤ fuel →
            build_integration_field R C fuel tie frontier chunk f0 = some out)
        ∧ ∀ r c : Int, in_grid R C ⟨r, c⟩ →
            out r c = Val.fin ((r - tile.r).natAbs + (c - tile.c).natAbs))
    ∧ (C ≤ R → ∃ intf flow fuel0, ∀ fuel, fuel0 ≤ fuel →
        N_FlowFieldUpdate R C fuel tie world chunk (field_target.TARGET_TILE tile) flow0
          = some (intf, flow)) := by
  refine ⟨?_, ?_, ?_⟩
  · intro fuel intf flow h r c hin
    obtain ⟨seeds, hts, -, hinv⟩ := N_FlowFieldUpdate_inv h
    simp only [target_seeds, Option.some.injEq] at hts
    subst hts
    exact build_inv_unit_chunk hflat htile hinv ⟨r, c⟩ hin
  · obtain ⟨hn, hf⟩ := foldl_seed_cell [tile] (pq_coord_init, fun _ _ => Val.inf)
    obtain ⟨out, fuel0, hrun, hinv⟩ := build_integration_field_correct R C chunk [tile]
      (seed_cell (pq_coord_init, fun _ _ => Val.inf) tile).1
      (seed_cell (pq_coord_init, fun _ _ => Val.inf) tile).2 tie
      (fun r c => by
        have := hf r c
        simp only [List.foldl_cons, List.foldl_nil] at this
        rw [this])
      (fun s hs => by
        simp only [List.foldl_cons, List.foldl_nil] at hn
        rw [hn]
        exact List.mem_append_right _ (List.mem_map.2 ⟨s, hs, rfl⟩))
    exact ⟨_, _, out, fuel0, rfl, hrun,
      fun r c hin => build_inv_unit_chunk hflat htile hinv ⟨r, c⟩ hin⟩
  · intro hRC
    exact N_FlowFieldUpdate_returns R C tie world chunk (field_target.TARGET_TILE tile) flow0
      [tile] hRC rfl (by simp) (fun s hs => by rw [List.mem_singleton.1 hs]; exact htile)
      (fun port hp => by cases hp)

/-- C13, witness: the flat 8x8 chunk with the tile target (4,4).  The run with 100
units of fuel is evaluated as well. -/
theorem N_FlowFieldUpdate_flat_field_witness :
    unit_chunk 8 8 flat_chunk ∧ in_grid 8 8 ⟨4, 4⟩
    ∧ (∃ intf flow fuel0,
        (∀ fuel, fuel0 ≤ fuel →
          N_FlowFieldUpdate 8 8 fuel (fun _ => 0) no_ents flat_chunk
            (field_target.TARGET_TILE ⟨4, 4⟩) south_flow = some (intf, flow))
        ∧ intf 0 0 = Val.fin 8 ∧ intf 4 4 = Val.fin 0 ∧ intf 7 2 = Val.fin 5
        ∧ intf 3 7 = Val.fin 4)
    ∧ (N_FlowFieldUpdate 8 8 100 (fun _ => 0) no_ents flat_chunk
          (field_target.TARGET_TILE ⟨4, 4⟩) south_flow).map
        (fun p => (p.1 0 0, p.1 4 4, p.1 7 2, p.1 3 7))
        = some (Val.fin 8, Val.fin 0, Val.fin 5, Val.fin 4) := by
  have hthm := N_FlowFieldUpdate_flat_field 8 8 (fun _ => 0) no_ents flat_chunk ⟨4, 4⟩
    south_flow (unit_chunk_flat_chunk 8 8) (by decide)
  refine ⟨unit_chunk_flat_chunk 8 8, by decide, ?_, by decide⟩
  obtain ⟨intf, flow, fuel0, hrun⟩ := hthm.2.2 (by decide)
  have hval := hthm.1 fuel0 intf flow (hrun fuel0 (Nat.le_refl _))
  exact ⟨intf, flow, fuel0, hrun, hval 0 0 (by decide), hval 4 4 (by decide),
    hval 7 2 (by decide), hval 3 7 (by decide)⟩

/-! ### A wall with a gap -/

theorem path_length_le_cost {R C : Nat} {chunk : nav_chunk}
    (hcost : positive_costs R C chunk) :
    ∀ (p : List Coord) (s : Coord), is_path R C chunk s p → p.length ≤ path_cost chunk p := by
  intro p
  induction p with
  | nil => intro s _; exact Nat.le_refl _
  | cons y rest ih =>
    intro s hp
    obtain ⟨-, hin, -, hrest⟩ := hp
    have h1 := ih y hrest
    obtain ⟨a1, a2, a3, a4⟩ := hin
    have h2 := hcost y.r y.c a1 a2 a3 a4
    simp only [path_cost, List.map_cons, List.sum_cons, List.length_cons] at h1 ⊢
    omega

/-- With costs of at least 1 a reachable cell costs at least its distance from the
single seed. -/
theorem reach_manhattan_le {R C : Nat} {chunk : nav_chunk} (hcost : positive_costs R C chunk)
    {t x : Coord} {v : Nat} (h : reach R C chunk [t] x v) : manhattan x t ≤ v := by
  obtain ⟨s, hs, q, hq, hqend, hqcost⟩ := h
  rw [List.mem_singleton] at hs
  subst hs
  have h1 := path_manhattan_le s q s hq
  have h2 := path_length_le_cost hcost q s hq
  have h3 : manhattan s s = 0 := by unfold manhattan; omega
  rw [hqend] at h1
  omega

theorem positive_costs_gap_wall_chunk : positive_costs 8 8 gap_wall_chunk := by
  intro r c _ _ _ _
  simp only [gap_wall_chunk]
  split_ifs
  · decide
  · exact Nat.le_refl 1

theorem reach_gap_wall_route : reach 8 8 gap_wall_chunk [⟨7, 3⟩] ⟨0, 0⟩ 10 :=
  ⟨⟨7, 3⟩, List.mem_singleton.2 rfl, gap_wall_route,
    by simp only [gap_wall_route, is_path]; decide, by decide, by decide⟩

/-- C14, counterexample: on the 8x8 chunk with the wall in row 4 and the gap (4,3), with
the tile target (7,3), `N_FlowFieldUpdate` returns an integration field whose cell (0,0)
holds 10 and not 13. -/
theorem N_FlowFieldUpdate_gap_wall_not_13 :
    (N_FlowFieldUpdate 8 8 100 (fun _ => 0) no_ents gap_wall_chunk
        (field_target.TARGET_TILE ⟨7, 3⟩) (N_FlowFieldInit ⟨0, 0⟩)).map
      (fun p => (p.1 0 0, decide (p.1 0 0 = Val.fin 13)))
      = some (Val.fin 10, false) := by
  decide

/-- C14, amended: on the 8x8 chunk with unit costs and no blockers in which every cell of
row 4 other than (4,3) is impassable, with the tile target (7,3), the integration field
with which `N_FlowFieldUpdate` returns has `integration[0][0] == 10`, the distance
`7 + 3` of (0,0) from the target, since the gap lies in the column of the target; and
the call does return, for every tie-break among equal keys. -/
theorem N_FlowFieldUpdate_gap_wall (tie : Nat → Nat) (world : game_hooks)
    (flow0 : flow_field) :
    (∀ (fuel : Nat) (intf : IntegrationField) (flow : flow_field),
      N_FlowFieldUpdate 8 8 fuel tie world gap_wall_chunk (field_target.TARGET_TILE ⟨7, 3⟩)
          flow0 = some (intf, flow) → intf 0 0 = Val.fin 10)
    ∧ ∃ intf flow fuel0, ∀ fuel, fuel0 ≤ fuel →
        N_FlowFieldUpdate 8 8 fuel tie world gap_wall_chunk (field_target.TARGET_TILE ⟨7, 3⟩)
          flow0 = some (intf, flow) := by
  constructor
  · intro fuel intf flow h
    obtain ⟨seeds, hts, -, hinv⟩ := N_FlowFieldUpdate_inv h
    simp only [target_seeds, Option.some.injEq] at hts
    subst hts
    obtain ⟨v, hv, hreach, hle⟩ := build_inv_minimum hinv ⟨0, 0⟩ 10 reach_gap_wall_route
    have hge := reach_manhattan_le positive_costs_gap_wall_chunk hreach
    have hm : manhattan ⟨0, 0⟩ ⟨7, 3⟩ = 10 := by decide
    rw [hm] at hge
    have : v = 10 := by omega
    rw [← this]
    exact hv
  · exact N_FlowFieldUpdate_returns 8 8 tie world gap_wall_chunk
      (field_target.TARGET_TILE ⟨7, 3⟩) flow0 [⟨7, 3⟩] (Nat.le_refl 8) rfl (by simp)
      (fun s hs => by rw [List.mem_singleton.1 hs]; decide) (fun port hp => by cases hp)

/-- C14, witness: the amended statement at the tie-break that always takes the first
minimum, from the flow field of `N_FlowFieldInit`. -/
theorem N_FlowFieldUpdate_gap_wall_witness :
    ∃ intf flow fuel0,
      (∀ fuel, fuel0 ≤ fuel →
        N_FlowFieldUpdate 8 8 fuel (fun _ => 0) no_ents gap_wall_chunk
          (field_target.TARGET_TILE ⟨7, 3⟩) (N_FlowFieldInit ⟨0, 0⟩) = some (intf, flow))
      ∧ intf 0 0 = Val.fin 10 := by
  have hthm := N_FlowFieldUpdate_gap_wall (fun _ => 0) no_ents (N_FlowFieldInit ⟨0, 0⟩)
  obtain ⟨intf, flow, fuel0, hrun⟩ := hthm.2
  exact ⟨intf, flow, fuel0, hrun, hthm.1 fuel0 intf flow (hrun fuel0 (Nat.le_refl _))⟩

/-! ### Totality of the flow build -/

theorem foldlM_none_of_mem {α β : Type} (f : β → α → Option β) (x : α)
    (hx : ∀ b, f b x = none) :
    ∀ (l : List α), x ∈ l → ∀ init, l.foldlM f init = none := by
  intro l
  induction l with
  | nil => intro h; cases h
  | cons y rest ih =>
    intro hmem init
    rw [List.foldlM_cons]
    rcases List.mem_cons.1 hmem with rfl | h
    · rw [hx]; rfl
    · cases hy : f init y with
      | none => rfl
      | some b => exact ih h b

/-- On the flat 2x3 grid with the seed (1,2) the scan of `flow_dir` at (0,1) finds no
candidate, though the south-east neighbour holds `min_cost`. -/
theorem flow_dir_wide_grid {intf : IntegrationField}
    (hinv : build_inv 2 3 flat_chunk [⟨1, 2⟩] pq_coord_init intf) :
    intf 0 1 = Val.fin 2 ∧ flow_dir_min_cost 2 3 intf ⟨0, 1⟩ = Val.fin 0
    ∧ attains_min_cost 2 3 intf ⟨0, 1⟩ FD_SE
    ∧ flow_dir 2 3 intf ⟨0, 1⟩ = none := by
  have hv : ∀ x : Coord, in_grid 2 3 x → intf x.r x.c = Val.fin (manhattan x ⟨1, 2⟩) :=
    fun x hx => build_inv_unit_chunk (unit_chunk_flat_chunk 2 3) (by decide) hinv x hx
  have h00 : intf 0 0 = Val.fin 3 := hv ⟨0, 0⟩ (by decide)
  have h01 : intf 0 1 = Val.fin 2 := hv ⟨0, 1⟩ (by decide)
  have h02 : intf 0 2 = Val.fin 1 := hv ⟨0, 2⟩ (by decide)
  have h10 : intf 1 0 = Val.fin 2 := hv ⟨1, 0⟩ (by decide)
  have h11 : intf 1 1 = Val.fin 1 := hv ⟨1, 1⟩ (by decide)
  have h12 : intf 1 2 = Val.fin 0 := hv ⟨1, 2⟩ (by decide)
  have hmin : flow_dir_min_cost 2 3 intf ⟨0, 1⟩ = Val.fin 0 := by
    simp [flow_dir_min_cost, MIN, Val.lt, h00, h01, h02, h10, h11, h12]
  refine ⟨h01, hmin, ?_, ?_⟩
  · refine ⟨by decide, ?_⟩
    rw [hmin]
    exact h12
  · unfold flow_dir
    rw [hmin]
    simp [Val.lt, h00, h01, h02, h10, h11, h12]

theorem build_inv_of_run {R C fuel : Nat} {tie : Nat → Nat} {chunk : nav_chunk}
    {seeds : List Coord} {intf : IntegrationField}
    (hrun : build_integration_field R C fuel tie (seeded_frontier seeds) chunk
      (seeded_field seeds) = some intf) :
    build_inv R C chunk seeds pq_coord_init intf :=
  build_integration_field_inv fuel tie (seeded_frontier seeds) (seeded_field seeds) intf
    (build_inv_init R C chunk seeds (seeded_frontier seeds) (seeded_field seeds)
      (fun _ _ => rfl) (fun s hs => List.mem_map.2 ⟨s, hs, rfl⟩)) hrun

theorem build_flow_field_wide_grid {intf : IntegrationField}
    (hinv : build_inv 2 3 flat_chunk [⟨1, 2⟩] pq_coord_init intf) (flow0 : flow_field) :
    build_flow_field 2 3 intf flow0 = none := by
  obtain ⟨h01, -, -, hdir⟩ := flow_dir_wide_grid hinv
  unfold build_flow_field
  apply foldlM_none_of_mem (build_flow_cell 2 3 intf) ⟨0, 1⟩ ?_ (cells 2 3) (by decide)
  intro ff
  unfold build_flow_cell
  rw [h01, hdir]
  rfl

/-- C20: every finite non-zero cell of a field built by `build_integration_field` has
`min_cost < INFINITY`, and when `FIELD_RES_C <= FIELD_RES_R` the scan of `flow_dir` finds
a candidate at each such cell and `build_flow_field` returns.  The last test of the scan
compares the column with `FIELD_RES_R - 1`: on the flat grid with 2 rows and 3 columns
and the seed (1,2), for every tie-break, the build returns a field in which the cell
(0,1) holds 2 and its south-east neighbour (1,2) holds `min_cost == 0`, yet `flow_dir`
reaches its final `assert(0)`, so `build_flow_field` and `N_FlowFieldUpdate` do not
return. -/
theorem build_flow_field_total_iff_bound :
    (∀ (R C fuel : Nat) (tie : Nat → Nat) (chunk : nav_chunk) (seeds : List Coord)
        (intf : IntegrationField),
      (∀ s ∈ seeds, in_grid R C s) →
      build_integration_field R C fuel tie (seeded_frontier seeds) chunk
        (seeded_field seeds) = some intf →
      (∀ x : Coord, in_grid R C x → intf x.r x.c ≠ Val.inf → intf x.r x.c ≠ Val.fin 0 →
          (flow_dir_min_cost R C intf x).lt Val.inf = true)
      ∧ (C ≤ R →
          (∀ x : Coord, in_grid R C x → intf x.r x.c ≠ Val.inf → intf x.r x.c ≠ Val.fin 0 →
            ∃ d, flow_dir R C intf x = some d)
          ∧ ∀ flow0, ∃ flow, build_flow_field R C intf flow0 = some flow))
    ∧ (∀ tie : Nat → Nat, ∃ intf fuel0,
        (∀ fuel, fuel0 ≤ fuel →
          build_integration_field 2 3 fuel tie (seeded_frontier [⟨1, 2⟩]) flat_chunk
            (seeded_field [⟨1, 2⟩]) = some intf)
        ∧ intf 0 1 = Val.fin 2
        ∧ flow_dir_min_cost 2 3 intf ⟨0, 1⟩ = Val.fin 0
        ∧ attains_min_cost 2 3 intf ⟨0, 1⟩ FD_SE
        ∧ flow_dir 2 3 intf ⟨0, 1⟩ = none
        ∧ (∀ flow0, build_flow_field 2 3 intf flow0 = none)
        ∧ ∀ fuel world flow0,
            N_FlowFieldUpdate 2 3 fuel tie world flat_chunk (field_target.TARGET_TILE ⟨1, 2⟩)
              flow0 = none) := by
  constructor
  · intro R C fuel tie chunk seeds intf hgrid hrun
    have hinv := build_inv_of_run hrun
    have hmin : ∀ x : Coord, in_grid R C x → intf x.r x.c ≠ Val.inf →
        intf x.r x.c ≠ Val.fin 0 → (flow_dir_min_cost R C intf x).lt Val.inf = true :=
      fun x hx h1 h2 => built_min_cost_finite hinv hgrid x hx h1 h2
    refine ⟨hmin, fun hRC => ⟨fun x hx h1 h2 => ?_, fun flow0 => ?_⟩⟩
    · exact flow_dir_isSome R C intf x hRC (hmin x hx h1 h2)
    · exact build_flow_field_isSome hinv hgrid hRC flow0
  · intro tie
    obtain ⟨intf, fuel0, hrun, hinv⟩ := build_integration_field_correct 2 3 flat_chunk
      [⟨1, 2⟩] (seeded_frontier [⟨1, 2⟩]) (seeded_field [⟨1, 2⟩]) tie (fun _ _ => rfl)
      (fun s hs => List.mem_map.2 ⟨s, hs, rfl⟩)
    obtain ⟨h1, h2, h3, h4⟩ := flow_dir_wide_grid hinv
    refine ⟨intf, fuel0, hrun, h1, h2, h3, h4, build_flow_field_wide_grid hinv, ?_⟩
    intro fuel world flow0
    cases hr : N_FlowFieldUpdate 2 3 fuel tie world flat_chunk
        (field_target.TARGET_TILE ⟨1, 2⟩) flow0 with
    | none => rfl
    | some p =>
      exfalso
      obtain ⟨seeds, hts, -, hinv2⟩ := N_FlowFieldUpdate_inv hr
      simp only [target_seeds, Option.some.injEq] at hts
      subst hts
      obtain ⟨frontier, f0, flow1, -, -, -, hf, -, -⟩ := N_FlowFieldUpdate_some hr
      rw [build_flow_field_wide_grid hinv2 flow0] at hf
      cases hf

/-- C20, witness: the first part on the flat 3x3 grid with the seed (1,1), and the run
on the grid with 2 rows and 3 columns evaluated with 20 units of fuel. -/
theorem build_flow_field_total_iff_bound_witness :
    (∃ intf,
      build_integration_field 3 3 20 (fun _ => 0) (seeded_frontier [⟨1, 1⟩]) flat_chunk
        (seeded_field [⟨1, 1⟩]) = some intf
      ∧ ∃ flow, build_flow_field 3 3 intf south_flow = some flow)
    ∧ (build_integration_field 2 3 20 (fun _ => 0) (seeded_frontier [⟨1, 2⟩]) flat_chunk
        (seeded_field [⟨1, 2⟩])).map
        (fun intf => (intf 0 1, intf 1 2, flow_dir 2 3 intf ⟨0, 1⟩,
          (build_flow_field 2 3 intf south_flow).isSome))
        = some (Val.fin 2, Val.fin 0, none, false) := by
  refine ⟨?_, by decide⟩
  obtain ⟨intf, hrun⟩ := exists_eq_some_of_isSome
    (build_integration_field 3 3 20 (fun _ => 0) (seeded_frontier [⟨1, 1⟩]) flat_chunk
      (seeded_field [⟨1, 1⟩])) (by decide)
  exact ⟨intf, hrun,
    ((build_flow_field_total_iff_bound.1 3 3 20 (fun _ => 0) flat_chunk [⟨1, 1⟩] intf
      (by decide) hrun).2 (Nat.le_refl 3)).2 south_flow⟩

/-! ### Enemies targets -/

theorem enemy_ent_eq_true_iff (world : game_hooks) (faction_id : Int) (ent : entity) :
    enemy_ent world faction_id ent = some true ↔ hostile world faction_id ent := by
  unfold enemy_ent hostile
  by_cases h1 : ent.faction_id = faction_id
  · simp [h1]
  · by_cases h2 : ent.combatable = false
    · simp [h1, h2]
    · rw [if_neg h1, if_neg h2]
      cases hds : world.G_GetDiplomacyState faction_id ent.faction_id with
      | none => simp [h1]
      | some ds => cases ds <;> simp [h1, h2]

theorem mark_enemies_spec (world : game_hooks) (faction_id : Int) :
    ∀ (l : List entity) (h0 h : Int → Int → Bool),
      mark_enemies world faction_id l h0 = some h →
      ∀ r c, h r c = true ↔
        (h0 r c = true ∨ ∃ ent ∈ l, hostile world faction_id ent ∧ ent.tile = ⟨r, c⟩) := by
  intro l
  induction l with
  | nil =>
    intro h0 h hm r c
    simp only [mark_enemies, Option.some.injEq] at hm
    subst hm
    simp
  | cons curr rest ih =>
    intro h0 h hm r c
    unfold mark_enemies at hm
    cases he : enemy_ent world faction_id curr with
    | none => rw [he] at hm; cases hm
    | some b =>
      rw [he] at hm
      cases b with
      | false =>
        simp only at hm
        have hnot : ¬ hostile world faction_id curr := by
          rw [← enemy_ent_eq_true_iff, he]; simp
        rw [ih h0 h hm r c]
        simp [hnot]
      | true =>
        simp only at hm
        have hyes : hostile world faction_id curr := by
          rw [← enemy_ent_eq_true_iff, he]
        rw [ih _ h hm r c]
        simp only [List.mem_cons, exists_eq_or_imp, hyes, true_and]
        constructor
        · rintro (h1 | h1)
          · split_ifs at h1 with hc
            · right; left; ext <;> simp [hc.1, hc.2]
            · left; exact h1
          · right; right; exact h1
        · rintro (h1 | h1 | h1)
          · by_cases hc : r = curr.tile.r ∧ c = curr.tile.c
            · left; rw [if_pos hc]
            · left; rw [if_neg hc]; exact h1
          · left
            rw [if_pos ⟨by rw [h1], by rw [h1]⟩]
          · right; exact h1

theorem mark_enemies_isSome (world : game_hooks) (faction_id : Int) :
    ∀ (l : List entity) (h0 : Int → Int → Bool),
      (∀ ent ∈ l, enemy_ent world faction_id ent ≠ none) →
      ∃ h, mark_enemies world faction_id l h0 = some h := by
  intro l
  induction l with
  | nil => intro h0 _; exact ⟨h0, rfl⟩
  | cons curr rest ih =>
    intro h0 hall
    unfold mark_enemies
    have hc := hall curr (List.mem_cons_self _ _)
    have hr : ∀ ent ∈ rest, enemy_ent world faction_id ent ≠ none :=
      fun ent he => hall ent (List.mem_cons_of_mem _ he)
    cases he : enemy_ent world faction_id curr with
    | none => exact absurd he hc
    | some b =>
      cases b with
      | false => exact ih h0 hr
      | true => exact ih _ hr

theorem cells_nodup (R C : Nat) : (cells R C).Nodup := by
  unfold cells
  rw [List.nodup_flatMap]
  refine ⟨fun r _ => ?_, ?_⟩
  · refine (List.nodup_range C).map ?_
    intro a b hab
    simpa using hab
  · refine (List.nodup_range R).pairwise_of_forall_ne ?_
    intro a _ b _ hab
    simp only [Function.onFun, List.disjoint_left, List.mem_map, not_exists, not_and]
    rintro x ⟨c1, -, rfl⟩ c2 - h
    apply hab
    have := congrArg Coord.r h
    simpa using this.symm

/-- The seeds of an enemies target: the cells of the grid that hold a hostile entity,
each of them once. -/
theorem target_seeds_enemies {R C : Nat} {world : game_hooks} {faction_id : Int}
    {seeds : List Coord}
    (h : target_seeds R C world (field_target.TARGET_ENEMIES faction_id) = some seeds) :
    seeds.Nodup
    ∧ ∀ x : Coord, x ∈ seeds ↔
        (in_grid R C x ∧ ∃ ent ∈ world.ents, hostile world faction_id ent ∧ ent.tile = x) := by
  simp only [target_seeds] at h
  split_ifs at h with hlen
  cases hm : mark_enemies world faction_id world.ents (fun _ _ => false) with
  | none => rw [hm] at h; cases h
  | some has_enemy =>
    rw [hm] at h
    simp only [Option.some.injEq] at h
    subst h
    refine ⟨(cells_nodup R C).filter _, fun x => ?_⟩
    rw [List.mem_filter, mem_cells, mark_enemies_spec world faction_id _ _ _ hm x.r x.c]
    simp

/-- C15: for a chunk with `cost_base >= 1`, every requesting faction and every list of
entities, after `N_FlowFieldUpdate` for an enemies target the cells with integration 0
are exactly the tiles of the grid occupied by at least one entity whose faction differs
from the requester, that has the combat-capable flag and whose diplomacy state with the
requester is WAR; the seeds pushed on the frontier are these tiles, each of them once,
however many such entities stand on one tile; friendly, non-combat and non-war entities
give no seed.  The second part states that the call does return when
`FIELD_RES_C <= FIELD_RES_R`, the diplomacy hook answers for every entity, and some
hostile entity stands on a tile of the grid. -/
theorem N_FlowFieldUpdate_enemies_seeds (R C : Nat) (tie : Nat → Nat) (world : game_hooks)
    (chunk : nav_chunk) (faction_id : Int) (flow0 : flow_field)
    (hcost : positive_costs R C chunk) :
    (∀ (fuel : Nat) (intf : IntegrationField) (flow : flow_field),
      N_FlowFieldUpdate R C fuel tie world chunk (field_target.TARGET_ENEMIES faction_id)
          flow0 = some (intf, flow) →
        (∀ x : Coord, intf x.r x.c = Val.fin 0 ↔
          (in_grid R C x
            ∧ ∃ ent ∈ world.ents, hostile world faction_id ent ∧ ent.tile = x))
        ∧ ∃ (seeds : List Coord) (frontier : pq_coord) (f0 : IntegrationField),
            seed_target R C world (field_target.TARGET_ENEMIES faction_id)
              = some (frontier, f0)
            ∧ frontier.nodes = seeds.map (fun s => (Val.fin 0, s))
            ∧ seeds.Nodup
            ∧ ∀ x : Coord, x ∈ seeds ↔ intf x.r x.c = Val.fin 0)
    ∧ (C ≤ R → (∀ ent ∈ world.ents, enemy_ent world faction_id ent ≠ none) →
        (∃ ent ∈ world.ents, hostile world faction_id ent ∧ in_grid R C ent.tile) →
        ∃ intf flow fuel0, ∀ fuel, fuel0 ≤ fuel →
          N_FlowFieldUpdate R C fuel tie world chunk (field_target.TARGET_ENEMIES faction_id)
            flow0 = some (intf, flow)) := by
  constructor
  · intro fuel intf flow h
    obtain ⟨seeds, hts, -, hinv⟩ := N_FlowFieldUpdate_inv h
    obtain ⟨hnd, hmem⟩ := target_seeds_enemies hts
    have hzero : ∀ x : Coord, intf x.r x.c = Val.fin 0 ↔ x ∈ seeds :=
      fun x => build_inv_zero_iff hcost hinv x
    refine ⟨fun x => (hzero x).trans (hmem x), seeds, ?_⟩
    have hst := seed_target_eq R C world (field_target.TARGET_ENEMIES faction_id)
    rw [hts] at hst
    refine ⟨_, _, hst, ?_, hnd, fun x => (hzero x).symm⟩
    rw [(foldl_seed_cell seeds (pq_coord_init, fun _ _ => Val.inf)).1]
    rfl
  · intro hRC hhook ⟨ent, hent, hhost, hin⟩
    obtain ⟨has_enemy, hm⟩ := mark_enemies_isSome world faction_id world.ents
      (fun _ _ => false) hhook
    have hlen : ¬ world.ents.length = 0 := by
      intro h0
      rw [List.length_eq_zero] at h0
      rw [h0] at hent
      cases hent
    have hts : target_seeds R C world (field_target.TARGET_ENEMIES faction_id)
        = some ((cells R C).filter fun x => has_enemy x.r x.c) := by
      simp only [target_seeds, if_neg hlen, hm]
    obtain ⟨-, hmem⟩ := target_seeds_enemies hts
    refine N_FlowFieldUpdate_returns R C tie world chunk _ flow0 _ hRC hts ?_ ?_ ?_
    · intro hnil
      have : ent.tile ∈ (cells R C).filter fun x => has_enemy x.r x.c :=
        (hmem ent.tile).2 ⟨hin, ent, hent, hhost, rfl⟩
      rw [hnil] at this
      cases this
    · intro s hs
      exact ((hmem s).1 hs).1
    · intro port hp
      cases hp

/-- C15, witness: on the flat 8x8 chunk with three units of the requesting faction 0 and
two units of faction 1, at war with it, on (2,2) and (5,6), the seeds are (2,2) and
(5,6) and the call returns with integration 0 on these two cells and not on the tile
(1,1) of a friendly unit.  The run with 100 units of fuel is evaluated as well. -/
theorem N_FlowFieldUpdate_enemies_seeds_witness :
    positive_costs 8 8 flat_chunk
    ∧ target_seeds 8 8 war_world (field_target.TARGET_ENEMIES 0) = some [⟨2, 2⟩, ⟨5, 6⟩]
    ∧ (∃ intf flow fuel0,
        (∀ fuel, fuel0 ≤ fuel →
          N_FlowFieldUpdate 8 8 fuel (fun _ => 0) war_world flat_chunk
            (field_target.TARGET_ENEMIES 0) south_flow = some (intf, flow))
        ∧ intf 2 2 = Val.fin 0 ∧ intf 5 6 = Val.fin 0 ∧ intf 1 1 ≠ Val.fin 0)
    ∧ (N_FlowFieldUpdate 8 8 100 (fun _ => 0) war_world flat_chunk
          (field_target.TARGET_ENEMIES 0) south_flow).map
        (fun p => (p.1 2 2, p.1 5 6, p.1 1 1, p.1 3 4, p.1 7 0))
        = some (Val.fin 0, Val.fin 0, Val.fin 2, Val.fin 3, Val.fin 7) := by
  have hthm := N_FlowFieldUpdate_enemies_seeds 8 8 (fun _ => 0) war_world flat_chunk 0
    south_flow (positive_costs_flat_chunk 8 8)
  refine ⟨positive_costs_flat_chunk 8 8, by decide, ?_, by decide⟩
  obtain ⟨intf, flow, fuel0, hrun⟩ := hthm.2 (by decide) (by decide) (by decide)
  have hval := (hthm.1 fuel0 intf flow (hrun fuel0 (Nat.le_refl _))).1
  refine ⟨intf, flow, fuel0, hrun, (hval ⟨2, 2⟩).2 (by decide), (hval ⟨5, 6⟩).2 (by decide),
    fun h => absurd ((hval ⟨1, 1⟩).1 h) (by decide)⟩

/-! ### Cells of a line-of-sight field -/

theorem setLosCell_same (los : LOS_field) (r c : Int) (cell : los_cell) :
    (setLosCell los r c cell).field r c = cell := by
  simp [setLosCell]

theorem setLosCell_other (los : LOS_field) (r c r2 c2 : Int) (cell : los_cell)
    (h : ¬ (r2 = r ∧ c2 = c)) : (setLosCell los r c cell).field r2 c2 = los.field r2 c2 := by
  simp only [setLosCell, if_neg h]

theorem setBlocked_visible (los : LOS_field) (r c r2 c2 : Int) :
    ((setBlocked los r c).field r2 c2).visible = (los.field r2 c2).visible := by
  unfold setBlocked
  by_cases h : r2 = r ∧ c2 = c
  · obtain ⟨rfl, rfl⟩ := h
    rw [setLosCell_same]
  · rw [setLosCell_other _ _ _ _ _ _ h]

theorem setBlocked_blocked (los : LOS_field) (r c r2 c2 : Int) :
    ((setBlocked los r c).field r2 c2).wavefront_blocked
      = (decide (r2 = r ∧ c2 = c) || (los.field r2 c2).wavefront_blocked) := by
  unfold setBlocked
  by_cases h : r2 = r ∧ c2 = c
  · obtain ⟨rfl, rfl⟩ := h
    rw [setLosCell_same]
    simp
  · rw [setLosCell_other _ _ _ _ _ _ h]
    simp [h]

theorem setVisible_blocked (los : LOS_field) (r c r2 c2 : Int) (v : Bool) :
    ((setVisible los r c v).field r2 c2).wavefront_blocked
      = (los.field r2 c2).wavefront_blocked := by
  unfold setVisible
  by_cases h : r2 = r ∧ c2 = c
  · obtain ⟨rfl, rfl⟩ := h
    rw [setLosCell_same]
  · rw [setLosCell_other _ _ _ _ _ _ h]

theorem setVisible_visible (los : LOS_field) (r c r2 c2 : Int) (v : Bool) :
    ((setVisible los r c v).field r2 c2).visible
      = if r2 = r ∧ c2 = c then v else (los.field r2 c2).visible := by
  unfold setVisible
  by_cases h : r2 = r ∧ c2 = c
  · obtain ⟨rfl, rfl⟩ := h
    rw [setLosCell_same]
    simp
  · rw [setLosCell_other _ _ _ _ _ _ h, if_neg h]

/-! ### Shadow lines -/

/-- A shadow line changes no `visible` bit, clears no `wavefront_blocked` bit, writes
only cells of the grid besides its first cell, and keeps the chunk coordinate. -/
theorem wavefront_line_loop_spec (R C : Nat) (dx dy sx sy : Int) :
    ∀ (fuel : Nat) (err : Int) (curr : Coord) (los out : LOS_field),
      wavefront_line_loop R C dx dy sx sy fuel err curr los = some out →
      out.chunk = los.chunk
      ∧ (out.field curr.r curr.c).wavefront_blocked = true
      ∧ ∀ r c : Int,
          (out.field r c).visible = (los.field r c).visible
          ∧ ((los.field r c).wavefront_blocked = true →
              (out.field r c).wavefront_blocked = true)
          ∧ ((out.field r c).wavefront_blocked = true →
              (los.field r c).wavefront_blocked = true
                ∨ (r = curr.r ∧ c = curr.c) ∨ in_grid R C ⟨r, c⟩) := by
  intro fuel
  induction fuel with
  | zero => intro err curr los out h; simp [wavefront_line_loop] at h
  | succ fuel ih =>
    intro err curr los out h
    unfold wavefront_line_loop at h
    simp only at h
    generalize (if 2 * err ≤ dx then curr.r + sy else curr.r) = r1 at h
    generalize (if 2 * err ≥ dy then curr.c + sx else curr.c) = c1 at h
    generalize (if 2 * err ≤ dx then (if 2 * err ≥ dy then err + dy else err) + dx
      else if 2 * err ≥ dy then err + dy else err) = err2 at h
    split_ifs at h with hin
    · obtain ⟨h1, h2, h3⟩ := ih _ _ _ _ h
      refine ⟨h1, ?_, fun r c => ?_⟩
      · exact (h3 curr.r curr.c).2.1 (by rw [setBlocked_blocked]; simp)
      · obtain ⟨a, b, d⟩ := h3 r c
        refine ⟨by rw [a, setBlocked_visible], fun hb => b ?_, fun ho => ?_⟩
        · rw [setBlocked_blocked, hb]; simp
        · rcases d ho with d1 | d2 | d3
          · rw [setBlocked_blocked] at d1
            simp only [Bool.or_eq_true, decide_eq_true_eq] at d1
            rcases d1 with d1 | d1
            · right; left; exact d1
            · left; exact d1
          · right; right
            obtain ⟨rfl, rfl⟩ := d2
            simp only [in_grid]
            omega
          · right; right; exact d3
    · simp only [Option.some.injEq] at h
      subst h
      refine ⟨rfl, by rw [setBlocked_blocked]; simp, fun r c => ⟨setBlocked_visible _ _ _ _ _,
        fun hb => by rw [setBlocked_blocked, hb]; simp, fun ho => ?_⟩⟩
      rw [setBlocked_blocked] at ho
      simp only [Bool.or_eq_true, decide_eq_true_eq] at ho
      rcases ho with ho | ho
      · right; left; exact ho
      · left; exact ho

/-- Every iteration moves the walk one step further in its fixed direction along the
rows or the columns, so the loop returns when the fuel covers the distance of the start
cell to the edges of the grid it walks toward. -/
theorem wavefront_line_loop_returns (R C : Nat) (dx dy sx sy : Int) (hdx : 0 ≤ dx)
    (hdy : dy ≤ 0) (hsx : sx = 1 ∨ sx = -1) (hsy : sy = 1 ∨ sy = -1) :
    ∀ (fuel : Nat) (err : Int) (curr : Coord) (los : LOS_field), in_grid R C curr →
      (if sx = 1 then (C : Int) - curr.c else curr.c + 1)
        + (if sy = 1 then (R : Int) - curr.r else curr.r + 1) ≤ fuel + 1 →
      ∃ out, wavefront_line_loop R C dx dy sx sy fuel err curr los = some out := by
  intro fuel
  induction fuel with
  | zero =>
    intro err curr los hin hpot
    simp only [in_grid] at hin
    exfalso
    split_ifs at hpot <;> omega
  | succ fuel ih =>
    intro err curr los hin hpot
    unfold wavefront_line_loop
    simp only [in_grid] at hin
    by_cases h1 : 2 * err ≥ dy <;> by_cases h2 : 2 * err ≤ dx <;>
      simp only [h1, h2, if_true, if_false]
    · by_cases hcont : curr.r + sy ≥ 0 ∧ curr.r + sy < (R : Int) ∧ curr.c + sx ≥ 0
          ∧ curr.c + sx < (C : Int)
      · rw [if_pos hcont]
        apply ih _ _ _ (by simp only [in_grid]; omega)
        rcases hsx with rfl | rfl <;> rcases hsy with rfl | rfl <;>
          simp only [if_true] at hpot ⊢ <;> norm_num at hpot ⊢ <;> omega
      · rw [if_neg hcont]; exact ⟨_, rfl⟩
    · by_cases hcont : curr.r ≥ 0 ∧ curr.r < (R : Int) ∧ curr.c + sx ≥ 0
          ∧ curr.c + sx < (C : Int)
      · rw [if_pos hcont]
        apply ih _ _ _ (by simp only [in_grid]; omega)
        rcases hsx with rfl | rfl <;> rcases hsy with rfl | rfl <;>
          simp only [if_true] at hpot ⊢ <;> norm_num at hpot ⊢ <;> omega
      · rw [if_neg hcont]; exact ⟨_, rfl⟩
    · by_cases hcont : curr.r + sy ≥ 0 ∧ curr.r + sy < (R : Int) ∧ curr.c ≥ 0
          ∧ curr.c < (C : Int)
      · rw [if_pos hcont]
        apply ih _ _ _ (by simp only [in_grid]; omega)
        rcases hsx with rfl | rfl <;> rcases hsy with rfl | rfl <;>
          simp only [if_true] at hpot ⊢ <;> norm_num at hpot ⊢ <;> omega
      · rw [if_neg hcont]; exact ⟨_, rfl⟩
    · exfalso; omega

theorem create_wavefront_blocked_line_spec {R C : Nat}
    {slope_of : tile_desc → tile_desc → line_slope} {target corner : tile_desc}
    {los out : LOS_field}
    (h : create_wavefront_blocked_line R C slope_of target corner los = some out) :
    out.chunk = los.chunk
    ∧ (out.field corner.tile_r corner.tile_c).wavefront_blocked = true
    ∧ ∀ r c : Int,
        (out.field r c).visible = (los.field r c).visible
        ∧ ((los.field r c).wavefront_blocked = true →
            (out.field r c).wavefront_blocked = true)
        ∧ ((out.field r c).wavefront_blocked = true →
            (los.field r c).wavefront_blocked = true
              ∨ (r = corner.tile_r ∧ c = corner.tile_c) ∨ in_grid R C ⟨r, c⟩) :=
  wavefront_line_loop_spec R C _ _ _ _ _ _ _ _ _ h

theorem create_wavefront_blocked_line_returns (R C : Nat)
    (slope_of : tile_desc → tile_desc → line_slope) (target corner : tile_desc)
    (los : LOS_field) (hin : in_grid R C ⟨corner.tile_r, corner.tile_c⟩) :
    ∃ out, create_wavefront_blocked_line R C slope_of target corner los = some out := by
  have key : ∀ (dx dy : Int) (bx bz : Bool), 0 ≤ dx → dy ≤ 0 →
      ∃ out, wavefront_line_loop R C dx dy (if bx = true then 1 else -1)
        (if bz = true then 1 else -1) (R + C) (dx + dy) ⟨corner.tile_r, corner.tile_c⟩ los
        = some out := by
    intro dx dy bx bz hdx hdy
    have hin2 := hin
    simp only [in_grid] at hin2
    have hs : ∀ b : Bool, (if b = true then (1 : Int) else -1) = 1
        ∨ (if b = true then (1 : Int) else -1) = -1 := by
      intro b; cases b <;> simp
    apply wavefront_line_loop_returns R C dx dy _ _ hdx hdy (hs bx) (hs bz) (R + C) _ _ los hin
    cases bx <;> cases bz <;> simp <;> omega
  unfold create_wavefront_blocked_line
  exact key _ _ _ _ (Int.natCast_nonneg _) (by omega)

/-! ### Padding -/

theorem pad_clear_spec (R C : Nat) (los : LOS_field) (p : Int × Int) :
    (pad_clear R C los p).chunk = los.chunk
    ∧ (∀ r c : Int, ((pad_clear R C los p).field r c).wavefront_blocked
        = (los.field r c).wavefront_blocked)
    ∧ (∀ r c : Int, ((pad_clear R C los p).field r c).visible = true →
        (los.field r c).visible = true)
    ∧ (in_grid R C ⟨p.1, p.2⟩ → ((pad_clear R C los p).field p.1 p.2).visible = false) := by
  unfold pad_clear
  split_ifs with h1 h2
  · exact ⟨rfl, fun _ _ => rfl, fun _ _ h => h, fun hin => by simp only [in_grid] at hin; omega⟩
  · exact ⟨rfl, fun _ _ => rfl, fun _ _ h => h, fun hin => by simp only [in_grid] at hin; omega⟩
  · refine ⟨rfl, fun r c => setVisible_blocked _ _ _ _ _ _, fun r c h => ?_, fun _ => ?_⟩
    · rw [setVisible_visible] at h
      split_ifs at h with hh
      · exact h
    · rw [setVisible_visible, if_pos ⟨rfl, rfl⟩]

theorem foldl_pad_clear_spec (R C : Nat) :
    ∀ (l : List (Int × Int)) (los : LOS_field),
      (l.foldl (pad_clear R C) los).chunk = los.chunk
      ∧ (∀ r c : Int, ((l.foldl (pad_clear R C) los).field r c).wavefront_blocked
          = (los.field r c).wavefront_blocked)
      ∧ (∀ r c : Int, ((l.foldl (pad_clear R C) los).field r c).visible = true →
          (los.field r c).visible = true)
      ∧ (∀ p ∈ l, in_grid R C ⟨p.1, p.2⟩ →
          ((l.foldl (pad_clear R C) los).field p.1 p.2).visible = false) := by
  intro l
  induction l with
  | nil => intro los; exact ⟨rfl, fun _ _ => rfl, fun _ _ h => h, fun p hp => by cases hp⟩
  | cons q rest ih =>
    intro los
    obtain ⟨a1, a2, a3, a4⟩ := pad_clear_spec R C los q
    obtain ⟨b1, b2, b3, b4⟩ := ih (pad_clear R C los q)
    rw [List.foldl_cons]
    refine ⟨b1.trans a1, fun r c => (b2 r c).trans (a2 r c), fun r c h => a3 r c (b3 r c h),
      fun p hp hin => ?_⟩
    rcases List.mem_cons.1 hp with rfl | hp
    · cases hv : ((List.foldl (pad_clear R C) (pad_clear R C los p) rest).field p.1 p.2).visible
        with
      | false => rfl
      | true =>
        have := b3 p.1 p.2 hv
        rw [a4 hin] at this
        exact absurd this (by simp)
    · exact b4 p hp hin

/-- One pass of the outer loops of `pad_wavefront`: when the cell `y` is blocked, every
cell of the grid that is `y` or one of its eight Moore neighbours ends not visible. -/
theorem pad_cell_spec (R C : Nat) (los : LOS_field) (y : Coord) :
    (pad_cell R C los y).chunk = los.chunk
    ∧ (∀ r c : Int, ((pad_cell R C los y).field r c).wavefront_blocked
        = (los.field r c).wavefront_blocked)
    ∧ (∀ r c : Int, ((pad_cell R C los y).field r c).visible = true →
        (los.field r c).visible = true)
    ∧ ((los.field y.r y.c).wavefront_blocked = true → ∀ x : Coord, in_grid R C x →
        (x.r - y.r).natAbs ≤ 1 → (x.c - y.c).natAbs ≤ 1 →
        ((pad_cell R C los y).field x.r x.c).visible = false) := by
  unfold pad_cell
  split_ifs with hb
  · obtain ⟨a1, a2, a3, a4⟩ := foldl_pad_clear_spec R C
      (([y.r - 1, y.r, y.r + 1] : List Int).flatMap fun rr =>
        ([y.c - 1, y.c, y.c + 1] : List Int).map fun cc => (rr, cc)) los
    refine ⟨a1, a2, a3, fun _ x hx hr hc => ?_⟩
    have hmem : (x.r, x.c) ∈ (([y.r - 1, y.r, y.r + 1] : List Int).flatMap fun rr =>
        ([y.c - 1, y.c, y.c + 1] : List Int).map fun cc => (rr, cc)) := by
      rw [List.mem_flatMap]
      refine ⟨x.r, ?_, List.mem_map.2 ⟨x.c, ?_, rfl⟩⟩
      · simp only [List.mem_cons, List.mem_singleton, List.not_mem_nil, or_false]; omega
      · simp only [List.mem_cons, List.mem_singleton, List.not_mem_nil, or_false]; omega
    exact a4 (x.r, x.c) hmem hx
  · exact ⟨rfl, fun _ _ => rfl, fun _ _ h => h, fun h => absurd h hb⟩

theorem foldl_pad_cell_spec (R C : Nat) :
    ∀ (l : List Coord) (los : LOS_field),
      (l.foldl (pad_cell R C) los).chunk = los.chunk
      ∧ (∀ r c : Int, ((l.foldl (pad_cell R C) los).field r c).wavefront_blocked
          = (los.field r c).wavefront_blocked)
      ∧ (∀ r c : Int, ((l.foldl (pad_cell R C) los).field r c).visible = true →
          (los.field r c).visible = true)
      ∧ (∀ y ∈ l, (los.field y.r y.c).wavefront_blocked = true → ∀ x : Coord,
          in_grid R C x → (x.r - y.r).natAbs ≤ 1 → (x.c - y.c).natAbs ≤ 1 →
          ((l.foldl (pad_cell R C) los).field x.r x.c).visible = false) := by
  intro l
  induction l with
  | nil => intro los; exact ⟨rfl, fun _ _ => rfl, fun _ _ h => h, fun p hp => by cases hp⟩
  | cons q rest ih =>
    intro los
    obtain ⟨a1, a2, a3, a4⟩ := pad_cell_spec R C los q
    obtain ⟨b1, b2, b3, b4⟩ := ih (pad_cell R C los q)
    rw [List.foldl_cons]
    refine ⟨b1.trans a1, fun r c => (b2 r c).trans (a2 r c), fun r c h => a3 r c (b3 r c h),
      fun y hy hb x hx hr hc => ?_⟩
    rcases List.mem_cons.1 hy with rfl | hy
    · cases hv : ((List.foldl (pad_cell R C) (pad_cell R C los y) rest).field x.r x.c).visible
        with
      | false => rfl
      | true =>
        have := b3 x.r x.c hv
        rw [a4 hb x hx hr hc] at this
        exact absurd this (by simp)
    · exact b4 y hy (by rw [a2]; exact hb) x hx hr hc

/-- The function `pad_wavefront` keeps the chunk coordinate and every
`wavefront_blocked` bit, sets no `visible` bit, and clears `visible` on every cell of
the grid that is a blocked cell of the grid or one of its eight Moore neighbours. -/
theorem pad_wavefront_spec (R C : Nat) (los : LOS_field) :
    (pad_wavefront R C los).chunk = los.chunk
    ∧ (∀ r c : Int, ((pad_wavefront R C los).field r c).wavefront_blocked
        = (los.field r c).wavefront_blocked)
    ∧ (∀ r c : Int, ((pad_wavefront R C los).field r c).visible = true →
        (los.field r c).visible = true)
    ∧ (∀ x y : Coord, in_grid R C x → in_grid R C y →
        (los.field y.r y.c).wavefront_blocked = true →
        (x.r - y.r).natAbs ≤ 1 → (x.c - y.c).natAbs ≤ 1 →
        ((pad_wavefront R C los).field x.r x.c).visible = false) := by
  obtain ⟨a1, a2, a3, a4⟩ := foldl_pad_cell_spec R C (cells R C) los
  exact ⟨a1, a2, a3, fun x y hx hy hb hr hc =>
    a4 y ((mem_cells R C y).2 hy) hb x hx hr hc⟩

/-! ### The list returned by neighbours_grid_LOS -/

theorem neighbours_grid_LOS_unfold (R C : Nat) (chunk : nav_chunk) (los : LOS_field)
    (coord : Coord) :
    neighbours_grid_LOS R C chunk los coord
      = neighbours_grid_LOS_at R C chunk los coord (-1) (-1)
        ++ (neighbours_grid_LOS_at R C chunk los coord (-1) 0
        ++ (neighbours_grid_LOS_at R C chunk los coord (-1) 1 ++ []))
        ++ (neighbours_grid_LOS_at R C chunk los coord 0 (-1)
        ++ (neighbours_grid_LOS_at R C chunk los coord 0 0
        ++ (neighbours_grid_LOS_at R C chunk los coord 0 1 ++ []))
        ++ (neighbours_grid_LOS_at R C chunk los coord 1 (-1)
        ++ (neighbours_grid_LOS_at R C chunk los coord 1 0
        ++ (neighbours_grid_LOS_at R C chunk los coord 1 1 ++ [])) ++ [])) := rfl

theorem neighbours_grid_LOS_at_cardinal (R C : Nat) (chunk : nav_chunk) (los : LOS_field)
    (coord : Coord) (r c : Int) (hcard : ¬ (r = 0 ∧ c = 0) ∧ ¬ (r = c ∨ r = -c)) :
    neighbours_grid_LOS_at R C chunk los coord r c
    = ((if LOS_neighbour_kept R C los ⟨coord.r + r, coord.c + c⟩
          then [(⟨coord.r + r, coord.c + c⟩ : Coord)] else []).map
        fun y => (y, neighbour_cost chunk y)) := by
  unfold neighbours_grid_LOS_at
  obtain ⟨h1, h2⟩ := hcard
  by_cases hk : LOS_neighbour_kept R C los ⟨coord.r + r, coord.c + c⟩
  · rw [if_pos hk]
    obtain ⟨hin, hp⟩ := hk
    simp only [in_grid] at hin
    simp only at hp
    rw [if_neg (by omega), if_neg (by omega), if_neg h1, if_neg h2, if_neg (by rw [hp]; simp)]
    rfl
  · rw [if_neg hk]
    simp only [LOS_neighbour_kept, in_grid] at hk
    by_cases g1 : coord.r + r < 0 ∨ coord.r + r ≥ R
    · rw [if_pos g1]; rfl
    rw [if_neg g1]
    by_cases g2 : coord.c + c < 0 ∨ coord.c + c ≥ C
    · rw [if_pos g2]; rfl
    rw [if_neg g2, if_neg h1, if_neg h2]
    by_cases g3 : (los.field (coord.r + r) (coord.c + c)).wavefront_blocked = true
    · rw [if_pos g3]; rfl
    exfalso
    apply hk
    refine ⟨by omega, ?_⟩
    cases hb : (los.field (coord.r + r) (coord.c + c)).wavefront_blocked with
    | false => rfl
    | true => exact absurd hb g3

theorem neighbours_grid_LOS_at_other (R C : Nat) (chunk : nav_chunk) (los : LOS_field)
    (coord : Coord) (r c : Int) (hdiag : (r = 0 ∧ c = 0) ∨ (r = c ∨ r = -c)) :
    neighbours_grid_LOS_at R C chunk los coord r c = [] := by
  unfold neighbours_grid_LOS_at
  split_ifs with g1 g2 g3 g4 g5
  · rfl
  · rfl
  · rfl
  · rfl
  · rfl
  · exfalso
    rcases hdiag with h | h
    · exact g3 h
    · exact g4 h

/-- The list returned by `neighbours_grid_LOS`, computed. -/
theorem neighbours_grid_LOS_eq (R C : Nat) (chunk : nav_chunk) (los : LOS_field)
    (coord : Coord) :
    neighbours_grid_LOS R C chunk los coord
      = ((cardinal_cells coord).filter
          fun y => decide (LOS_neighbour_kept R C los y)).map
          fun y => (y, neighbour_cost chunk y) := by
  rw [neighbours_grid_LOS_unfold,
    neighbours_grid_LOS_at_other R C chunk los coord (-1) (-1) (by decide),
    neighbours_grid_LOS_at_cardinal R C chunk los coord (-1) 0 (by decide),
    neighbours_grid_LOS_at_other R C chunk los coord (-1) 1 (by decide),
    neighbours_grid_LOS_at_cardinal R C chunk los coord 0 (-1) (by decide),
    neighbours_grid_LOS_at_other R C chunk los coord 0 0 (by decide),
    neighbours_grid_LOS_at_cardinal R C chunk los coord 0 1 (by decide),
    neighbours_grid_LOS_at_other R C chunk los coord 1 (-1) (by decide),
    neighbours_grid_LOS_at_cardinal R C chunk los coord 1 0 (by decide),
    neighbours_grid_LOS_at_other R C chunk los coord 1 1 (by decide)]
  simp only [cardinal_cells, List.filter, Int.add_zero, Int.sub_eq_add_neg, List.nil_append,
    List.append_nil]
  by_cases k1 : LOS_neighbour_kept R C los ⟨coord.r + -1, coord.c⟩ <;>
  by_cases k2 : LOS_neighbour_kept R C los ⟨coord.r, coord.c + -1⟩ <;>
  by_cases k3 : LOS_neighbour_kept R C los ⟨coord.r, coord.c + 1⟩ <;>
  by_cases k4 : LOS_neighbour_kept R C los ⟨coord.r + 1, coord.c⟩ <;>
  simp [k1, k2, k3, k4]

theorem mem_cardinal_cells (x y : Coord) : y ∈ cardinal_cells x ↔ cardinal_step x y := by
  simp only [cardinal_cells, List.mem_cons, List.mem_singleton, List.not_mem_nil, or_false,
    cardinal_step]
  constructor
  · rintro (rfl | rfl | rfl | rfl) <;> simp
  · rintro (⟨h1, h2⟩ | ⟨h1, h2⟩ | ⟨h1, h2⟩ | ⟨h1, h2⟩)
    · left; ext <;> simp [h1, h2]
    · right; left; ext <;> simp [h1, h2]
    · right; right; left; ext <;> simp [h1, h2]
    · right; right; right; ext <;> simp [h1, h2]

theorem mem_neighbours_grid_LOS (R C : Nat) (chunk : nav_chunk) (los : LOS_field) (x : Coord)
    (n : Coord × Nat) :
    n ∈ neighbours_grid_LOS R C chunk los x ↔
      cardinal_step x n.1 ∧ in_grid R C n.1
        ∧ (los.field n.1.r n.1.c).wavefront_blocked = false
        ∧ n.2 = neighbour_cost chunk n.1 := by
  rw [neighbours_grid_LOS_eq, List.mem_map]
  constructor
  · rintro ⟨y, hy, rfl⟩
    rw [List.mem_filter, mem_cardinal_cells] at hy
    obtain ⟨h1, h2⟩ := hy
    have h3 := of_decide_eq_true h2
    exact ⟨h1, h3.1, h3.2, rfl⟩
  · rintro ⟨h1, h2, h3, h4⟩
    refine ⟨n.1, ?_, ?_⟩
    · rw [List.mem_filter, mem_cardinal_cells]
      exact ⟨h1, decide_eq_true ⟨h2, h3⟩⟩
    · rw [← h4]

/-! ### The loops of N_LOSFieldCreate -/

theorem foldlM_option_inv {α β : Type} (f : β → α → Option β) (P : β → Prop) (l : List α)
    (hstep : ∀ b a, a ∈ l → P b → ∀ b2, f b a = some b2 → P b2) :
    ∀ (b0 b1 : β), P b0 → l.foldlM f b0 = some b1 → P b1 := by
  induction l with
  | nil =>
    intro b0 b1 h0 h
    simp only [List.foldlM_nil] at h
    cases h
    exact h0
  | cons a rest ih =>
    intro b0 b1 h0 h
    rw [List.foldlM_cons] at h
    cases hf : f b0 a with
    | none => rw [hf] at h; cases h
    | some b2 =>
      rw [hf] at h
      exact ih (fun b a2 ha hb b3 hb3 => hstep b a2 (List.mem_cons_of_mem _ ha) hb b3 hb3)
        b2 b1 (hstep b0 a (List.mem_cons_self _ _) h0 b2 hf) h

theorem foldlM_option_isSome {α β : Type} (f : β → α → Option β) (l : List α)
    (hstep : ∀ b a, a ∈ l → ∃ b2, f b a = some b2) :
    ∀ b0 : β, ∃ b1, l.foldlM f b0 = some b1 := by
  induction l with
  | nil => intro b0; exact ⟨b0, rfl⟩
  | cons a rest ih =>
    intro b0
    obtain ⟨b2, hb2⟩ := hstep b0 a (List.mem_cons_self _ _)
    obtain ⟨b1, hb1⟩ := ih (fun b a2 ha => hstep b a2 (List.mem_cons_of_mem _ ha)) b2
    exact ⟨b1, by rw [List.foldlM_cons, hb2]; exact hb1⟩

/-- A neighbour of cost at most 1 is marked visible and relaxed with the step cost 1,
as in the loop of `build_integration_field`. -/
theorem LOS_visit_plain (R C : Nat) (slope_of : tile_desc → tile_desc → line_slope)
    (chunk : nav_chunk) (chunk_coord : Coord) (target : tile_desc) (curr : Coord)
    (st : LOS_state) (n : Coord × Nat) (h : ¬ n.2 > 1) :
    LOS_visit R C slope_of chunk chunk_coord target curr st n
      = some (relax curr st.1 (n.1, 1), setVisible st.2 n.1.r n.1.c true) := by
  unfold LOS_visit relax
  rw [if_neg h]
  simp only
  split_ifs <;> rfl

/-- A neighbour of cost above 1 leaves the frontier, the integration field and the
`visible` bits as they are, and clears no `wavefront_blocked` bit. -/
theorem LOS_visit_occluder (R C : Nat) (slope_of : tile_desc → tile_desc → line_slope)
    (chunk : nav_chunk) (chunk_coord : Coord) (target : tile_desc) (curr : Coord)
    (st : LOS_state) (n : Coord × Nat) (h : n.2 > 1) (hin : in_grid R C n.1) :
    ∃ los, LOS_visit R C slope_of chunk chunk_coord target curr st n = some (st.1, los)
      ∧ los.chunk = st.2.chunk
      ∧ ∀ r c : Int,
          (los.field r c).visible = (st.2.field r c).visible
          ∧ ((st.2.field r c).wavefront_blocked = true →
              (los.field r c).wavefront_blocked = true)
          ∧ ((los.field r c).wavefront_blocked = true →
              (st.2.field r c).wavefront_blocked = true ∨ in_grid R C ⟨r, c⟩) := by
  unfold LOS_visit
  rw [if_pos h]
  by_cases hc : is_LOS_corner R C n.1 chunk.cost_base chunk.blockers = false
  · rw [if_pos hc]
    exact ⟨st.2, rfl, rfl, fun r c => ⟨rfl, fun hb => hb, fun hb => Or.inl hb⟩⟩
  · rw [if_neg hc]
    obtain ⟨los, hlos⟩ := create_wavefront_blocked_line_returns R C slope_of target
      ⟨chunk_coord.r, chunk_coord.c, n.1.r, n.1.c⟩ st.2 hin
    rw [hlos]
    obtain ⟨h1, -, h3⟩ := create_wavefront_blocked_line_spec hlos
    refine ⟨los, rfl, h1, fun r c => ⟨(h3 r c).1, (h3 r c).2.1, fun hb => ?_⟩⟩
    rcases (h3 r c).2.2 hb with d | d | d
    · exact Or.inl d
    · right
      obtain ⟨rfl, rfl⟩ := d
      exact hin
    · exact Or.inr d

/-- What one pass of the `for` loop does to the state, whichever branch is taken. -/
theorem LOS_visit_cases (R C : Nat) (slope_of : tile_desc → tile_desc → line_slope)
    (chunk : nav_chunk) (chunk_coord : Coord) (target : tile_desc) (curr : Coord)
    (st : LOS_state) (n : Coord × Nat) (hin : in_grid R C n.1) :
    ∃ st2, LOS_visit R C slope_of chunk chunk_coord target curr st n = some st2
      ∧ st2.2.chunk = st.2.chunk
      ∧ (∀ r c : Int, (st.2.field r c).wavefront_blocked = true →
          (st2.2.field r c).wavefront_blocked = true)
      ∧ (∀ r c : Int, (st2.2.field r c).wavefront_blocked = true →
          (st.2.field r c).wavefront_blocked = true ∨ in_grid R C ⟨r, c⟩)
      ∧ ((st2.1 = st.1
            ∧ ∀ r c : Int, (st2.2.field r c).visible = (st.2.field r c).visible)
          ∨ (n.2 ≤ 1 ∧ st2.1 = relax curr st.1 (n.1, 1)
            ∧ ∀ r c : Int, (st2.2.field r c).visible
                = if r = n.1.r ∧ c = n.1.c then true else (st.2.field r c).visible)) := by
  by_cases h : n.2 > 1
  · obtain ⟨los, h1, h2, h3⟩ := LOS_visit_occluder R C slope_of chunk chunk_coord target curr
      st n h hin
    exact ⟨(st.1, los), h1, h2, fun r c => (h3 r c).2.1, fun r c => (h3 r c).2.2,
      Or.inl ⟨rfl, fun r c => (h3 r c).1⟩⟩
  · refine ⟨_, LOS_visit_plain R C slope_of chunk chunk_coord target curr st n h, rfl,
      fun r c hb => ?_, fun r c hb => ?_, Or.inr ⟨by omega, rfl, fun r c => ?_⟩⟩
    · show ((setVisible st.2 n.1.r n.1.c true).field r c).wavefront_blocked = true
      rw [setVisible_blocked]; exact hb
    · left
      have : ((setVisible st.2 n.1.r n.1.c true).field r c).wavefront_blocked = true := hb
      rw [setVisible_blocked] at this; exact this
    · exact setVisible_visible _ _ _ _ _ _

/-- The `for` loop over the neighbours of the popped cell returns; it keeps the chunk
coordinate, clears no `wavefront_blocked` bit, sets such bits inside the grid only, and
does not increase the lexicographic measure of the frontier and the integration field. -/
theorem LOS_for_spec (R C : Nat) (slope_of : tile_desc → tile_desc → line_slope)
    (chunk : nav_chunk) (chunk_coord : Coord) (target : tile_desc) (curr : Coord)
    (los0 : LOS_field) (st : LOS_state) :
    ∃ st2, (neighbours_grid_LOS R C chunk los0 curr).foldlM
        (LOS_visit R C slope_of chunk chunk_coord target curr) st = some st2
      ∧ st2.2.chunk = st.2.chunk
      ∧ (∀ r c : Int, (st.2.field r c).wavefront_blocked = true →
          (st2.2.field r c).wavefront_blocked = true)
      ∧ (∀ r c : Int, (st2.2.field r c).wavefront_blocked = true →
          (st.2.field r c).wavefront_blocked = true ∨ in_grid R C ⟨r, c⟩)
      ∧ (measure_inf R C st2.1 < measure_inf R C st.1
          ∨ (measure_inf R C st2.1 = measure_inf R C st.1
              ∧ measure_fin R C st2.1 ≤ measure_fin R C st.1)) := by
  have hgrid : ∀ n ∈ neighbours_grid_LOS R C chunk los0 curr, in_grid R C n.1 :=
    fun n hn => ((mem_neighbours_grid_LOS R C chunk los0 curr n).1 hn).2.1
  obtain ⟨st2, hst2⟩ := foldlM_option_isSome
    (LOS_visit R C slope_of chunk chunk_coord target curr)
    (neighbours_grid_LOS R C chunk los0 curr)
    (fun b a ha => by
      obtain ⟨b2, hb2, -⟩ := LOS_visit_cases R C slope_of chunk chunk_coord target curr b a
        (hgrid a ha)
      exact ⟨b2, hb2⟩) st
  refine ⟨st2, hst2, ?_⟩
  refine foldlM_option_inv (LOS_visit R C slope_of chunk chunk_coord target curr)
    (fun b => b.2.chunk = st.2.chunk
      ∧ (∀ r c : Int, (st.2.field r c).wavefront_blocked = true →
          (b.2.field r c).wavefront_blocked = true)
      ∧ (∀ r c : Int, (b.2.field r c).wavefront_blocked = true →
          (st.2.field r c).wavefront_blocked = true ∨ in_grid R C ⟨r, c⟩)
      ∧ (measure_inf R C b.1 < measure_inf R C st.1
          ∨ (measure_inf R C b.1 = measure_inf R C st.1
              ∧ measure_fin R C b.1 ≤ measure_fin R C st.1)))
    (neighbours_grid_LOS R C chunk los0 curr) ?_ st st2
    ⟨rfl, fun _ _ h => h, fun _ _ h => Or.inl h, Or.inr ⟨rfl, Nat.le_refl _⟩⟩ hst2
  intro b a ha ⟨p1, p2, p3, p4⟩ b2 hb2
  obtain ⟨b3, hb3, q1, q2, q3, q4⟩ := LOS_visit_cases R C slope_of chunk chunk_coord target
    curr b a (hgrid a ha)
  rw [hb2, Option.some.injEq] at hb3
  subst hb3
  refine ⟨q1.trans p1, fun r c h => q2 r c (p2 r c h), fun r c h => ?_, ?_⟩
  · rcases q3 r c h with d | d
    · exact p3 r c d
    · exact Or.inr d
  · rcases q4 with ⟨e, -⟩ | ⟨-, e, -⟩
    · rw [e]; exact p4
    · rw [e]
      have hm := relax_measure R C curr b.1 (a.1, 1) (hgrid a ha)
      rcases hm with hm | ⟨hm1, hm2⟩
      · rcases p4 with p4 | ⟨p4, -⟩
        · left; omega
        · left; omega
      · rcases p4 with p4 | ⟨p4, p5⟩
        · left; omega
        · right; exact ⟨by omega, by omega⟩

theorem LOS_while_of_empty (R C : Nat) (slope_of : tile_desc → tile_desc → line_slope)
    (chunk : nav_chunk) (chunk_coord : Coord) (target : tile_desc) (fuel : Nat)
    (tie : Nat → Nat) (st : LOS_state) (h : st.1.1.nodes = []) :
    LOS_while R C slope_of chunk chunk_coord target fuel tie st = some st := by
  cases fuel <;> simp [LOS_while, pq_size, h]

theorem LOS_while_step (R C : Nat) (slope_of : tile_desc → tile_desc → line_slope)
    (chunk : nav_chunk) (chunk_coord : Coord) (target : tile_desc) (fuel : Nat)
    (tie : Nat → Nat) (st st2 : LOS_state) (x : Coord) (frontier2 : pq_coord)
    (hpop : pq_coord_pop (tie 0) st.1.1 = some (x, frontier2))
    (hfor : (neighbours_grid_LOS R C chunk st.2 x).foldlM
      (LOS_visit R C slope_of chunk chunk_coord target x) ((frontier2, st.1.2), st.2)
      = some st2) :
    LOS_while R C slope_of chunk chunk_coord target (fuel + 1) tie st
      = LOS_while R C slope_of chunk chunk_coord target fuel (fun i => tie (i + 1)) st2 := by
  have hsz : pq_size st.1.1 > 0 := by
    obtain ⟨e, he, -, -⟩ := pq_coord_pop_spec hpop
    exact List.length_pos_of_mem he
  rw [LOS_while, if_pos hsz, hpop]
  simp only
  rw [hfor]

/-- With enough fuel the `while` loop of `N_LOSFieldCreate` returns, and returns the
same state for every larger amount of fuel. -/
theorem LOS_while_terminates (R C : Nat) (slope_of : tile_desc → tile_desc → line_slope)
    (chunk : nav_chunk) (chunk_coord : Coord) (target : tile_desc) :
    ∀ (a b : Nat) (tie : Nat → Nat) (st : LOS_state),
      measure_inf R C st.1 = a → measure_fin R C st.1 = b →
      ∃ out fuel0, ∀ fuel, fuel0 ≤ fuel →
        LOS_while R C slope_of chunk chunk_coord target fuel tie st = some out := by
  intro a
  induction a using Nat.strong_induction_on with
  | _ a iha =>
    intro b
    induction b using Nat.strong_induction_on with
    | _ b ihb =>
      intro tie st ha hb
      by_cases hnil : st.1.1.nodes = []
      · exact ⟨st, 0, fun fuel _ =>
          LOS_while_of_empty R C slope_of chunk chunk_coord target fuel tie st hnil⟩
      · have hsz : pq_size st.1.1 > 0 := by
          simp only [pq_size, gt_iff_lt]
          exact List.length_pos.2 hnil
        obtain ⟨x, frontier2, hpop⟩ := pq_coord_pop_isSome (tie 0) hsz
        obtain ⟨e, he, -, hnodes⟩ := pq_coord_pop_spec hpop
        have hlen : frontier2.nodes.length + 1 = st.1.1.nodes.length := by
          rw [hnodes, List.length_erase_of_mem he]
          have := List.length_pos_of_mem he
          omega
        obtain ⟨st2, hfor, -, -, -, hm⟩ := LOS_for_spec R C slope_of chunk chunk_coord target x
          st.2 ((frontier2, st.1.2), st.2)
        have ha2 : measure_inf R C (frontier2, st.1.2) = a := by rw [← ha]; rfl
        have hb2 : measure_fin R C (frontier2, st.1.2) + 1 = b := by
          rw [← hb]; simp only [measure_fin]; omega
        have hrec : ∃ out fuel0, ∀ fuel, fuel0 ≤ fuel →
            LOS_while R C slope_of chunk chunk_coord target fuel (fun i => tie (i + 1)) st2
              = some out := by
          rcases hm with hlt | ⟨heq, hle⟩
          · exact iha _ (by rw [← ha2]; exact hlt) _ _ _ rfl rfl
          · exact ihb _ (by rw [← hb2]; exact Nat.lt_succ_of_le hle) _ _
              (by rw [← ha2]; exact heq) rfl
        obtain ⟨out, fuel0, hout⟩ := hrec
        refine ⟨out, fuel0 + 1, ?_⟩
        intro fuel hfuel
        obtain ⟨k, rfl⟩ : ∃ k, fuel = k + 1 := ⟨fuel - 1, by omega⟩
        rw [LOS_while_step R C slope_of chunk chunk_coord target k tie st st2 x frontier2 hpop
          hfor]
        exact hout k (by omega)

/-- A property of the state that every pass of the `while` loop preserves holds of the
state with which the loop returns. -/
theorem LOS_while_induct (R C : Nat) (slope_of : tile_desc → tile_desc → line_slope)
    (chunk : nav_chunk) (chunk_coord : Coord) (target : tile_desc) (P : LOS_state → Prop)
    (hpass : ∀ (st st2 : LOS_state) (k : Nat) (x : Coord) (frontier2 : pq_coord), P st →
      pq_coord_pop k st.1.1 = some (x, frontier2) →
      (neighbours_grid_LOS R C chunk st.2 x).foldlM
        (LOS_visit R C slope_of chunk chunk_coord target x) ((frontier2, st.1.2), st.2)
        = some st2 → P st2) :
    ∀ (fuel : Nat) (tie : Nat → Nat) (st out : LOS_state), P st →
      LOS_while R C slope_of chunk chunk_coord target fuel tie st = some out → P out := by
  intro fuel
  induction fuel with
  | zero =>
    intro tie st out hP h
    simp only [LOS_while] at h
    split_ifs at h
    cases h
    exact hP
  | succ fuel ih =>
    intro tie st out hP h
    rw [LOS_while] at h
    split_ifs at h with hsz
    · cases hpop : pq_coord_pop (tie 0) st.1.1 with
      | none => rw [hpop] at h; cases h
      | some p =>
        obtain ⟨x, frontier2⟩ := p
        rw [hpop] at h
        simp only at h
        cases hfor : (neighbours_grid_LOS R C chunk st.2 x).foldlM
            (LOS_visit R C slope_of chunk chunk_coord target x) ((frontier2, st.1.2), st.2) with
        | none => rw [hfor] at h; cases h
        | some st2 =>
          rw [hfor] at h
          exact ih _ st2 out (hpass st st2 (tie 0) x frontier2 hP hpop hfor) h
    · cases h
      exact hP

/-- The `while` loop keeps the chunk coordinate, clears no `wavefront_blocked` bit and
sets such bits inside the grid only. -/
theorem LOS_while_blocked (R C : Nat) (slope_of : tile_desc → tile_desc → line_slope)
    (chunk : nav_chunk) (chunk_coord : Coord) (target : tile_desc) (fuel : Nat)
    (tie : Nat → Nat) (st out : LOS_state)
    (h : LOS_while R C slope_of chunk chunk_coord target fuel tie st = some out) :
    out.2.chunk = st.2.chunk
    ∧ (∀ r c : Int, (st.2.field r c).wavefront_blocked = true →
        (out.2.field r c).wavefront_blocked = true)
    ∧ (∀ r c : Int, (out.2.field r c).wavefront_blocked = true →
        (st.2.field r c).wavefront_blocked = true ∨ in_grid R C ⟨r, c⟩) := by
  refine LOS_while_induct R C slope_of chunk chunk_coord target
    (fun b => b.2.chunk = st.2.chunk
      ∧ (∀ r c : Int, (st.2.field r c).wavefront_blocked = true →
          (b.2.field r c).wavefront_blocked = true)
      ∧ (∀ r c : Int, (b.2.field r c).wavefront_blocked = true →
          (st.2.field r c).wavefront_blocked = true ∨ in_grid R C ⟨r, c⟩))
    ?_ fuel tie st out ⟨rfl, fun _ _ h => h, fun _ _ h => Or.inl h⟩ h
  intro s s2 k x frontier2 ⟨p1, p2, p3⟩ _ hfor
  obtain ⟨s3, hs3, q1, q2, q3, -⟩ := LOS_for_spec R C slope_of chunk chunk_coord target x
    s.2 ((frontier2, s.1.2), s.2)
  rw [hfor, Option.some.injEq] at hs3
  subst hs3
  refine ⟨q1.trans p1, fun r c hb => q2 r c (p2 r c hb), fun r c hb => ?_⟩
  rcases q3 r c hb with d | d
  · exact p3 r c d
  · exact Or.inr d

/-! ### The seeding of N_LOSFieldCreate -/

theorem LOS_edge_cell_spec (R C : Nat) (slope_of : tile_desc → tile_desc → line_slope)
    (chunk_coord : Coord) (target : tile_desc) (prev : LOS_field) (dst src : Coord)
    (st : LOS_state) (hin : in_grid R C dst) :
    ∃ st2, LOS_edge_cell R C slope_of chunk_coord target prev dst src st = some st2
      ∧ st2.2.chunk = st.2.chunk
      ∧ ((prev.field src.r src.c).wavefront_blocked = true →
          (st2.2.field dst.r dst.c).wavefront_blocked = true)
      ∧ (∀ r c : Int, ¬ (r = dst.r ∧ c = dst.c) → (st.2.field r c).wavefront_blocked = true →
          (st2.2.field r c).wavefront_blocked = true)
      ∧ (∀ r c : Int, (st2.2.field r c).visible
          = if r = dst.r ∧ c = dst.c then (prev.field src.r src.c).visible
            else (st.2.field r c).visible)
      ∧ st2.1 = if (prev.field src.r src.c).visible = true then seed_cell st.1 dst else st.1 := by
  have key : ∀ los2 : LOS_field,
      (∀ r c : Int, (los2.field r c).visible
        = ((setLosCell st.2 dst.r dst.c (prev.field src.r src.c)).field r c).visible) →
      (∀ r c : Int,
        ((setLosCell st.2 dst.r dst.c (prev.field src.r src.c)).field r c).wavefront_blocked
          = true → (los2.field r c).wavefront_blocked = true) →
      los2.chunk = st.2.chunk →
      ∃ st2, (if (los2.field dst.r dst.c).visible = true then
            some ((pq_coord_push st.1.1 (Val.fin 0) dst,
              setCell st.1.2 dst.r dst.c (Val.fin 0)), los2)
          else some (st.1, los2)) = some st2
        ∧ st2.2.chunk = st.2.chunk
        ∧ ((prev.field src.r src.c).wavefront_blocked = true →
            (st2.2.field dst.r dst.c).wavefront_blocked = true)
        ∧ (∀ r c : Int, ¬ (r = dst.r ∧ c = dst.c) →
            (st.2.field r c).wavefront_blocked = true →
            (st2.2.field r c).wavefront_blocked = true)
        ∧ (∀ r c : Int, (st2.2.field r c).visible
            = if r = dst.r ∧ c = dst.c then (prev.field src.r src.c).visible
              else (st.2.field r c).visible)
        ∧ st2.1 = if (prev.field src.r src.c).visible = true then seed_cell st.1 dst
            else st.1 := by
    intro los2 hv hb hc
    have hvis : ∀ r c : Int, (los2.field r c).visible
        = if r = dst.r ∧ c = dst.c then (prev.field src.r src.c).visible
          else (st.2.field r c).visible := by
      intro r c
      rw [hv]
      by_cases h : r = dst.r ∧ c = dst.c
      · obtain ⟨rfl, rfl⟩ := h
        rw [setLosCell_same, if_pos ⟨rfl, rfl⟩]
      · rw [setLosCell_other _ _ _ _ _ _ h, if_neg h]
    have hdst : (los2.field dst.r dst.c).visible = (prev.field src.r src.c).visible := by
      rw [hvis, if_pos ⟨rfl, rfl⟩]
    have hb1 : (prev.field src.r src.c).wavefront_blocked = true →
        (los2.field dst.r dst.c).wavefront_blocked = true := by
      intro h
      apply hb
      rw [setLosCell_same]; exact h
    have hb2 : ∀ r c : Int, ¬ (r = dst.r ∧ c = dst.c) →
        (st.2.field r c).wavefront_blocked = true →
        (los2.field r c).wavefront_blocked = true := by
      intro r c hne h
      apply hb
      rw [setLosCell_other _ _ _ _ _ _ hne]; exact h
    rw [hdst]
    by_cases hp : (prev.field src.r src.c).visible = true
    · rw [if_pos hp, if_pos hp]
      exact ⟨_, rfl, hc, hb1, hb2, hvis, rfl⟩
    · rw [if_neg hp, if_neg hp]
      exact ⟨_, rfl, hc, hb1, hb2, hvis, rfl⟩
  unfold LOS_edge_cell
  simp only
  by_cases hblk : ((setLosCell st.2 dst.r dst.c (prev.field src.r src.c)).field dst.r
      dst.c).wavefront_blocked = true
  · rw [if_pos hblk]
    obtain ⟨los2, hlos2⟩ := create_wavefront_blocked_line_returns R C slope_of target
      ⟨chunk_coord.r, chunk_coord.c, dst.r, dst.c⟩
      (setLosCell st.2 dst.r dst.c (prev.field src.r src.c)) hin
    rw [hlos2]
    obtain ⟨h1, -, h3⟩ := create_wavefront_blocked_line_spec hlos2
    exact key los2 (fun r c => (h3 r c).1) (fun r c => (h3 r c).2.1) h1
  · rw [if_neg hblk]
    exact key _ (fun _ _ => rfl) (fun _ _ h => h) rfl

theorem LOS_edge_loop_spec (R C : Nat) (slope_of : tile_desc → tile_desc → line_slope)
    (chunk_coord : Coord) (target : tile_desc) (prev : LOS_field) :
    ∀ (pairs : List (Coord × Coord)), (pairs.map Prod.fst).Nodup →
      (∀ p ∈ pairs, in_grid R C p.1) → ∀ st : LOS_state,
      ∃ st2, pairs.foldlM
          (fun st p => LOS_edge_cell R C slope_of chunk_coord target prev p.1 p.2 st) st
          = some st2
        ∧ st2.2.chunk = st.2.chunk
        ∧ (∀ p ∈ pairs, (prev.field p.2.r p.2.c).wavefront_blocked = true →
            (st2.2.field p.1.r p.1.c).wavefront_blocked = true)
        ∧ (∀ r c : Int, (⟨r, c⟩ : Coord) ∉ pairs.map Prod.fst →
            (st.2.field r c).wavefront_blocked = true →
            (st2.2.field r c).wavefront_blocked = true)
        ∧ (∀ r c : Int, (st2.2.field r c).visible = true →
            (st.2.field r c).visible = true
            ∨ ∃ p ∈ pairs, p.1 = ⟨r, c⟩ ∧ (prev.field p.2.r p.2.c).visible = true)
        ∧ st2.1 = ((pairs.filter fun p => (prev.field p.2.r p.2.c).visible).map
            Prod.fst).foldl seed_cell st.1 := by
  intro pairs
  induction pairs with
  | nil =>
    intro _ _ st
    exact ⟨st, rfl, rfl, fun p hp => absurd hp (List.not_mem_nil p), fun _ _ _ h => h,
      fun _ _ h => Or.inl h, rfl⟩
  | cons p rest ih =>
    intro hnd hgrid st
    rw [List.map_cons, List.nodup_cons] at hnd
    obtain ⟨st1, h1, a1, a2, a3, a4, a5⟩ := LOS_edge_cell_spec R C slope_of chunk_coord target
      prev p.1 p.2 st (hgrid p (List.mem_cons_self _ _))
    obtain ⟨st2, h2, b1, b2, b3, b4, b5⟩ := ih hnd.2
      (fun q hq => hgrid q (List.mem_cons_of_mem _ hq)) st1
    refine ⟨st2, by rw [List.foldlM_cons, h1]; exact h2, b1.trans a1, ?_, ?_, ?_, ?_⟩
    · intro q hq hb
      rcases List.mem_cons.1 hq with rfl | hq
      · exact b3 q.1.r q.1.c hnd.1 (a2 hb)
      · exact b2 q hq hb
    · intro r c hnot hb
      rw [List.map_cons, List.mem_cons, not_or] at hnot
      apply b3 r c hnot.2
      apply a3 r c _ hb
      rintro ⟨rfl, rfl⟩
      exact hnot.1 rfl
    · intro r c hv
      rcases b4 r c hv with d | ⟨q, hq, e1, e2⟩
      · rw [a4] at d
        split_ifs at d with hh
        · right
          refine ⟨p, List.mem_cons_self _ _, ?_, d⟩
          ext
          · exact hh.1.symm
          · exact hh.2.symm
        · left; exact d
      · exact Or.inr ⟨q, List.mem_cons_of_mem _ hq, e1, e2⟩
    · rw [b5, a5]
      by_cases hp : (prev.field p.2.r p.2.c).visible = true
      · rw [if_pos hp, List.filter_cons]
        simp only [hp, if_true, List.map_cons, List.foldl_cons]
      · rw [if_neg hp, List.filter_cons]
        simp only [hp, if_false, Bool.false_eq_true]

theorem LOS_edge_pairs_spec {R C : Nat} {chunk_coord prev_chunk : Coord}
    {pairs : List (Coord × Coord)} (hR : 0 < R) (hC : 0 < C)
    (h : LOS_edge_pairs R C chunk_coord prev_chunk = some pairs) :
    (pairs.map Prod.fst).Nodup ∧ ∀ p ∈ pairs, in_grid R C p.1 := by
  unfold LOS_edge_pairs at h
  split_ifs at h with h1 h2 h3 h4 <;> simp only [Option.some.injEq] at h <;> subst h
  all_goals
    constructor
    · rw [List.map_map]
      refine (List.nodup_range _).map ?_
      intro a b hab
      simp only [Function.comp] at hab
      first
      | (have hc := congrArg Coord.c hab; simpa using hc)
      | (have hr := congrArg Coord.r hab; simpa using hr)
    · intro p hp
      rw [List.mem_map] at hp
      obtain ⟨i, hi, rfl⟩ := hp
      rw [List.mem_range] at hi
      simp only [in_grid, Int.ofNat_eq_coe]
      omega

theorem LOS_edge_pairs_isSome (R C : Nat) (chunk_coord prev_chunk : Coord)
    (h : prev_chunk.r ≠ chunk_coord.r ∨ prev_chunk.c ≠ chunk_coord.c) :
    ∃ pairs, LOS_edge_pairs R C chunk_coord prev_chunk = some pairs := by
  unfold LOS_edge_pairs
  split_ifs with h1 h2 h3 h4
  · exact ⟨_, rfl⟩
  · exact ⟨_, rfl⟩
  · exact ⟨_, rfl⟩
  · exact ⟨_, rfl⟩
  · exfalso; omega

/-- The state with which the `while` loop of `N_LOSFieldCreate` is entered: the chunk
coordinate is set, the frontier and the integration field hold the seeds and nothing
else, every visible cell is a seed, and every cell copied from a blocked cell of
`prev_los` is blocked. -/
theorem LOS_seed_spec {R C : Nat} {slope_of : tile_desc → tile_desc → line_slope}
    {chunk_coord : Coord} {target : tile_desc} {prev_los : Option LOS_field} {st : LOS_state}
    (hR : 0 < R) (hC : 0 < C)
    (h : LOS_seed R C slope_of chunk_coord target prev_los = some st) :
    st.2.chunk = chunk_coord
    ∧ st.1 = (LOS_seeds R C chunk_coord target prev_los).foldl seed_cell
        (pq_coord_init, fun _ _ => Val.inf)
    ∧ (∀ r c : Int, (st.2.field r c).visible = true →
        (⟨r, c⟩ : Coord) ∈ LOS_seeds R C chunk_coord target prev_los)
    ∧ (∀ prev pairs, prev_los = some prev →
        LOS_edge_pairs R C chunk_coord prev.chunk = some pairs →
        ∀ p ∈ pairs, (prev.field p.2.r p.2.c).wavefront_blocked = true →
          (st.2.field p.1.r p.1.c).wavefront_blocked = true) := by
  unfold LOS_seed at h
  unfold LOS_seeds
  simp only at h
  by_cases hd : chunk_coord.r = target.chunk_r ∧ chunk_coord.c = target.chunk_c
  · rw [if_pos hd] at h
    rw [if_pos hd]
    cases prev_los with
    | some prev => cases h
    | none =>
      simp only [Option.some.injEq] at h
      subst h
      refine ⟨rfl, rfl, fun r c hv => ?_, fun prev pairs hp => by cases hp⟩
      simp at hv
  · rw [if_neg hd] at h
    rw [if_neg hd]
    cases prev_los with
    | none => cases h
    | some prev =>
      simp only at h ⊢
      cases hpairs : LOS_edge_pairs R C chunk_coord prev.chunk with
      | none => rw [hpairs] at h; cases h
      | some pairs =>
        rw [hpairs] at h
        simp only at h ⊢
        obtain ⟨hnd, hgrid⟩ := LOS_edge_pairs_spec hR hC hpairs
        obtain ⟨st2, h2, b1, b2, -, b4, b5⟩ := LOS_edge_loop_spec R C slope_of chunk_coord
          target prev pairs hnd hgrid
          ((pq_coord_init, fun _ _ => Val.inf), ⟨fun _ _ => ⟨false, false⟩, chunk_coord⟩)
        rw [h2, Option.some.injEq] at h
        subst h
        refine ⟨b1, b5, fun r c hv => ?_, fun prev2 pairs2 hp hq => ?_⟩
        · rcases b4 r c hv with d | ⟨p, hp, e1, e2⟩
          · simp at d
          · rw [List.mem_map]
            exact ⟨p, List.mem_filter.2 ⟨hp, e2⟩, e1⟩
        · simp only [Option.some.injEq] at hp
          subst hp
          rw [hpairs, Option.some.injEq] at hq
          subst hq
          exact b2

theorem LOS_seed_returns (R C : Nat) (slope_of : tile_desc → tile_desc → line_slope)
    (chunk_coord : Coord) (target : tile_desc) (prev_los : Option LOS_field)
    (hR : 0 < R) (hC : 0 < C) (hok : LOS_call_ok chunk_coord target prev_los) :
    ∃ st, LOS_seed R C slope_of chunk_coord target prev_los = some st := by
  unfold LOS_call_ok at hok
  unfold LOS_seed
  simp only
  by_cases hd : chunk_coord.r = target.chunk_r ∧ chunk_coord.c = target.chunk_c
  · rw [if_pos hd] at hok
    rw [if_pos hd, hok]
    exact ⟨_, rfl⟩
  · rw [if_neg hd] at hok
    obtain ⟨prev, rfl, hne⟩ := hok
    rw [if_neg hd]
    simp only
    obtain ⟨pairs, hpairs⟩ := LOS_edge_pairs_isSome R C chunk_coord prev.chunk hne
    rw [hpairs]
    simp only
    obtain ⟨hnd, hgrid⟩ := LOS_edge_pairs_spec hR hC hpairs
    obtain ⟨st2, h2, -⟩ := LOS_edge_loop_spec R C slope_of chunk_coord target prev pairs hnd
      hgrid ((pq_coord_init, fun _ _ => Val.inf), ⟨fun _ _ => ⟨false, false⟩, chunk_coord⟩)
    exact ⟨st2, h2⟩

theorem N_LOSFieldCreate_some {R C fuel : Nat} {tie : Nat → Nat}
    {slope_of : tile_desc → tile_desc → line_slope} {chunk_coord : Coord} {target : tile_desc}
    {priv : nav_private} {prev_los : Option LOS_field} {intf : IntegrationField}
    {los : LOS_field}
    (h : N_LOSFieldCreate R C fuel tie slope_of chunk_coord target priv prev_los
      = some (intf, los)) :
    ∃ st st2, LOS_seed R C slope_of chunk_coord target prev_los = some st
      ∧ LOS_while R C slope_of (priv.chunks (chunk_coord.r * priv.width + chunk_coord.c))
          chunk_coord target fuel tie st = some st2
      ∧ intf = st2.1.2 ∧ los = pad_wavefront R C st2.2 := by
  unfold N_LOSFieldCreate at h
  simp only at h
  cases hs : LOS_seed R C slope_of chunk_coord target prev_los with
  | none => rw [hs] at h; cases h
  | some st =>
    rw [hs] at h
    simp only at h
    cases hw : LOS_while R C slope_of (priv.chunks (chunk_coord.r * priv.width + chunk_coord.c))
        chunk_coord target fuel tie st with
    | none => rw [hw] at h; cases h
    | some st2 =>
      rw [hw] at h
      simp only [Option.some.injEq, Prod.mk.injEq] at h
      exact ⟨st, st2, rfl, hw, h.1.symm, h.2.symm⟩

/-- With enough fuel `N_LOSFieldCreate` returns, whenever the grid is not empty and the
call passes the assertions on `prev_los`. -/
theorem N_LOSFieldCreate_returns (R C : Nat) (tie : Nat → Nat)
    (slope_of : tile_desc → tile_desc → line_slope) (chunk_coord : Coord) (target : tile_desc)
    (priv : nav_private) (prev_los : Option LOS_field) (hR : 0 < R) (hC : 0 < C)
    (hok : LOS_call_ok chunk_coord target prev_los) :
    ∃ intf los fuel0, ∀ fuel, fuel0 ≤ fuel →
      N_LOSFieldCreate R C fuel tie slope_of chunk_coord target priv prev_los
        = some (intf, los) := by
  obtain ⟨st, hst⟩ := LOS_seed_returns R C slope_of chunk_coord target prev_los hR hC hok
  obtain ⟨out, fuel0, hout⟩ := LOS_while_terminates R C slope_of
    (priv.chunks (chunk_coord.r * priv.width + chunk_coord.c)) chunk_coord target _ _ tie st
    rfl rfl
  refine ⟨out.1.2, pad_wavefront R C out.2, fuel0, fun fuel hf => ?_⟩
  unfold N_LOSFieldCreate
  simp only
  rw [hst]
  simp only
  rw [hout fuel hf]

/-! ### Claims on N_LOSFieldCreate -/

/-- C11: in the field returned by `N_LOSFieldCreate`, for the destination chunk or a
continuation chunk and whatever shadow lines were cast, no visible cell of the grid is
equal or 8-adjacent to a `wavefront_blocked` cell of the grid; `pad_wavefront` changes no
`wavefront_blocked` bit and sets no `visible` bit.  The last part states that the call
does return when the grid is not empty and the assertions on `prev_los` pass. -/
theorem N_LOSFieldCreate_shadow_padding (R C : Nat) (tie : Nat → Nat)
    (slope_of : tile_desc → tile_desc → line_slope) (chunk_coord : Coord) (target : tile_desc)
    (priv : nav_private) (prev_los : Option LOS_field) :
    (∀ (fuel : Nat) (intf : IntegrationField) (los : LOS_field),
      N_LOSFieldCreate R C fuel tie slope_of chunk_coord target priv prev_los
          = some (intf, los) →
        ∀ x y : Coord, in_grid R C x → in_grid R C y →
          (los.field x.r x.c).visible = true → (los.field y.r y.c).wavefront_blocked = true →
          ¬ ((x.r - y.r).natAbs ≤ 1 ∧ (x.c - y.c).natAbs ≤ 1))
    ∧ (∀ (los : LOS_field) (r c : Int),
        ((pad_wavefront R C los).field r c).wavefront_blocked
          = (los.field r c).wavefront_blocked
        ∧ (((pad_wavefront R C los).field r c).visible = true →
            (los.field r c).visible = true))
    ∧ (0 < R → 0 < C → LOS_call_ok chunk_coord target prev_los →
        ∃ intf los fuel0, ∀ fuel, fuel0 ≤ fuel →
          N_LOSFieldCreate R C fuel tie slope_of chunk_coord target priv prev_los
            = some (intf, los)) := by
  refine ⟨?_, fun los r c => ?_, fun hR hC hok => ?_⟩
  · intro fuel intf los h x y hx hy hv hb ⟨hr, hc⟩
    obtain ⟨st, st2, -, -, -, rfl⟩ := N_LOSFieldCreate_some h
    obtain ⟨-, p2, -, p4⟩ := pad_wavefront_spec R C st2.2
    rw [p2] at hb
    rw [p4 x y hx hy hb hr hc] at hv
    cases hv
  · obtain ⟨-, p2, p3, -⟩ := pad_wavefront_spec R C los
    exact ⟨p2 r c, p3 r c⟩
  · exact N_LOSFieldCreate_returns R C tie slope_of chunk_coord target priv prev_los hR hC hok

set_option maxRecDepth 100000 in
/-- C11, witness: in the destination chunk with the costs `stair_cost` and the target
(7,5), the call returns a field in which (0,5) is blocked and its neighbour (0,6) is not
visible. -/
theorem N_LOSFieldCreate_shadow_padding_witness :
    ∃ intf los,
      N_LOSFieldCreate 8 8 200 (fun _ => 0) vertical_slope ⟨0, 0⟩ ⟨0, 0, 7, 5⟩ stair_priv none
        = some (intf, los)
      ∧ (los.field 0 5).wavefront_blocked = true ∧ (los.field 0 6).visible = false := by
  obtain ⟨p, hp⟩ := exists_eq_some_of_isSome
    (N_LOSFieldCreate 8 8 200 (fun _ => 0) vertical_slope ⟨0, 0⟩ ⟨0, 0, 7, 5⟩ stair_priv none)
    (by decide)
  have h0 : (N_LOSFieldCreate 8 8 200 (fun _ => 0) vertical_slope ⟨0, 0⟩ ⟨0, 0, 7, 5⟩
      stair_priv none).map (fun p => (p.2.field 0 5).wavefront_blocked) = some true := by
    decide
  rw [hp] at h0
  simp only [Option.map, Option.some.injEq] at h0
  refine ⟨p.1, p.2, hp, h0, ?_⟩
  cases hv : (p.2.field 0 6).visible with
  | false => rfl
  | true =>
    exact absurd ⟨by decide, by decide⟩
      ((N_LOSFieldCreate_shadow_padding 8 8 (fun _ => 0) vertical_slope ⟨0, 0⟩ ⟨0, 0, 7, 5⟩
        stair_priv none).1 200 p.1 p.2 hp ⟨0, 6⟩ ⟨0, 5⟩ (by decide) (by decide) hv h0)

theorem los_cell_eq_of_bits (cell : los_cell) (hv : cell.visible = false)
    (hb : cell.wavefront_blocked = true) : cell = ⟨false, true⟩ := by
  cases cell
  simp only at hv hb
  rw [hv, hb]

/-- A cell copied from a blocked cell of `prev_los` is blocked and not visible in the
returned field. -/
theorem N_LOSFieldCreate_edge_blocked {R C fuel : Nat} {tie : Nat → Nat}
    {slope_of : tile_desc → tile_desc → line_slope} {chunk_coord : Coord} {target : tile_desc}
    {priv : nav_private} {prev : LOS_field} {intf : IntegrationField} {los : LOS_field}
    (hR : 0 < R) (hC : 0 < C)
    (h : N_LOSFieldCreate R C fuel tie slope_of chunk_coord target priv (some prev)
      = some (intf, los))
    {pairs : List (Coord × Coord)}
    (hpairs : LOS_edge_pairs R C chunk_coord prev.chunk = some pairs)
    (p : Coord × Coord) (hp : p ∈ pairs)
    (hb : (prev.field p.2.r p.2.c).wavefront_blocked = true) :
    los.field p.1.r p.1.c = ⟨false, true⟩ := by
  obtain ⟨st, st2, hs, hw, -, rfl⟩ := N_LOSFieldCreate_some h
  obtain ⟨-, -, -, s4⟩ := LOS_seed_spec hR hC hs
  have h1 := s4 prev pairs rfl hpairs p hp hb
  obtain ⟨-, w2, -⟩ := LOS_while_blocked R C slope_of _ chunk_coord target fuel tie st st2 hw
  have h2 := w2 _ _ h1
  obtain ⟨-, p2, -, p4⟩ := pad_wavefront_spec R C st2.2
  have hin : in_grid R C p.1 := (LOS_edge_pairs_spec hR hC hpairs).2 p hp
  apply los_cell_eq_of_bits
  · exact p4 p.1 p.1 hin hin h2 (by simp) (by simp)
  · rw [p2]; exact h2

theorem mem_range_map_of_bounds {α : Type} (f : Nat → α) (n : Nat) (i : Int) (h0 : 0 ≤ i)
    (h1 : i < n) : f i.toNat ∈ (List.range n).map f :=
  List.mem_map.2 ⟨i.toNat, List.mem_range.2 (by omega), rfl⟩

theorem is_LOS_path_append_singleton (R C : Nat) (chunk : nav_chunk) (y : Coord) :
    ∀ (p : List Coord) (s : Coord), is_LOS_path R C chunk s p →
      cardinal_step (path_end s p) y → in_grid R C y → neighbour_cost chunk y ≤ 1 →
      is_LOS_path R C chunk s (p ++ [y]) := by
  intro p
  induction p with
  | nil => intro s _ hstep hin hc; exact ⟨hstep, hin, hc, trivial⟩
  | cons z rest ih =>
    intro s hp hstep hin hc
    obtain ⟨h1, h2, h3, h4⟩ := hp
    exact ⟨h1, h2, h3, ih z h4 hstep hin hc⟩

theorem LOS_reach_step {R C : Nat} {chunk : nav_chunk} {seeds : List Coord} {x y : Coord}
    {v : Nat} (hx : LOS_reach R C chunk seeds x v) (hstep : cardinal_step x y)
    (hin : in_grid R C y) (hc : neighbour_cost chunk y ≤ 1) :
    LOS_reach R C chunk seeds y (v + 1) := by
  obtain ⟨s, hs, p, hp, hend, hlen⟩ := hx
  refine ⟨s, hs, p ++ [y], ?_, path_end_append_singleton s p y, ?_⟩
  · exact is_LOS_path_append_singleton R C chunk y p s hp (by rw [hend]; exact hstep) hin hc
  · rw [List.length_append, hlen]; rfl

/-- What a relaxation with the step cost 1 from a cell of finite integration does. -/
theorem relax_unit_spec (curr : Coord) (st : pq_coord × IntegrationField) (n : Coord)
    (vc : Nat) (hc : st.2 curr.r curr.c = Val.fin vc) :
    (∃ v, (relax curr st (n, 1)).2 n.r n.c = Val.fin v)
    ∧ (∀ r c v, (relax curr st (n, 1)).2 r c = Val.fin v →
        st.2 r c = Val.fin v ∨ (r = n.r ∧ c = n.c ∧ v = vc + 1))
    ∧ (∀ r c, (∃ v, st.2 r c = Val.fin v) → ∃ v, (relax curr st (n, 1)).2 r c = Val.fin v)
    ∧ (∀ x : Coord, pq_coord_contains (relax curr st (n, 1)).1 x = true →
        pq_coord_contains st.1 x = true ∨ x = n) := by
  have hadd : (st.2 curr.r curr.c).add 1 = Val.fin (vc + 1) := by rw [hc]; rfl
  have hset : ∀ r c, (∃ v, st.2 r c = Val.fin v) →
      ∃ v, setCell st.2 n.r n.c (Val.fin (vc + 1)) r c = Val.fin v := by
    intro r c hv
    by_cases h : r = n.r ∧ c = n.c
    · obtain ⟨rfl, rfl⟩ := h
      exact ⟨vc + 1, setCell_same _ _ _ _⟩
    · rw [setCell_other _ _ _ _ _ _ h]; exact hv
  have hset2 : ∀ r c v, setCell st.2 n.r n.c (Val.fin (vc + 1)) r c = Val.fin v →
      st.2 r c = Val.fin v ∨ (r = n.r ∧ c = n.c ∧ v = vc + 1) := by
    intro r c v hv
    by_cases h : r = n.r ∧ c = n.c
    · obtain ⟨rfl, rfl⟩ := h
      rw [setCell_same] at hv
      right
      exact ⟨rfl, rfl, (Val.fin.inj hv).symm⟩
    · rw [setCell_other _ _ _ _ _ _ h] at hv; exact Or.inl hv
  cases hlt : ((st.2 curr.r curr.c).add 1).lt (st.2 n.r n.c) with
  | false =>
    rw [relax_of_not_lt curr st (n, 1) hlt]
    refine ⟨?_, fun r c v h => Or.inl h, fun r c h => h, fun x h => Or.inl h⟩
    rw [hadd] at hlt
    cases hn : st.2 n.r n.c with
    | fin w => exact ⟨w, rfl⟩
    | inf => rw [hn] at hlt; simp [Val.lt] at hlt
  | true =>
    cases hcon : pq_coord_contains st.1 n with
    | true =>
      rw [relax_of_lt_of_contains curr st (n, 1) hlt hcon, hadd]
      exact ⟨⟨vc + 1, setCell_same _ _ _ _⟩, hset2, hset, fun x h => Or.inl h⟩
    | false =>
      rw [relax_of_lt_of_not_contains curr st (n, 1) hlt hcon, hadd]
      refine ⟨⟨vc + 1, setCell_same _ _ _ _⟩, hset2, hset, fun x h => ?_⟩
      simp only at h
      rw [pq_coord_contains_push] at h
      simp only [Bool.or_eq_true, decide_eq_true_eq] at h
      rcases h with h | h
      · exact Or.inl h
      · exact Or.inr h.symm

theorem LOS_inv_of_eq {R C : Nat} {chunk : nav_chunk} {seeds : List Coord} {st st2 : LOS_state}
    (hinv : LOS_inv R C chunk seeds st) (h1 : st2.1 = st.1)
    (h2 : ∀ r c : Int, (st2.2.field r c).visible = (st.2.field r c).visible) :
    LOS_inv R C chunk seeds st2 :=
  ⟨fun r c v h => hinv.fin_reach r c v (by rw [← h1]; exact h),
   fun r c h => by rw [h1]; exact hinv.vis_fin r c (by rw [← h2]; exact h),
   fun r c h => hinv.vis_grid r c (by rw [← h2]; exact h),
   fun x h => by rw [h1]; exact hinv.front_fin x (by rw [← h1]; exact h)⟩

/-- One pass of the `for` loop preserves the invariant and the finiteness of the
integration value of the popped cell. -/
theorem LOS_visit_inv {R C : Nat} {slope_of : tile_desc → tile_desc → line_slope}
    {chunk : nav_chunk} {chunk_coord : Coord} {target : tile_desc} {seeds : List Coord}
    {curr : Coord} {los0 : LOS_field} {st st2 : LOS_state} {n : Coord × Nat}
    (hn : n ∈ neighbours_grid_LOS R C chunk los0 curr)
    (hinv : LOS_inv R C chunk seeds st) (hcurr : ∃ vc, st.1.2 curr.r curr.c = Val.fin vc)
    (h : LOS_visit R C slope_of chunk chunk_coord target curr st n = some st2) :
    LOS_inv R C chunk seeds st2 ∧ ∃ vc, st2.1.2 curr.r curr.c = Val.fin vc := by
  obtain ⟨hstep, hin, -, hcost⟩ := (mem_neighbours_grid_LOS R C chunk los0 curr n).1 hn
  obtain ⟨st3, h3, -, -, -, hcase⟩ := LOS_visit_cases R C slope_of chunk chunk_coord target
    curr st n hin
  rw [h, Option.some.injEq] at h3
  subst h3
  rcases hcase with ⟨e1, e2⟩ | ⟨hle, e1, e2⟩
  · exact ⟨LOS_inv_of_eq hinv e1 e2, by rw [e1]; exact hcurr⟩
  · obtain ⟨vc, hvc⟩ := hcurr
    obtain ⟨q1, q2, q3, q4⟩ := relax_unit_spec curr st.1 n.1 vc hvc
    refine ⟨⟨fun r c v hv => ?_, fun r c hv => ?_, fun r c hv => ?_, fun x hx => ?_⟩, ?_⟩
    · rw [e1] at hv
      rcases q2 r c v hv with d | ⟨rfl, rfl, rfl⟩
      · exact hinv.fin_reach r c v d
      · exact LOS_reach_step (hinv.fin_reach curr.r curr.c vc hvc) hstep hin
          (by rw [← hcost]; exact hle)
    · rw [e1]
      rw [e2] at hv
      split_ifs at hv with hh
      · obtain ⟨rfl, rfl⟩ := hh
        exact q1
      · exact q3 r c (hinv.vis_fin r c hv)
    · rw [e2] at hv
      split_ifs at hv with hh
      · obtain ⟨rfl, rfl⟩ := hh
        exact hin
      · exact hinv.vis_grid r c hv
    · rw [e1] at hx ⊢
      rcases q4 x hx with d | rfl
      · exact q3 x.r x.c (hinv.front_fin x d)
      · exact q1
    · rw [e1]
      exact q3 curr.r curr.c ⟨vc, hvc⟩

/-- The `while` loop of `N_LOSFieldCreate` preserves the invariant. -/
theorem LOS_while_inv {R C : Nat} {slope_of : tile_desc → tile_desc → line_slope}
    {chunk : nav_chunk} {chunk_coord : Coord} {target : tile_desc} {seeds : List Coord}
    {fuel : Nat} {tie : Nat → Nat} {st out : LOS_state}
    (hinv : LOS_inv R C chunk seeds st)
    (h : LOS_while R C slope_of chunk chunk_coord target fuel tie st = some out) :
    LOS_inv R C chunk seeds out := by
  refine LOS_while_induct R C slope_of chunk chunk_coord target (LOS_inv R C chunk seeds) ?_
    fuel tie st out hinv h
  intro s s2 k x frontier2 hs hpop hfor
  obtain ⟨e, he, hex, hnodes⟩ := pq_coord_pop_spec hpop
  have hx : ∃ vc, s.1.2 x.r x.c = Val.fin vc :=
    hs.front_fin x ((pq_coord_contains_iff _ _).2 ⟨e, he, hex⟩)
  have hs0 : LOS_inv R C chunk seeds ((frontier2, s.1.2), s.2) :=
    ⟨hs.fin_reach, hs.vis_fin, hs.vis_grid, fun y hy => by
      obtain ⟨e2, he2, hy2⟩ := (pq_coord_contains_iff _ _).1 hy
      have he3 : e2 ∈ s.1.1.nodes := by
        have : e2 ∈ frontier2.nodes := he2
        rw [hnodes] at this
        exact List.mem_of_mem_erase this
      exact hs.front_fin y ((pq_coord_contains_iff _ _).2 ⟨e2, he3, hy2⟩)⟩
  exact (foldlM_option_inv (LOS_visit R C slope_of chunk chunk_coord target x)
    (fun b => LOS_inv R C chunk seeds b ∧ ∃ vc, b.1.2 x.r x.c = Val.fin vc)
    (neighbours_grid_LOS R C chunk s.2 x)
    (fun b a ha hb b2 hb2 => LOS_visit_inv ha hb.1 hb.2 hb2)
    ((frontier2, s.1.2), s.2) s2 ⟨hs0, hx⟩ hfor).1

theorem LOS_seed_visible_grid {R C : Nat} {slope_of : tile_desc → tile_desc → line_slope}
    {chunk_coord : Coord} {target : tile_desc} {prev_los : Option LOS_field} {st : LOS_state}
    (hR : 0 < R) (hC : 0 < C)
    (h : LOS_seed R C slope_of chunk_coord target prev_los = some st) :
    ∀ r c : Int, (st.2.field r c).visible = true → in_grid R C ⟨r, c⟩ := by
  intro r c hv
  have hmem := (LOS_seed_spec hR hC h).2.2.1 r c hv
  unfold LOS_seed at h
  unfold LOS_seeds at hmem
  simp only at h
  by_cases hd : chunk_coord.r = target.chunk_r ∧ chunk_coord.c = target.chunk_c
  · rw [if_pos hd] at h
    cases prev_los with
    | some prev => cases h
    | none =>
      simp only [Option.some.injEq] at h
      subst h
      simp at hv
  · rw [if_neg hd] at hmem
    cases prev_los with
    | none => cases hmem
    | some prev =>
      simp only at hmem
      cases hpairs : LOS_edge_pairs R C chunk_coord prev.chunk with
      | none => rw [hpairs] at hmem; cases hmem
      | some pairs =>
        rw [hpairs] at hmem
        simp only [List.mem_map, List.mem_filter] at hmem
        obtain ⟨p, ⟨hp, -⟩, e⟩ := hmem
        rw [← e]
        exact (LOS_edge_pairs_spec hR hC hpairs).2 p hp

/-- The state with which the `while` loop is entered satisfies the invariant. -/
theorem LOS_seed_inv {R C : Nat} {slope_of : tile_desc → tile_desc → line_slope}
    {chunk_coord : Coord} {target : tile_desc} {prev_los : Option LOS_field} {st : LOS_state}
    (chunk : nav_chunk) (hR : 0 < R) (hC : 0 < C)
    (h : LOS_seed R C slope_of chunk_coord target prev_los = some st) :
    LOS_inv R C chunk (LOS_seeds R C chunk_coord target prev_los) st := by
  obtain ⟨-, h2, h3, -⟩ := LOS_seed_spec hR hC h
  obtain ⟨hn, hf⟩ := foldl_seed_cell (LOS_seeds R C chunk_coord target prev_los)
    (pq_coord_init, fun _ _ => Val.inf)
  rw [← h2] at hn hf
  have hzero : ∀ r c, (⟨r, c⟩ : Coord) ∈ LOS_seeds R C chunk_coord target prev_los →
      st.1.2 r c = Val.fin 0 := by
    intro r c hm
    rw [hf, if_pos hm]
  refine ⟨fun r c v hv => ?_, fun r c hv => ⟨0, hzero r c (h3 r c hv)⟩,
    LOS_seed_visible_grid hR hC h, fun x hx => ?_⟩
  · rw [hf] at hv
    split_ifs at hv with hm
    cases hv
    exact ⟨⟨r, c⟩, hm, [], trivial, rfl, rfl⟩
  · obtain ⟨e, he, hex⟩ := (pq_coord_contains_iff _ _).1 hx
    rw [hn] at he
    simp only [pq_coord_init, List.nil_append, List.mem_map] at he
    obtain ⟨s, hs, rfl⟩ := he
    simp only at hex
    subst hex
    exact ⟨0, hzero s.r s.c hs⟩

theorem cardinal_step_symm {a b : Coord} (h : cardinal_step a b) : cardinal_step b a := by
  unfold cardinal_step at h ⊢
  omega

theorem pocket_walk {R C : Nat} {chunk : nav_chunk} {los : LOS_field} {seeds P : List Coord}
    (hclosed : pocket_closed R C chunk los seeds P) :
    ∀ (p : List Coord) (a : Coord), a ∉ P → in_grid R C a →
      (los.field a.r a.c).wavefront_blocked = false →
      (chunk.cost_base a.r a.c ≤ 1 ∨ a ∈ seeds) → is_grid_walk R C a p →
      (∀ y ∈ p.dropLast, chunk.cost_base y.r y.c ≤ 1) →
      (∀ y ∈ p, (los.field y.r y.c).wavefront_blocked = false) →
      path_end a p ∉ P := by
  intro p
  induction p with
  | nil => intro a ha _ _ _ _ _ _; exact ha
  | cons y rest ih =>
    intro a ha hin hba hca hwalk hcost hblk
    obtain ⟨hstep, hiny, hrest⟩ := hwalk
    have hby : (los.field y.r y.c).wavefront_blocked = false := hblk y (List.mem_cons_self _ _)
    by_cases hy : y ∈ P
    · exfalso
      have hmem : a ∈ cardinal_cells y := (mem_cardinal_cells y a).2 (cardinal_step_symm hstep)
      rcases hclosed y hy a hmem ha hin with d | d | ⟨d1, d2⟩
      · rw [hba] at d; cases d
      · rw [hby] at d; cases d
      · rcases hca with e | e
        · omega
        · exact d2 e
    · cases rest with
      | nil => exact hy
      | cons z rest2 =>
        have hyc : chunk.cost_base y.r y.c ≤ 1 := by
          apply hcost
          simp [List.dropLast]
        apply ih y hy hiny hby (Or.inl hyc) hrest
        · intro w hw
          apply hcost
          simp only [List.dropLast_cons₂, List.mem_cons]
          exact Or.inr hw
        · intro w hw
          exact hblk w (List.mem_cons_of_mem _ hw)

/-- No cell of a closed set that holds no seed has the property of the specification. -/
theorem pocket_not_conservative {R C : Nat} {chunk : nav_chunk} {los : LOS_field}
    {seeds P : List Coord} (hclosed : pocket_closed R C chunk los seeds P)
    (hseeds : ∀ s ∈ seeds, s ∉ P ∧ in_grid R C s) (x : Coord) (hx : x ∈ P) :
    ¬ LOS_conservative_at R C chunk los seeds x := by
  rintro ⟨s, hs, p, hwalk, hend, hcost, hblk⟩
  have := pocket_walk hclosed p s (hseeds s hs).1 (hseeds s hs).2
    (hblk s (List.mem_cons_self _ _)) (Or.inr hs) hwalk hcost
    (fun y hy => hblk y (List.mem_cons_of_mem _ hy))
  rw [hend] at this
  exact this hx

theorem exists_of_map_eq_some {α β : Type} {o : Option α} {f : α → β} {b : β}
    (h : o.map f = some b) : ∃ a, o = some a ∧ f a = b := by
  cases o with
  | none => cases h
  | some a => exact ⟨a, rfl, by simpa using h⟩

theorem build_integration_field_fuel_mono (R C : Nat) (chunk : nav_chunk) :
    ∀ (fuel : Nat) (tie : Nat → Nat) (frontier : pq_coord) (f out : IntegrationField),
      build_integration_field R C fuel tie frontier chunk f = some out →
      build_integration_field R C (fuel + 1) tie frontier chunk f = some out := by
  intro fuel
  induction fuel with
  | zero =>
    intro tie frontier f out h
    simp only [build_integration_field] at h
    split_ifs at h with hsz
    have hnil : frontier.nodes = [] := by
      simp only [pq_size, gt_iff_lt, not_lt, Nat.le_zero] at hsz
      exact List.length_eq_zero.1 hsz
    rw [build_integration_field_of_empty R C _ tie frontier chunk f hnil]
    exact h
  | succ fuel ih =>
    intro tie frontier f out h
    by_cases hnil : frontier.nodes = []
    · rw [build_integration_field_of_empty R C _ tie frontier chunk f hnil] at h ⊢
      exact h
    · have hsz : pq_size frontier > 0 := by
        simp only [pq_size, gt_iff_lt]
        exact List.length_pos.2 hnil
      obtain ⟨x, frontier2, hpop⟩ := pq_coord_pop_isSome (tie 0) hsz
      rw [build_integration_field_step R C _ tie frontier frontier2 chunk f x hpop] at h ⊢
      exact ih _ _ _ _ h

theorem build_integration_field_fuel_le (R C : Nat) (chunk : nav_chunk) (tie : Nat → Nat)
    (frontier : pq_coord) (f out : IntegrationField) (fuel : Nat)
    (h : build_integration_field R C fuel tie frontier chunk f = some out) :
    ∀ fuel2, fuel ≤ fuel2 → build_integration_field R C fuel2 tie frontier chunk f = some out := by
  intro fuel2 hle
  induction fuel2 with
  | zero =>
    have : fuel = 0 := by omega
    subst this
    exact h
  | succ k ih =>
    by_cases hk : fuel ≤ k
    · exact build_integration_field_fuel_mono R C chunk k tie frontier f out (ih hk)
    · have : fuel = k + 1 := by omega
      subst this
      exact h

/-- The frontier after one relaxation: unchanged, or extended by the neighbour, which
happens only when the value of the neighbour strictly decreases and the neighbour is
not in the frontier. -/
theorem relax_push_guard (curr : Coord) (st : pq_coord × IntegrationField) (n : Coord × Nat) :
    (relax curr st n).1 = st.1
    ∨ (((st.2 curr.r curr.c).add n.2).lt (st.2 n.1.r n.1.c) = true
        ∧ pq_coord_contains st.1 n.1 = false
        ∧ (relax curr st n).1 = pq_coord_push st.1 ((st.2 curr.r curr.c).add n.2) n.1
        ∧ (relax curr st n).2 n.1.r n.1.c = (st.2 curr.r curr.c).add n.2) := by
  cases hlt : ((st.2 curr.r curr.c).add n.2).lt (st.2 n.1.r n.1.c) with
  | false => left; rw [relax_of_not_lt curr st n hlt]
  | true =>
    cases hc : pq_coord_contains st.1 n.1 with
    | true => left; rw [relax_of_lt_of_contains curr st n hlt hc]
    | false =>
      right
      rw [relax_of_lt_of_not_contains curr st n hlt hc]
      exact ⟨rfl, rfl, rfl, setCell_same _ _ _ _⟩

/-- C23: for every chunk, every frontier and every integration field, hence for every
chunk with `cost_base >= 1` and every seeded frontier, the loop of
`build_integration_field` reaches an empty frontier after finitely many pops: there is a
number `pops` such that the function returns the same field with every amount of fuel
from `pops` on and has not emptied the frontier with less.  Nothing in the loop keeps a
popped cell from being pushed again: a relaxation pushes the neighbour exactly when its
integration value strictly decreases and it is not in the frontier. -/
theorem build_integration_field_pops (R C : Nat) (chunk : nav_chunk) (tie : Nat → Nat)
    (frontier : pq_coord) (f : IntegrationField) :
    (∃ out pops,
      (∀ fuel, pops ≤ fuel →
        build_integration_field R C fuel tie frontier chunk f = some out)
      ∧ (∀ fuel, fuel < pops →
        build_integration_field R C fuel tie frontier chunk f = none))
    ∧ (∀ (curr : Coord) (st : pq_coord × IntegrationField) (n : Coord × Nat),
        (relax curr st n).1 = st.1
        ∨ (((st.2 curr.r curr.c).add n.2).lt (st.2 n.1.r n.1.c) = true
            ∧ pq_coord_contains st.1 n.1 = false
            ∧ (relax curr st n).1 = pq_coord_push st.1 ((st.2 curr.r curr.c).add n.2) n.1
            ∧ (relax curr st n).2 n.1.r n.1.c = (st.2 curr.r curr.c).add n.2)) := by
  refine ⟨?_, relax_push_guard⟩
  obtain ⟨out0, fuel0, h0⟩ := build_integration_field_terminates R C chunk _ _ tie frontier f
    rfl rfl
  have hex : ∃ k, (build_integration_field R C k tie frontier chunk f).isSome = true :=
    ⟨fuel0, by rw [h0 fuel0 (Nat.le_refl _)]; rfl⟩
  classical
  obtain ⟨out, hout⟩ := exists_eq_some_of_isSome _ (Nat.find_spec hex)
  refine ⟨out, Nat.find hex, fun fuel hle => ?_, fun fuel hlt => ?_⟩
  · exact build_integration_field_fuel_le R C chunk tie frontier f out _ hout fuel hle
  · have hmin := Nat.find_min hex hlt
    cases hr : build_integration_field R C fuel tie frontier chunk f with
    | none => rfl
    | some v => rw [hr] at hmin; exact absurd rfl hmin

/-- C23, witness: from `stale_frontier` and `stale_field` on the flat grid with one row
and two columns the cell (0,1) is popped, pushed again when (0,0) is popped, and popped
again: the loop makes three pops for two cells and returns with `integration[0][1] == 1`. -/
theorem build_integration_field_pops_witness :
    (∃ out pops,
      (∀ fuel, pops ≤ fuel →
        build_integration_field 1 2 fuel (fun _ => 0) stale_frontier flat_chunk stale_field
          = some out)
      ∧ (∀ fuel, fuel < pops →
        build_integration_field 1 2 fuel (fun _ => 0) stale_frontier flat_chunk stale_field
          = none))
    ∧ (build_integration_field 1 2 3 (fun _ => 0) stale_frontier flat_chunk stale_field).map
        (fun out => (out 0 0, out 0 1)) = some (Val.fin 0, Val.fin 1)
    ∧ (build_integration_field 1 2 2 (fun _ => 0) stale_frontier flat_chunk stale_field).isSome
        = false :=
  ⟨(build_integration_field_pops 1 2 flat_chunk (fun _ => 0) stale_frontier stale_field).1,
    by decide, by decide⟩

/-! ### The walk of a shadow line -/

theorem wavefront_line_loop_fuel_mono (R C : Nat) (dx dy sx sy : Int) :
    ∀ (fuel : Nat) (err : Int) (curr : Coord) (los out : LOS_field),
      wavefront_line_loop R C dx dy sx sy fuel err curr los = some out →
      wavefront_line_loop R C dx dy sx sy (fuel + 1) err curr los = some out := by
  intro fuel
  induction fuel with
  | zero => intro err curr los out h; simp [wavefront_line_loop] at h
  | succ fuel ih =>
    intro err curr los out h
    rw [wavefront_line_loop] at h ⊢
    generalize (if 2 * err ≤ dx then curr.r + sy else curr.r) = r1 at h ⊢
    generalize (if 2 * err ≥ dy then curr.c + sx else curr.c) = c1 at h ⊢
    generalize (if 2 * err ≤ dx then (if 2 * err ≥ dy then err + dy else err) + dx
      else if 2 * err ≥ dy then err + dy else err) = err2 at h ⊢
    by_cases hin : r1 ≥ 0 ∧ r1 < (R : Int) ∧ c1 ≥ 0 ∧ c1 < (C : Int)
    · rw [if_pos hin] at h ⊢
      exact ih _ _ _ _ h
    · rw [if_neg hin] at h ⊢
      exact h

theorem wavefront_line_loop_fuel_le (R C : Nat) (dx dy sx sy : Int) (err : Int) (curr : Coord)
    (los out : LOS_field) (fuel : Nat)
    (h : wavefront_line_loop R C dx dy sx sy fuel err curr los = some out) :
    ∀ fuel2, fuel ≤ fuel2 →
      wavefront_line_loop R C dx dy sx sy fuel2 err curr los = some out := by
  intro fuel2 hle
  induction fuel2 with
  | zero =>
    have : fuel = 0 := by omega
    subst this
    exact h
  | succ k ih =>
    by_cases hk : fuel ≤ k
    · exact wavefront_line_loop_fuel_mono R C dx dy sx sy k err curr los out (ih hk)
    · have : fuel = k + 1 := by omega
      subst this
      exact h

/-- One iteration of the loop: the cell `curr` is blocked, and the walk goes on from a
cell that is one step further along the rows, along the columns, or both, unless that
cell lies outside the grid. -/
theorem wavefront_line_loop_iteration (R C : Nat) (dx dy sx sy : Int) (hdx : 0 ≤ dx)
    (hdy : dy ≤ 0) (fuel : Nat) (err : Int) (curr : Coord) (los : LOS_field) :
    ∃ (next : Coord) (err2 : Int),
      ((next.r = curr.r + sy ∧ next.c = curr.c)
        ∨ (next.r = curr.r ∧ next.c = curr.c + sx)
        ∨ (next.r = curr.r + sy ∧ next.c = curr.c + sx))
      ∧ wavefront_line_loop R C dx dy sx sy (fuel + 1) err curr los
          = if in_grid R C next then
              wavefront_line_loop R C dx dy sx sy fuel err2 next (setBlocked los curr.r curr.c)
            else some (setBlocked los curr.r curr.c) := by
  refine ⟨⟨if 2 * err ≤ dx then curr.r + sy else curr.r,
      if 2 * err ≥ dy then curr.c + sx else curr.c⟩,
    if 2 * err ≤ dx then (if 2 * err ≥ dy then err + dy else err) + dx
      else if 2 * err ≥ dy then err + dy else err, ?_, ?_⟩
  · by_cases h1 : 2 * err ≥ dy <;> by_cases h2 : 2 * err ≤ dx
    · simp [h1, h2]
    · simp [h1, h2]
    · simp [h1, h2]
    · exfalso; omega
  · rw [wavefront_line_loop]
    simp only [in_grid]

theorem los_cell_ext (a b : los_cell) (hv : a.visible = b.visible)
    (hb : a.wavefront_blocked = b.wavefront_blocked) : a = b := by
  cases a
  cases b
  simp only at hv hb
  rw [hv, hb]

/-- What a returned shadow line from a cell of the grid leaves behind. -/
theorem wavefront_line_out_spec {R C : Nat} {dx dy sx sy : Int} {fuel : Nat} {err : Int}
    {corner : Coord} {los out : LOS_field} (hin : in_grid R C corner)
    (h : wavefront_line_loop R C dx dy sx sy fuel err corner los = some out) :
    out.chunk = los.chunk
    ∧ (out.field corner.r corner.c).wavefront_blocked = true
    ∧ ∀ r c : Int,
        (out.field r c).visible = (los.field r c).visible
        ∧ ((los.field r c).wavefront_blocked = true →
            (out.field r c).wavefront_blocked = true)
        ∧ (¬ in_grid R C ⟨r, c⟩ → out.field r c = los.field r c) := by
  obtain ⟨h1, h2, h3⟩ := wavefront_line_loop_spec R C dx dy sx sy fuel err corner los out h
  refine ⟨h1, h2, fun r c => ⟨(h3 r c).1, (h3 r c).2.1, fun hout => ?_⟩⟩
  apply los_cell_ext _ _ (h3 r c).1
  cases hb : (out.field r c).wavefront_blocked with
  | false =>
    cases hl : (los.field r c).wavefront_blocked with
    | false => rfl
    | true => rw [(h3 r c).2.1 hl] at hb; cases hb
  | true =>
    rcases (h3 r c).2.2 hb with d | ⟨rfl, rfl⟩ | d
    · exact d.symm
    · exact absurd hin hout
    · exact absurd d hout

/-- C22: for a corner cell inside the grid, deltas `dx >= 0`, `dy <= 0` and steps `sx`,
`sy` in `{-1, +1}`, every iteration of the loop of `create_wavefront_blocked_line` blocks
the current cell and then moves one step along the rows, along the columns, or both, in
the fixed directions `sy` and `sx`; the loop returns within `FIELD_RES_R + FIELD_RES_C`
iterations, with the same field for every larger bound; the returned field has the
corner blocked, differs from the field before only in cells of the grid, has every
`wavefront_blocked` bit that was set still set, and has every `visible` bit unchanged.
The last part states the same of `create_wavefront_blocked_line` itself, whose deltas
and steps, derived from the slope times 1000, meet these conditions. -/
theorem wavefront_line_loop_walk (R C : Nat) (dx dy sx sy : Int) (err : Int) (corner : Coord)
    (los : LOS_field) (hdx : 0 ≤ dx) (hdy : dy ≤ 0) (hsx : sx = 1 ∨ sx = -1)
    (hsy : sy = 1 ∨ sy = -1) (hin : in_grid R C corner) :
    (∀ (fuel : Nat) (e : Int) (curr : Coord) (l : LOS_field),
      ∃ (next : Coord) (e2 : Int),
        ((next.r = curr.r + sy ∧ next.c = curr.c)
          ∨ (next.r = curr.r ∧ next.c = curr.c + sx)
          ∨ (next.r = curr.r + sy ∧ next.c = curr.c + sx))
        ∧ wavefront_line_loop R C dx dy sx sy (fuel + 1) e curr l
            = if in_grid R C next then
                wavefront_line_loop R C dx dy sx sy fuel e2 next (setBlocked l curr.r curr.c)
              else some (setBlocked l curr.r curr.c))
    ∧ (∃ out,
        (∀ fuel, R + C ≤ fuel →
          wavefront_line_loop R C dx dy sx sy fuel err corner los = some out)
        ∧ out.chunk = los.chunk
        ∧ (out.field corner.r corner.c).wavefront_blocked = true
        ∧ ∀ r c : Int,
            (out.field r c).visible = (los.field r c).visible
            ∧ ((los.field r c).wavefront_blocked = true →
                (out.field r c).wavefront_blocked = true)
            ∧ (¬ in_grid R C ⟨r, c⟩ → out.field r c = los.field r c))
    ∧ (∀ (slope_of : tile_desc → tile_desc → line_slope) (target : tile_desc)
        (chunk_r chunk_c : Int),
        ∃ out, create_wavefront_blocked_line R C slope_of target
            ⟨chunk_r, chunk_c, corner.r, corner.c⟩ los = some out
          ∧ out.chunk = los.chunk
          ∧ (out.field corner.r corner.c).wavefront_blocked = true
          ∧ ∀ r c : Int,
              (out.field r c).visible = (los.field r c).visible
              ∧ ((los.field r c).wavefront_blocked = true →
                  (out.field r c).wavefront_blocked = true)
              ∧ (¬ in_grid R C ⟨r, c⟩ → out.field r c = los.field r c)) := by
  refine ⟨fun fuel e curr l => wavefront_line_loop_iteration R C dx dy sx sy hdx hdy fuel e
    curr l, ?_, ?_⟩
  · have hpot : (if sx = 1 then (C : Int) - corner.c else corner.c + 1)
        + (if sy = 1 then (R : Int) - corner.r else corner.r + 1) ≤ ((R + C : Nat) : Int) + 1 := by
      have hin2 := hin
      simp only [in_grid] at hin2
      split_ifs <;> push_cast <;> omega
    obtain ⟨out, hout⟩ := wavefront_line_loop_returns R C dx dy sx sy hdx hdy hsx hsy (R + C)
      err corner los hin hpot
    obtain ⟨h1, h2, h3⟩ := wavefront_line_out_spec hin hout
    exact ⟨out, fun fuel hle => wavefront_line_loop_fuel_le R C dx dy sx sy err corner los out
      (R + C) hout fuel hle, h1, h2, h3⟩
  · intro slope_of target chunk_r chunk_c
    obtain ⟨out, hout⟩ := create_wavefront_blocked_line_returns R C slope_of target
      ⟨chunk_r, chunk_c, corner.r, corner.c⟩ los hin
    have hout2 := hout
    unfold create_wavefront_blocked_line at hout2
    obtain ⟨h1, h2, h3⟩ := wavefront_line_out_spec hin hout2
    exact ⟨out, hout, h1, h2, h3⟩

/-- C22, witness: the walk from the corner (2,5) of the 8x8 grid straight up, with
`dx == 0`, `dy == -1000` and both steps -1, blocks (2,5), (1,5) and (0,5); it takes three
iterations. -/
theorem wavefront_line_loop_walk_witness :
    (∃ out,
      (∀ fuel, 8 + 8 ≤ fuel →
        wavefront_line_loop 8 8 0 (-1000) (-1) (-1) fuel (-1000) ⟨2, 5⟩ zero_los = some out)
      ∧ (out.field 2 5).wavefront_blocked = true)
    ∧ (wavefront_line_loop 8 8 0 (-1000) (-1) (-1) 3 (-1000) ⟨2, 5⟩ zero_los).map
        (fun out => (cells 8 8).filter fun x => (out.field x.r x.c).wavefront_blocked)
        = some [⟨0, 5⟩, ⟨1, 5⟩, ⟨2, 5⟩]
    ∧ (wavefront_line_loop 8 8 0 (-1000) (-1) (-1) 2 (-1000) ⟨2, 5⟩ zero_los).isSome = false := by
  obtain ⟨out, h1, -, h3, -⟩ := (wavefront_line_loop_walk 8 8 0 (-1000) (-1) (-1) (-1000)
    ⟨2, 5⟩ zero_los (by decide) (by decide) (Or.inr rfl) (Or.inr rfl) (by decide)).2.1
  exact ⟨⟨out, h1, h3⟩, by decide, by decide⟩

/-! ### Descent along the flow -/

theorem path_last_step_cost {R C : Nat} {chunk : nav_chunk} :
    ∀ (p : List Coord) (s : Coord), is_path R C chunk s p → p ≠ [] →
      ∃ p0, is_path R C chunk s p0 ∧ cardinal_step (path_end s p0) (path_end s p)
        ∧ (p0 = [] ∨ in_grid R C (path_end s p0))
        ∧ in_grid R C (path_end s p)
        ∧ path_cost chunk p
            = path_cost chunk p0 + chunk.cost_base (path_end s p).r (path_end s p).c := by
  intro p
  induction p with
  | nil => intro s _ h; exact absurd rfl h
  | cons y rest ih =>
    intro s hp _
    obtain ⟨hstep, hin, hpass, hrest⟩ := hp
    cases rest with
    | nil =>
      refine ⟨[], trivial, hstep, Or.inl rfl, hin, ?_⟩
      simp [path_cost, path_end]
    | cons y2 rest2 =>
      obtain ⟨p0, hp0, hs0, hg0, hin0, hc0⟩ := ih y hrest (List.cons_ne_nil _ _)
      refine ⟨y :: p0, ⟨hstep, hin, hpass, hp0⟩, hs0, Or.inr ?_, hin0, ?_⟩
      · rcases hg0 with h | h
        · subst h; exact hin
        · exact h
      · have e1 : path_end s (y :: y2 :: rest2) = path_end y (y2 :: rest2) := rfl
        rw [e1]
        simp only [path_cost, List.map_cons, List.sum_cons] at hc0 ⊢
        omega

theorem reach_in_grid {R C : Nat} {chunk : nav_chunk} {seeds : List Coord} {x : Coord} {w : Nat}
    (hgrid : ∀ s ∈ seeds, in_grid R C s) (h : reach R C chunk seeds x w) : in_grid R C x := by
  obtain ⟨s, hs, p, hp, hend, -⟩ := h
  by_cases hne : p = []
  · subst hne
    rw [← hend]
    exact hgrid s hs
  · obtain ⟨-, -, -, -, hin, -⟩ := path_last_step_cost p s hp hne
    rw [← hend]
    exact hin

/-- What `flow_dir` has checked when it returns the direction `d`. -/
theorem flow_dir_some_spec {R C : Nat} {f : IntegrationField} {x : Coord} {d : dir_idx}
    (h : flow_dir R C f x = some d) :
    (flow_dir_min_cost R C f x).lt Val.inf = true
    ∧ f (dir_neighbour x d).r (dir_neighbour x d).c = flow_dir_min_cost R C f x := by
  unfold flow_dir at h
  simp only at h
  split_ifs at h with h0 h1 h2 h3 h4 h5 h6 h7 h8 <;>
    simp only [Option.some.injEq] at h <;> subst h <;> refine ⟨h0, ?_⟩
  · exact h1.2
  · exact h2.2
  · exact h3.2
  · exact h4.2
  · exact h5.2.2
  · exact h6.2.2
  · exact h7.2.2
  · exact h8.2.2

/-- In a built field over costs of at least 1, `min_cost` at a cell of the grid with a
finite non-zero value is below that value. -/
theorem built_min_cost_lt {R C : Nat} {chunk : nav_chunk} {seeds : List Coord}
    {intf : IntegrationField} (hinv : build_inv R C chunk seeds pq_coord_init intf)
    (hcost : positive_costs R C chunk) (hgrid : ∀ s ∈ seeds, in_grid R C s) (x : Coord)
    (hx : in_grid R C x) (v : Nat) (hv : intf x.r x.c = Val.fin v) (hnz : v ≠ 0) :
    ∃ m, flow_dir_min_cost R C intf x = Val.fin m ∧ m < v := by
  obtain ⟨s, hs, p, hp, hend, hcostp⟩ := hinv.sound x.r x.c v hv
  have hne : p ≠ [] := by
    intro hnil
    subst hnil
    simp only [path_cost, List.map_nil, List.sum_nil] at hcostp
    exact hnz hcostp.symm
  obtain ⟨p0, hp0, hstep, hg0, -, hc0⟩ := path_last_step_cost p s hp hne
  have hzin : in_grid R C (path_end s p0) := by
    rcases hg0 with h | h
    · subst h; exact hgrid s hs
    · exact h
  obtain ⟨u, hu, -, hule⟩ := build_inv_minimum hinv (path_end s p0) (path_cost chunk p0)
    ⟨s, hs, p0, hp0, rfl, rfl⟩
  have hxe : path_end s p = x := hend
  rw [hxe] at hstep hc0
  have hcx : 1 ≤ chunk.cost_base x.r x.c := by
    obtain ⟨a1, a2, a3, a4⟩ := hx
    exact hcost x.r x.c a1 a2 a3 a4
  have hmem : (true, intf (path_end s p0).r (path_end s p0).c)
      ∈ flow_candidates R C intf x := by
    simp only [cardinal_step] at hstep
    simp only [in_grid] at hzin hx
    simp only [flow_candidates, List.mem_cons, Prod.mk.injEq, true_eq_decide_iff]
    rcases hstep with ⟨h1, h2⟩ | ⟨h1, h2⟩ | ⟨h1, h2⟩ | ⟨h1, h2⟩
    · right; left
      have e1 : (path_end s p0).r = x.r + 1 := by omega
      have e2 : (path_end s p0).c = x.c := by omega
      rw [e1, e2]
      exact ⟨by omega, rfl⟩
    · right; right; right; left
      have e1 : (path_end s p0).r = x.r := by omega
      have e2 : (path_end s p0).c = x.c + 1 := by omega
      rw [e1, e2]
      exact ⟨by omega, rfl⟩
    · right; right; left
      have e1 : (path_end s p0).r = x.r := by omega
      have e2 : (path_end s p0).c = x.c - 1 := by omega
      rw [e1, e2]
      exact ⟨by omega, rfl⟩
    · left
      have e1 : (path_end s p0).r = x.r - 1 := by omega
      have e2 : (path_end s p0).c = x.c := by omega
      rw [e1, e2]
      exact ⟨by omega, rfl⟩
  have hle := min_chain_le_mem (flow_candidates R C intf x) _ Val.inf hmem
  rw [← flow_dir_min_cost_eq_chain, hu] at hle
  cases hm : flow_dir_min_cost R C intf x with
  | inf => rw [hm] at hle; simp [Val.lt] at hle
  | fin m =>
    rw [hm] at hle
    simp only [Val.lt, decide_eq_false_iff_not, not_lt] at hle
    exact ⟨m, rfl, by omega⟩

/-- One step along the flow of a built field leads to a cell of the grid with a smaller
integration value. -/
theorem flow_dir_step_descends {R C : Nat} {chunk : nav_chunk} {seeds : List Coord}
    {intf : IntegrationField} (hinv : build_inv R C chunk seeds pq_coord_init intf)
    (hcost : positive_costs R C chunk) (hgrid : ∀ s ∈ seeds, in_grid R C s) (x : Coord)
    (hx : in_grid R C x) (v : Nat) (hv : intf x.r x.c = Val.fin v) (hnz : v ≠ 0) (d : dir_idx)
    (hd : flow_dir R C intf x = some d) :
    in_grid R C (dir_neighbour x d)
    ∧ ∃ m, intf (dir_neighbour x d).r (dir_neighbour x d).c = Val.fin m ∧ m < v := by
  obtain ⟨m, hm, hlt⟩ := built_min_cost_lt hinv hcost hgrid x hx v hv hnz
  obtain ⟨-, hnb⟩ := flow_dir_some_spec hd
  rw [hm] at hnb
  exact ⟨reach_in_grid hgrid (hinv.sound _ _ m hnb), m, hnb, hlt⟩

/-- From every cell of the grid with a finite value the flow of a built field leads to a
cell of integration 0, through cells of strictly decreasing value. -/
theorem flow_chain_exists {R C : Nat} {chunk : nav_chunk} {seeds : List Coord}
    {intf : IntegrationField} (hinv : build_inv R C chunk seeds pq_coord_init intf)
    (hcost : positive_costs R C chunk) (hgrid : ∀ s ∈ seeds, in_grid R C s) (hRC : C ≤ R) :
    ∀ (v : Nat) (x : Coord), in_grid R C x → intf x.r x.c = Val.fin v →
      ∃ p, flow_chain R C intf x p ∧ p.length ≤ v ∧ (x :: p).Nodup
        ∧ (∀ y ∈ p, in_grid R C y ∧ ∃ w, intf y.r y.c = Val.fin w ∧ w < v)
        ∧ intf (path_end x p).r (path_end x p).c = Val.fin 0 := by
  intro v
  induction v using Nat.strong_induction_on with
  | _ v ih =>
    intro x hx hv
    by_cases hz : v = 0
    · subst hz
      exact ⟨[], hv, Nat.le_refl _, List.nodup_singleton x, fun y hy => absurd hy (List.not_mem_nil y), hv⟩
    · obtain ⟨m0, hm0, -⟩ := built_min_cost_lt hinv hcost hgrid x hx v hv hz
      obtain ⟨d, hd⟩ := flow_dir_isSome R C intf x hRC (by rw [hm0]; rfl)
      obtain ⟨hin, m, hm, hlt⟩ := flow_dir_step_descends hinv hcost hgrid x hx v hv hz d hd
      obtain ⟨p, hp, hlen, hnd, hall, hend⟩ := ih m hlt (dir_neighbour x d) hin hm
      refine ⟨dir_neighbour x d :: p, ⟨?_, ⟨d, hd, rfl⟩, hp⟩, ?_, ?_, ?_, hend⟩
      · rw [hv]
        intro h
        exact hz (Val.fin.inj h)
      · simp only [List.length_cons]; omega
      · rw [List.nodup_cons]
        refine ⟨?_, hnd⟩
        intro hmem
        rcases List.mem_cons.1 hmem with h | h
        · rw [← h, hv] at hm
          have := Val.fin.inj hm
          omega
        · obtain ⟨-, w, hw, hwlt⟩ := hall x h
          rw [hv] at hw
          have := Val.fin.inj hw
          omega
      · intro y hy
        rcases List.mem_cons.1 hy with rfl | h
        · exact ⟨hin, m, hm, hlt⟩
        · obtain ⟨a, w, hw, hwlt⟩ := hall y h
          exact ⟨a, w, hw, by omega⟩

/-- C21: for a chunk with `cost_base >= 1` and seeds inside the grid,
`build_integration_field` returns a field in which, for every cell of the grid with a
finite non-zero value, the neighbour in a direction returned by `flow_dir` lies inside
the grid and holds a strictly smaller value; when `FIELD_RES_C <= FIELD_RES_R`,
following the directions from a cell of the grid with the finite value `v` reaches a
cell of integration 0 after at most `v` steps, stays inside the grid and enters no cell
twice.  The last test of the scan of `flow_dir` compares the column with
`FIELD_RES_R - 1`: on the flat grid with 2 rows and 3 columns and the seed (1,2), for
every tie-break, the cell (0,1) holds the value 2 and `flow_dir` reaches its final
`assert(0)` there, so that no direction leaves the cell and no walk along the flow
starts from it. -/
theorem flow_dir_descent :
    (∀ (R C : Nat) (chunk : nav_chunk) (seeds : List Coord) (tie : Nat → Nat),
      positive_costs R C chunk → (∀ s ∈ seeds, in_grid R C s) →
      ∃ intf fuel0,
        (∀ fuel, fuel0 ≤ fuel →
          build_integration_field R C fuel tie (seeded_frontier seeds) chunk
            (seeded_field seeds) = some intf)
        ∧ (∀ (x : Coord) (v : Nat) (d : dir_idx), in_grid R C x → intf x.r x.c = Val.fin v →
            v ≠ 0 → flow_dir R C intf x = some d →
            in_grid R C (dir_neighbour x d)
            ∧ ∃ m, intf (dir_neighbour x d).r (dir_neighbour x d).c = Val.fin m ∧ m < v)
        ∧ (C ≤ R → ∀ (x : Coord) (v : Nat), in_grid R C x → intf x.r x.c = Val.fin v →
            ∃ p, flow_chain R C intf x p ∧ p.length ≤ v ∧ (x :: p).Nodup
              ∧ (∀ y ∈ p, in_grid R C y ∧ ∃ w, intf y.r y.c = Val.fin w ∧ w < v)
              ∧ intf (path_end x p).r (path_end x p).c = Val.fin 0))
    ∧ (positive_costs 2 3 flat_chunk ∧ in_grid 2 3 ⟨1, 2⟩ ∧ in_grid 2 3 ⟨0, 1⟩
      ∧ ∀ tie : Nat → Nat, ∃ intf fuel0,
        (∀ fuel, fuel0 ≤ fuel →
          build_integration_field 2 3 fuel tie (seeded_frontier [⟨1, 2⟩]) flat_chunk
            (seeded_field [⟨1, 2⟩]) = some intf)
        ∧ intf 0 1 = Val.fin 2
        ∧ flow_dir 2 3 intf ⟨0, 1⟩ = none
        ∧ ¬ ∃ p, flow_chain 2 3 intf ⟨0, 1⟩ p) := by
  constructor
  · intro R C chunk seeds tie hcost hgrid
    obtain ⟨intf, fuel0, hrun, hinv⟩ := build_integration_field_correct R C chunk seeds
      (seeded_frontier seeds) (seeded_field seeds) tie (fun _ _ => rfl)
      (fun s hs => List.mem_map.2 ⟨s, hs, rfl⟩)
    exact ⟨intf, fuel0, hrun,
      fun x v d hx hv hnz hd => flow_dir_step_descends hinv hcost hgrid x hx v hv hnz d hd,
      fun hRC x v hx hv => flow_chain_exists hinv hcost hgrid hRC v x hx hv⟩
  · refine ⟨positive_costs_flat_chunk 2 3, by decide, by decide, fun tie => ?_⟩
    obtain ⟨intf, fuel0, hrun, hinv⟩ := build_integration_field_correct 2 3 flat_chunk
      [⟨1, 2⟩] (seeded_frontier [⟨1, 2⟩]) (seeded_field [⟨1, 2⟩]) tie (fun _ _ => rfl)
      (fun s hs => List.mem_map.2 ⟨s, hs, rfl⟩)
    obtain ⟨h1, -, -, h4⟩ := flow_dir_wide_grid hinv
    refine ⟨intf, fuel0, hrun, h1, h4, ?_⟩
    rintro ⟨p, hp⟩
    cases p with
    | nil =>
      simp only [flow_chain] at hp
      rw [h1] at hp
      exact absurd (Val.fin.inj hp) (by decide)
    | cons y rest =>
      obtain ⟨-, ⟨d, hd, -⟩, -⟩ := hp
      rw [h4] at hd
      cases hd

/-- C21, witness: on the flat 3x3 chunk with the seed (1,1) the walk exists from every
cell of the grid; the run with 20 units of fuel gives the corner (0,0) the value 2 and
the direction south-east, toward the seed of value 0, and the cell (1,0) the value 1 and
the direction east.  On the flat grid with 2 rows and 3 columns and the seed (1,2) the
run gives the cell (0,1) the value 2 and no direction. -/
theorem flow_dir_descent_witness :
    (∃ intf fuel0,
      (∀ fuel, fuel0 ≤ fuel →
        build_integration_field 3 3 fuel (fun _ => 0) (seeded_frontier [⟨1, 1⟩]) flat_chunk
          (seeded_field [⟨1, 1⟩]) = some intf)
      ∧ (∀ (x : Coord) (v : Nat), in_grid 3 3 x → intf x.r x.c = Val.fin v →
          ∃ p, flow_chain 3 3 intf x p ∧ p.length ≤ v ∧ (x :: p).Nodup
            ∧ (∀ y ∈ p, in_grid 3 3 y ∧ ∃ w, intf y.r y.c = Val.fin w ∧ w < v)
            ∧ intf (path_end x p).r (path_end x p).c = Val.fin 0))
    ∧ (build_integration_field 3 3 20 (fun _ => 0) (seeded_frontier [⟨1, 1⟩]) flat_chunk
        (seeded_field [⟨1, 1⟩])).map
        (fun intf => (intf 0 0, flow_dir 3 3 intf ⟨0, 0⟩, intf 1 0, flow_dir 3 3 intf ⟨1, 0⟩,
          intf 1 1))
        = some (Val.fin 2, some FD_SE, Val.fin 1, some FD_E, Val.fin 0)
    ∧ (build_integration_field 2 3 20 (fun _ => 0) (seeded_frontier [⟨1, 2⟩]) flat_chunk
        (seeded_field [⟨1, 2⟩])).map
        (fun intf => (intf 0 1, flow_dir 2 3 intf ⟨0, 1⟩, intf 1 2))
        = some (Val.fin 2, none, Val.fin 0) := by
  obtain ⟨intf, fuel0, h1, -, h3⟩ := flow_dir_descent.1 3 3 flat_chunk [⟨1, 1⟩] (fun _ => 0)
    (positive_costs_flat_chunk 3 3) (by decide)
  exact ⟨⟨intf, fuel0, h1, h3 (by decide)⟩, by decide, by decide⟩

/-! ### Occluders and the line-of-sight wavefront -/

/-- The neighbour cost of a cell is at most 1 exactly when the cell has `cost_base <= 1`
and `blockers == 0`. -/
theorem neighbour_cost_le_one_iff (chunk : nav_chunk) (y : Coord) :
    neighbour_cost chunk y ≤ 1 ↔ chunk.cost_base y.r y.c ≤ 1 ∧ chunk.blockers y.r y.c = 0 := by
  unfold neighbour_cost COST_IMPASSABLE
  by_cases h : chunk.blockers y.r y.c = 0
  · simp [h]
  · simp [h]

/-- The loop states of a call comprise the state in which the `while` loop ends. -/
theorem LOS_while_loop_state {R C : Nat} {slope_of : tile_desc → tile_desc → line_slope}
    {chunk : nav_chunk} {chunk_coord : Coord} {target : tile_desc}
    {prev_los : Option LOS_field} {fuel : Nat} {tie : Nat → Nat} {st out : LOS_state}
    (hst : LOS_loop_state R C slope_of chunk chunk_coord target prev_los st)
    (h : LOS_while R C slope_of chunk chunk_coord target fuel tie st = some out) :
    LOS_loop_state R C slope_of chunk chunk_coord target prev_los out :=
  LOS_while_induct R C slope_of chunk chunk_coord target
    (LOS_loop_state R C slope_of chunk chunk_coord target prev_los)
    (fun s s2 k x frontier2 hs hpop hfor => LOS_loop_state.pass s s2 k x frontier2 hs hpop hfor)
    fuel tie st out hst h

/-- What a visit of the neighbour `n` adds to the frontier and to the visible cells: the
cell `n` alone, and only when its cost is at most 1. -/
theorem LOS_visit_marks (R C : Nat) (slope_of : tile_desc → tile_desc → line_slope)
    (chunk : nav_chunk) (chunk_coord : Coord) (target : tile_desc) (curr : Coord)
    (st st2 : LOS_state) (n : Coord × Nat) (hin : in_grid R C n.1)
    (h : LOS_visit R C slope_of chunk chunk_coord target curr st n = some st2) :
    (∀ x : Coord, pq_coord_contains st2.1.1 x = true →
      pq_coord_contains st.1.1 x = true ∨ (x = n.1 ∧ n.2 ≤ 1))
    ∧ (∀ x : Coord, (st2.2.field x.r x.c).visible = true →
      (st.2.field x.r x.c).visible = true ∨ (x = n.1 ∧ n.2 ≤ 1)) := by
  by_cases hgt : n.2 > 1
  · obtain ⟨los, hl, -, hvis⟩ := LOS_visit_occluder R C slope_of chunk chunk_coord target
      curr st n hgt hin
    rw [h, Option.some.injEq] at hl
    subst hl
    exact ⟨fun x hx => Or.inl hx, fun x hx => Or.inl (by rw [← (hvis x.r x.c).1]; exact hx)⟩
  · rw [LOS_visit_plain R C slope_of chunk chunk_coord target curr st n hgt,
      Option.some.injEq] at h
    subst h
    have hle : n.2 ≤ 1 := Nat.le_of_not_lt hgt
    refine ⟨fun x hx => ?_, fun x hx => ?_⟩
    · rcases relax_push_guard curr st.1 (n.1, 1) with e | ⟨-, -, e, -⟩
      · left
        simp only at hx
        rw [e] at hx
        exact hx
      · simp only at hx
        rw [e, pq_coord_contains_push] at hx
        simp only [Bool.or_eq_true, decide_eq_true_eq] at hx
        rcases hx with hx | hx
        · exact Or.inl hx
        · exact Or.inr ⟨hx.symm, hle⟩
    · by_cases hh : x.r = n.1.r ∧ x.c = n.1.c
      · right
        refine ⟨?_, hle⟩
        cases x
        cases hn1 : n.1
        rw [hn1] at hh
        simp only at hh
        rw [hh.1, hh.2]
      · left
        simp only [setVisible] at hx
        rw [setLosCell_other _ _ _ _ _ _ hh] at hx
        exact hx

/-- A visit of a neighbour of the popped cell preserves the invariant, and keeps the
integration value of the popped cell finite. -/
theorem LOS_visit_occluder_inv {R C : Nat} {slope_of : tile_desc → tile_desc → line_slope}
    {chunk : nav_chunk} {chunk_coord : Coord} {target : tile_desc} {t : Coord}
    {curr : Coord} {los0 : LOS_field} {st st2 : LOS_state} {n : Coord × Nat}
    (hn : n ∈ neighbours_grid_LOS R C chunk los0 curr)
    (hinv : LOS_occluder_inv R C chunk t st) (hcin : in_grid R C curr)
    (hcurr : ∃ vc, st.1.2 curr.r curr.c = Val.fin vc)
    (h : LOS_visit R C slope_of chunk chunk_coord target curr st n = some st2) :
    LOS_occluder_inv R C chunk t st2 ∧ ∃ vc, st2.1.2 curr.r curr.c = Val.fin vc := by
  obtain ⟨hstep, hin, -, hcost⟩ := (mem_neighbours_grid_LOS R C chunk los0 curr n).1 hn
  obtain ⟨st3, h3, -, -, -, hcase⟩ := LOS_visit_cases R C slope_of chunk chunk_coord target
    curr st n hin
  rw [h, Option.some.injEq] at h3
  subst h3
  rcases hcase with ⟨e1, e2⟩ | ⟨hle, e1, e2⟩
  · refine ⟨⟨fun x hx => ?_, fun x hx => ?_⟩, by rw [e1]; exact hcurr⟩
    · rw [e2] at hx
      rw [e1]
      exact hinv.vis x hx
    · rw [e1] at hx ⊢
      exact hinv.front x hx
  · obtain ⟨vc, hvc⟩ := hcurr
    obtain ⟨q1, -, q3, q4⟩ := relax_unit_spec curr st.1 n.1 vc hvc
    have hn1 : neighbour_cost chunk n.1 ≤ 1 := by rw [← hcost]; exact hle
    refine ⟨⟨fun x hx => ?_, fun x hx => ?_⟩, ?_⟩
    · rw [e2] at hx
      rw [e1]
      split_ifs at hx with hh
      · have hxn : x = n.1 := by
          cases x
          cases hn2 : n.1
          rw [hn2] at hh
          simp only at hh
          rw [hh.1, hh.2]
        rw [hxn]
        exact ⟨hin, hn1, curr, cardinal_step_symm hstep, hcin, q3 curr.r curr.c ⟨vc, hvc⟩⟩
      · obtain ⟨a1, a2, y, a3, a4, a5⟩ := hinv.vis x hx
        exact ⟨a1, a2, y, a3, a4, q3 y.r y.c a5⟩
    · rw [e1] at hx ⊢
      rcases q4 x hx with d | rfl
      · obtain ⟨a1, a2, a3⟩ := hinv.front x d
        exact ⟨a1, q3 x.r x.c a2, a3⟩
      · exact ⟨hin, q1, Or.inr hn1⟩
    · rw [e1]
      exact q3 curr.r curr.c ⟨vc, hvc⟩

/-- A pass of the `while` loop preserves the invariant. -/
theorem LOS_pass_occluder_inv {R C : Nat} {slope_of : tile_desc → tile_desc → line_slope}
    {chunk : nav_chunk} {chunk_coord : Coord} {target : tile_desc} {t : Coord}
    {s s2 : LOS_state} {k : Nat} {x : Coord} {frontier2 : pq_coord}
    (hs : LOS_occluder_inv R C chunk t s)
    (hpop : pq_coord_pop k s.1.1 = some (x, frontier2))
    (hfor : (neighbours_grid_LOS R C chunk s.2 x).foldlM
      (LOS_visit R C slope_of chunk chunk_coord target x) ((frontier2, s.1.2), s.2)
      = some s2) :
    LOS_occluder_inv R C chunk t s2 := by
  obtain ⟨e, he, hex, hnodes⟩ := pq_coord_pop_spec hpop
  obtain ⟨hxin, hx, -⟩ := hs.front x ((pq_coord_contains_iff _ _).2 ⟨e, he, hex⟩)
  have hs0 : LOS_occluder_inv R C chunk t ((frontier2, s.1.2), s.2) :=
    ⟨hs.vis, fun y hy => by
      obtain ⟨e2, he2, hy2⟩ := (pq_coord_contains_iff _ _).1 hy
      have he3 : e2 ∈ s.1.1.nodes := by
        have : e2 ∈ frontier2.nodes := he2
        rw [hnodes] at this
        exact List.mem_of_mem_erase this
      exact hs.front y ((pq_coord_contains_iff _ _).2 ⟨e2, he3, hy2⟩)⟩
  exact (foldlM_option_inv (LOS_visit R C slope_of chunk chunk_coord target x)
    (fun b => LOS_occluder_inv R C chunk t b ∧ ∃ vc, b.1.2 x.r x.c = Val.fin vc)
    (neighbours_grid_LOS R C chunk s.2 x)
    (fun b a ha hb b2 hb2 => LOS_visit_occluder_inv ha hb.1 hxin hb.2 hb2)
    ((frontier2, s.1.2), s.2) s2 ⟨hs0, hx⟩ hfor).1

/-- In the destination chunk every loop state satisfies the invariant. -/
theorem LOS_loop_state_occluder_inv {R C : Nat} {slope_of : tile_desc → tile_desc → line_slope}
    {chunk : nav_chunk} {chunk_coord : Coord} {target : tile_desc} {st : LOS_state}
    (hdst : chunk_coord.r = target.chunk_r ∧ chunk_coord.c = target.chunk_c)
    (hin : in_grid R C ⟨target.tile_r, target.tile_c⟩)
    (hst : LOS_loop_state R C slope_of chunk chunk_coord target none st) :
    LOS_occluder_inv R C chunk ⟨target.tile_r, target.tile_c⟩ st := by
  induction hst with
  | entry st h =>
    simp only [LOS_seed, hdst, and_self, if_true, Option.some.injEq] at h
    subst h
    refine ⟨fun x hx => ?_, fun x hx => ?_⟩
    · simp at hx
    · simp only at hx
      rw [pq_coord_contains_push] at hx
      simp only [Bool.or_eq_true, decide_eq_true_eq] at hx
      rcases hx with hx | hx
      · simp [pq_coord_contains, pq_coord_init] at hx
      · subst hx
        exact ⟨hin, ⟨0, by simp only [setCell_same]⟩, Or.inl rfl⟩
  | pass s s2 k x frontier2 _ hpop hfor ih => exact LOS_pass_occluder_inv ih hpop hfor

/-- C24, counterexample: in the chunk with the costs `stair_cost` the tile (1,2) has
`cost_base == COST_IMPASSABLE`.  With that tile as the target of the destination chunk,
the state in which the `while` loop of `N_LOSFieldCreate` is entered holds the tile in
the frontier, whatever the slope geometry: a cell with `cost_base > 1` is pushed on the
frontier. -/
theorem N_LOSFieldCreate_pushes_target_occluder :
    in_grid 8 8 ⟨1, 2⟩ ∧ (stair_priv.chunks 0).cost_base 1 2 > 1
    ∧ ∀ slope_of : tile_desc → tile_desc → line_slope,
        ∃ st, LOS_seed 8 8 slope_of ⟨0, 0⟩ ⟨0, 0, 1, 2⟩ none = some st
          ∧ LOS_loop_state 8 8 slope_of (stair_priv.chunks 0) ⟨0, 0⟩ ⟨0, 0, 1, 2⟩ none st
          ∧ pq_coord_contains st.1.1 ⟨1, 2⟩ = true := by
  refine ⟨by decide, by decide, fun slope_of => ?_⟩
  exact ⟨_, rfl, LOS_loop_state.entry _ rfl, by decide⟩

/-- C24, amended: in the destination chunk (no `prev_los`, target tile inside the grid)
`N_LOSFieldCreate` returns, and every cell that is visible in the returned field, the
target tile included, lies inside the grid, has `cost_base <= 1` and `blockers == 0`, and
has a cardinal neighbour inside the grid with a finite integration value.  In every state
in which the `while` loop tests its condition, every visible cell has `cost_base <= 1`
and `blockers == 0`, and every cell of the frontier is the target tile, which is pushed
before the loop whatever its cost, or has `cost_base <= 1` and `blockers == 0`.  A visit
of a neighbour in the loop body adds to the frontier and to the visible cells that
neighbour alone, and only when it has `cost_base <= 1` and `blockers == 0`. -/
theorem N_LOSFieldCreate_occluders_hidden (R C : Nat) (tie : Nat → Nat)
    (slope_of : tile_desc → tile_desc → line_slope) (chunk_coord : Coord) (target : tile_desc)
    (priv : nav_private)
    (hdst : chunk_coord.r = target.chunk_r ∧ chunk_coord.c = target.chunk_c)
    (hin : in_grid R C ⟨target.tile_r, target.tile_c⟩) :
    (∃ intf los fuel0, ∀ fuel, fuel0 ≤ fuel →
      N_LOSFieldCreate R C fuel tie slope_of chunk_coord target priv none = some (intf, los))
    ∧ (∀ (fuel : Nat) (intf : IntegrationField) (los : LOS_field),
        N_LOSFieldCreate R C fuel tie slope_of chunk_coord target priv none
            = some (intf, los) →
        ∀ x : Coord, (los.field x.r x.c).visible = true →
          in_grid R C x
          ∧ (priv.chunks (chunk_coord.r * priv.width + chunk_coord.c)).cost_base x.r x.c ≤ 1
          ∧ (priv.chunks (chunk_coord.r * priv.width + chunk_coord.c)).blockers x.r x.c = 0
          ∧ ∃ y, cardinal_step x y ∧ in_grid R C y ∧ ∃ v, intf y.r y.c = Val.fin v)
    ∧ (∀ st : LOS_state,
        LOS_loop_state R C slope_of (priv.chunks (chunk_coord.r * priv.width + chunk_coord.c))
            chunk_coord target none st →
        (∀ x : Coord, (st.2.field x.r x.c).visible = true →
          (priv.chunks (chunk_coord.r * priv.width + chunk_coord.c)).cost_base x.r x.c ≤ 1
          ∧ (priv.chunks (chunk_coord.r * priv.width + chunk_coord.c)).blockers x.r x.c = 0)
        ∧ (∀ x : Coord, pq_coord_contains st.1.1 x = true →
          x = ⟨target.tile_r, target.tile_c⟩
          ∨ ((priv.chunks (chunk_coord.r * priv.width + chunk_coord.c)).cost_base x.r x.c ≤ 1
            ∧ (priv.chunks (chunk_coord.r * priv.width + chunk_coord.c)).blockers x.r x.c
                = 0)))
    ∧ (∀ (curr : Coord) (los0 : LOS_field) (st st2 : LOS_state) (n : Coord × Nat),
        n ∈ neighbours_grid_LOS R C
            (priv.chunks (chunk_coord.r * priv.width + chunk_coord.c)) los0 curr →
        LOS_visit R C slope_of (priv.chunks (chunk_coord.r * priv.width + chunk_coord.c))
            chunk_coord target curr st n = some st2 →
        (∀ x : Coord, pq_coord_contains st2.1.1 x = true →
          pq_coord_contains st.1.1 x = true
          ∨ (x = n.1
            ∧ (priv.chunks (chunk_coord.r * priv.width + chunk_coord.c)).cost_base x.r x.c ≤ 1
            ∧ (priv.chunks (chunk_coord.r * priv.width + chunk_coord.c)).blockers x.r x.c
                = 0))
        ∧ (∀ x : Coord, (st2.2.field x.r x.c).visible = true →
          (st.2.field x.r x.c).visible = true
          ∨ (x = n.1
            ∧ (priv.chunks (chunk_coord.r * priv.width + chunk_coord.c)).cost_base x.r x.c ≤ 1
            ∧ (priv.chunks (chunk_coord.r * priv.width + chunk_coord.c)).blockers x.r x.c
                = 0))) := by
  have hR : 0 < R := by
    have := hin.1
    have := hin.2.1
    simp only at *
    omega
  have hC : 0 < C := by
    have := hin.2.2.1
    have := hin.2.2.2
    simp only at *
    omega
  have hok : LOS_call_ok chunk_coord target none := by
    unfold LOS_call_ok
    rw [if_pos hdst]
  refine ⟨N_LOSFieldCreate_returns R C tie slope_of chunk_coord target priv none hR hC hok,
    ?_, ?_, ?_⟩
  · intro fuel intf los h x hx
    obtain ⟨st, st2, hseed, hwhile, hi, hl⟩ := N_LOSFieldCreate_some h
    have hinv := LOS_loop_state_occluder_inv hdst hin
      (LOS_while_loop_state (LOS_loop_state.entry st hseed) hwhile)
    subst hi hl
    obtain ⟨a1, a2, a3⟩ := hinv.vis x ((pad_wavefront_spec R C st2.2).2.2.1 x.r x.c hx)
    exact ⟨a1, ((neighbour_cost_le_one_iff _ x).1 a2).1, ((neighbour_cost_le_one_iff _ x).1 a2).2,
      a3⟩
  · intro st hst
    have hinv := LOS_loop_state_occluder_inv hdst hin hst
    refine ⟨fun x hx => (neighbour_cost_le_one_iff _ x).1 (hinv.vis x hx).2.1, fun x hx => ?_⟩
    rcases (hinv.front x hx).2.2 with h | h
    · exact Or.inl h
    · exact Or.inr ((neighbour_cost_le_one_iff _ x).1 h)
  · intro curr los0 st st2 n hn h
    obtain ⟨-, hnin, -, hcost⟩ := (mem_neighbours_grid_LOS R C _ los0 curr n).1 hn
    obtain ⟨m1, m2⟩ := LOS_visit_marks R C slope_of _ chunk_coord target curr st st2 n hnin h
    refine ⟨fun x hx => ?_, fun x hx => ?_⟩
    · rcases m1 x hx with d | ⟨rfl, d⟩
      · exact Or.inl d
      · rw [hcost] at d
        exact Or.inr ⟨rfl, (neighbour_cost_le_one_iff _ _).1 d⟩
    · rcases m2 x hx with d | ⟨rfl, d⟩
      · exact Or.inl d
      · rw [hcost] at d
        exact Or.inr ⟨rfl, (neighbour_cost_le_one_iff _ _).1 d⟩

set_option maxRecDepth 100000 in
/-- C24, witness: in the chunk with the costs `stair_cost` and the target (7,5), whose
`cost_base` is 1, the call with 200 units of fuel returns a field in which the target
tile is visible; it has a cardinal neighbour with a finite integration value, and the
cell (1,5) of cost `COST_IMPASSABLE` is not visible. -/
theorem N_LOSFieldCreate_occluders_hidden_witness :
    ∃ intf los,
      N_LOSFieldCreate 8 8 200 (fun _ => 0) vertical_slope ⟨0, 0⟩ ⟨0, 0, 7, 5⟩ stair_priv none
        = some (intf, los)
      ∧ (los.field 7 5).visible = true
      ∧ (los.field 1 5).visible = false
      ∧ stair_cost 7 5 ≤ 1
      ∧ ∃ y, cardinal_step ⟨7, 5⟩ y ∧ in_grid 8 8 y ∧ ∃ v, intf y.r y.c = Val.fin v := by
  have hrun : (N_LOSFieldCreate 8 8 200 (fun _ => 0) vertical_slope ⟨0, 0⟩ ⟨0, 0, 7, 5⟩
      stair_priv none).map (fun p => ((p.2.field 7 5).visible, (p.2.field 1 5).visible))
      = some (true, false) := by decide
  obtain ⟨p, hp, hf⟩ := exists_of_map_eq_some hrun
  simp only [Prod.mk.injEq] at hf
  have h := (N_LOSFieldCreate_occluders_hidden 8 8 (fun _ => 0) vertical_slope ⟨0, 0⟩
    ⟨0, 0, 7, 5⟩ stair_priv ⟨rfl, rfl⟩ (by decide)).2.1 200 p.1 p.2 hp ⟨7, 5⟩ hf.1
  exact ⟨p.1, p.2, hp, hf.1, hf.2, h.2.1, h.2.2.2⟩

end Nav
